import Mathlib

/-!
# BASK remote merge engine: shallow embedding of `codes/bask/server.h` and `codes/bask/server.c`

The engine's merge metadata is pointer-linked C data.  It is embedded as follows.

* `rmap_item` objects live in the reverse-map tree (`GTree` ordered by `rmap_item_compare`);
  a pointer to an item is represented by the item's key `(mm_id, va)`, which is fixed at
  allocation and unique in the tree.
* `stable_node` objects live in an arena `nodes : List (Option stable_node)`; a pointer to a
  node is its index, `malloc` appends a slot, `free` empties the slot.
* A `GHashTable` is a list of entries `(hash pair of the key at insertion, key, value)`;
  the C tables hash and compare their keys by the hash pair stored in the key object.
* `ERR_LOG_AND_STOP` calls `debug_stop`, which never returns: the embedding returns
  `fault.stop`.  Dereferencing a pointer to no live object returns `fault.bad_pointer`;
  a pointer-chasing loop that exhausts the arena size returns `fault.diverge`.
* Storage obtained from `malloc` is not zeroed: the bytes of a new `rmap_item` that
  `lookup_rmap_item` does not assign are a parameter (`raw`).  Allocation itself is assumed
  to succeed.
* Machine integers: `short` fields are kept in range by `to_short`, `unsigned short`
  fields by reduction modulo `2 ^ 16`.
-/

namespace Bask

set_option maxRecDepth 100000

/-! ## Constants and run-time options -/

def PAGE_SIZE : Nat := 4096

def RMAP_PRUNE_MARGIN : Nat := 1000

def MAX_PAGES_IN_SGL : Nat := 65536

/-- Compile-time constant `MAX_PAGE_SHARING` (256 in `server.h`) and the run-time switch
`smart_scan_opt` (`SMART_SCAN_ON`, cleared by the `no_skip_opt` flag). -/
structure ksm_params where
  MAX_PAGE_SHARING : Nat
  smart_scan_opt : Bool
deriving DecidableEq, Repr

/-- The values of `server.h`: `MAX_PAGE_SHARING = 256`, skip optimisation on. -/
def server_params : ksm_params := ⟨256, true⟩

/-- Outcomes other than a normal return. -/
inductive fault where
  | stop
  | bad_pointer
  | diverge
deriving DecidableEq, Repr

/-! ## Machine integers -/

/-- Conversion to `short` (two's complement wrap-around). -/
def to_short (x : Int) : Int := (x + 32768) % 65536 - 32768

/-- Conversion to `unsigned short`. -/
def to_ushort (x : Int) : Nat := (x % 65536).toNat

/-- Conversion to `unsigned long` (64 bit). -/
def to_ulong (x : Int) : Nat := (x % 18446744073709551616).toNat

/-! ## Hash pairs -/

structure XXH128_hash_t where
  low64 : Nat
  high64 : Nat
deriving DecidableEq, Repr

structure hash_pair where
  first_hash : XXH128_hash_t
  second_hash : XXH128_hash_t
deriving DecidableEq, Repr

def null_hash : hash_pair := ⟨⟨0, 0⟩, ⟨0, 0⟩⟩

def compare_hash_pair_equal (hash1 hash2 : hash_pair) : Bool :=
  hash1.first_hash.high64 == hash2.first_hash.high64 &&
  hash1.first_hash.low64 == hash2.first_hash.low64 &&
  hash1.second_hash.high64 == hash2.second_hash.high64 &&
  hash1.second_hash.low64 == hash2.second_hash.low64

/-! ## Data model -/

inductive item_state where
  | None
  | Volatile
  | Unstable
  | Stable
deriving DecidableEq, Repr

/-- Key of an `rmap_item`: `(mm_id, va)`.  It stands for a pointer to the item. -/
abbrev item_key := Int × Nat

structure rmap_item where
  mm_id : Int
  last_access : Int
  age : Int
  va : Nat
  pfn : Nat
  old_pfn : Nat
  old_hash : hash_pair
  state : item_state
  volatility_score : Nat
  skip_cnt : Nat
  stable_node : Option Nat
deriving DecidableEq, Repr

def rmap_item.key (item : rmap_item) : item_key := (item.mm_id, item.va)

inductive node_chain_type where
  | HEAD
  | CHAIN
deriving DecidableEq, Repr

/-- The anonymous `chain` member of `struct stable_node`. -/
structure chain_links where
  type : node_chain_type
  next : Option Nat
  prev : Option Nat
deriving DecidableEq, Repr

structure stable_node where
  page_hash : hash_pair
  shared_cnt : Int
  pfn : Nat
  sharing_item_tree : List item_key
  chain : chain_links
deriving DecidableEq, Repr

/-- A `GHashTable` whose hash and equality functions read the hash pair of the key object:
entries are `(hash pair of the key, key, value)`. -/
abbrev GHashTable (α : Type) := List (hash_pair × α × α)

structure ksm_metadata where
  rmap_tree : List rmap_item
  nodes : List (Option stable_node)
  stable_hash_table : GHashTable Nat
  unstable_hash_table : GHashTable item_key
deriving DecidableEq, Repr

/-! ### Event log records -/

def DPU_STABLE_MERGE : Nat := 1
def DPU_UNSTABLE_MERGE : Nat := 2
def DPU_STALE_STABLE_NODE : Nat := 3
def DPU_ITEM_STATE_CHANGE : Nat := 4
def HOST_STALE_STABLE_NODE : Nat := 5
def HOST_NO_STABLE_NODE : Nat := 6
def HOST_MERGE_ONE_FAILED : Nat := 7
def HOST_MERGE_TWO_FAILED : Nat := 8

/-- The 32-byte record `struct ksm_event_log`.  The three members of its union overlay one
another; the fields carry the names of the `stable_merge` member:
`from_va` is also `unstable_merge.from_va` and `stale_node.last_va`,
`kpfn` is also `unstable_merge.to_va` and `stale_node.kpfn`,
`from_mm_id` is also `unstable_merge.from_mm_id` and `stale_node.last_mm_id`,
`shared_cnt` is also `unstable_merge.to_mm_id`. -/
structure ksm_event_log where
  type : Nat
  from_va : Nat
  kpfn : Nat
  from_mm_id : Int
  shared_cnt : Int
deriving DecidableEq, Repr

def ksm_event_log.to_va (e : ksm_event_log) : Nat := e.kpfn

def ksm_event_log.to_mm_id (e : ksm_event_log) : Int := e.shared_cnt

def ksm_event_log.last_va (e : ksm_event_log) : Nat := e.from_va

def ksm_event_log.last_mm_id (e : ksm_event_log) : Int := e.from_mm_id

/-- The log table: `entries` is the array prefix `entries[0 .. cnt-1]`, so `cnt` is its
length. -/
structure ksm_log_table where
  entries : List ksm_event_log
  capacity : Nat
deriving DecidableEq, Repr

def ksm_log_table.cnt (t : ksm_log_table) : Nat := t.entries.length

structure shadow_pte where
  va : Nat
  kpfn : Nat
deriving DecidableEq, Repr

/-- The globals `iteration` and `total_accessed_cnt` together with the control block members
the merge engine uses (`cb->metadata`, `cb->log_table`). -/
structure rdma_cb where
  metadata : ksm_metadata
  log_table : ksm_log_table
  iteration : Int
  total_accessed_cnt : Nat
deriving DecidableEq, Repr

/-! ## Skip heuristic -/

def skip_volatile (volatility_score age : Int) : Int :=
  if volatility_score > 0 then
    let grace_score := volatility_score + age
    if grace_score < 3 then 1
    else if grace_score = 3 then 2
    else if grace_score = 4 then 4
    else 8
  else 0

/-- Returns the truth value and the item as the call leaves it. -/
def should_skip_item (p : ksm_params) (item : rmap_item) : Bool × rmap_item :=
  if !p.smart_scan_opt then (false, item)
  else if item.state = item_state.None ∨ item.state = item_state.Stable then (false, item)
  else if item.skip_cnt > 0 then (true, { item with skip_cnt := item.skip_cnt - 1 })
  else (false, { item with
    skip_cnt := to_ushort (skip_volatile (to_short item.volatility_score) item.age) })

/-! ## Log table -/

/-- Appends at index `cnt` after doubling the capacity when `cnt >= capacity`
(`realloc` assumed to succeed); a record whose type is not a `DPU_*` type stops the
engine. -/
def insert_ksm_log (table : ksm_log_table) (entry : ksm_event_log) :
    Except fault ksm_log_table :=
  let capacity := if table.cnt ≥ table.capacity then table.capacity * 2 else table.capacity
  if entry.type = DPU_STABLE_MERGE ∨ entry.type = DPU_UNSTABLE_MERGE ∨
      entry.type = DPU_STALE_STABLE_NODE ∨ entry.type = DPU_ITEM_STATE_CHANGE then
    .ok { entries := table.entries ++ [entry], capacity := capacity }
  else .error fault.stop

def clear_log_table (table : ksm_log_table) : ksm_log_table :=
  { table with entries := [] }

def log_stable_merge (log_table : ksm_log_table) (item : rmap_item) (node : stable_node) :
    Except fault ksm_log_table :=
  insert_ksm_log log_table
    { type := DPU_STABLE_MERGE, from_va := item.va, kpfn := node.pfn,
      from_mm_id := item.mm_id, shared_cnt := node.shared_cnt }

def log_item_state_change (log_table : ksm_log_table) (item : rmap_item)
    (prelinked_node : stable_node) : Except fault ksm_log_table :=
  insert_ksm_log log_table
    { type := DPU_ITEM_STATE_CHANGE, from_va := item.va, kpfn := prelinked_node.pfn,
      from_mm_id := item.mm_id, shared_cnt := prelinked_node.shared_cnt }

def log_unstable_merge (log_table : ksm_log_table) (from_item to_item : rmap_item) :
    Except fault ksm_log_table :=
  insert_ksm_log log_table
    { type := DPU_UNSTABLE_MERGE, from_va := from_item.va, kpfn := to_item.va,
      from_mm_id := from_item.mm_id, shared_cnt := to_item.mm_id }

/-! ## Trees, hash tables and the two heaps -/

/-- Comparison `rmap_item_compare`, on keys. -/
def rmap_item_compare (a b : item_key) : Int :=
  if a.1 < b.1 then -1
  else if a.1 > b.1 then 1
  else if a.2 < b.2 then -1
  else if a.2 > b.2 then 1
  else 0

/-- Insertion `g_tree_insert` into a sharers tree: in key order, replacing an equal key. -/
def g_tree_insert : List item_key → item_key → List item_key
  | [], k => [k]
  | x :: xs, k =>
    if rmap_item_compare k x < 0 then k :: x :: xs
    else if rmap_item_compare k x = 0 then k :: xs
    else x :: g_tree_insert xs k

def g_tree_remove (tree : List item_key) (k : item_key) : List item_key :=
  tree.filter (fun x => rmap_item_compare x k ≠ 0)

/-- Insertion `g_tree_insert` into the reverse-map tree. -/
def rmap_tree_insert : List rmap_item → rmap_item → List rmap_item
  | [], item => [item]
  | x :: xs, item =>
    if rmap_item_compare item.key x.key < 0 then item :: x :: xs
    else if rmap_item_compare item.key x.key = 0 then item :: xs
    else x :: rmap_tree_insert xs item

/-- Lookup `g_tree_lookup` in the reverse-map tree. -/
def g_tree_lookup (tree : List rmap_item) (k : item_key) : Option rmap_item :=
  tree.find? (fun x => rmap_item_compare x.key k = 0)

def g_hash_table_lookup {α : Type} (table : GHashTable α) (h : hash_pair) : Option α :=
  (table.find? (fun e => compare_hash_pair_equal e.1 h)).map (fun e => e.2.2)

def g_hash_table_remove {α : Type} (table : GHashTable α) (h : hash_pair) : GHashTable α :=
  table.filter (fun e => !compare_hash_pair_equal e.1 h)

/-- Insertion `g_hash_table_insert`: when an equal key is present its value is replaced and
the old key object is kept; otherwise a new entry is added. -/
def g_hash_table_insert {α : Type} (table : GHashTable α) (h : hash_pair) (key value : α) :
    GHashTable α :=
  if (table.find? (fun e => compare_hash_pair_equal e.1 h)).isSome then
    table.map (fun e => if compare_hash_pair_equal e.1 h then (e.1, e.2.1, value) else e)
  else table ++ [(h, key, value)]

/-- Dereference of an item pointer. -/
def item_at (md : ksm_metadata) (k : item_key) : Except fault rmap_item :=
  match g_tree_lookup md.rmap_tree k with
  | some item => .ok item
  | none => .error fault.bad_pointer

/-- Store through an item pointer. -/
def set_item (md : ksm_metadata) (item : rmap_item) : ksm_metadata :=
  { md with
    rmap_tree :=
      List.map (fun x => if rmap_item_compare x.key item.key = 0 then item else x)
        md.rmap_tree }

/-- The live node a node pointer refers to, if any. -/
def node_at (md : ksm_metadata) (h : Nat) : Option stable_node :=
  md.nodes.getD h none

/-- Dereference of a node pointer. -/
def deref_node (md : ksm_metadata) (h : Nat) : Except fault stable_node :=
  match node_at md h with
  | some node => .ok node
  | none => .error fault.bad_pointer

/-- Store through a node pointer. -/
def set_node (md : ksm_metadata) (h : Nat) (node : stable_node) : ksm_metadata :=
  { md with nodes := md.nodes.set h (some node) }

/-- Release of a node (`g_tree_destroy` of its sharers tree and `free`). -/
def free_node (md : ksm_metadata) (h : Nat) : ksm_metadata :=
  { md with nodes := md.nodes.set h none }

/-! ## Item state -/

/-- The statement `volatility_score += 1` on an `unsigned short`. -/
def bump_volatility (item : rmap_item) : rmap_item :=
  { item with volatility_score := (item.volatility_score + 1) % 65536 }

/-- The statement `if (volatility_score > 0) volatility_score -= 1`. -/
def calm_volatility (item : rmap_item) : rmap_item :=
  if item.volatility_score > 0 then
    { item with volatility_score := item.volatility_score - 1 }
  else item

/-- The statement `age += 1` on a `short`. -/
def advance_age (item : rmap_item) : rmap_item :=
  { item with age := to_short (item.age + 1) }

def set_old_hash (hash : hash_pair) (item : rmap_item) : rmap_item :=
  { item with old_hash := hash }

def set_state (state : item_state) (item : rmap_item) : rmap_item :=
  { item with state := state }

def set_page_hash (hash : hash_pair) (node : stable_node) : stable_node :=
  { node with page_hash := hash }

def set_chain_next (next : Option Nat) (node : stable_node) : stable_node :=
  { node with chain := { node.chain with next := next } }

def set_chain_prev (prev : Option Nat) (node : stable_node) : stable_node :=
  { node with chain := { node.chain with prev := prev } }

def set_chain (chain : chain_links) (node : stable_node) : stable_node :=
  { node with chain := chain }

/-- The assignments of `insert_item_to_node` to the item. -/
def link_item (node : stable_node) (h : Nat) (item : rmap_item) : rmap_item :=
  { item with
    state := item_state.Stable, old_hash := node.page_hash, old_pfn := item.pfn,
    pfn := node.pfn, stable_node := some h }

/-- The statements of `insert_item_to_node` on the node: `shared_cnt += 1` and
`g_tree_insert`. -/
def add_sharer (k : item_key) (node : stable_node) : stable_node :=
  { node with
    shared_cnt := node.shared_cnt + 1,
    sharing_item_tree := g_tree_insert node.sharing_item_tree k }

/-- The statements of `remove_item_from_node`: `shared_cnt -= 1` and `g_tree_remove`. -/
def drop_sharer (k : item_key) (node : stable_node) : stable_node :=
  { node with
    shared_cnt := node.shared_cnt - 1,
    sharing_item_tree := g_tree_remove node.sharing_item_tree k }

def insert_item_to_node (md : ksm_metadata) (h : Nat) (k : item_key) :
    Except fault ksm_metadata := do
  let item ← item_at md k
  let node ← deref_node md h
  if item.state = item_state.None ∨ item.state = item_state.Stable then
    .error fault.stop
  else
    .ok (set_node (set_item md (link_item node h item)) h (add_sharer k node))

def remove_item_from_node (md : ksm_metadata) (h : Nat) (k : item_key) :
    Except fault ksm_metadata := do
  let node ← deref_node md h
  .ok (set_node md h (drop_sharer k node))

def reset_item_state (item : rmap_item) : rmap_item :=
  { item with
    state := item_state.Volatile, pfn := item.old_pfn, old_pfn := 0,
    old_hash := null_hash, stable_node := none }

/-- Read-modify-write through an item pointer (`item->field = ...`). -/
def modify_item (md : ksm_metadata) (k : item_key) (f : rmap_item → rmap_item) :
    Except fault ksm_metadata := do
  let item ← item_at md k
  .ok (set_item md (f item))

/-- Read-modify-write through a node pointer (`node->field = ...`). -/
def modify_node (md : ksm_metadata) (h : Nat) (f : stable_node → stable_node) :
    Except fault ksm_metadata := do
  let node ← deref_node md h
  .ok (set_node md h (f node))

/-- Traversal `g_tree_foreach (tree, reset_each_item_state, &undo_cnt)`: the callback
returns `-1` on an item that is not `Stable`, which ends the traversal. -/
def reset_each_item_state (md : ksm_metadata) : List item_key → Except fault ksm_metadata
  | [] => .ok md
  | k :: ks => do
    let item ← item_at md k
    if item.state ≠ item_state.Stable then .ok md
    else reset_each_item_state (set_item md (bump_volatility (reset_item_state item))) ks

/-- Traversal `g_tree_foreach (tree, update_item_checksum, &hash)`. -/
def update_item_checksum (md : ksm_metadata) (hash : hash_pair) :
    List item_key → Except fault ksm_metadata
  | [] => .ok md
  | k :: ks => do
    let item ← item_at md k
    if item.state ≠ item_state.Stable then .error fault.stop
    else update_item_checksum (set_item md (set_old_hash hash item)) hash ks

/-! ## Stable index -/

/-- The loop `while (node_dup)` of `cmp_with_stable`. -/
def cmp_with_stable_walk (p : ksm_params) (md : ksm_metadata) :
    Nat → Option Nat → Except fault (Option Nat)
  | _, none => .ok none
  | 0, some _ => .error fault.diverge
  | fuel + 1, some a =>
    match node_at md a with
    | none => .error fault.bad_pointer
    | some node_dup =>
      if node_dup.shared_cnt < (p.MAX_PAGE_SHARING : Int) then .ok (some a)
      else cmp_with_stable_walk p md fuel node_dup.chain.next

def cmp_with_stable (p : ksm_params) (md : ksm_metadata) (hash : hash_pair) :
    Except fault (Option Nat) :=
  match g_hash_table_lookup md.stable_hash_table hash with
  | some a =>
    match node_at md a with
    | none => .error fault.bad_pointer
    | some stable_node =>
      if stable_node.shared_cnt < (p.MAX_PAGE_SHARING : Int) then .ok (some a)
      else cmp_with_stable_walk p md md.nodes.length stable_node.chain.next
  | none => .ok none

/-- The loop `while (existing_node->chain.next)` of `insert_stable_node`. -/
def chain_tail (md : ksm_metadata) : Nat → Nat → Except fault Nat
  | 0, _ => .error fault.diverge
  | fuel + 1, a =>
    match node_at md a with
    | none => .error fault.bad_pointer
    | some node =>
      match node.chain.next with
      | none => .ok a
      | some b => chain_tail md fuel b

def set_stable_hash_table (table : GHashTable Nat) (md : ksm_metadata) : ksm_metadata :=
  { md with stable_hash_table := table }

def set_unstable_hash_table (table : GHashTable item_key) (md : ksm_metadata) :
    ksm_metadata :=
  { md with unstable_hash_table := table }

def insert_stable_node (md : ksm_metadata) (new_node : Nat) : Except fault ksm_metadata := do
  let node ← deref_node md new_node
  match g_hash_table_lookup md.stable_hash_table node.page_hash with
  | some first =>
    let existing_node ← chain_tail md md.nodes.length first
    let md1 ← modify_node md existing_node (set_chain_next (some new_node))
    modify_node md1 new_node
      (set_chain { type := node_chain_type.CHAIN, next := none, prev := some existing_node })
  | none =>
    let md1 ← modify_node md new_node
      (set_chain { type := node_chain_type.HEAD, next := none, prev := none })
    .ok (set_stable_hash_table
      (g_hash_table_insert md1.stable_hash_table node.page_hash new_node new_node) md1)

/-- The statements `next_node->chain.type = HEAD; next_node->chain.prev = NULL`. -/
def make_head (node : stable_node) : stable_node :=
  { node with chain := { node.chain with type := node_chain_type.HEAD, prev := none } }

def remove_stable_node_no_item (md : ksm_metadata) (a : Nat) : Except fault ksm_metadata := do
  let node ← deref_node md a
  match node.chain.type with
  | node_chain_type.HEAD =>
    match node.chain.next with
    | some b =>
      if node.chain.prev.isSome then .error fault.stop
      else
        let md1 ← modify_node md b make_head
        let next_node ← deref_node md1 b
        let table := g_hash_table_remove md1.stable_hash_table node.page_hash
        .ok (free_node
          (set_stable_hash_table (g_hash_table_insert table next_node.page_hash b b) md1) a)
    | none =>
      .ok (free_node
        (set_stable_hash_table
          (g_hash_table_remove md.stable_hash_table node.page_hash) md) a)
  | node_chain_type.CHAIN =>
    match node.chain.prev with
    | some prev_node =>
      let md1 ← modify_node md prev_node (set_chain_next node.chain.next)
      match node.chain.next with
      | some next_node =>
        let md2 ← modify_node md1 next_node (set_chain_prev (some prev_node))
        .ok (free_node md2 a)
      | none => .ok (free_node md1 a)
    | none => .error fault.stop

def remove_stale_node_and_log (md : ksm_metadata) (log_table : ksm_log_table) (a : Nat)
    (last_item : rmap_item) : Except fault (ksm_metadata × ksm_log_table) := do
  let node ← deref_node md a
  let log1 ← insert_ksm_log log_table
    { type := DPU_STALE_STABLE_NODE, from_va := last_item.va, kpfn := node.pfn,
      from_mm_id := last_item.mm_id, shared_cnt := 0 }
  let md1 ← remove_stable_node_no_item md a
  .ok (md1, log1)

/-! ## Unstable index -/

def cmp_with_unstable (md : ksm_metadata) (k : item_key) :
    Except fault (Option item_key × ksm_metadata) := do
  let item ← item_at md k
  match g_hash_table_lookup md.unstable_hash_table item.old_hash with
  | some node =>
    let found ← item_at md node
    .ok (some node,
      set_unstable_hash_table
        (g_hash_table_remove md.unstable_hash_table found.old_hash) md)
  | none => .ok (none, md)

def insert_unstable_node (md : ksm_metadata) (new_node : item_key) :
    Except fault ksm_metadata := do
  let item ← item_at md new_node
  match g_hash_table_lookup md.unstable_hash_table item.old_hash with
  | some _ => .error fault.stop
  | none =>
    .ok (set_unstable_hash_table
      (g_hash_table_insert md.unstable_hash_table item.old_hash new_node new_node) md)

/-- Traversal `g_hash_table_foreach (table, update_item_state, NULL)`. -/
def update_item_state (md : ksm_metadata) : GHashTable item_key → Except fault ksm_metadata
  | [] => .ok md
  | e :: es => do
    let md1 ← modify_item md e.2.2 (set_state item_state.Volatile)
    update_item_state md1 es

def clean_up_unstable_tree (md : ksm_metadata) : Except fault ksm_metadata := do
  let md1 ← update_item_state md md.unstable_hash_table
  .ok (set_unstable_hash_table [] md1)

/-! ## Reverse-map tree -/

/-- The item `lookup_rmap_item` creates from the storage `raw` that `malloc` returns:
`state`, `mm_id`, `va`, `old_hash` and `age` are assigned; `old_pfn`, `volatility_score`,
`skip_cnt` and `stable_node` are left as the storage holds them, the two `unsigned short`
fields being read at their width. -/
def new_rmap_item (raw : rmap_item) (mm_id : Int) (va : Nat) : rmap_item :=
  { raw with
    state := item_state.Volatile, mm_id := mm_id, va := va,
    old_hash := null_hash, age := 0,
    volatility_score := raw.volatility_score % 65536,
    skip_cnt := raw.skip_cnt % 65536 }

/-- The statements `item->last_access = iteration; item->pfn = pte->kpfn`. -/
def touch_item (iteration : Int) (kpfn : Nat) (item : rmap_item) : rmap_item :=
  { item with last_access := to_short iteration, pfn := kpfn }

/-- Lookup-or-create of the item of a shadow page-table entry.  Returns the control block
and the pointer to the item. -/
def lookup_rmap_item (cb : rdma_cb) (raw : rmap_item) (mm_id : Int) (pte : shadow_pte) :
    rdma_cb × item_key :=
  let md := cb.metadata
  let created : ksm_metadata × rmap_item :=
    match g_tree_lookup md.rmap_tree (mm_id, pte.va) with
    | some item => (md, item)
    | none =>
      ({ md with rmap_tree := rmap_tree_insert md.rmap_tree (new_rmap_item raw mm_id pte.va) },
       new_rmap_item raw mm_id pte.va)
  ({ cb with
      metadata := set_item created.1 (touch_item cb.iteration pte.kpfn created.2),
      total_accessed_cnt := (cb.total_accessed_cnt + 1) % 18446744073709551616 },
   (touch_item cb.iteration pte.kpfn created.2).key)

/-! ## Compare-and-merge worker -/

/-- The loop `while (chain_node)` of the hash update, entered at the node whose hash is
set first: each node gets `page_hash = curr_hash` and each of its sharers
`old_hash = curr_hash`. -/
def update_chain_hash (curr_hash : hash_pair) :
    Nat → ksm_metadata → Option Nat → Except fault ksm_metadata
  | _, md, none => .ok md
  | 0, _, some _ => .error fault.diverge
  | fuel + 1, md, some a => do
    let node ← deref_node md a
    let md1 ← update_item_checksum (set_node md a (set_page_hash curr_hash node)) curr_hash
      node.sharing_item_tree
    update_chain_hash curr_hash fuel md1 node.chain.next

/-- The loop `while (curr_node->chain.prev)` of the hash update. -/
def chain_head (md : ksm_metadata) : Nat → Nat → Except fault Nat
  | 0, _ => .error fault.diverge
  | fuel + 1, a =>
    match node_at md a with
    | none => .error fault.bad_pointer
    | some node =>
      match node.chain.prev with
      | none => .ok a
      | some b => chain_head md fuel b

/-- The block both branches of the hash update run on the head `curr_node` of the chain:
`g_hash_table_remove`, the new hash on the head and on every chain node with their
sharers, `g_hash_table_insert`. -/
def rehash_chain (md : ksm_metadata) (curr_node : Nat) (curr_hash : hash_pair) :
    Except fault ksm_metadata := do
  let node ← deref_node md curr_node
  let md1 := set_stable_hash_table
    (g_hash_table_remove md.stable_hash_table node.page_hash) md
  let md2 ← update_chain_hash curr_hash md1.nodes.length md1 (some curr_node)
  let node2 ← deref_node md2 curr_node
  .ok (set_stable_hash_table
    (g_hash_table_insert md2.stable_hash_table node2.page_hash curr_node curr_node) md2)

/-- The node `cmp_and_merge_one` allocates for an unstable promotion (`malloc`, `memset`,
then `shared_cnt`, `page_hash`, `pfn` and an empty sharers tree). -/
def new_stable_node (curr_hash : hash_pair) (pfn : Nat) : stable_node :=
  { page_hash := curr_hash, shared_cnt := 0, pfn := pfn, sharing_item_tree := [],
    chain := { type := node_chain_type.HEAD, next := none, prev := none } }

/-- Allocation of a node: the new slot is the last one of the arena. -/
def alloc_node (md : ksm_metadata) (node : stable_node) : ksm_metadata :=
  { md with nodes := md.nodes ++ [some node] }

/-- The unstable promotion of `cmp_and_merge_one`: a new stable node for `curr_item` and
the partner `unstable_node` found in the unstable index. -/
def promote_unstable (md : ksm_metadata) (log_table : ksm_log_table) (curr_hash : hash_pair)
    (curr_item unstable_node : item_key) : Except fault (ksm_metadata × ksm_log_table) := do
  let item ← item_at md curr_item
  let stable_node := md.nodes.length
  let md1 ← insert_stable_node (alloc_node md (new_stable_node curr_hash item.pfn)) stable_node
  let md2 ← insert_item_to_node md1 stable_node unstable_node
  let md3 ← insert_item_to_node md2 stable_node curr_item
  let from_item ← item_at md3 curr_item
  let to_item ← item_at md3 unstable_node
  let log1 ← log_unstable_merge log_table from_item to_item
  .ok (md3, log1)

/-- The stable merge of `cmp_and_merge_one` into the node `cmp_with_stable` returned. -/
def merge_stable (p : ksm_params) (md : ksm_metadata) (log_table : ksm_log_table)
    (curr_item : item_key) (stable_node : Nat) :
    Except fault (ksm_metadata × ksm_log_table) := do
  let node ← deref_node md stable_node
  if node.shared_cnt ≥ (p.MAX_PAGE_SHARING : Int) then .error fault.stop
  else
    let md1 ← insert_item_to_node md stable_node curr_item
    let item1 ← item_at md1 curr_item
    let node1 ← deref_node md1 stable_node
    let log1 ← log_stable_merge log_table item1 node1
    .ok (md1, log1)

/-- The branch of `case Volatile` taken when `old_hash` equals the current hash. -/
def merge_candidate (p : ksm_params) (md : ksm_metadata) (log_table : ksm_log_table)
    (curr_hash : hash_pair) (curr_item : item_key) :
    Except fault (ksm_metadata × ksm_log_table) := do
  let md1 ← modify_item md curr_item calm_volatility
  match ← cmp_with_stable p md1 curr_hash with
  | some stable_node => merge_stable p md1 log_table curr_item stable_node
  | none =>
    let md2 ← modify_item md1 curr_item (set_old_hash curr_hash)
    let found ← cmp_with_unstable md2 curr_item
    match found.1 with
    | some unstable_node => promote_unstable found.2 log_table curr_hash curr_item unstable_node
    | none =>
      let md3 ← modify_item found.2 curr_item
        (fun i => set_state item_state.Unstable (set_old_hash curr_hash i))
      let md4 ← insert_unstable_node md3 curr_item
      .ok (md4, log_table)

/-- The `case Volatile` of `cmp_and_merge_one`.  `curr_hash` is the value
`calculate_hash_pair (page)` returns. -/
def cmp_and_merge_volatile (p : ksm_params) (md : ksm_metadata) (log_table : ksm_log_table)
    (curr_hash : hash_pair) (curr_item : item_key) :
    Except fault (ksm_metadata × ksm_log_table) := do
  let item0 ← item_at md curr_item
  let skip := should_skip_item p (advance_age item0)
  let md1 := set_item md skip.2
  if skip.1 then .ok (md1, log_table)
  else if compare_hash_pair_equal skip.2.old_hash curr_hash then
    merge_candidate p md1 log_table curr_hash curr_item
  else
    let md2 ←
      if !compare_hash_pair_equal skip.2.old_hash null_hash then
        modify_item md1 curr_item bump_volatility
      else .ok md1
    let md3 ← modify_item md2 curr_item (set_old_hash curr_hash)
    .ok (md3, log_table)

/-- The pfn-mismatch branch of `case Stable`, up to the `goto again`. -/
def detach_stable (md : ksm_metadata) (log_table : ksm_log_table) (curr_item : item_key)
    (curr_node : Nat) : Except fault (ksm_metadata × ksm_log_table) := do
  let md1 ← remove_item_from_node md curr_node curr_item
  let md2 ← modify_item md1 curr_item reset_item_state
  let item ← item_at md2 curr_item
  let node ← deref_node md2 curr_node
  let logged ←
    if node.shared_cnt = 0 then remove_stale_node_and_log md2 log_table curr_node item
    else do
      let log1 ← log_item_state_change log_table item node
      .ok (md2, log1)
  let md3 ← modify_item logged.1 curr_item bump_volatility
  .ok (md3, logged.2)

/-- The hash check of `case Stable` when the pfn is unchanged. -/
def refresh_stable (md : ksm_metadata) (curr_hash : hash_pair) (item : rmap_item)
    (curr_node : Nat) : Except fault ksm_metadata := do
  let node ← deref_node md curr_node
  if !compare_hash_pair_equal curr_hash item.old_hash then
    if !compare_hash_pair_equal item.old_hash node.page_hash then .error fault.stop
    else if node.chain.type = node_chain_type.HEAD then rehash_chain md curr_node curr_hash
    else if node.chain.prev.isNone then .error fault.stop
    else
      let head ← chain_head md md.nodes.length curr_node
      let head_node ← deref_node md head
      if head_node.chain.type ≠ node_chain_type.HEAD then .error fault.stop
      else rehash_chain md head curr_hash
  else .ok md

/-- The function `cmp_and_merge_one`.  After the pfn-mismatch branch of `case Stable` the
item is `Volatile`, so the `goto again` enters `case Volatile`. -/
def cmp_and_merge_one (p : ksm_params) (md : ksm_metadata) (log_table : ksm_log_table)
    (curr_hash : hash_pair) (curr_item : item_key) :
    Except fault (ksm_metadata × ksm_log_table) := do
  let item ← item_at md curr_item
  match item.state with
  | item_state.None => .error fault.stop
  | item_state.Unstable => .error fault.stop
  | item_state.Volatile => cmp_and_merge_volatile p md log_table curr_hash curr_item
  | item_state.Stable =>
    match item.stable_node with
    | none => .error fault.bad_pointer
    | some curr_node =>
      let node ← deref_node md curr_node
      if node.pfn ≠ item.pfn then
        let detached ← detach_stable md log_table curr_item curr_node
        cmp_and_merge_volatile p detached.1 detached.2 curr_hash curr_item
      else
        let md1 ← refresh_stable md curr_hash item curr_node
        let md2 ← modify_item md1 curr_item calm_volatility
        .ok (md2, log_table)

/-! ## Reconciliation -/

/-- The `case HOST_MERGE_ONE_FAILED` of `do_handle_error`. -/
def undo_merge_one (md : ksm_metadata) (log_table : ksm_log_table) (entry : ksm_event_log) :
    Except fault (ksm_metadata × ksm_log_table) :=
  match g_tree_lookup md.rmap_tree (entry.from_mm_id, entry.from_va) with
  | none => .error fault.stop
  | some item =>
    match item.stable_node with
    | none => .error fault.stop
    | some curr_node => do
      let node ← deref_node md curr_node
      if node.pfn ≠ entry.kpfn then .error fault.stop
      else if node.shared_cnt < 1 then .error fault.stop
      else
        let md1 ← remove_item_from_node md curr_node item.key
        let md2 ← modify_item md1 item.key (fun i => bump_volatility (reset_item_state i))
        let item2 ← item_at md2 item.key
        let node2 ← deref_node md2 curr_node
        if node2.shared_cnt = 0 then remove_stale_node_and_log md2 log_table curr_node item2
        else .ok (md2, log_table)

/-- The `case HOST_MERGE_TWO_FAILED` of `do_handle_error`. -/
def undo_merge_two (md : ksm_metadata) (log_table : ksm_log_table) (entry : ksm_event_log) :
    Except fault (ksm_metadata × ksm_log_table) :=
  match g_tree_lookup md.rmap_tree (entry.from_mm_id, entry.from_va) with
  | none => .error fault.stop
  | some from_item =>
    match from_item.stable_node with
    | none => .error fault.stop
    | some curr_node => do
      let node ← deref_node md curr_node
      let md1 ← reset_each_item_state md node.sharing_item_tree
      let md2 ← remove_stable_node_no_item md1 curr_node
      .ok (md2, log_table)

/-- The body of `switch (entry->type)` in `do_handle_error`, for one record of the error
table. -/
def do_handle_error_entry (md : ksm_metadata) (log_table : ksm_log_table)
    (entry : ksm_event_log) : Except fault (ksm_metadata × ksm_log_table) :=
  if entry.type = HOST_STALE_STABLE_NODE then .error fault.stop
  else if entry.type = HOST_NO_STABLE_NODE then .error fault.stop
  else if entry.type = HOST_MERGE_ONE_FAILED then undo_merge_one md log_table entry
  else if entry.type = HOST_MERGE_TWO_FAILED then undo_merge_two md log_table entry
  else .error fault.stop

/-! ## Pruning -/

/-- Traversal `g_tree_foreach (rmap_tree, collect_keys_to_remove, &ctx)`; the keys are
prepended to `keys_to_remove`. -/
def collect_keys_to_remove (iteration : Int) :
    List rmap_item → List item_key → Except fault (List item_key)
  | [], keys_to_remove => .ok keys_to_remove
  | item :: rest, keys_to_remove =>
    if item.last_access < iteration - 1 then
      match item.state with
      | item_state.None => .error fault.stop
      | item_state.Unstable => .error fault.stop
      | item_state.Volatile => collect_keys_to_remove iteration rest (item.key :: keys_to_remove)
      | item_state.Stable =>
        if item.stable_node.isNone then .error fault.stop
        else collect_keys_to_remove iteration rest (item.key :: keys_to_remove)
    else collect_keys_to_remove iteration rest keys_to_remove

/-- The loop over `keys_to_remove` in `prune_rmap_tree`. -/
def prune_rmap_items : ksm_metadata → ksm_log_table → List item_key →
    Except fault (ksm_metadata × ksm_log_table)
  | md, log_table, [] => .ok (md, log_table)
  | md, log_table, k :: ks => do
    let item ← item_at md k
    let unlinked ←
      match item.stable_node with
      | some a =>
        if item.state = item_state.Stable then do
          let md1 ← remove_item_from_node md a k
          let node ← deref_node md1 a
          if node.shared_cnt = 0 then remove_stale_node_and_log md1 log_table a item
          else .ok (md1, log_table)
        else .ok (md, log_table)
      | none => .ok (md, log_table)
    let md2 := { unlinked.1 with
      rmap_tree := unlinked.1.rmap_tree.filter (fun x => rmap_item_compare x.key k ≠ 0) }
    prune_rmap_items md2 unlinked.2 ks

def prune_rmap_tree (md : ksm_metadata) (log_table : ksm_log_table) (iteration : Int) :
    Except fault (ksm_metadata × ksm_log_table) := do
  let keys_to_remove ← collect_keys_to_remove iteration md.rmap_tree []
  prune_rmap_items md log_table keys_to_remove

/-- The function `prune_metadata`; the difference `g_tree_nnodes (..) - total_accessed_cnt`
is computed in `unsigned long`. -/
def prune_metadata (cb : rdma_cb) : Except fault rdma_cb := do
  let md1 ← clean_up_unstable_tree cb.metadata
  if to_ulong ((md1.rmap_tree.length : Int) - (cb.total_accessed_cnt : Int))
      > RMAP_PRUNE_MARGIN then
    let pruned ← prune_rmap_tree md1 cb.log_table cb.iteration
    .ok { cb with metadata := pruned.1, log_table := pruned.2 }
  else .ok { cb with metadata := md1 }

/-! ## Engine runs -/

/-- One iteration of the loop of `ksm_page_worker`: `lookup_rmap_item` on a shadow
page-table entry, then `cmp_and_merge_one` on the page read for it. -/
def worker_step (p : ksm_params) (cb : rdma_cb) (raw : rmap_item) (mm_id : Int)
    (pte : shadow_pte) (curr_hash : hash_pair) : Except fault rdma_cb := do
  let looked := lookup_rmap_item cb raw mm_id pte
  let merged ← cmp_and_merge_one p looked.1.metadata looked.1.log_table curr_hash looked.2
  .ok { looked.1 with metadata := merged.1, log_table := merged.2 }

/-- The steps a run of the engine is made of. -/
inductive engine_op where
  | page (raw : rmap_item) (mm_id : Int) (pte : shadow_pte) (curr_hash : hash_pair)
  | error_entry (entry : ksm_event_log)
  | prune
  | next_cycle
deriving DecidableEq, Repr

/-- Effect of one step: a worker step, one record of the error table in `do_handle_error`,
the end of `do_ksm_v3` (`prune_metadata`, then `total_accessed_cnt = 0`), or the passage to
the next cycle (`iteration += 1`, and `clear_log_table` when the next metadata arrives). -/
def engine_step (p : ksm_params) (cb : rdma_cb) : engine_op → Except fault rdma_cb
  | engine_op.page raw mm_id pte curr_hash => worker_step p cb raw mm_id pte curr_hash
  | engine_op.error_entry entry => do
    let handled ← do_handle_error_entry cb.metadata cb.log_table entry
    .ok { cb with metadata := handled.1, log_table := handled.2 }
  | engine_op.prune => do
    let cb1 ← prune_metadata cb
    .ok { cb1 with total_accessed_cnt := 0 }
  | engine_op.next_cycle =>
    .ok { cb with iteration := cb.iteration + 1, log_table := clear_log_table cb.log_table }

def engine_run (p : ksm_params) : rdma_cb → List engine_op → Except fault rdma_cb
  | cb, [] => .ok cb
  | cb, op :: ops => do
    let cb1 ← engine_step p cb op
    engine_run p cb1 ops

/-- The control block `main` sets up: empty trees and tables, a log of capacity 1024. -/
def initial_cb : rdma_cb :=
  { metadata :=
      { rmap_tree := [], nodes := [], stable_hash_table := [], unstable_hash_table := [] },
    log_table := { entries := [], capacity := 1024 },
    iteration := 0,
    total_accessed_cnt := 0 }

/-- States the engine reaches from the initial control block. -/
def Reachable (p : ksm_params) (cb : rdma_cb) : Prop :=
  ∃ ops : List engine_op, engine_run p initial_cb ops = .ok cb

/-! ## Notions used to state the properties -/

/-- The item as `case Volatile` holds it when the search for a merge partner starts:
`age` advanced, `skip_cnt` as `should_skip_item` leaves it, `volatility_score` decremented
when positive. -/
def settled (p : ksm_params) (item : rmap_item) : rmap_item :=
  calm_volatility (should_skip_item p (advance_age item)).2

/-- The log table after one append. -/
def appended (table : ksm_log_table) (entry : ksm_event_log) : ksm_log_table :=
  { entries := table.entries ++ [entry],
    capacity := if table.cnt ≥ table.capacity then table.capacity * 2 else table.capacity }

/-! ## Concrete inputs -/

def hash_a : hash_pair := ⟨⟨1, 0⟩, ⟨0, 0⟩⟩

def hash_b : hash_pair := ⟨⟨2, 0⟩, ⟨0, 0⟩⟩

/-- Zero-filled storage for a new item. -/
def zero_item : rmap_item := ⟨0, 0, 0, 0, 0, 0, null_hash, item_state.None, 0, 0, none⟩

/-- A worker step on the page at `va` of address space 1, the new item, if one is made,
taking zero-filled storage. -/
def page_op (va pfn : Nat) (curr_hash : hash_pair) : engine_op :=
  engine_op.page zero_item 1 ⟨va, pfn⟩ curr_hash

/-- The value `MAX_PAGE_SHARING = 2` the specification uses as a test constant. -/
def test_params : ksm_params := ⟨2, true⟩

/-- The control block after a run from `initial_cb` (`initial_cb` itself when the run does
not return). -/
def cb_after (p : ksm_params) (ops : List engine_op) : rdma_cb :=
  match engine_run p initial_cb ops with
  | .ok cb => cb
  | .error _ => initial_cb

/-- First cycle of two pages with the same content: both items are created and keep the
hash of their page. -/
def first_cycle_pair : List engine_op :=
  [page_op 4096 10 hash_a, page_op 8192 20 hash_a, engine_op.prune, engine_op.next_cycle]

/-- Two cycles of two pages with the same content, then a third page with that content seen
for the first time: the first two items share a stable node, the third is Volatile and
holds the hash. -/
def pair_merged_third_seen : List engine_op :=
  first_cycle_pair ++
  [page_op 4096 10 hash_a, page_op 8192 20 hash_a, page_op 12288 30 hash_a,
   engine_op.prune, engine_op.next_cycle]

/-- `chain_from md start l`: following `chain.next` from the pointer `start` visits the live
nodes `l`, in that order, and then reaches `NULL`. -/
def chain_from (md : ksm_metadata) : Option Nat → List Nat → Prop
  | none, [] => True
  | none, _ :: _ => False
  | some _, [] => False
  | some a, b :: l => a = b ∧ ∃ n, node_at md a = some n ∧ chain_from md n.chain.next l

/-- A live node with room for one more sharer (`shared_cnt < MAX_PAGE_SHARING`). -/
def unsaturated (p : ksm_params) (md : ksm_metadata) (a : Nat) : Bool :=
  match node_at md a with
  | some n => decide (n.shared_cnt < (p.MAX_PAGE_SHARING : Int))
  | none => false

/-- Well-formedness of the chains and of the stable index.  For every live node: its
`chain.next`, when set, is a live node allocated later, whose `chain.prev` points back and
whose `page_hash` is the same; its `chain.prev`, when set, is a live node whose `chain.next`
points back; its type is `HEAD` exactly when it has no `chain.prev`.  Every value of the
stable index is a live node without `chain.prev` whose `page_hash` is the entry's hash.
Every state the engine reaches satisfies it (`reachable_chain_inv`). -/
def chain_inv (md : ksm_metadata) : Prop :=
  (∀ a < md.nodes.length, ∀ n ∈ node_at md a,
    (∀ b ∈ n.chain.next, a < b ∧
      ∃ m ∈ node_at md b, m.chain.prev = some a ∧ m.page_hash = n.page_hash) ∧
    (∀ c ∈ n.chain.prev, ∃ m ∈ node_at md c, m.chain.next = some a) ∧
    (n.chain.type = node_chain_type.HEAD ↔ n.chain.prev = none)) ∧
  (∀ e ∈ md.stable_hash_table,
    ∃ v ∈ node_at md e.2.2, v.page_hash = e.1 ∧ v.chain.prev = none)

instance (md : ksm_metadata) : Decidable (chain_inv md) := by
  unfold chain_inv
  infer_instance

/-- Two cycles of four pages with the same content. Under `test_params` the first two items
fill a HEAD node and the other two a CHAIN node. -/
def four_identical_pages : List engine_op :=
  [page_op 4096 10 hash_a, page_op 8192 20 hash_a, page_op 12288 30 hash_a,
   page_op 16384 40 hash_a, engine_op.prune, engine_op.next_cycle,
   page_op 4096 10 hash_a, page_op 8192 20 hash_a, page_op 12288 30 hash_a,
   page_op 16384 40 hash_a, engine_op.prune, engine_op.next_cycle]

/-- Two cycles of two pages with the same content: the two items share a stable node. -/
def pair_merged : List engine_op :=
  first_cycle_pair ++
  [page_op 4096 10 hash_a, page_op 8192 20 hash_a, engine_op.prune, engine_op.next_cycle]

/-- The pages `4096 * 1, ..., 4096 * n` of address space 1, all with the content of
`hash_a`, page `4096 * i` in frame `i`. -/
def identical_pages (n : Nat) : List engine_op :=
  (List.range n).map (fun i => page_op (4096 * (i + 1)) (i + 1) hash_a)

/-- The control block after a run from `cb` (`cb` itself when the run does not return). -/
def run_from (p : ksm_params) (cb : rdma_cb) (ops : List engine_op) : rdma_cb :=
  match engine_run p cb ops with
  | .ok cb1 => cb1
  | .error _ => cb

/-- A value of `MAX_PAGE_SHARING` under which the third identical page saturates the node
the first two made. -/
def three_params : ksm_params := ⟨3, true⟩

/-- Two cycles of five pages with the same content.  Steps 0 to 4 are the first cycle, steps
5 and 6 end it, steps 7 to 11 are the pages `4096`, ..., `20480` in the second cycle. -/
def five_identical_pages : List engine_op :=
  [page_op 4096 10 hash_a, page_op 8192 20 hash_a, page_op 12288 30 hash_a,
   page_op 16384 40 hash_a, page_op 20480 50 hash_a, engine_op.prune, engine_op.next_cycle,
   page_op 4096 10 hash_a, page_op 8192 20 hash_a, page_op 12288 30 hash_a,
   page_op 16384 40 hash_a, page_op 20480 50 hash_a]

/-- Sharer `i` of the node of `nearly_full_cb`: the item of page `4096 * (i + 1)`, `Stable`
in node 0. -/
def sharer_item (i : Nat) : rmap_item :=
  ⟨1, 1, 2, 4096 * (i + 1), 2, i + 1, hash_a, item_state.Stable, 0, 0, some 0⟩

/-- A control block in the second cycle with `MAX_PAGE_SHARING - 1 = 255` items `Stable` in
one HEAD node of hash `hash_a`, and two `Volatile` items, of the pages `4096 * 256` and
`4096 * 257`, that hold `hash_a` from the first cycle. -/
def nearly_full_cb : rdma_cb :=
  { metadata :=
      { rmap_tree := (List.range 255).map sharer_item ++
          [⟨1, 0, 1, 4096 * 256, 256, 0, hash_a, item_state.Volatile, 0, 0, none⟩,
           ⟨1, 0, 1, 4096 * 257, 257, 0, hash_a, item_state.Volatile, 0, 0, none⟩],
        nodes :=
          [some ⟨hash_a, 255, 2, (List.range 255).map (fun i => ((1 : Int), 4096 * (i + 1))),
            ⟨node_chain_type.HEAD, none, none⟩⟩],
        stable_hash_table := [(hash_a, 0, 0)],
        unstable_hash_table := [] },
    log_table := { entries := [], capacity := 1024 },
    iteration := 1,
    total_accessed_cnt := 255 }

/-- `chain_node_added md md1 h head a b`: from `md` to `md1` one node was allocated, in the
slot after the last one of `md`.  It has the type `CHAIN`, the hash `h`, no `chain.next`,
`shared_cnt = 2` and exactly the sharers `a` and `b`, which are `Stable` and point to it; it
is linked after the last node of the chain that starts at `head`, the value the stable index
holds for `h`, and the stable index is the one of `md`. -/
def chain_node_added (md md1 : ksm_metadata) (h : hash_pair) (head : Nat) (a b : item_key) :
    Prop :=
  ∃ chain tail nn ia ib,
    chain_from md (some head) chain ∧ chain.getLast? = some tail ∧
    node_at md md.nodes.length = none ∧
    md1.nodes.length = md.nodes.length + 1 ∧
    node_at md1 md.nodes.length = some nn ∧
    nn.chain = { type := node_chain_type.CHAIN, next := none, prev := some tail } ∧
    nn.page_hash = h ∧ nn.shared_cnt = 2 ∧
    (∀ k, k ∈ nn.sharing_item_tree ↔ k = a ∨ k = b) ∧
    chain_from md1 (some head) (chain ++ [md.nodes.length]) ∧
    md1.stable_hash_table = md.stable_hash_table ∧
    g_hash_table_lookup md1.stable_hash_table h = some head ∧
    item_at md1 a = .ok ia ∧ ia.state = item_state.Stable ∧
    ia.stable_node = some md.nodes.length ∧
    item_at md1 b = .ok ib ∧ ib.state = item_state.Stable ∧
    ib.stable_node = some md.nodes.length

/-- Storage as `malloc` may return it for a new item: the bytes of the field `stable_node`
hold the address of node 0, as an item of that node freed by `prune_rmap_tree` leaves them;
all other bytes are zero. -/
def stale_item : rmap_item := { zero_item with stable_node := some 0 }

/-- Two identical pages are merged into node 0 (frame 20); the page `12288` is then seen for
the first time and its item is made from `stale_item`; the host reports
`HOST_MERGE_ONE_FAILED` for that item and frame 20. -/
def stale_pointer_undo : List engine_op :=
  pair_merged ++
  [engine_op.page stale_item 1 ⟨12288, 30⟩ hash_a,
   engine_op.error_entry
     { type := HOST_MERGE_ONE_FAILED, from_va := 12288, kpfn := 20, from_mm_id := 1,
       shared_cnt := 0 }]

/-- The run `stale_pointer_undo` followed by `HOST_MERGE_ONE_FAILED` for the page `4096`,
one of the two sharers of node 0. -/
def stale_pointer_undo_twice : List engine_op :=
  stale_pointer_undo ++
  [engine_op.error_entry
     { type := HOST_MERGE_ONE_FAILED, from_va := 4096, kpfn := 20, from_mm_id := 1,
       shared_cnt := 0 }]

/-- Pages `4096` and `8192` hold the content of `hash_a`, pages `12288` and `16384` the
content of `hash_b`; after two cycles each pair shares a HEAD node (node 0 in frame 20, node
1 in frame 40).  In the third cycle the page `4096` is read in frame 20 with the content of
`hash_b`. -/
def rehash_onto_other_head : List engine_op :=
  [page_op 4096 10 hash_a, page_op 8192 20 hash_a, page_op 12288 30 hash_b,
   page_op 16384 40 hash_b, engine_op.prune, engine_op.next_cycle,
   page_op 4096 10 hash_a, page_op 8192 20 hash_a, page_op 12288 30 hash_b,
   page_op 16384 40 hash_b, engine_op.prune, engine_op.next_cycle,
   page_op 4096 20 hash_b]

/-- The values of `server.h` with the flag `no_skip_opt` given: skip optimisation off. -/
def no_skip_params : ksm_params := ⟨256, false⟩

/-- One page seen in four cycles: with the content of `hash_a`, then twice with the content
of `hash_b`, then with the content of `hash_a` again.  After the third cycle the item has
`volatility_score = 0` and `skip_cnt = 4`. -/
def calm_item_with_skips : List engine_op :=
  [page_op 4096 10 hash_a, engine_op.prune, engine_op.next_cycle,
   page_op 4096 10 hash_b, engine_op.prune, engine_op.next_cycle,
   page_op 4096 10 hash_b, engine_op.prune, engine_op.next_cycle,
   page_op 4096 10 hash_a]

/-- Metadata with one `Volatile` item, of page `4096`, that holds `hash_a` and whose
`volatility_score` is 65535, the largest value of an `unsigned short`. -/
def volatility_at_max : ksm_metadata :=
  { rmap_tree := [⟨1, 1, 2, 4096, 10, 0, hash_a, item_state.Volatile, 65535, 0, none⟩],
    nodes := [], stable_hash_table := [], unstable_hash_table := [] }

/-- Three identical pages: the first two share node 0 (frame 20) after the second cycle, and
the third joins it in the third cycle, in which the first two are read in frame 20. -/
def three_sharers : List engine_op :=
  pair_merged_third_seen ++
  [page_op 4096 20 hash_a, page_op 8192 20 hash_a, page_op 12288 30 hash_a,
   engine_op.prune, engine_op.next_cycle]

/-- The record `HOST_MERGE_ONE_FAILED` for the page `va` of address space 1 and frame 20. -/
def merge_one_failed (va : Nat) : ksm_event_log :=
  { type := HOST_MERGE_ONE_FAILED, from_va := va, kpfn := 20, from_mm_id := 1, shared_cnt := 0 }

/-! ## The error table -/

/-- Conversion to `int`. -/
def to_int (x : Int) : Int := (x + 2147483648) % 4294967296 - 2147483648

/-- The value of `sizeof(struct ksm_event_log)`: the tag padded to 8 bytes and a union of
24 bytes. -/
def sizeof_ksm_event_log : Nat := 32

/-- The macro `DIV_ROUND_UP(n, d)`, `(((n) + (d) - 1) / (d))`, on `unsigned long`. -/
def DIV_ROUND_UP (n d : Nat) : Nat := (n + d - 1) % 18446744073709551616 / d

/-- The fields `total_cnt` and `desc_cnt` of `struct error_table_descriptor`.  The keys and
addresses of `entries` are represented by the memory the regions are read from. -/
structure error_table_descriptor where
  total_cnt : Int
  desc_cnt : Int
deriving DecidableEq, Repr

/-- The loop `for (j = 0; j < this_log_cnt; j++)` of `do_handle_error` over the records of
the buffer `buf` read from one region; the first argument is the number of iterations left,
`this_log_cnt - j`. -/
def handle_error_records (buf : Nat → ksm_event_log) :
    Nat → Nat → ksm_metadata → ksm_log_table → Except fault (ksm_metadata × ksm_log_table)
  | 0, _, md, log_table => .ok (md, log_table)
  | left + 1, j, md, log_table => do
    let handled ← do_handle_error_entry md log_table (buf j)
    handle_error_records buf left (j + 1) handled.1 handled.2

/-- The value `this_sgl_size` (an `unsigned long`) of iteration `i` of `do_handle_error`:
`i == (et_desc->desc_cnt - 1) ? total_sgl_entries - i * MAX_PAGES_IN_SGL : MAX_PAGES_IN_SGL`. -/
def this_sgl_size (et_desc : error_table_descriptor) (total_sgl_entries i : Nat) : Nat :=
  if (i : Int) = et_desc.desc_cnt - 1 then
    to_ulong ((total_sgl_entries : Int) - to_int ((i : Int) * (MAX_PAGES_IN_SGL : Int)))
  else MAX_PAGES_IN_SGL

/-- The value `this_log_cnt` (an `int`) of `do_handle_error`:
`MIN(total_log_cnt, this_sgl_size * PAGE_SIZE / sizeof(struct ksm_event_log))`, compared in
`unsigned long`. -/
def this_log_cnt (total_log_cnt : Int) (sgl_size : Nat) : Int :=
  to_int
    (if to_ulong total_log_cnt <
        sgl_size * PAGE_SIZE % 18446744073709551616 / sizeof_ksm_event_log
      then to_ulong total_log_cnt
      else sgl_size * PAGE_SIZE % 18446744073709551616 / sizeof_ksm_event_log)

/-- The loop `for (i = 0; i < et_desc->desc_cnt; i++)` of `do_handle_error`; the first
argument is the number of iterations left, `desc_cnt - i`.  `remote i j` is the record at
byte offset `32 * j` of the region `entries[i]`, which `rdma_read_memory` copies into `buf`;
`malloc`, `ibv_reg_mr` and `rdma_read_memory` are taken to succeed. -/
def handle_error_regions (et_desc : error_table_descriptor)
    (remote : Nat → Nat → ksm_event_log) (total_sgl_entries : Nat) :
    Nat → Nat → Int → ksm_metadata → ksm_log_table →
      Except fault (ksm_metadata × ksm_log_table)
  | 0, _, _, md, log_table => .ok (md, log_table)
  | left + 1, i, total_log_cnt, md, log_table => do
    let log_cnt := this_log_cnt total_log_cnt (this_sgl_size et_desc total_sgl_entries i)
    let handled ← handle_error_records (remote i) log_cnt.toNat 0 md log_table
    handle_error_regions et_desc remote total_sgl_entries left (i + 1)
      (to_int (total_log_cnt - log_cnt)) handled.1 handled.2

/-- The function `do_handle_error` on the descriptor `et_desc` and the memory `remote` of
the regions it names. -/
def do_handle_error (md : ksm_metadata) (log_table : ksm_log_table)
    (et_desc : error_table_descriptor) (remote : Nat → Nat → ksm_event_log) :
    Except fault (ksm_metadata × ksm_log_table) :=
  handle_error_regions et_desc remote
    (DIV_ROUND_UP (to_ulong (et_desc.total_cnt * (sizeof_ksm_event_log : Int))) PAGE_SIZE)
    et_desc.desc_cnt.toNat 0 et_desc.total_cnt md log_table

/-- The descriptor `rdma_register_error_table` sends for a table of `n` records:
`total_entries = DIV_ROUND_UP (n * 32, PAGE_SIZE)` pages in
`sgl_num = DIV_ROUND_UP (total_entries, MAX_PAGES_IN_SGL)` regions. -/
def host_error_descriptor (n : Nat) : error_table_descriptor :=
  { total_cnt := n,
    desc_cnt :=
      DIV_ROUND_UP (DIV_ROUND_UP (n * sizeof_ksm_event_log) PAGE_SIZE) MAX_PAGES_IN_SGL }

/-- The regions `rdma_register_error_table` maps for the table `records` kept in one piece:
page `q` of region `sgl_idx` is the page of the table that starts at the record
`entry_pos = (PAGE_SIZE / 32) * (sgl_idx * MAX_PAGES_IN_SGL + q)`.  `pad` is what the
storage behind the last record holds. -/
def host_error_regions (records : List ksm_event_log) (pad : ksm_event_log)
    (sgl_idx j : Nat) : ksm_event_log :=
  records.getD (PAGE_SIZE / sizeof_ksm_event_log * (sgl_idx * MAX_PAGES_IN_SGL) + j) pad

/-- The records of a table applied one after the other: each once, in table order. -/
def apply_error_records : ksm_metadata → ksm_log_table → List ksm_event_log →
    Except fault (ksm_metadata × ksm_log_table)
  | md, log_table, [] => .ok (md, log_table)
  | md, log_table, entry :: rest => do
    let handled ← do_handle_error_entry md log_table entry
    apply_error_records handled.1 handled.2 rest

/-- The record `HOST_STALE_STABLE_NODE` for frame 20, last seen at the page `4096` of address
space 1. -/
def host_stale_node : ksm_event_log :=
  { type := HOST_STALE_STABLE_NODE, from_va := 4096, kpfn := 20, from_mm_id := 1,
    shared_cnt := 0 }

/-- Two pages with different contents, scanned in two cycles: in the second cycle each item
finds its hash unchanged and no partner, and waits in the unstable index. -/
def one_unstable_item : List engine_op :=
  [page_op 4096 10 hash_a, page_op 8192 20 hash_b, engine_op.prune, engine_op.next_cycle,
   page_op 4096 10 hash_a, page_op 8192 20 hash_b]

/-! ## Pre-computed page hashes -/

def PRE_HASH_NUM : Nat := 16384

/-- The globals `lookup_pre_hash_pair` reads: the flag `pre_hash_opt` (`PRE_HASH_ON`), the
pointer `pre_hash_pair_table_base_ptr`, the `atomic_int pre_hash_pair_curr_idx` and the
slots of `pre_hash_pair_chunk`. -/
structure pre_hash_table where
  pre_hash_opt : Bool
  pre_hash_pair_table_base_ptr : Nat
  pre_hash_pair_curr_idx : Int
  pre_hash_pair_chunk : Nat → hash_pair

/-- The `len` bytes of the memory `mem` from the address `addr`. -/
def read_bytes (mem : Nat → Nat) (addr len : Nat) : List Nat :=
  (List.range len).map (fun i => mem (addr + i))

/-- The two statements `hash.first_hash = XXH3_128bits_withSeed (&page_buf[0], 2048, 0);
hash.second_hash = XXH3_128bits_withSeed (&page_buf[2048], 2048, 0)`, which
`calculate_hash_pair` and `pre_hash_worker` share.  The library function is the parameter
`XXH3_128bits_withSeed`, from the bytes and the seed. -/
def hash_page (XXH3_128bits_withSeed : List Nat → Nat → XXH128_hash_t) (mem : Nat → Nat)
    (page_buf : Nat) : hash_pair :=
  { first_hash := XXH3_128bits_withSeed (read_bytes mem page_buf 2048) 0,
    second_hash := XXH3_128bits_withSeed (read_bytes mem (page_buf + 2048) 2048) 0 }

/-- The function `lookup_pre_hash_pair`: the slot of the chunk it returns a pointer to, or
`NULL`.  `page_idx` is an `unsigned long`, compared with `idx` converted to that type;
`debug_stop` does not return. -/
def lookup_pre_hash_pair (t : pre_hash_table) (page_buf : Nat) : Except fault (Option Nat) :=
  if !t.pre_hash_opt then .ok none
  else
    let page_idx : Nat :=
      to_ulong ((page_buf : Int) - (t.pre_hash_pair_table_base_ptr : Int)) / PAGE_SIZE
    let idx : Int := t.pre_hash_pair_curr_idx
    if page_idx ≥ PRE_HASH_NUM then .error fault.stop
    else if page_idx < to_ulong idx then .ok (some page_idx)
    else .ok none

/-- The function `calculate_hash_pair`. -/
def calculate_hash_pair (XXH3_128bits_withSeed : List Nat → Nat → XXH128_hash_t)
    (mem : Nat → Nat) (t : pre_hash_table) (page_buf : Nat) : Except fault hash_pair := do
  match ← lookup_pre_hash_pair t page_buf with
  | some pre_hash => .ok (t.pre_hash_pair_chunk pre_hash)
  | none => .ok (hash_page XXH3_128bits_withSeed mem page_buf)

/-- The assignments of `start_pre_hash_pair_table (base_ptr, max_idx)` followed by the
`memset` of the chunk in `pre_hash_worker`. -/
def start_pre_hash_pair_table (t : pre_hash_table) (base_ptr : Nat) : pre_hash_table :=
  { t with
    pre_hash_pair_table_base_ptr := base_ptr,
    pre_hash_pair_curr_idx := 0,
    pre_hash_pair_chunk := fun _ => null_hash }

/-- The iterations `i, i + 1, ..` of the loop of `pre_hash_worker` that is not stopped; the
first argument counts the iterations left.  Each fills the slot `i` with the hashes of the
page `base_ptr + i * PAGE_SIZE` and then adds one to `pre_hash_pair_curr_idx`. -/
def pre_hash_worker (XXH3_128bits_withSeed : List Nat → Nat → XXH128_hash_t)
    (mem : Nat → Nat) : Nat → Nat → pre_hash_table → pre_hash_table
  | 0, _, t => t
  | left + 1, i, t =>
    pre_hash_worker XXH3_128bits_withSeed mem left (i + 1)
      { t with
        pre_hash_pair_chunk := fun j =>
          if j = i then
            hash_page XXH3_128bits_withSeed mem (t.pre_hash_pair_table_base_ptr + i * PAGE_SIZE)
          else t.pre_hash_pair_chunk j,
        pre_hash_pair_curr_idx := to_int (t.pre_hash_pair_curr_idx + 1) }

/-- A stand-in for the hash function in examples: the sum of the bytes and the seed. -/
def byte_sum (bytes : List Nat) (seed : Nat) : XXH128_hash_t := ⟨bytes.sum, seed⟩

/-- The pre-hash state of a batch at address 65536 of which the worker has hashed the first
two pages, over a memory whose byte at `a` is `a % 251`. -/
def two_pages_hashed : pre_hash_table :=
  pre_hash_worker byte_sum (fun a => a % 251) 2 0
    (start_pre_hash_pair_table ⟨true, 0, 0, fun _ => null_hash⟩ 65536)

/-! ## Items, sharers trees and the unstable index along a cycle -/

/-- Whether `k` is in the sharers tree of one of the live nodes `l`. -/
def chain_sharer (md : ksm_metadata) (l : List Nat) (k : item_key) : Bool :=
  l.any (fun a =>
    match node_at md a with
    | some n => decide (k ∈ n.sharing_item_tree)
    | none => false)

/-- Consistency of the items with the sharers trees and the unstable index.  Every key in
the sharers tree of a live node is the key of a `Stable` item whose `stable_node` is that
node; every `Unstable` item, except the item `x` when there is one, is a value of the
unstable index; every value of the unstable index is an `Unstable` item of the rmap tree
that holds the hash of its entry; no two entries of the unstable index have the same hash
and different values; `x` is no value of the index.  With no excepted item it holds in every
state of the scan of a cycle (`scan_end_items_inv`). -/
def items_inv_but (md : ksm_metadata) (x : Option item_key) : Prop :=
  (∀ a n, node_at md a = some n → ∀ k ∈ n.sharing_item_tree,
    ∃ it, item_at md k = .ok it ∧ it.state = item_state.Stable ∧ it.stable_node = some a) ∧
  (∀ k it, item_at md k = .ok it → it.state = item_state.Unstable →
    x = some k ∨ ∃ e ∈ md.unstable_hash_table, e.2.2 = k) ∧
  (∀ e ∈ md.unstable_hash_table,
    ∃ it, item_at md e.2.2 = .ok it ∧ it.state = item_state.Unstable ∧ it.old_hash = e.1) ∧
  (∀ e1 ∈ md.unstable_hash_table, ∀ e2 ∈ md.unstable_hash_table,
    e1.1 = e2.1 → e1.2.2 = e2.2.2) ∧
  (∀ e ∈ md.unstable_hash_table, x ≠ some e.2.2)

/-- The consistency `items_inv_but` without an excepted item. -/
def items_inv (md : ksm_metadata) : Prop := items_inv_but md none

/-- A change of the nodes only: the rmap tree and the unstable index of `md1` are those of
`md`, and every key in a sharers tree of `md1` is in the sharers tree of the same node of
`md`. -/
def sharers_within (md md1 : ksm_metadata) : Prop :=
  md1.rmap_tree = md.rmap_tree ∧ md1.unstable_hash_table = md.unstable_hash_table ∧
  ∀ a n1, node_at md1 a = some n1 → ∀ k ∈ n1.sharing_item_tree,
    ∃ n, node_at md a = some n ∧ k ∈ n.sharing_item_tree

/-- Whether a step is a worker step on a page. -/
def is_page_op : engine_op → Bool
  | engine_op.page _ _ _ _ => true
  | _ => false

/-- Whether a step is a record of the error table. -/
def is_error_op : engine_op → Bool
  | engine_op.error_entry _ => true
  | _ => false

/-- The steps of one cycle of the main loop, from the records `c.1` of the error table
(`do_handle_error`) and the pages `c.2` of the scan (`do_ksm_v3`): the records, the pages,
`prune_metadata`, and the passage to the next cycle. -/
def cycle_ops (c : List engine_op × List engine_op) : List engine_op :=
  c.1 ++ (c.2 ++ [engine_op.prune, engine_op.next_cycle])

/-- The states at the end of the scan of a cycle, before `prune_metadata`: the engine has
run whole cycles from the initial control block, then the records of the error table and the
pages of the current cycle. -/
def ScanEnd (p : ksm_params) (cb : rdma_cb) : Prop :=
  ∃ (cycles : List (List engine_op × List engine_op)) (errors pages : List engine_op),
    (∀ c ∈ cycles, (∀ op ∈ c.1, is_error_op op = true) ∧ ∀ op ∈ c.2, is_page_op op = true) ∧
    (∀ op ∈ errors, is_error_op op = true) ∧ (∀ op ∈ pages, is_page_op op = true) ∧
    engine_run p initial_cb
      (cycles.foldr (fun c ops => cycle_ops c ++ ops) (errors ++ pages)) = .ok cb

/-! ## The bound on the volatility score -/

/-- The bound on `volatility_score` that keeps `volatility_score += 1` exact on an item that
leaves a stable node: the field is within its width, and below 65535 on an item that is not
`Volatile`. -/
def volatility_bounded (it : rmap_item) : Prop :=
  it.volatility_score ≤ 65535 ∧
  (it.state ≠ item_state.Volatile → it.volatility_score ≤ 65534)

/-- Every item of the rmap tree is `volatility_bounded`. -/
def volatility_inv (md : ksm_metadata) : Prop :=
  ∀ k it, item_at md k = .ok it → volatility_bounded it

/-! ## A page that changes in every cycle -/

/-- The content of the page of `changing_page` in cycle `i`: that of `hash_a` and that of
`hash_b` in turn. -/
def changing_hash (i : Nat) : hash_pair := if i % 2 = 0 then hash_a else hash_b

/-- The cycles `0, .., n - 1` of a run on one page, in frame 10, whose content changes from
every cycle to the next. -/
def changing_page : Nat → List engine_op
  | 0 => []
  | n + 1 =>
    changing_page n ++
      [page_op 4096 10 (changing_hash n), engine_op.prune, engine_op.next_cycle]

/-- The control block after the cycles `0, .., n` of `changing_page` with the skip
optimisation disabled: the item has seen `n` changes. -/
def changed_cb (n : Nat) : rdma_cb :=
  { metadata :=
      { rmap_tree :=
          [⟨1, to_short n, to_short (n + 1), 4096, 10, 0, changing_hash n,
            item_state.Volatile, n % 65536, 0, none⟩],
        nodes := [], stable_hash_table := [], unstable_hash_table := [] },
    log_table := { entries := [], capacity := 1024 },
    iteration := n + 1,
    total_accessed_cnt := 0 }

/-- The shape of the log table the engine keeps: the capacity is the initial 1024 doubled
some number of times, and the count is within the capacity. -/
def log_table_inv (t : ksm_log_table) : Prop :=
  (∃ k : Nat, t.capacity = 1024 * 2 ^ k) ∧ t.cnt ≤ t.capacity

/-! ## Page windows of a shadow page table -/

def MAX_PAGES_DESCS : Nat := 512

/-- The `struct desc_entry` of one page window: the key and the address `rdma_read_memory`
reads the pages of the window from. -/
structure desc_entry where
  pages_rkey : Nat
  pages_base_addr : Nat
deriving DecidableEq, Repr

/-- The fields of `struct shadow_pt_descriptor` the window loop of `do_ksm_v3` reads:
`mm_id`, the array `desc_entries[MAX_PAGES_DESCS]` and the `uint64_t entry_cnt`. -/
structure shadow_pt_descriptor where
  mm_id : Int
  desc_entries : List desc_entry
  entry_cnt : Nat
deriving DecidableEq, Repr

/-- The fields of `struct worker_job` that `do_ksm_v3` sets for one window, the page buffer
left out: `mm_id`, the `uint64_t` values `num_pages` and `idx_adjust`, `rkey` and
`pages_addr`. -/
structure worker_job where
  mm_id : Int
  num_pages : Nat
  idx_adjust : Nat
  rkey : Nat
  pages_addr : Nat
deriving DecidableEq, Repr

/-- The value `int sgl_nums = DIV_ROUND_UP(pt->entry_cnt, MAX_PAGES_IN_SGL)` of
`do_ksm_v3`. -/
def sgl_nums (entry_cnt : Nat) : Int :=
  to_int (DIV_ROUND_UP entry_cnt MAX_PAGES_IN_SGL)

/-- The value `this_sgl_size` (an `unsigned long long`) of the window `sgl_idx` of
`do_ksm_v3`:
`sgl_idx == (sgl_nums - 1) ? pt->entry_cnt - sgl_idx * MAX_PAGES_IN_SGL : MAX_PAGES_IN_SGL`,
the product being an `int`. -/
def page_sgl_size (entry_cnt : Nat) (nums : Int) (sgl_idx : Nat) : Nat :=
  if (sgl_idx : Int) = nums - 1 then
    to_ulong ((entry_cnt : Int) - to_int ((sgl_idx : Int) * (MAX_PAGES_IN_SGL : Int)))
  else MAX_PAGES_IN_SGL

/-- The job `do_ksm_v3` hands to the worker for the window `sgl_idx`, read from
`desc_entries[sgl_idx]`. -/
def window_job (pt_desc : shadow_pt_descriptor) (nums : Int) (sgl_idx : Nat)
    (d : desc_entry) : worker_job :=
  { mm_id := pt_desc.mm_id,
    num_pages := page_sgl_size pt_desc.entry_cnt nums sgl_idx,
    idx_adjust := to_ulong (to_int ((sgl_idx : Int) * (MAX_PAGES_IN_SGL : Int))),
    rkey := d.pages_rkey,
    pages_addr := d.pages_base_addr }

/-- The loop `for (int sgl_idx = 0; sgl_idx < sgl_nums; sgl_idx++)` of `do_ksm_v3`, as the
jobs it hands to the worker one after the other; the first argument is the number of
iterations left, `sgl_nums - sgl_idx`.  An index past the array `desc_entries` is a bad
pointer; `malloc`, `ibv_reg_mr` and `rdma_read_memory` are taken to succeed. -/
def do_ksm_v3_windows (pt_desc : shadow_pt_descriptor) (nums : Int) :
    Nat → Nat → Except fault (List worker_job)
  | 0, _ => .ok []
  | left + 1, sgl_idx =>
    match pt_desc.desc_entries[sgl_idx]? with
    | none => .error fault.bad_pointer
    | some d => do
      let rest ← do_ksm_v3_windows pt_desc nums left (sgl_idx + 1)
      .ok (window_job pt_desc nums sgl_idx d :: rest)

/-- The entry `va2dma_map[idx]` of the buffer of `entry_cnt` entries that `do_ksm_v3`
allocates and fills with the RDMA read of the shadow page table; `remote_map` is the memory
of the host at `pt_base_addr`.  An index past the buffer is a bad pointer. -/
def va2dma_map_entry (entry_cnt : Nat) (remote_map : Nat → shadow_pte) (idx : Nat) :
    Except fault shadow_pte :=
  if idx < entry_cnt then .ok (remote_map idx) else .error fault.bad_pointer

/-- The body of the loop of `do_ksm_v3` for one shadow page table, as the jobs it hands to
the worker.  After the read of the map, `if (pt->va2dma_map[0].va == 0) return -1`
("Invalid page table read") ends `do_ksm_v3` before any window: the result is then `none`.
Otherwise the window loop runs.  `malloc`, `calloc`, `ibv_reg_mr` and the RDMA reads are
taken to succeed. -/
def do_ksm_v3_jobs (pt_desc : shadow_pt_descriptor) (remote_map : Nat → shadow_pte) :
    Except fault (Option (List worker_job)) := do
  let first ← va2dma_map_entry pt_desc.entry_cnt remote_map 0
  if first.va = 0 then .ok none
  else
    let jobs ← do_ksm_v3_windows pt_desc (sgl_nums pt_desc.entry_cnt)
      (sgl_nums pt_desc.entry_cnt).toNat 0
    .ok (some jobs)

/-- The loop `for (i = 0; i < work->num_pages; i++)` of `ksm_page_worker` on one job: the
page at byte offset `i * PAGE_SIZE` of the buffer is processed with the entry
`va2dma_map[idx]`, `idx = work->idx_adjust + i` (a `uint64_t`).  The pairs `(i, idx)` in the
order of the iterations. -/
def ksm_page_worker_pairs (work : worker_job) : List (Nat × Nat) :=
  (List.range work.num_pages).map
    (fun i => (i, (work.idx_adjust + i) % 18446744073709551616))

/-- The map indices `idx` the worker processes for the jobs of a shadow page table, in the
order it processes them. -/
def scanned_indices (jobs : List worker_job) : List Nat :=
  jobs.flatMap (fun work => (ksm_page_worker_pairs work).map Prod.snd)

/-- A descriptor of 70000 entries, with 512 window entries whose keys are their positions. -/
def two_window_table : shadow_pt_descriptor :=
  { mm_id := 1,
    desc_entries := (List.range 512).map (fun i => ⟨i, 4096 * i⟩),
    entry_cnt := 70000 }

/-- A shadow page table in host memory whose entry `i` maps the page `4096 * (i + 1)` to the
frame `100 + i`. -/
def pages_from_4096 (i : Nat) : shadow_pte := ⟨4096 * (i + 1), 100 + i⟩

/-- A shadow page table in host memory whose entry `i` maps the page `4096 * i` to the frame
`100 + i`: its first entry has `va = 0`. -/
def pages_from_0 (i : Nat) : shadow_pte := ⟨4096 * i, 100 + i⟩

/-- A descriptor of `512 * 65536 + 1` entries, one more than its 512 window entries
describe. -/
def oversized_table : shadow_pt_descriptor :=
  { mm_id := 1,
    desc_entries := (List.range 512).map (fun i => ⟨i, 4096 * i⟩),
    entry_cnt := 33554433 }

/-! ## The legacy compare-and-merge path -/

/-- The pfn-mismatch branch of `case Stable` of `cmp_and_merge_one_old`, up to the
`goto again`: as in `cmp_and_merge_one`, without the statement `volatility_score += 1`. -/
def detach_stable_old (md : ksm_metadata) (log_table : ksm_log_table) (curr_item : item_key)
    (curr_node : Nat) : Except fault (ksm_metadata × ksm_log_table) := do
  let md1 ← remove_item_from_node md curr_node curr_item
  let md2 ← modify_item md1 curr_item reset_item_state
  let item ← item_at md2 curr_item
  let node ← deref_node md2 curr_node
  if node.shared_cnt = 0 then remove_stale_node_and_log md2 log_table curr_node item
  else do
    let log1 ← log_item_state_change log_table item node
    .ok (md2, log1)

/-- The `case Volatile` of `cmp_and_merge_one_old`: the stable index is searched first,
whatever `old_hash` holds; there is no `age`, no skip and no `volatility_score`. -/
def cmp_and_merge_volatile_old (p : ksm_params) (md : ksm_metadata)
    (log_table : ksm_log_table) (curr_hash : hash_pair) (curr_item : item_key) :
    Except fault (ksm_metadata × ksm_log_table) := do
  match ← cmp_with_stable p md curr_hash with
  | some stable_node => merge_stable p md log_table curr_item stable_node
  | none =>
    let item ← item_at md curr_item
    if compare_hash_pair_equal item.old_hash curr_hash then
      let md1 ← modify_item md curr_item (set_old_hash curr_hash)
      let found ← cmp_with_unstable md1 curr_item
      match found.1 with
      | some unstable_node =>
        let partner ← item_at found.2 unstable_node
        if !compare_hash_pair_equal partner.old_hash curr_hash then .error fault.stop
        else promote_unstable found.2 log_table curr_hash curr_item unstable_node
      | none =>
        let md2 ← modify_item found.2 curr_item
          (fun i => set_state item_state.Unstable (set_old_hash curr_hash i))
        let md3 ← insert_unstable_node md2 curr_item
        .ok (md3, log_table)
    else
      let md1 ← modify_item md curr_item (set_old_hash curr_hash)
      .ok (md1, log_table)

/-- The function `cmp_and_merge_one_old`. -/
def cmp_and_merge_one_old (p : ksm_params) (md : ksm_metadata) (log_table : ksm_log_table)
    (curr_hash : hash_pair) (curr_item : item_key) :
    Except fault (ksm_metadata × ksm_log_table) := do
  let item ← item_at md curr_item
  match item.state with
  | item_state.None => .error fault.stop
  | item_state.Unstable => .error fault.stop
  | item_state.Volatile => cmp_and_merge_volatile_old p md log_table curr_hash curr_item
  | item_state.Stable =>
    match item.stable_node with
    | none => .error fault.bad_pointer
    | some curr_node =>
      let node ← deref_node md curr_node
      if node.pfn ≠ item.pfn then
        let detached ← detach_stable_old md log_table curr_item curr_node
        cmp_and_merge_volatile_old p detached.1 detached.2 curr_hash curr_item
      else
        let md1 ← refresh_stable md curr_hash item curr_node
        .ok (md1, log_table)

/-- A page that changes twice and then keeps its content, and a second page that always
has that content: in the fourth cycle the first page is promoted with the second into
node 0, with `volatility_score = 1`. -/
def volatile_then_merged : List engine_op :=
  [page_op 8192 20 hash_a, page_op 4096 10 hash_a, engine_op.prune, engine_op.next_cycle,
   page_op 8192 20 hash_a, page_op 4096 10 hash_b, engine_op.prune, engine_op.next_cycle,
   page_op 8192 20 hash_a, page_op 4096 10 hash_a, engine_op.prune, engine_op.next_cycle,
   page_op 8192 20 hash_a, page_op 4096 10 hash_a, engine_op.prune, engine_op.next_cycle]

/-- Metadata in which the one sharer of node 0 holds `hash_a` while the node has
`page_hash = hash_b`. -/
def diverged_sharer : ksm_metadata :=
  { rmap_tree := [⟨1, 1, 2, 4096, 20, 10, hash_a, item_state.Stable, 0, 0, some 0⟩],
    nodes := [some ⟨hash_b, 1, 20, [(1, 4096)], ⟨node_chain_type.HEAD, none, none⟩⟩],
    stable_hash_table := [(hash_b, 0, 0)],
    unstable_hash_table := [] }

/-- Storage that `malloc` hands out again after `prune_rmap_tree` has freed the item of the
page `12288`, which had `volatility_score = 7` and `skip_cnt = 3`. -/
def used_storage : rmap_item :=
  ⟨1, 2, 9, 12288, 30, 0, hash_b, item_state.Volatile, 7, 3, none⟩

/-! ## A run that reaches cycle 32768 -/

/-- The item a worker step leaves for a page of address space 1 that is seen for the first
time in cycle `iteration`, when the item is made from zero-filled storage. -/
def fresh_item (iteration : Int) (va pfn : Nat) (h : hash_pair) : rmap_item :=
  ⟨1, to_short iteration, 1, va, pfn, 0, h, item_state.Volatile, 0, 0, none⟩

/-- A control block with the items `tree`, no stable node, empty indexes and an empty log. -/
def scan_cb (tree : List rmap_item) (iteration : Int) (accessed : Nat) : rdma_cb :=
  { metadata :=
      { rmap_tree := tree, nodes := [], stable_hash_table := [], unstable_hash_table := [] },
    log_table := { entries := [], capacity := 1024 },
    iteration := iteration,
    total_accessed_cnt := accessed }

/-- The steps of `n` cycles in which the host sends no shadow page table. -/
def idle_cycles : Nat → List engine_op
  | 0 => []
  | n + 1 => engine_op.prune :: engine_op.next_cycle :: idle_cycles n

/-- The worker steps on a shadow page table of `n` pages: page `i` is at `8192 + 4096 * i`,
in frame `100 + i`, and has the content of `hash_a`. -/
def burst_pages (n : Nat) : List engine_op :=
  (List.range n).map (fun i => page_op (8192 + 4096 * i) (100 + i) hash_a)

/-- The items of the pages of `burst_pages n` when they are first seen in cycle
`iteration`. -/
def burst_tree (iteration : Int) (n : Nat) : List rmap_item :=
  (List.range n).map (fun i => fresh_item iteration (8192 + 4096 * i) (100 + i) hash_a)

/-- A run of 32767 idle cycles and of cycle 32767, in which 1001 pages are seen for the
first time. -/
def run_to_cycle_32768 : List engine_op :=
  idle_cycles 32767 ++ (burst_pages 1001 ++ [engine_op.prune, engine_op.next_cycle])

/-- Two identical pages are merged into node 0 (frame 20) in two cycles; in the third cycle
the page `12288` is seen for the first time and its item is made from `stale_item`; the
cycle ends. -/
def stale_pointer_seen : List engine_op :=
  pair_merged ++
  [engine_op.page stale_item 1 ⟨12288, 30⟩ hash_a, engine_op.prune, engine_op.next_cycle]

/-! ## Basic facts about keys, items and nodes -/

theorem compare_hash_pair_equal_iff (a b : hash_pair) :
    compare_hash_pair_equal a b = true ↔ a = b := by
  rcases a with ⟨⟨a1, a2⟩, ⟨a3, a4⟩⟩
  rcases b with ⟨⟨b1, b2⟩, ⟨b3, b4⟩⟩
  simp [compare_hash_pair_equal]
  tauto

theorem rmap_item_compare_eq_zero_iff (a b : item_key) :
    rmap_item_compare a b = 0 ↔ a = b := by
  rcases a with ⟨a1, a2⟩
  rcases b with ⟨b1, b2⟩
  unfold rmap_item_compare
  simp only [Prod.mk.injEq]
  split_ifs with h1 h2 h3 h4
  · simp; omega
  · simp; omega
  · simp; omega
  · simp; omega
  · simp; omega

theorem g_tree_lookup_eq (tree : List rmap_item) (k : item_key) :
    g_tree_lookup tree k = tree.find? (fun x => decide (x.key = k)) := by
  unfold g_tree_lookup
  congr 1
  funext x
  simp [rmap_item_compare_eq_zero_iff]

theorem g_tree_lookup_key {tree : List rmap_item} {k : item_key} {item : rmap_item}
    (h : g_tree_lookup tree k = some item) : item.key = k := by
  rw [g_tree_lookup_eq] at h
  simpa using List.find?_some h

theorem set_item_rmap_tree (md : ksm_metadata) (item : rmap_item) :
    (set_item md item).rmap_tree =
      md.rmap_tree.map (fun x => if x.key = item.key then item else x) := by
  unfold set_item
  simp [rmap_item_compare_eq_zero_iff]

theorem lookup_map_same (tree : List rmap_item) (item : rmap_item) :
    (tree.map (fun x => if x.key = item.key then item else x)).find?
        (fun x => decide (x.key = item.key)) =
      (tree.find? (fun x => decide (x.key = item.key))).map (fun _ => item) := by
  induction tree with
  | nil => rfl
  | cons x xs ih =>
    by_cases hx : x.key = item.key
    · simp [List.find?_cons, hx]
    · simp [List.find?_cons, hx, ih]

theorem lookup_map_ne (tree : List rmap_item) (item : rmap_item) (k : item_key)
    (hk : item.key ≠ k) :
    (tree.map (fun x => if x.key = item.key then item else x)).find?
        (fun x => decide (x.key = k)) =
      tree.find? (fun x => decide (x.key = k)) := by
  induction tree with
  | nil => rfl
  | cons x xs ih =>
    rw [List.map_cons, List.find?_cons, List.find?_cons, ih]
    by_cases hx : x.key = item.key
    · have hxk : x.key ≠ k := by rw [hx]; exact hk
      rw [if_pos hx]
      simp [hk, hxk]
    · rw [if_neg hx]

theorem item_at_eq (md : ksm_metadata) (k : item_key) (item : rmap_item) :
    item_at md k = .ok item ↔ g_tree_lookup md.rmap_tree k = some item := by
  unfold item_at
  cases g_tree_lookup md.rmap_tree k <;> simp

theorem item_at_set_item_same {md : ksm_metadata} {item0 item : rmap_item}
    (h : item_at md item.key = .ok item0) : item_at (set_item md item) item.key = .ok item := by
  rw [item_at_eq] at h ⊢
  rw [g_tree_lookup_eq] at h ⊢
  rw [set_item_rmap_tree, lookup_map_same, h]
  rfl

theorem item_at_set_item_ne (md : ksm_metadata) (item : rmap_item) (k : item_key)
    (hk : item.key ≠ k) : item_at (set_item md item) k = item_at md k := by
  unfold item_at
  rw [g_tree_lookup_eq, g_tree_lookup_eq, set_item_rmap_tree, lookup_map_ne _ _ _ hk]

theorem node_at_lt {md : ksm_metadata} {a : Nat} {n : stable_node}
    (h : node_at md a = some n) : a < md.nodes.length := by
  unfold node_at at h
  by_contra hlt
  rw [List.getD_eq_default _ _ (by omega)] at h
  cases h

theorem node_at_set_node_same {md : ksm_metadata} {a : Nat} (n : stable_node)
    (h : a < md.nodes.length) : node_at (set_node md a n) a = some n := by
  unfold node_at set_node
  simp [List.getD_eq_getElem?_getD, h]

theorem node_at_set_node_ne (md : ksm_metadata) {a b : Nat} (n : stable_node)
    (h : a ≠ b) : node_at (set_node md a n) b = node_at md b := by
  unfold node_at set_node
  simp [List.getD_eq_getElem?_getD, List.getElem?_set_ne h]

theorem node_at_free_node_same (md : ksm_metadata) (a : Nat) :
    node_at (free_node md a) a = none := by
  unfold node_at free_node
  by_cases h : a < md.nodes.length
  · simp [List.getD_eq_getElem?_getD, h]
  · rw [List.getD_eq_default]
    simpa using h

theorem node_at_free_node_ne (md : ksm_metadata) {a b : Nat}
    (h : a ≠ b) : node_at (free_node md a) b = node_at md b := by
  unfold node_at free_node
  simp [List.getD_eq_getElem?_getD, List.getElem?_set_ne h]

theorem node_at_congr {md1 md2 : ksm_metadata} (h : md1.nodes = md2.nodes) (a : Nat) :
    node_at md1 a = node_at md2 a := by
  unfold node_at
  rw [h]

theorem deref_node_eq (md : ksm_metadata) (a : Nat) (n : stable_node) :
    deref_node md a = .ok n ↔ node_at md a = some n := by
  unfold deref_node
  cases node_at md a <;> simp

theorem deref_node_of {md : ksm_metadata} {a : Nat} {n : stable_node}
    (h : node_at md a = some n) : deref_node md a = .ok n :=
  (deref_node_eq md a n).2 h

theorem cmp_with_stable_walk_congr (p : ksm_params) {md1 md2 : ksm_metadata}
    (h : md1.nodes = md2.nodes) (fuel : Nat) (o : Option Nat) :
    cmp_with_stable_walk p md1 fuel o = cmp_with_stable_walk p md2 fuel o := by
  induction fuel generalizing o with
  | zero => cases o <;> rfl
  | succ f ih =>
    cases o with
    | none => rfl
    | some a =>
      simp only [cmp_with_stable_walk, node_at_congr h a, ih]

theorem cmp_with_stable_congr (p : ksm_params) {md1 md2 : ksm_metadata}
    (h : md1.nodes = md2.nodes) (ht : md1.stable_hash_table = md2.stable_hash_table)
    (hash : hash_pair) : cmp_with_stable p md1 hash = cmp_with_stable p md2 hash := by
  unfold cmp_with_stable
  simp only [ht, node_at_congr h, h, cmp_with_stable_walk_congr p h]

theorem cmp_with_stable_walk_some {p : ksm_params} {md : ksm_metadata} {fuel : Nat}
    {o : Option Nat} {a : Nat} (h : cmp_with_stable_walk p md fuel o = .ok (some a)) :
    ∃ n, node_at md a = some n ∧ n.shared_cnt < (p.MAX_PAGE_SHARING : Int) := by
  induction fuel generalizing o with
  | zero => cases o <;> simp [cmp_with_stable_walk] at h
  | succ f ih =>
    cases o with
    | none => simp [cmp_with_stable_walk] at h
    | some b =>
      simp only [cmp_with_stable_walk] at h
      cases hb : node_at md b with
      | none => simp [hb] at h
      | some nb =>
        simp only [hb] at h
        by_cases hs : nb.shared_cnt < (p.MAX_PAGE_SHARING : Int)
        · simp [hs] at h
          subst h
          exact ⟨nb, hb, hs⟩
        · simp [hs] at h
          exact ih h

theorem cmp_with_stable_some {p : ksm_params} {md : ksm_metadata} {hash : hash_pair}
    {a : Nat} (h : cmp_with_stable p md hash = .ok (some a)) :
    ∃ n, node_at md a = some n ∧ n.shared_cnt < (p.MAX_PAGE_SHARING : Int) := by
  unfold cmp_with_stable at h
  cases hl : g_hash_table_lookup md.stable_hash_table hash with
  | none => simp [hl] at h
  | some b =>
    simp only [hl] at h
    cases hb : node_at md b with
    | none => simp [hb] at h
    | some nb =>
      simp only [hb] at h
      by_cases hs : nb.shared_cnt < (p.MAX_PAGE_SHARING : Int)
      · simp [hs] at h
        subst h
        exact ⟨nb, hb, hs⟩
      · simp [hs] at h
        exact cmp_with_stable_walk_some h

/-! ## Field updates keep the key -/

@[simp] theorem bump_volatility_key (item : rmap_item) :
    (bump_volatility item).key = item.key := rfl

@[simp] theorem calm_volatility_key (item : rmap_item) :
    (calm_volatility item).key = item.key := by
  unfold calm_volatility
  split_ifs <;> rfl

@[simp] theorem advance_age_key (item : rmap_item) : (advance_age item).key = item.key := rfl

@[simp] theorem set_old_hash_key (hash : hash_pair) (item : rmap_item) :
    (set_old_hash hash item).key = item.key := rfl

@[simp] theorem set_state_key (st : item_state) (item : rmap_item) :
    (set_state st item).key = item.key := rfl

@[simp] theorem link_item_key (node : stable_node) (h : Nat) (item : rmap_item) :
    (link_item node h item).key = item.key := rfl

@[simp] theorem reset_item_state_key (item : rmap_item) :
    (reset_item_state item).key = item.key := rfl

@[simp] theorem touch_item_key (iteration : Int) (kpfn : Nat) (item : rmap_item) :
    (touch_item iteration kpfn item).key = item.key := rfl

theorem should_skip_item_snd (p : ksm_params) (item : rmap_item) :
    ∃ c, (should_skip_item p item).2 = { item with skip_cnt := c } := by
  unfold should_skip_item
  split_ifs
  · exact ⟨item.skip_cnt, rfl⟩
  · exact ⟨item.skip_cnt, rfl⟩
  · exact ⟨_, rfl⟩
  · exact ⟨_, rfl⟩

@[simp] theorem should_skip_item_key (p : ksm_params) (item : rmap_item) :
    (should_skip_item p item).2.key = item.key := by
  obtain ⟨c, hc⟩ := should_skip_item_snd p item
  rw [hc]
  rfl

@[simp] theorem should_skip_item_old_hash (p : ksm_params) (item : rmap_item) :
    (should_skip_item p item).2.old_hash = item.old_hash := by
  obtain ⟨c, hc⟩ := should_skip_item_snd p item
  rw [hc]

@[simp] theorem should_skip_item_state (p : ksm_params) (item : rmap_item) :
    (should_skip_item p item).2.state = item.state := by
  obtain ⟨c, hc⟩ := should_skip_item_snd p item
  rw [hc]

@[simp] theorem should_skip_item_pfn (p : ksm_params) (item : rmap_item) :
    (should_skip_item p item).2.pfn = item.pfn := by
  obtain ⟨c, hc⟩ := should_skip_item_snd p item
  rw [hc]

@[simp] theorem should_skip_item_volatility (p : ksm_params) (item : rmap_item) :
    (should_skip_item p item).2.volatility_score = item.volatility_score := by
  obtain ⟨c, hc⟩ := should_skip_item_snd p item
  rw [hc]

@[simp] theorem calm_volatility_state (item : rmap_item) :
    (calm_volatility item).state = item.state := by
  unfold calm_volatility
  split_ifs <;> rfl

@[simp] theorem calm_volatility_old_hash (item : rmap_item) :
    (calm_volatility item).old_hash = item.old_hash := by
  unfold calm_volatility
  split_ifs <;> rfl

@[simp] theorem calm_volatility_pfn (item : rmap_item) :
    (calm_volatility item).pfn = item.pfn := by
  unfold calm_volatility
  split_ifs <;> rfl

@[simp] theorem calm_volatility_va (item : rmap_item) :
    (calm_volatility item).va = item.va := by
  unfold calm_volatility
  split_ifs <;> rfl

@[simp] theorem calm_volatility_mm_id (item : rmap_item) :
    (calm_volatility item).mm_id = item.mm_id := by
  unfold calm_volatility
  split_ifs <;> rfl

theorem item_key_eq_iff (a b : rmap_item) :
    a.key = b.key ↔ a.mm_id = b.mm_id ∧ a.va = b.va := by
  unfold rmap_item.key
  simp

@[simp] theorem should_skip_item_va (p : ksm_params) (item : rmap_item) :
    (should_skip_item p item).2.va = item.va := by
  obtain ⟨c, hc⟩ := should_skip_item_snd p item
  rw [hc]

@[simp] theorem should_skip_item_mm_id (p : ksm_params) (item : rmap_item) :
    (should_skip_item p item).2.mm_id = item.mm_id := by
  obtain ⟨c, hc⟩ := should_skip_item_snd p item
  rw [hc]

/-! ## Stores and loads -/

theorem item_at_key {md : ksm_metadata} {k : item_key} {item : rmap_item}
    (h : item_at md k = .ok item) : item.key = k :=
  g_tree_lookup_key ((item_at_eq md k item).1 h)

theorem item_at_set_item {md : ksm_metadata} {k : item_key} {item0 item : rmap_item}
    (h : item_at md k = .ok item0) (hk : item.key = k) :
    item_at (set_item md item) k = .ok item := by
  subst hk
  exact item_at_set_item_same h

theorem set_item_set_item (md : ksm_metadata) (a b : rmap_item) (h : a.key = b.key) :
    set_item (set_item md a) b = set_item md b := by
  unfold set_item
  simp only [rmap_item_compare_eq_zero_iff, List.map_map]
  congr 1
  apply List.map_congr_left
  intro x _
  simp only [Function.comp]
  by_cases hx : x.key = a.key
  · simp [hx, h]
  · have : x.key ≠ b.key := by rw [← h]; exact hx
    simp [hx, this]

@[simp] theorem set_item_nodes (md : ksm_metadata) (item : rmap_item) :
    (set_item md item).nodes = md.nodes := rfl

@[simp] theorem set_item_stable_hash_table (md : ksm_metadata) (item : rmap_item) :
    (set_item md item).stable_hash_table = md.stable_hash_table := rfl

@[simp] theorem set_item_unstable_hash_table (md : ksm_metadata) (item : rmap_item) :
    (set_item md item).unstable_hash_table = md.unstable_hash_table := rfl

@[simp] theorem set_node_rmap_tree (md : ksm_metadata) (a : Nat) (n : stable_node) :
    (set_node md a n).rmap_tree = md.rmap_tree := rfl

@[simp] theorem set_node_stable_hash_table (md : ksm_metadata) (a : Nat) (n : stable_node) :
    (set_node md a n).stable_hash_table = md.stable_hash_table := rfl

@[simp] theorem set_node_unstable_hash_table (md : ksm_metadata) (a : Nat) (n : stable_node) :
    (set_node md a n).unstable_hash_table = md.unstable_hash_table := rfl

@[simp] theorem set_node_nodes_length (md : ksm_metadata) (a : Nat) (n : stable_node) :
    (set_node md a n).nodes.length = md.nodes.length := by
  simp [set_node]

@[simp] theorem node_at_set_item (md : ksm_metadata) (item : rmap_item) (a : Nat) :
    node_at (set_item md item) a = node_at md a := rfl

@[simp] theorem item_at_set_node (md : ksm_metadata) (a : Nat) (n : stable_node)
    (k : item_key) : item_at (set_node md a n) k = item_at md k := rfl

@[simp] theorem cmp_with_stable_set_item (p : ksm_params) (md : ksm_metadata)
    (item : rmap_item) (hash : hash_pair) :
    cmp_with_stable p (set_item md item) hash = cmp_with_stable p md hash :=
  cmp_with_stable_congr p (set_item_nodes md item) (set_item_stable_hash_table md item) hash

theorem modify_item_ok {md : ksm_metadata} {k : item_key} {item : rmap_item}
    (h : item_at md k = .ok item) (f : rmap_item → rmap_item) :
    modify_item md k f = .ok (set_item md (f item)) := by
  unfold modify_item
  rw [h]
  rfl

theorem modify_node_ok {md : ksm_metadata} {a : Nat} {n : stable_node}
    (h : node_at md a = some n) (f : stable_node → stable_node) :
    modify_node md a f = .ok (set_node md a (f n)) := by
  unfold modify_node
  rw [deref_node_of h]
  rfl

theorem insert_ksm_log_ok (table : ksm_log_table) (entry : ksm_event_log)
    (h : entry.type = DPU_STABLE_MERGE ∨ entry.type = DPU_UNSTABLE_MERGE ∨
      entry.type = DPU_STALE_STABLE_NODE ∨ entry.type = DPU_ITEM_STATE_CHANGE) :
    insert_ksm_log table entry =
      .ok { entries := table.entries ++ [entry],
            capacity := if table.cnt ≥ table.capacity then table.capacity * 2
                        else table.capacity } := by
  unfold insert_ksm_log
  simp only [h, if_true]

theorem insert_ksm_log_appended (table : ksm_log_table) (entry : ksm_event_log)
    (h : entry.type = DPU_STABLE_MERGE ∨ entry.type = DPU_UNSTABLE_MERGE ∨
      entry.type = DPU_STALE_STABLE_NODE ∨ entry.type = DPU_ITEM_STATE_CHANGE) :
    insert_ksm_log table entry = .ok (appended table entry) :=
  insert_ksm_log_ok table entry h

@[simp] theorem settled_key (p : ksm_params) (item : rmap_item) :
    (settled p item).key = item.key := by
  simp [settled]

@[simp] theorem settled_state (p : ksm_params) (item : rmap_item) :
    (settled p item).state = item.state := by
  simp [settled, advance_age]

@[simp] theorem settled_old_hash (p : ksm_params) (item : rmap_item) :
    (settled p item).old_hash = item.old_hash := by
  simp [settled, advance_age]

@[simp] theorem settled_pfn (p : ksm_params) (item : rmap_item) :
    (settled p item).pfn = item.pfn := by
  simp [settled, advance_age]

@[simp] theorem settled_va (p : ksm_params) (item : rmap_item) :
    (settled p item).va = item.va := by
  simp [settled, advance_age]

@[simp] theorem settled_mm_id (p : ksm_params) (item : rmap_item) :
    (settled p item).mm_id = item.mm_id := by
  simp [settled, advance_age]

theorem insert_item_to_node_ok {md : ksm_metadata} {k : item_key} {item : rmap_item}
    {N : Nat} {n : stable_node} (hitem : item_at md k = .ok item)
    (hn : node_at md N = some n)
    (hstate : item.state = item_state.Volatile ∨ item.state = item_state.Unstable) :
    insert_item_to_node md N k =
      .ok (set_node (set_item md (link_item n N item)) N (add_sharer k n)) := by
  unfold insert_item_to_node
  rw [hitem, deref_node_of hn]
  have : ¬ (item.state = item_state.None ∨ item.state = item_state.Stable) := by
    rcases hstate with h | h <;> simp [h]
  simp only [bind, Except.bind, this, if_false]

theorem merge_stable_ok (p : ksm_params) {md : ksm_metadata} (log_table : ksm_log_table)
    {k : item_key} {item : rmap_item} {N : Nat} {n : stable_node}
    (hitem : item_at md k = .ok item) (hn : node_at md N = some n)
    (hstate : item.state = item_state.Volatile ∨ item.state = item_state.Unstable)
    (hlt : n.shared_cnt < (p.MAX_PAGE_SHARING : Int)) :
    merge_stable p md log_table k N =
      .ok (set_node (set_item md (link_item n N item)) N (add_sharer k n),
           appended log_table
             { type := DPU_STABLE_MERGE, from_va := item.va, kpfn := n.pfn,
               from_mm_id := item.mm_id, shared_cnt := n.shared_cnt + 1 }) := by
  have hk : item.key = k := item_at_key hitem
  unfold merge_stable
  rw [deref_node_of hn]
  have hge : ¬ n.shared_cnt ≥ (p.MAX_PAGE_SHARING : Int) := by omega
  simp only [bind, Except.bind, hge, if_false]
  rw [insert_item_to_node_ok hitem hn hstate]
  simp only []
  rw [item_at_set_node, item_at_set_item hitem (by simp [hk])]
  simp only []
  rw [deref_node_of (node_at_set_node_same _ (by simpa using node_at_lt hn))]
  simp only [log_stable_merge]
  rw [insert_ksm_log_appended _ _ (Or.inl rfl)]
  rfl

theorem volatile_stable_merge (p : ksm_params) (md : ksm_metadata) (log_table : ksm_log_table)
    (h : hash_pair) (k : item_key) (item : rmap_item) (N : Nat) (n : stable_node)
    (hitem : item_at md k = .ok item) (hstate : item.state = item_state.Volatile)
    (hskip : (should_skip_item p (advance_age item)).1 = false)
    (hhash : item.old_hash = h)
    (hfind : cmp_with_stable p md h = .ok (some N))
    (hn : node_at md N = some n) :
    cmp_and_merge_volatile p md log_table h k =
      .ok (set_node (set_item md (link_item n N (settled p item))) N (add_sharer k n),
           appended log_table
             { type := DPU_STABLE_MERGE, from_va := item.va, kpfn := n.pfn,
               from_mm_id := item.mm_id, shared_cnt := n.shared_cnt + 1 }) := by
  have hk : item.key = k := item_at_key hitem
  obtain ⟨n0, hn0, hlt⟩ := cmp_with_stable_some hfind
  rw [hn] at hn0
  cases hn0
  have heq : compare_hash_pair_equal (should_skip_item p (advance_age item)).2.old_hash h
      = true := by
    rw [compare_hash_pair_equal_iff]
    simp [advance_age, hhash]
  have h1 : item_at (set_item md (should_skip_item p (advance_age item)).2) k =
      .ok (should_skip_item p (advance_age item)).2 :=
    item_at_set_item hitem (by simp [hk])
  unfold cmp_and_merge_volatile
  simp only [hitem, bind, Except.bind, hskip, heq, if_true, Bool.false_eq_true, if_false]
  unfold merge_candidate
  rw [modify_item_ok h1, set_item_set_item _ _ _ (by simp)]
  simp only [bind, Except.bind, cmp_with_stable_set_item, hfind]
  have h2 : item_at (set_item md (settled p item)) k = .ok (settled p item) :=
    item_at_set_item hitem (by simp [hk])
  have hn2 : node_at (set_item md (settled p item)) N = some n := by simpa using hn
  have := merge_stable_ok p log_table h2 hn2 (by simp [hstate]) hlt
  rw [set_item_set_item _ _ _ (by simp)] at this
  simpa [settled] using this

/-! ## Hash tables -/

theorem g_hash_table_lookup_eq_none {α : Type} (table : GHashTable α) (h : hash_pair) :
    g_hash_table_lookup table h = none ↔ ∀ e ∈ table, e.1 ≠ h := by
  unfold g_hash_table_lookup
  simp [List.find?_eq_none, compare_hash_pair_equal_iff]

theorem g_hash_table_insert_of_none {α : Type} {table : GHashTable α} {h : hash_pair}
    (hl : g_hash_table_lookup table h = none) (key value : α) :
    g_hash_table_insert table h key value = table ++ [(h, key, value)] := by
  unfold g_hash_table_insert
  unfold g_hash_table_lookup at hl
  simp only [Option.map_eq_none'] at hl
  simp [hl]

theorem g_hash_table_remove_of_none {α : Type} {table : GHashTable α} {h : hash_pair}
    (hl : g_hash_table_lookup table h = none) :
    g_hash_table_remove table h = table := by
  rw [g_hash_table_lookup_eq_none] at hl
  unfold g_hash_table_remove
  rw [List.filter_eq_self]
  intro e he
  have := hl e he
  simp only [Bool.not_eq_true']
  cases hc : compare_hash_pair_equal e.1 h
  · rfl
  · exact absurd ((compare_hash_pair_equal_iff _ _).1 hc) this

theorem g_hash_table_lookup_append_of_none {α : Type} {table : GHashTable α} {h : hash_pair}
    (hl : g_hash_table_lookup table h = none) (key value : α) :
    g_hash_table_lookup (table ++ [(h, key, value)]) h = some value := by
  unfold g_hash_table_lookup at hl ⊢
  simp only [Option.map_eq_none'] at hl
  rw [List.find?_append, hl]
  have : compare_hash_pair_equal h h = true := (compare_hash_pair_equal_iff h h).2 rfl
  simp [List.find?_cons, this]

theorem g_hash_table_remove_append_of_none {α : Type} {table : GHashTable α} {h : hash_pair}
    (hl : g_hash_table_lookup table h = none) (key value : α) :
    g_hash_table_remove (table ++ [(h, key, value)]) h = table := by
  have h1 := g_hash_table_remove_of_none hl
  unfold g_hash_table_remove at h1 ⊢
  rw [List.filter_append, h1]
  have : compare_hash_pair_equal h h = true := (compare_hash_pair_equal_iff h h).2 rfl
  simp [this]

@[simp] theorem set_unstable_hash_table_rmap_tree (t : GHashTable item_key)
    (md : ksm_metadata) : (set_unstable_hash_table t md).rmap_tree = md.rmap_tree := rfl

@[simp] theorem set_unstable_hash_table_nodes (t : GHashTable item_key)
    (md : ksm_metadata) : (set_unstable_hash_table t md).nodes = md.nodes := rfl

@[simp] theorem set_unstable_hash_table_stable (t : GHashTable item_key)
    (md : ksm_metadata) :
    (set_unstable_hash_table t md).stable_hash_table = md.stable_hash_table := rfl

@[simp] theorem set_unstable_hash_table_unstable (t : GHashTable item_key)
    (md : ksm_metadata) : (set_unstable_hash_table t md).unstable_hash_table = t := rfl

@[simp] theorem item_at_set_unstable_hash_table (t : GHashTable item_key)
    (md : ksm_metadata) (k : item_key) :
    item_at (set_unstable_hash_table t md) k = item_at md k := rfl

@[simp] theorem node_at_set_unstable_hash_table (t : GHashTable item_key)
    (md : ksm_metadata) (a : Nat) :
    node_at (set_unstable_hash_table t md) a = node_at md a := rfl

@[simp] theorem set_stable_hash_table_rmap_tree (t : GHashTable Nat)
    (md : ksm_metadata) : (set_stable_hash_table t md).rmap_tree = md.rmap_tree := rfl

@[simp] theorem set_stable_hash_table_nodes (t : GHashTable Nat)
    (md : ksm_metadata) : (set_stable_hash_table t md).nodes = md.nodes := rfl

@[simp] theorem set_stable_hash_table_stable (t : GHashTable Nat)
    (md : ksm_metadata) : (set_stable_hash_table t md).stable_hash_table = t := rfl

@[simp] theorem set_stable_hash_table_unstable (t : GHashTable Nat)
    (md : ksm_metadata) :
    (set_stable_hash_table t md).unstable_hash_table = md.unstable_hash_table := rfl

@[simp] theorem item_at_set_stable_hash_table (t : GHashTable Nat)
    (md : ksm_metadata) (k : item_key) :
    item_at (set_stable_hash_table t md) k = item_at md k := rfl

@[simp] theorem node_at_set_stable_hash_table (t : GHashTable Nat)
    (md : ksm_metadata) (a : Nat) :
    node_at (set_stable_hash_table t md) a = node_at md a := rfl

theorem set_unstable_set_item (t : GHashTable item_key) (md : ksm_metadata)
    (item : rmap_item) :
    set_item (set_unstable_hash_table t md) item =
      set_unstable_hash_table t (set_item md item) := rfl

/-! ## The step that makes an item `Unstable` -/

theorem volatile_becomes_unstable (p : ksm_params) (md : ksm_metadata)
    (log_table : ksm_log_table) (h : hash_pair) (k : item_key) (item : rmap_item)
    (hitem : item_at md k = .ok item)
    (hskip : (should_skip_item p (advance_age item)).1 = false)
    (hhash : item.old_hash = h)
    (hfind : cmp_with_stable p md h = .ok none)
    (hun : g_hash_table_lookup md.unstable_hash_table h = none) :
    cmp_and_merge_volatile p md log_table h k =
      .ok (set_unstable_hash_table (md.unstable_hash_table ++ [(h, k, k)])
            (set_item md (set_state item_state.Unstable (set_old_hash h (settled p item)))),
           log_table) := by
  have hk : item.key = k := item_at_key hitem
  have heq : compare_hash_pair_equal (should_skip_item p (advance_age item)).2.old_hash h
      = true := by
    rw [compare_hash_pair_equal_iff]
    simp [advance_age, hhash]
  have h1 : item_at (set_item md (should_skip_item p (advance_age item)).2) k =
      .ok (should_skip_item p (advance_age item)).2 :=
    item_at_set_item hitem (by simp [hk])
  have h2 : item_at (set_item md (settled p item)) k = .ok (settled p item) :=
    item_at_set_item hitem (by simp [hk])
  have h3 : item_at (set_item md (set_old_hash h (settled p item))) k =
      .ok (set_old_hash h (settled p item)) :=
    item_at_set_item hitem (by simp [hk])
  have h4 : item_at (set_item md (set_state item_state.Unstable
      (set_old_hash h (set_old_hash h (settled p item))))) k =
      .ok (set_state item_state.Unstable (set_old_hash h (set_old_hash h (settled p item)))) :=
    item_at_set_item hitem (by simp [hk])
  unfold cmp_and_merge_volatile
  simp only [hitem, bind, Except.bind, hskip, heq, if_true, Bool.false_eq_true, if_false]
  unfold merge_candidate
  rw [modify_item_ok h1, set_item_set_item _ _ _ (by simp)]
  simp only [bind, Except.bind, cmp_with_stable_set_item, hfind]
  have h2c : item_at (set_item md (calm_volatility (should_skip_item p (advance_age item)).2))
      k = .ok (calm_volatility (should_skip_item p (advance_age item)).2) := h2
  rw [modify_item_ok h2c, set_item_set_item _ _ _ (by simp)]
  have hsett : calm_volatility (should_skip_item p (advance_age item)).2 = settled p item :=
    rfl
  rw [hsett]
  simp only []
  unfold cmp_with_unstable
  simp only [h3, bind, Except.bind]
  have hun2 : g_hash_table_lookup
      (set_item md (set_old_hash h (settled p item))).unstable_hash_table
      (set_old_hash h (settled p item)).old_hash = none := by
    simpa [set_old_hash] using hun
  simp only [hun2]
  rw [modify_item_ok h3, set_item_set_item _ _ _ (by simp)]
  simp only []
  unfold insert_unstable_node
  simp only [h4, bind, Except.bind]
  have hun3 : g_hash_table_lookup
      (set_item md (set_state item_state.Unstable
        (set_old_hash h (set_old_hash h (settled p item))))).unstable_hash_table
      (set_state item_state.Unstable
        (set_old_hash h (set_old_hash h (settled p item)))).old_hash = none := by
    simpa [set_old_hash, set_state] using hun
  simp only [hun3]
  have hun4 : g_hash_table_lookup
      (set_item md (set_state item_state.Unstable
        (set_old_hash h (set_old_hash h (settled p item))))).unstable_hash_table
      h = none := by
    simpa using hun
  rw [show (set_state item_state.Unstable
        (set_old_hash h (set_old_hash h (settled p item)))).old_hash = h from rfl,
    g_hash_table_insert_of_none hun4]
  rfl

/-! ## Allocation and insertion of a stable node -/

@[simp] theorem alloc_node_rmap_tree (md : ksm_metadata) (n : stable_node) :
    (alloc_node md n).rmap_tree = md.rmap_tree := rfl

@[simp] theorem alloc_node_stable (md : ksm_metadata) (n : stable_node) :
    (alloc_node md n).stable_hash_table = md.stable_hash_table := rfl

@[simp] theorem alloc_node_unstable (md : ksm_metadata) (n : stable_node) :
    (alloc_node md n).unstable_hash_table = md.unstable_hash_table := rfl

@[simp] theorem item_at_alloc_node (md : ksm_metadata) (n : stable_node) (k : item_key) :
    item_at (alloc_node md n) k = item_at md k := rfl

@[simp] theorem alloc_node_length (md : ksm_metadata) (n : stable_node) :
    (alloc_node md n).nodes.length = md.nodes.length + 1 := by
  simp [alloc_node]

@[simp] theorem node_at_alloc_node_new (md : ksm_metadata) (n : stable_node) :
    node_at (alloc_node md n) md.nodes.length = some n := by
  simp [node_at, alloc_node, List.getD_eq_getElem?_getD]

theorem node_at_alloc_node_ne (md : ksm_metadata) (n : stable_node) {a : Nat}
    (h : a ≠ md.nodes.length) : node_at (alloc_node md n) a = node_at md a := by
  unfold node_at alloc_node
  simp only [List.getD_eq_getElem?_getD]
  rcases Nat.lt_or_gt_of_ne h with h1 | h1
  · rw [List.getElem?_append_left h1]
  · rw [List.getElem?_eq_none (by simp; omega), List.getElem?_eq_none (by omega)]

theorem node_at_alloc_node_old {md : ksm_metadata} (n : stable_node) {a : Nat}
    {m : stable_node} (h : node_at md a = some m) : node_at (alloc_node md n) a = some m := by
  rw [node_at_alloc_node_ne md n (Nat.ne_of_lt (node_at_lt h)), h]

theorem insert_stable_node_head {md : ksm_metadata} {new_node : Nat} {nn : stable_node}
    (hn : node_at md new_node = some nn)
    (hl : g_hash_table_lookup md.stable_hash_table nn.page_hash = none) :
    insert_stable_node md new_node =
      .ok (set_stable_hash_table
            (md.stable_hash_table ++ [(nn.page_hash, new_node, new_node)])
            (set_node md new_node
              (set_chain { type := node_chain_type.HEAD, next := none, prev := none } nn))) := by
  unfold insert_stable_node
  rw [deref_node_of hn]
  simp only [bind, Except.bind, hl]
  rw [modify_node_ok hn]
  simp only [set_node_stable_hash_table]
  rw [g_hash_table_insert_of_none hl]

theorem insert_stable_node_chain {md : ksm_metadata} {new_node first t : Nat}
    {nn tn : stable_node}
    (hn : node_at md new_node = some nn)
    (hl : g_hash_table_lookup md.stable_hash_table nn.page_hash = some first)
    (ht : chain_tail md md.nodes.length first = .ok t)
    (htn : node_at md t = some tn) (hne : t ≠ new_node) :
    insert_stable_node md new_node =
      .ok (set_node (set_node md t (set_chain_next (some new_node) tn)) new_node
            (set_chain { type := node_chain_type.CHAIN, next := none, prev := some t } nn)) := by
  unfold insert_stable_node
  rw [deref_node_of hn]
  simp only [bind, Except.bind, hl, ht]
  rw [modify_node_ok htn]
  simp only []
  rw [modify_node_ok (by rw [node_at_set_node_ne _ _ hne]; exact hn)]

theorem promote_unstable_ok {md md1 : ksm_metadata} (log_table : ksm_log_table)
    {h : hash_pair} {k u : item_key} {kit uit : rmap_item} {nn : stable_node}
    (hk : item_at md k = .ok kit) (hu : item_at md u = .ok uit) (hne : u ≠ k)
    (hks : kit.state = item_state.Volatile ∨ kit.state = item_state.Unstable)
    (hus : uit.state = item_state.Volatile ∨ uit.state = item_state.Unstable)
    (hins : insert_stable_node (alloc_node md (new_stable_node h kit.pfn)) md.nodes.length
      = .ok md1)
    (hrt : md1.rmap_tree = md.rmap_tree)
    (hnn : node_at md1 md.nodes.length = some nn) :
    promote_unstable md log_table h k u =
      .ok (set_node
            (set_item
              (set_node (set_item md1 (link_item nn md.nodes.length uit)) md.nodes.length
                (add_sharer u nn))
              (link_item (add_sharer u nn) md.nodes.length kit))
            md.nodes.length (add_sharer k (add_sharer u nn)),
           appended log_table
             { type := DPU_UNSTABLE_MERGE, from_va := kit.va, kpfn := uit.va,
               from_mm_id := kit.mm_id, shared_cnt := uit.mm_id }) := by
  have hkk : kit.key = k := item_at_key hk
  have huk : uit.key = u := item_at_key hu
  have hk1 : item_at md1 k = .ok kit := by
    unfold item_at at hk ⊢
    rw [hrt]
    exact hk
  have hu1 : item_at md1 u = .ok uit := by
    unfold item_at at hu ⊢
    rw [hrt]
    exact hu
  have hlt : md.nodes.length < md1.nodes.length := node_at_lt hnn
  unfold promote_unstable
  simp only [hk, bind, Except.bind, hins]
  rw [insert_item_to_node_ok hu1 hnn hus]
  simp only []
  have hk2 : item_at (set_node (set_item md1 (link_item nn md.nodes.length uit))
      md.nodes.length (add_sharer u nn)) k = .ok kit := by
    rw [item_at_set_node, item_at_set_item_ne _ _ _ (by simp [huk, hne])]
    exact hk1
  have hn2 : node_at (set_node (set_item md1 (link_item nn md.nodes.length uit))
      md.nodes.length (add_sharer u nn)) md.nodes.length = some (add_sharer u nn) :=
    node_at_set_node_same _ (by simpa using hlt)
  rw [insert_item_to_node_ok hk2 hn2 hks]
  simp only []
  rw [item_at_set_node, item_at_set_item hk2 (by simp [hkk])]
  simp only []
  rw [item_at_set_node, item_at_set_item_ne _ _ _ (by simp [hkk, hne.symm]), item_at_set_node,
    item_at_set_item hu1 (by simp [huk])]
  simp only [log_unstable_merge]
  rw [insert_ksm_log_appended _ _ (Or.inr (Or.inl rfl))]
  rfl

/-! ## The step that promotes an unstable pair -/

theorem volatile_promotes (p : ksm_params) (md md1 : ksm_metadata)
    (log_table : ksm_log_table) (h : hash_pair) (k u : item_key) (item uit : rmap_item)
    (nn : stable_node)
    (hitem : item_at md k = .ok item) (hstate : item.state = item_state.Volatile)
    (hskip : (should_skip_item p (advance_age item)).1 = false)
    (hhash : item.old_hash = h)
    (hfind : cmp_with_stable p md h = .ok none)
    (hun : g_hash_table_lookup md.unstable_hash_table h = some u)
    (hu : item_at md u = .ok uit) (huh : uit.old_hash = h)
    (hus : uit.state = item_state.Volatile ∨ uit.state = item_state.Unstable)
    (hne : u ≠ k)
    (hins : insert_stable_node
      (alloc_node
        (set_unstable_hash_table (g_hash_table_remove md.unstable_hash_table h)
          (set_item md (set_old_hash h (settled p item))))
        (new_stable_node h item.pfn)) md.nodes.length = .ok md1)
    (hrt : md1.rmap_tree = (set_item md (set_old_hash h (settled p item))).rmap_tree)
    (hnn : node_at md1 md.nodes.length = some nn) :
    cmp_and_merge_volatile p md log_table h k =
      .ok (set_node
            (set_item
              (set_node (set_item md1 (link_item nn md.nodes.length uit)) md.nodes.length
                (add_sharer u nn))
              (link_item (add_sharer u nn) md.nodes.length (set_old_hash h (settled p item))))
            md.nodes.length (add_sharer k (add_sharer u nn)),
           appended log_table
             { type := DPU_UNSTABLE_MERGE, from_va := item.va, kpfn := uit.va,
               from_mm_id := item.mm_id, shared_cnt := uit.mm_id }) := by
  have hk : item.key = k := item_at_key hitem
  have huk : uit.key = u := item_at_key hu
  have heq : compare_hash_pair_equal (should_skip_item p (advance_age item)).2.old_hash h
      = true := by
    rw [compare_hash_pair_equal_iff]
    simp [advance_age, hhash]
  have h1 : item_at (set_item md (should_skip_item p (advance_age item)).2) k =
      .ok (should_skip_item p (advance_age item)).2 :=
    item_at_set_item hitem (by simp [hk])
  have h2c : item_at (set_item md (calm_volatility (should_skip_item p (advance_age item)).2))
      k = .ok (calm_volatility (should_skip_item p (advance_age item)).2) :=
    item_at_set_item hitem (by simp [hk])
  have h3 : item_at (set_item md (set_old_hash h (settled p item))) k =
      .ok (set_old_hash h (settled p item)) :=
    item_at_set_item hitem (by simp [hk])
  have hu3 : item_at (set_item md (set_old_hash h (settled p item))) u = .ok uit := by
    rw [item_at_set_item_ne _ _ _ (by simp [hk, hne.symm])]
    exact hu
  unfold cmp_and_merge_volatile
  simp only [hitem, bind, Except.bind, hskip, heq, if_true, Bool.false_eq_true, if_false]
  unfold merge_candidate
  rw [modify_item_ok h1, set_item_set_item _ _ _ (by simp)]
  simp only [bind, Except.bind, cmp_with_stable_set_item, hfind]
  rw [modify_item_ok h2c, set_item_set_item _ _ _ (by simp)]
  have hsett : calm_volatility (should_skip_item p (advance_age item)).2 = settled p item :=
    rfl
  rw [hsett]
  simp only []
  unfold cmp_with_unstable
  simp only [h3, bind, Except.bind]
  have hun2 : g_hash_table_lookup
      (set_item md (set_old_hash h (settled p item))).unstable_hash_table
      (set_old_hash h (settled p item)).old_hash = some u := by
    simpa [set_old_hash] using hun
  simp only [hun2, hu3, huh]
  have hpfn : (set_old_hash h (settled p item)).pfn = item.pfn := by
    simp [set_old_hash]
  have := @promote_unstable_ok
    (set_unstable_hash_table
      (g_hash_table_remove (set_item md (set_old_hash h (settled p item))).unstable_hash_table h)
      (set_item md (set_old_hash h (settled p item))))
    md1 log_table h k u (set_old_hash h (settled p item)) uit nn
    (by simpa using h3) (by simpa using hu3) hne (by simp [set_old_hash, hstate])
    hus (by simpa [hpfn] using hins) (by simpa using hrt) (by simpa using hnn)
  simpa [set_old_hash] using this

/-! ## Worker steps on an item that is already in the tree -/

theorem cmp_and_merge_one_volatile {p : ksm_params} {md : ksm_metadata}
    (log_table : ksm_log_table) (h : hash_pair) {k : item_key} {item : rmap_item}
    (hitem : item_at md k = .ok item) (hstate : item.state = item_state.Volatile) :
    cmp_and_merge_one p md log_table h k = cmp_and_merge_volatile p md log_table h k := by
  unfold cmp_and_merge_one
  simp only [hitem, bind, Except.bind, hstate]

theorem lookup_rmap_item_found {cb : rdma_cb} (raw : rmap_item) {mm_id : Int}
    {pte : shadow_pte} {item : rmap_item}
    (h : g_tree_lookup cb.metadata.rmap_tree (mm_id, pte.va) = some item) :
    lookup_rmap_item cb raw mm_id pte =
      ({ cb with
          metadata := set_item cb.metadata (touch_item cb.iteration pte.kpfn item),
          total_accessed_cnt := (cb.total_accessed_cnt + 1) % 18446744073709551616 },
       (mm_id, pte.va)) := by
  unfold lookup_rmap_item
  simp only [h]
  rw [touch_item_key, g_tree_lookup_key h]

theorem worker_step_found (p : ksm_params) {cb : rdma_cb} (raw : rmap_item) {mm_id : Int}
    {pte : shadow_pte} (h : hash_pair) {item : rmap_item}
    (hf : g_tree_lookup cb.metadata.rmap_tree (mm_id, pte.va) = some item)
    {md1 : ksm_metadata} {log1 : ksm_log_table}
    (hm : cmp_and_merge_one p (set_item cb.metadata (touch_item cb.iteration pte.kpfn item))
      cb.log_table h (mm_id, pte.va) = .ok (md1, log1)) :
    worker_step p cb raw mm_id pte h =
      .ok { cb with
        metadata := md1, log_table := log1,
        total_accessed_cnt := (cb.total_accessed_cnt + 1) % 18446744073709551616 } := by
  unfold worker_step
  rw [lookup_rmap_item_found raw hf]
  simp only [bind, Except.bind, hm]

theorem should_skip_item_touch (p : ksm_params) (iteration : Int) (kpfn : Nat)
    (item : rmap_item) :
    (should_skip_item p (advance_age (touch_item iteration kpfn item))).1 =
      (should_skip_item p (advance_age item)).1 := by
  unfold should_skip_item advance_age touch_item
  simp only
  split_ifs <;> rfl

theorem cmp_with_stable_of_lookup_none (p : ksm_params) {md : ksm_metadata} {h : hash_pair}
    (hl : g_hash_table_lookup md.stable_hash_table h = none) :
    cmp_with_stable p md h = .ok none := by
  unfold cmp_with_stable
  rw [hl]

theorem g_tree_insert_pair (a b : item_key) (h : a ≠ b) :
    g_tree_insert (g_tree_insert [] a) b =
      if rmap_item_compare b a < 0 then [b, a] else [a, b] := by
  have hne : rmap_item_compare b a ≠ 0 := by
    rw [Ne, rmap_item_compare_eq_zero_iff]
    exact fun e => h e.symm
  simp [g_tree_insert, hne]

theorem mem_g_tree_insert (tree : List item_key) (k x : item_key) :
    x ∈ g_tree_insert tree k ↔ x = k ∨ x ∈ tree := by
  induction tree with
  | nil => simp [g_tree_insert]
  | cons y ys ih =>
    unfold g_tree_insert
    split_ifs with h1 h2
    · simp
    · have : k = y := (rmap_item_compare_eq_zero_iff k y).1 h2
      subst this
      simp
    · simp only [List.mem_cons, ih]
      tauto

/-- C6: a Volatile item that is not skipped, whose `old_hash` equals the hash pair `h` of
its page, and for which `cmp_with_stable` finds the node `N`, is linked to `N` by
`cmp_and_merge_one`: the call returns, the item is `Stable` with `stable_node = N`,
`old_hash = N.page_hash` and `pfn = N.pfn`, it is in the sharers of `N`, `N.shared_cnt` has
grown by exactly one, the unstable index is unchanged, and exactly one record was appended to
the log: `DPU_STABLE_MERGE` with the item's `(mm_id, va)`, `N.pfn` and the new `shared_cnt`
(3 when `N` held two sharers). -/
theorem C6_stable_merge_links_item (p : ksm_params) (md : ksm_metadata)
    (log_table : ksm_log_table) (h : hash_pair) (k : item_key) (item : rmap_item)
    (N : Nat) (n : stable_node)
    (hitem : item_at md k = .ok item) (hstate : item.state = item_state.Volatile)
    (hskip : (should_skip_item p (advance_age item)).1 = false)
    (hhash : compare_hash_pair_equal item.old_hash h = true)
    (hfind : cmp_with_stable p md h = .ok (some N))
    (hn : node_at md N = some n) :
    ∃ md1 log1 item1 n1,
      cmp_and_merge_one p md log_table h k = .ok (md1, log1) ∧
      item_at md1 k = .ok item1 ∧ node_at md1 N = some n1 ∧
      item1.state = item_state.Stable ∧ item1.stable_node = some N ∧
      item1.old_hash = n1.page_hash ∧ item1.pfn = n1.pfn ∧
      n1.page_hash = n.page_hash ∧ n1.pfn = n.pfn ∧
      k ∈ n1.sharing_item_tree ∧
      n1.shared_cnt = n.shared_cnt + 1 ∧
      md1.unstable_hash_table = md.unstable_hash_table ∧
      log1.entries = log_table.entries ++
        [{ type := DPU_STABLE_MERGE, from_va := k.2, kpfn := n.pfn, from_mm_id := k.1,
           shared_cnt := n.shared_cnt + 1 }] ∧
      (n.shared_cnt = 2 → ∀ e ∈ log1.entries.getLast?, e.shared_cnt = 3) := by
  have hk : item.key = k := item_at_key hitem
  have hh : item.old_hash = h := (compare_hash_pair_equal_iff _ _).1 hhash
  have hlt : N < md.nodes.length := node_at_lt hn
  refine ⟨set_node (set_item md (link_item n N (settled p item))) N (add_sharer k n),
    appended log_table
      { type := DPU_STABLE_MERGE, from_va := item.va, kpfn := n.pfn,
        from_mm_id := item.mm_id, shared_cnt := n.shared_cnt + 1 },
    link_item n N (settled p item), add_sharer k n, ?_, ?_, ?_, rfl, rfl, rfl, rfl,
    rfl, rfl, ?_, rfl, rfl, ?_, ?_⟩
  · rw [cmp_and_merge_one_volatile log_table h hitem hstate]
    exact volatile_stable_merge p md log_table h k item N n hitem hstate hskip hh hfind hn
  · rw [item_at_set_node]
    exact item_at_set_item hitem (by simp [hk])
  · exact node_at_set_node_same _ (by simpa using hlt)
  · simp [add_sharer, mem_g_tree_insert]
  · subst hk
    rfl
  · intro h2 e he
    simp [appended] at he
    subst he
    simp [h2]

theorem touch_item_state (i : Int) (f : Nat) (item : rmap_item) :
    (touch_item i f item).state = item.state := rfl

theorem touch_item_old_hash (i : Int) (f : Nat) (item : rmap_item) :
    (touch_item i f item).old_hash = item.old_hash := rfl

/-- C5: two distinct Volatile items X and Y, processed by the worker in that order without
being skipped, each with `old_hash` equal to the hash pair `h` of its page, when the stable
index has no node for `h` and the unstable index no entry for `h`.  After X: X is
`Unstable`, it is the entry of the unstable index for `h`, the log is unchanged.  After Y: a
node that did not exist before holds exactly X and Y, with `page_hash = h`, the pfn of Y's
page-table entry and `shared_cnt = 2`; both items are `Stable` and reference it; the
unstable index is as it was before X; exactly one record was appended,
`DPU_UNSTABLE_MERGE (from = Y, to = X)`. -/
theorem C5_unstable_pair_is_promoted (p : ksm_params) (cb : rdma_cb) (raw_x raw_y : rmap_item)
    (mm_x mm_y : Int) (pte_x pte_y : shadow_pte) (h : hash_pair) (x y : rmap_item)
    (hx : g_tree_lookup cb.metadata.rmap_tree (mm_x, pte_x.va) = some x)
    (hy : g_tree_lookup cb.metadata.rmap_tree (mm_y, pte_y.va) = some y)
    (hxy : (mm_x, pte_x.va) ≠ (mm_y, pte_y.va))
    (hxs : x.state = item_state.Volatile) (hys : y.state = item_state.Volatile)
    (hxk : (should_skip_item p (advance_age x)).1 = false)
    (hyk : (should_skip_item p (advance_age y)).1 = false)
    (hxh : compare_hash_pair_equal x.old_hash h = true)
    (hyh : compare_hash_pair_equal y.old_hash h = true)
    (hst : g_hash_table_lookup cb.metadata.stable_hash_table h = none)
    (hun : g_hash_table_lookup cb.metadata.unstable_hash_table h = none) :
    ∃ cb1 cb2 x1 x2 y2 n,
      worker_step p cb raw_x mm_x pte_x h = .ok cb1 ∧
      item_at cb1.metadata (mm_x, pte_x.va) = .ok x1 ∧
      x1.state = item_state.Unstable ∧
      g_hash_table_lookup cb1.metadata.unstable_hash_table h = some (mm_x, pte_x.va) ∧
      cb1.log_table = cb.log_table ∧
      worker_step p cb1 raw_y mm_y pte_y h = .ok cb2 ∧
      node_at cb.metadata cb.metadata.nodes.length = none ∧
      node_at cb2.metadata cb.metadata.nodes.length = some n ∧
      n.page_hash = h ∧ n.pfn = pte_y.kpfn ∧ n.shared_cnt = 2 ∧
      (∀ key, key ∈ n.sharing_item_tree ↔
        key = (mm_x, pte_x.va) ∨ key = (mm_y, pte_y.va)) ∧
      n.sharing_item_tree.length = 2 ∧
      g_hash_table_lookup cb2.metadata.stable_hash_table h = some cb.metadata.nodes.length ∧
      item_at cb2.metadata (mm_x, pte_x.va) = .ok x2 ∧
      x2.state = item_state.Stable ∧ x2.stable_node = some cb.metadata.nodes.length ∧
      item_at cb2.metadata (mm_y, pte_y.va) = .ok y2 ∧
      y2.state = item_state.Stable ∧ y2.stable_node = some cb.metadata.nodes.length ∧
      cb2.metadata.unstable_hash_table = cb.metadata.unstable_hash_table ∧
      cb2.log_table.entries = cb.log_table.entries ++
        [{ type := DPU_UNSTABLE_MERGE, from_va := pte_y.va, kpfn := pte_x.va,
           from_mm_id := mm_y, shared_cnt := mm_x }] := by
  -- the state the first call of `cmp_and_merge_one` starts from
  have hxa := (item_at_eq _ _ _).2 hx
  have hya := (item_at_eq _ _ _).2 hy
  have hxkey : x.key = (mm_x, pte_x.va) := item_at_key hxa
  have hykey : y.key = (mm_y, pte_y.va) := item_at_key hya
  have hxh1 : x.old_hash = h := (compare_hash_pair_equal_iff _ _).1 hxh
  have hyh1 : y.old_hash = h := (compare_hash_pair_equal_iff _ _).1 hyh
  let tx := touch_item cb.iteration pte_x.kpfn x
  let x1 := set_state item_state.Unstable (set_old_hash h (settled p tx))
  let md1 := set_unstable_hash_table
    (cb.metadata.unstable_hash_table ++ [(h, (mm_x, pte_x.va), (mm_x, pte_x.va))])
    (set_item cb.metadata x1)
  have htx : item_at (set_item cb.metadata tx) (mm_x, pte_x.va) = .ok tx :=
    item_at_set_item hxa (by simp [tx, hxkey])
  have hstep1 : cmp_and_merge_one p (set_item cb.metadata tx) cb.log_table h
      (mm_x, pte_x.va) = .ok (md1, cb.log_table) := by
    rw [cmp_and_merge_one_volatile _ _ htx (by simp [tx, touch_item_state, hxs])]
    rw [volatile_becomes_unstable p _ cb.log_table h _ tx htx
      (by rw [should_skip_item_touch]; exact hxk) (by simp [tx, touch_item_old_hash, hxh1])
      (cmp_with_stable_of_lookup_none p (by simpa using hst)) (by simpa using hun)]
    rw [set_item_set_item _ _ _ (by simp [tx])]
    rfl
  have hw1 := worker_step_found p raw_x h hx hstep1
  -- the state after the first worker step
  have hx1 : item_at md1 (mm_x, pte_x.va) = .ok x1 := by
    simp only [md1, item_at_set_unstable_hash_table]
    exact item_at_set_item hxa (by simp [x1, tx, hxkey])
  have hy1 : item_at md1 (mm_y, pte_y.va) = .ok y := by
    simp only [md1, item_at_set_unstable_hash_table]
    rw [item_at_set_item_ne _ _ _ (by simp [x1, tx, hxkey, hxy])]
    exact hya
  let ty := touch_item cb.iteration pte_y.kpfn y
  let md2 := set_item md1 ty
  have hty : item_at md2 (mm_y, pte_y.va) = .ok ty :=
    item_at_set_item hy1 (by simp [ty, hykey])
  have hx2 : item_at md2 (mm_x, pte_x.va) = .ok x1 := by
    simp only [md2]
    rw [item_at_set_item_ne _ _ _ (by simp [ty, hykey, Ne.symm hxy])]
    exact hx1
  let y1 := set_old_hash h (settled p ty)
  let nn := new_stable_node h pte_y.kpfn
  let md3 := set_stable_hash_table
    (cb.metadata.stable_hash_table ++ [(h, cb.metadata.nodes.length, cb.metadata.nodes.length)])
    (set_node
      (alloc_node
        (set_unstable_hash_table cb.metadata.unstable_hash_table (set_item md2 y1)) nn)
      cb.metadata.nodes.length nn)
  have hlen : md2.nodes.length = cb.metadata.nodes.length := rfl
  have hins : insert_stable_node
      (alloc_node
        (set_unstable_hash_table (g_hash_table_remove md2.unstable_hash_table h)
          (set_item md2 (set_old_hash h (settled p ty))))
        (new_stable_node h ty.pfn)) md2.nodes.length = .ok md3 := by
    have hrem : g_hash_table_remove md2.unstable_hash_table h =
        cb.metadata.unstable_hash_table :=
      g_hash_table_remove_append_of_none hun _ _
    rw [hrem, hlen]
    have hnew : node_at (alloc_node
        (set_unstable_hash_table cb.metadata.unstable_hash_table
          (set_item md2 (set_old_hash h (settled p ty))))
        (new_stable_node h ty.pfn)) cb.metadata.nodes.length =
        some (new_stable_node h ty.pfn) := by
      have := node_at_alloc_node_new
        (set_unstable_hash_table cb.metadata.unstable_hash_table
          (set_item md2 (set_old_hash h (settled p ty)))) (new_stable_node h ty.pfn)
      simpa using this
    rw [insert_stable_node_head hnew (by simpa [new_stable_node] using hst)]
    rfl
  have hnn : node_at md3 md2.nodes.length = some nn := by
    simp only [md3, node_at_set_stable_hash_table, hlen]
    exact node_at_set_node_same _ (by simp only [alloc_node_length]; exact Nat.lt_succ_self _)
  have hstep2 := volatile_promotes p md2 md3 cb.log_table h (mm_y, pte_y.va) (mm_x, pte_x.va)
    ty x1 nn hty (by simp [ty, touch_item_state, hys])
    (by rw [should_skip_item_touch]; exact hyk) (by simp [ty, touch_item_old_hash, hyh1])
    (cmp_with_stable_of_lookup_none p (by simpa using hst))
    (by
      have := g_hash_table_lookup_append_of_none hun (mm_x, pte_x.va) (mm_x, pte_x.va)
      simpa [md2, md1] using this)
    hx2 rfl (Or.inr rfl) hxy hins rfl hnn
  rw [← cmp_and_merge_one_volatile _ _ hty (by simp [ty, touch_item_state, hys])] at hstep2
  have hy1g : g_tree_lookup md1.rmap_tree (mm_y, pte_y.va) = some y := (item_at_eq _ _ _).1 hy1
  have hw2 := @worker_step_found p
    { cb with metadata := md1, log_table := cb.log_table,
              total_accessed_cnt := (cb.total_accessed_cnt + 1) % 18446744073709551616 }
    raw_y mm_y pte_y h y hy1g _ _ hstep2
  have hlt3 : cb.metadata.nodes.length < md3.nodes.length := by
    rw [← hlen]
    exact node_at_lt hnn
  have hx3 : item_at md3 (mm_x, pte_x.va) = .ok x1 := by
    show item_at (set_item md2 y1) (mm_x, pte_x.va) = .ok x1
    rw [item_at_set_item_ne _ _ _ (by simp [y1, ty, hykey, Ne.symm hxy])]
    exact hx2
  have hy3 : item_at md3 (mm_y, pte_y.va) = .ok y1 := by
    show item_at (set_item md2 y1) (mm_y, pte_y.va) = .ok y1
    exact item_at_set_item hty (by simp [y1, ty, hykey])
  refine ⟨_, _, x1, link_item nn cb.metadata.nodes.length x1,
    link_item (add_sharer (mm_x, pte_x.va) nn) cb.metadata.nodes.length y1,
    add_sharer (mm_y, pte_y.va) (add_sharer (mm_x, pte_x.va) nn),
    hw1, hx1, rfl, ?_, rfl, hw2, ?_, ?_, rfl, rfl, rfl, ?_, ?_, ?_, ?_, rfl, rfl, ?_, rfl, rfl,
    rfl, ?_⟩
  · exact g_hash_table_lookup_append_of_none hun _ _
  · unfold node_at
    rw [List.getD_eq_default _ _ (le_refl _)]
  · exact node_at_set_node_same _ (by simpa using hlt3)
  · intro key
    simp only [add_sharer, nn, new_stable_node, mem_g_tree_insert, List.not_mem_nil, or_false]
    tauto
  · simp only [add_sharer, nn, new_stable_node]
    rw [g_tree_insert_pair _ _ hxy]
    split_ifs <;> rfl
  · exact g_hash_table_lookup_append_of_none hst _ _
  · simp only [hlen, item_at_set_node]
    rw [item_at_set_item_ne _ _ _ (by simp [y1, ty, hykey, Ne.symm hxy])]
    rw [item_at_set_node]
    exact item_at_set_item hx3 (by simp [x1, tx, hxkey])
  · simp only [hlen, item_at_set_node]
    refine @item_at_set_item _ _ y1 _ ?_ (by simp [y1, ty, hykey])
    rw [item_at_set_node, item_at_set_item_ne _ _ _ (by simp [x1, tx, hxkey, hxy])]
    exact hy3
  · have e1 : x.mm_id = mm_x ∧ x.va = pte_x.va := by simpa [rmap_item.key] using hxkey
    have e2 : y.mm_id = mm_y ∧ y.va = pte_y.va := by simpa [rmap_item.key] using hykey
    simp [appended, ty, touch_item, tx, x1, set_state, set_old_hash, e1, e2]

/-- Witness of C6: the third identical page of the scenario joins the node of the first two. -/
theorem C6_witness_third_item_joins :
    ∃ md1 log1 item1 n1,
      cmp_and_merge_one server_params (cb_after server_params pair_merged_third_seen).metadata
        (cb_after server_params pair_merged_third_seen).log_table hash_a (1, 12288) =
        .ok (md1, log1) ∧
      item_at md1 (1, 12288) = .ok item1 ∧ node_at md1 0 = some n1 ∧
      item1.state = item_state.Stable ∧ item1.stable_node = some 0 ∧
      item1.old_hash = n1.page_hash ∧ item1.pfn = n1.pfn ∧
      n1.page_hash = hash_a ∧ n1.pfn = 20 ∧
      (1, 12288) ∈ n1.sharing_item_tree ∧
      n1.shared_cnt = 2 + 1 ∧
      md1.unstable_hash_table =
        (cb_after server_params pair_merged_third_seen).metadata.unstable_hash_table ∧
      log1.entries = (cb_after server_params pair_merged_third_seen).log_table.entries ++
        [{ type := DPU_STABLE_MERGE, from_va := 12288, kpfn := 20, from_mm_id := 1,
           shared_cnt := 2 + 1 }] ∧
      ((2 : Int) = 2 → ∀ e ∈ log1.entries.getLast?, e.shared_cnt = 3) :=
  C6_stable_merge_links_item server_params (cb_after server_params pair_merged_third_seen).metadata
    (cb_after server_params pair_merged_third_seen).log_table hash_a (1, 12288)
    ⟨1, 1, 1, 12288, 30, 0, hash_a, item_state.Volatile, 0, 0, none⟩ 0
    ⟨hash_a, 2, 20, [(1, 4096), (1, 8192)], ⟨node_chain_type.HEAD, none, none⟩⟩
    (by rfl) (by rfl) (by rfl) (by rfl) (by rfl) (by rfl)

/-- Witness of C5: the second cycle of two identical pages. -/
theorem C5_witness_two_identical_pages :
    ∃ cb1 cb2 x1 x2 y2 n,
      worker_step server_params (cb_after server_params first_cycle_pair) zero_item 1
        ⟨4096, 10⟩ hash_a = .ok cb1 ∧
      item_at cb1.metadata (1, 4096) = .ok x1 ∧
      x1.state = item_state.Unstable ∧
      g_hash_table_lookup cb1.metadata.unstable_hash_table hash_a = some (1, 4096) ∧
      cb1.log_table = (cb_after server_params first_cycle_pair).log_table ∧
      worker_step server_params cb1 zero_item 1 ⟨8192, 20⟩ hash_a = .ok cb2 ∧
      node_at (cb_after server_params first_cycle_pair).metadata 0 = none ∧
      node_at cb2.metadata 0 = some n ∧
      n.page_hash = hash_a ∧ n.pfn = 20 ∧ n.shared_cnt = 2 ∧
      (∀ key, key ∈ n.sharing_item_tree ↔ key = (1, 4096) ∨ key = (1, 8192)) ∧
      n.sharing_item_tree.length = 2 ∧
      g_hash_table_lookup cb2.metadata.stable_hash_table hash_a = some 0 ∧
      item_at cb2.metadata (1, 4096) = .ok x2 ∧
      x2.state = item_state.Stable ∧ x2.stable_node = some 0 ∧
      item_at cb2.metadata (1, 8192) = .ok y2 ∧
      y2.state = item_state.Stable ∧ y2.stable_node = some 0 ∧
      cb2.metadata.unstable_hash_table = [] ∧
      cb2.log_table.entries = [] ++
        [{ type := DPU_UNSTABLE_MERGE, from_va := 8192, kpfn := 4096,
           from_mm_id := 1, shared_cnt := 1 }] :=
  C5_unstable_pair_is_promoted server_params (cb_after server_params first_cycle_pair)
    zero_item zero_item 1 1 ⟨4096, 10⟩ ⟨8192, 20⟩ hash_a
    ⟨1, 0, 1, 4096, 10, 0, hash_a, item_state.Volatile, 0, 0, none⟩
    ⟨1, 0, 1, 8192, 20, 0, hash_a, item_state.Volatile, 0, 0, none⟩
    (by rfl) (by rfl) (by decide) (by rfl) (by rfl) (by rfl) (by rfl) (by rfl) (by rfl)
    (by rfl) (by rfl)

/-! ## Chains -/

theorem chain_inv_next {md : ksm_metadata} (hinv : chain_inv md) {a b : Nat}
    {n : stable_node} (hn : node_at md a = some n) (hb : n.chain.next = some b) :
    a < b ∧ ∃ m, node_at md b = some m ∧ m.chain.prev = some a ∧
      m.page_hash = n.page_hash := by
  obtain ⟨h1, ⟨m, hm, h2⟩⟩ := (hinv.1 a (node_at_lt hn) n hn).1 b hb
  exact ⟨h1, m, hm, h2⟩

theorem chain_inv_prev {md : ksm_metadata} (hinv : chain_inv md) {a c : Nat}
    {n : stable_node} (hn : node_at md a = some n) (hc : n.chain.prev = some c) :
    ∃ m, node_at md c = some m ∧ m.chain.next = some a := by
  obtain ⟨m, hm, h2⟩ := (hinv.1 a (node_at_lt hn) n hn).2.1 c hc
  exact ⟨m, hm, h2⟩

theorem chain_inv_type {md : ksm_metadata} (hinv : chain_inv md) {a : Nat}
    {n : stable_node} (hn : node_at md a = some n) :
    n.chain.type = node_chain_type.HEAD ↔ n.chain.prev = none :=
  (hinv.1 a (node_at_lt hn) n hn).2.2

theorem chain_inv_index {md : ksm_metadata} (hinv : chain_inv md)
    {e : hash_pair × Nat × Nat} (he : e ∈ md.stable_hash_table) :
    ∃ v, node_at md e.2.2 = some v ∧ v.page_hash = e.1 ∧ v.chain.prev = none := by
  obtain ⟨v, hv, h2⟩ := hinv.2 e he
  exact ⟨v, hv, h2⟩

theorem g_hash_table_lookup_some {α : Type} {table : GHashTable α} {h : hash_pair} {v : α}
    (hl : g_hash_table_lookup table h = some v) :
    ∃ e ∈ table, e.1 = h ∧ e.2.2 = v := by
  unfold g_hash_table_lookup at hl
  rw [Option.map_eq_some'] at hl
  obtain ⟨e, he, hv⟩ := hl
  refine ⟨e, List.mem_of_find?_eq_some he, ?_, hv⟩
  have := List.find?_some he
  exact (compare_hash_pair_equal_iff _ _).1 this

theorem chain_inv_lookup {md : ksm_metadata} (hinv : chain_inv md) {h : hash_pair}
    {a : Nat} (hl : g_hash_table_lookup md.stable_hash_table h = some a) :
    ∃ v, node_at md a = some v ∧ v.page_hash = h ∧ v.chain.prev = none := by
  obtain ⟨e, he, h1, h2⟩ := g_hash_table_lookup_some hl
  obtain ⟨v, hv, h3, h4⟩ := chain_inv_index hinv he
  rw [h2] at hv
  exact ⟨v, hv, by rw [h3, h1], h4⟩

/-- The chain hanging from a live node exists: the pointers go to nodes allocated later. -/
theorem chain_from_exists {md : ksm_metadata} (hinv : chain_inv md) :
    ∀ (k a : Nat) (n : stable_node), md.nodes.length - a ≤ k → node_at md a = some n →
      ∃ l, chain_from md (some a) l ∧ l.length ≤ md.nodes.length - a ∧
        ∀ b ∈ l, ∃ m, node_at md b = some m ∧ m.page_hash = n.page_hash := by
  intro k
  induction k with
  | zero =>
    intro a n hk hn
    have := node_at_lt hn
    omega
  | succ k ih =>
    intro a n hk hn
    have hlt := node_at_lt hn
    cases hb : n.chain.next with
    | none =>
      refine ⟨[a], ⟨rfl, n, hn, ?_⟩, ?_, ?_⟩
      · rw [hb]
        trivial
      · simp only [List.length_singleton]
        omega
      · intro b hbm
        simp only [List.mem_singleton] at hbm
        subst hbm
        exact ⟨n, hn, rfl⟩
    | some b =>
      obtain ⟨hab, m, hm, -, hmh⟩ := chain_inv_next hinv hn hb
      obtain ⟨l, hl, hlen, hall⟩ := ih b m (by omega) hm
      refine ⟨a :: l, ⟨rfl, n, hn, ?_⟩, ?_, ?_⟩
      · rw [hb]
        exact hl
      · have := node_at_lt hm
        simp only [List.length_cons]
        omega
      · intro c hc
        rcases List.mem_cons.1 hc with rfl | hc
        · exact ⟨n, hn, rfl⟩
        · obtain ⟨m2, hm2, hh⟩ := hall c hc
          exact ⟨m2, hm2, by rw [hh, hmh]⟩

theorem chain_from_none {md : ksm_metadata} {l : List Nat} (h : chain_from md none l) :
    l = [] := by
  cases l with
  | nil => rfl
  | cons b l => exact absurd h (by simp [chain_from])

theorem chain_from_some {md : ksm_metadata} {a : Nat} {l : List Nat}
    (h : chain_from md (some a) l) :
    ∃ n l1, l = a :: l1 ∧ node_at md a = some n ∧ chain_from md n.chain.next l1 := by
  cases l with
  | nil => exact absurd h (by simp [chain_from])
  | cons b l =>
    obtain ⟨hab, n, hn, hl⟩ := h
    subst hab
    exact ⟨n, l, rfl, hn, hl⟩

theorem chain_from_unique {md : ksm_metadata} {o : Option Nat} {l1 l2 : List Nat}
    (h1 : chain_from md o l1) (h2 : chain_from md o l2) : l1 = l2 := by
  induction l1 generalizing o l2 with
  | nil =>
    cases o with
    | none => exact (chain_from_none h2).symm
    | some a => exact absurd h1 (by simp [chain_from])
  | cons b l ih =>
    cases o with
    | none => exact absurd h1 (by simp [chain_from])
    | some a =>
      obtain ⟨n, l3, e3, hn, hl3⟩ := chain_from_some h1
      obtain ⟨n2, l4, e4, hn2, hl4⟩ := chain_from_some h2
      rw [hn] at hn2
      cases hn2
      cases e3
      subst e4
      rw [ih hl3 hl4]

/-- With fuel for the whole chain, the loop of `cmp_with_stable` returns the first node of
the chain that has room. -/
theorem cmp_with_stable_walk_chain (p : ksm_params) {md : ksm_metadata} :
    ∀ (l : List Nat) (o : Option Nat) (fuel : Nat), chain_from md o l → l.length ≤ fuel →
      cmp_with_stable_walk p md fuel o = .ok (l.find? (fun a => unsaturated p md a)) := by
  intro l
  induction l with
  | nil =>
    intro o fuel hc _
    cases o with
    | none => cases fuel <;> rfl
    | some a => exact absurd hc (by simp [chain_from])
  | cons b l ih =>
    intro o fuel hc hf
    cases o with
    | none => exact absurd hc (by simp [chain_from])
    | some a =>
      obtain ⟨n, l3, e3, hn, hl3⟩ := chain_from_some hc
      cases e3
      cases fuel with
      | zero => simp at hf
      | succ f =>
        simp only [cmp_with_stable_walk, hn, List.find?_cons, unsaturated]
        by_cases hs : n.shared_cnt < (p.MAX_PAGE_SHARING : Int)
        · simp [hs]
        · simp only [hs, if_false, decide_False]
          exact ih _ f hl3 (by simpa using hf)

theorem cmp_with_stable_chain (p : ksm_params) {md : ksm_metadata} (hinv : chain_inv md)
    (h : hash_pair) :
    ∃ chain : List Nat,
      chain_from md (g_hash_table_lookup md.stable_hash_table h) chain ∧
      (∀ a ∈ chain, ∃ n, node_at md a = some n ∧ n.page_hash = h) ∧
      cmp_with_stable p md h = .ok (chain.find? (fun a => unsaturated p md a)) := by
  cases hl : g_hash_table_lookup md.stable_hash_table h with
  | none =>
    refine ⟨[], trivial, by simp, ?_⟩
    rw [cmp_with_stable_of_lookup_none p hl]
    rfl
  | some a =>
    obtain ⟨v, hv, hvh, -⟩ := chain_inv_lookup hinv hl
    obtain ⟨l, hc, hlen, hall⟩ := chain_from_exists hinv _ a v (le_refl _) hv
    refine ⟨l, hc, ?_, ?_⟩
    · intro b hb
      obtain ⟨m, hm, hh⟩ := hall b hb
      exact ⟨m, hm, by rw [hh, hvh]⟩
    · obtain ⟨n, l1, e1, hn, hl1⟩ := chain_from_some hc
      rw [hv] at hn
      cases hn
      subst e1
      unfold cmp_with_stable
      simp only [hl, hv, List.find?_cons, unsaturated]
      by_cases hs : v.shared_cnt < (p.MAX_PAGE_SHARING : Int)
      · simp [hs]
      · simp only [hs, if_false, decide_False]
        refine cmp_with_stable_walk_chain p l1 _ _ hl1 ?_
        simp only [List.length_cons] at hlen
        omega

/-- C7: in a state whose chains and stable index are well formed, `cmp_with_stable` returns,
and what it returns is the first node with `shared_cnt < MAX_PAGE_SHARING` of the chain
indexed under `h`, taken in the order HEAD, then successive `chain.next`.  It returns no
node exactly when the index has no HEAD for `h` or every node of that chain is saturated.
A returned node has `page_hash = h` and `shared_cnt < MAX_PAGE_SHARING`. -/
theorem C7_cmp_with_stable_first_unsaturated (p : ksm_params) (md : ksm_metadata)
    (h : hash_pair) (hinv : chain_inv md) :
    ∃ chain : List Nat,
      chain_from md (g_hash_table_lookup md.stable_hash_table h) chain ∧
      (∀ a ∈ g_hash_table_lookup md.stable_hash_table h, ∃ n, node_at md a = some n ∧
        n.chain.type = node_chain_type.HEAD ∧ n.page_hash = h) ∧
      cmp_with_stable p md h = .ok (chain.find? (fun a => unsaturated p md a)) ∧
      (cmp_with_stable p md h = .ok none ↔
        g_hash_table_lookup md.stable_hash_table h = none ∨
          ∀ a ∈ chain, unsaturated p md a = false) ∧
      (∀ N, cmp_with_stable p md h = .ok (some N) →
        ∃ n, node_at md N = some n ∧ n.page_hash = h ∧
          n.shared_cnt < (p.MAX_PAGE_SHARING : Int)) := by
  obtain ⟨chain, hc, hall, hres⟩ := cmp_with_stable_chain p hinv h
  refine ⟨chain, hc, ?_, hres, ?_, ?_⟩
  · intro a ha
    obtain ⟨v, hv, hvh, hvp⟩ := chain_inv_lookup hinv ha
    exact ⟨v, hv, (chain_inv_type hinv hv).2 hvp, hvh⟩
  · rw [hres]
    constructor
    · intro hnone
      right
      simp only [Except.ok.injEq, List.find?_eq_none] at hnone
      intro a ha
      simpa using hnone a ha
    · rintro (hl | hsat)
      · rw [hl] at hc
        rw [chain_from_none hc]
        rfl
      · simp only [Except.ok.injEq, List.find?_eq_none]
        intro a ha
        simp [hsat a ha]
  · intro N hN
    rw [hres] at hN
    simp only [Except.ok.injEq] at hN
    have hmem := List.mem_of_find?_eq_some hN
    have hun := List.find?_some hN
    obtain ⟨n, hn, hh⟩ := hall N hmem
    refine ⟨n, hn, hh, ?_⟩
    simpa [unsaturated, hn] using hun

theorem chain_from_ge {md : ksm_metadata} (hinv : chain_inv md) :
    ∀ (l : List Nat) (a : Nat), chain_from md (some a) l → ∀ b ∈ l, a ≤ b := by
  intro l
  induction l with
  | nil => intro a _ b hb; cases hb
  | cons c l ih =>
    intro a hc b hb
    obtain ⟨n, l1, e1, hn, hl1⟩ := chain_from_some hc
    cases e1
    rcases List.mem_cons.1 hb with rfl | hb
    · exact le_refl _
    · cases hnx : n.chain.next with
      | none =>
        rw [hnx] at hl1
        rw [chain_from_none hl1] at hb
        cases hb
      | some d =>
        rw [hnx] at hl1
        have := (chain_inv_next hinv hn hnx).1
        have := ih d hl1 b hb
        omega

theorem chain_from_nodup {md : ksm_metadata} (hinv : chain_inv md) :
    ∀ (l : List Nat) (o : Option Nat), chain_from md o l → l.Nodup := by
  intro l
  induction l with
  | nil => intro _ _; exact List.nodup_nil
  | cons c l ih =>
    intro o hc
    cases o with
    | none => exact absurd hc (by simp [chain_from])
    | some a =>
      obtain ⟨n, l1, e1, hn, hl1⟩ := chain_from_some hc
      cases e1
      refine List.nodup_cons.2 ⟨?_, ih _ hl1⟩
      intro hmem
      cases hnx : n.chain.next with
      | none =>
        rw [hnx] at hl1
        rw [chain_from_none hl1] at hmem
        cases hmem
      | some d =>
        rw [hnx] at hl1
        have := (chain_inv_next hinv hn hnx).1
        have := chain_from_ge hinv _ d hl1 c hmem
        omega

/-- Every node of a chain other than the first is the `chain.next` of a node of the
chain. -/
theorem chain_from_mem {md : ksm_metadata} :
    ∀ (l : List Nat) (a b : Nat), chain_from md (some a) l → b ∈ l →
      b = a ∨ ∃ c n, c ∈ l ∧ node_at md c = some n ∧ n.chain.next = some b := by
  intro l
  induction l with
  | nil => intro a b _ hb; cases hb
  | cons c l ih =>
    intro a b hc hb
    obtain ⟨n, l1, e1, hn, hl1⟩ := chain_from_some hc
    cases e1
    rcases List.mem_cons.1 hb with rfl | hb
    · exact Or.inl rfl
    · right
      cases hnx : n.chain.next with
      | none =>
        rw [hnx] at hl1
        rw [chain_from_none hl1] at hb
        cases hb
      | some d =>
        rw [hnx] at hl1
        rcases ih d b hl1 hb with rfl | ⟨c, m, hc1, hm, hmn⟩
        · exact ⟨c, n, List.mem_cons_self _ _, hn, hnx⟩
        · exact ⟨c, m, List.mem_cons_of_mem _ hc1, hm, hmn⟩

/-- With fuel for the whole chain, the loop of `insert_stable_node` returns its last
node, whose `chain.next` is `NULL`. -/
theorem chain_tail_chain {md : ksm_metadata} :
    ∀ (l : List Nat) (a fuel : Nat), chain_from md (some a) l → l.length ≤ fuel →
      ∃ t tn, l.getLast? = some t ∧ chain_tail md fuel a = .ok t ∧
        node_at md t = some tn ∧ tn.chain.next = none := by
  intro l
  induction l with
  | nil => intro a fuel hc _; exact absurd hc (by simp [chain_from])
  | cons c l ih =>
    intro a fuel hc hf
    obtain ⟨n, l1, e1, hn, hl1⟩ := chain_from_some hc
    cases e1
    cases fuel with
    | zero => simp at hf
    | succ f =>
      cases hnx : n.chain.next with
      | none =>
        rw [hnx] at hl1
        rw [chain_from_none hl1]
        exact ⟨c, n, rfl, by simp [chain_tail, hn, hnx], hn, hnx⟩
      | some d =>
        rw [hnx] at hl1
        obtain ⟨t, tn, h1, h2, h3, h4⟩ := ih d f hl1 (by simpa using hf)
        refine ⟨t, tn, ?_, by simp [chain_tail, hn, hnx, h2], h3, h4⟩
        obtain ⟨-, l2, e2, -, -⟩ := chain_from_some hl1
        subst e2
        rw [List.getLast?_cons_cons]
        exact h1

theorem chain_from_next_of_cons {md : ksm_metadata} {a d : Nat} {l : List Nat}
    (h : chain_from md (some a) (a :: d :: l)) :
    ∃ n, node_at md a = some n ∧ n.chain.next = some d ∧ chain_from md (some d) (d :: l) := by
  obtain ⟨n, l1, e1, hn, hl1⟩ := chain_from_some h
  cases e1
  cases hnx : n.chain.next with
  | none =>
    rw [hnx] at hl1
    exact absurd hl1 (by simp [chain_from])
  | some d2 =>
    rw [hnx] at hl1
    obtain ⟨-, l2, e2, -, -⟩ := chain_from_some hl1
    cases e2
    exact ⟨n, hn, hnx, hl1⟩

/-- Appending a node after the last node of a chain extends the chain by that node. -/
theorem chain_from_append {md md1 : ksm_metadata} {t new_node : Nat} {tn1 nn1 : stable_node}
    (ht1 : node_at md1 t = some tn1) (htn : tn1.chain.next = some new_node)
    (hn1 : node_at md1 new_node = some nn1) (hnn : nn1.chain.next = none) :
    ∀ (l : List Nat) (o : Option Nat), chain_from md o l → l.Nodup →
      l.getLast? = some t → (∀ a ∈ l, a ≠ t → node_at md1 a = node_at md a) →
      chain_from md1 o (l ++ [new_node]) := by
  intro l
  induction l with
  | nil => intro o _ _ hlast; simp at hlast
  | cons c l ih =>
    intro o hc hnd hlast hsame
    cases o with
    | none => exact absurd hc (by simp [chain_from])
    | some a =>
      obtain ⟨n, l1, e1, hn, hl1⟩ := chain_from_some hc
      cases e1
      cases l with
      | nil =>
        simp only [List.getLast?_singleton, Option.some.injEq] at hlast
        subst hlast
        refine ⟨rfl, tn1, ht1, ?_⟩
        rw [htn]
        refine ⟨rfl, nn1, hn1, ?_⟩
        rw [hnn]
        trivial
      | cons d l2 =>
        obtain ⟨n2, hn2, hnx, hrest⟩ := chain_from_next_of_cons hc
        rw [List.getLast?_cons_cons] at hlast
        have hct : c ≠ t := by
          intro e
          have hmem : t ∈ d :: l2 := List.mem_of_getLast?_eq_some hlast
          rw [← e] at hmem
          exact (List.nodup_cons.1 hnd).1 hmem
        refine ⟨rfl, n2, ?_, ?_⟩
        · rw [hsame c (List.mem_cons_self _ _) hct]
          exact hn2
        · rw [hnx]
          exact ih (some d) hrest (List.nodup_cons.1 hnd).2 hlast
            (fun a ha hat => hsame a (List.mem_cons_of_mem _ ha) hat)

/-- Insertion of an unreferenced node whose hash has a HEAD in the index: the node is
appended after the last node of that HEAD's chain. -/
theorem insert_stable_node_appends {md : ksm_metadata} (hinv : chain_inv md)
    {new_node head : Nat} {nn : stable_node}
    (hn : node_at md new_node = some nn)
    (hl : g_hash_table_lookup md.stable_hash_table nn.page_hash = some head)
    (hfresh : ∀ a n, node_at md a = some n → n.chain.next ≠ some new_node)
    (hindex : ∀ e ∈ md.stable_hash_table, e.2.2 ≠ new_node) :
    ∃ chain tail tn,
      chain_from md (some head) chain ∧ chain.getLast? = some tail ∧
      node_at md tail = some tn ∧ tn.chain.next = none ∧ tail ≠ new_node ∧
      new_node ∉ chain ∧
      (∀ a ∈ chain, ∃ n, node_at md a = some n ∧ n.page_hash = nn.page_hash) ∧
      insert_stable_node md new_node =
        .ok (set_node (set_node md tail (set_chain_next (some new_node) tn)) new_node
              (set_chain
                { type := node_chain_type.CHAIN, next := none, prev := some tail } nn)) ∧
      chain_from
        (set_node (set_node md tail (set_chain_next (some new_node) tn)) new_node
          (set_chain { type := node_chain_type.CHAIN, next := none, prev := some tail } nn))
        (some head) (chain ++ [new_node]) := by
  obtain ⟨v, hv, hvh, -⟩ := chain_inv_lookup hinv hl
  obtain ⟨l, hc, hlen, hall⟩ := chain_from_exists hinv _ head v (le_refl _) hv
  obtain ⟨t, tn, hlast, htail, htn, htnx⟩ := chain_tail_chain l head md.nodes.length hc
    (by omega)
  have hhead : head ≠ new_node := by
    obtain ⟨e, he, -, h2⟩ := g_hash_table_lookup_some hl
    rw [← h2]
    exact hindex e he
  have hnotin : new_node ∉ l := by
    intro hmem
    rcases chain_from_mem l head new_node hc hmem with e | ⟨c, n, -, hcn, hnx⟩
    · exact hhead e.symm
    · exact hfresh c n hcn hnx
  have htmem : t ∈ l := List.mem_of_getLast?_eq_some hlast
  have htne : t ≠ new_node := fun e => hnotin (e ▸ htmem)
  have hlt : t < md.nodes.length := node_at_lt htn
  have hnlt : new_node < md.nodes.length := node_at_lt hn
  refine ⟨l, t, tn, hc, hlast, htn, htnx, htne, hnotin, ?_,
    insert_stable_node_chain hn hl htail htn htne, ?_⟩
  · intro a ha
    obtain ⟨m, hm, hh⟩ := hall a ha
    exact ⟨m, hm, by rw [hh, hvh]⟩
  · have h1 : node_at
        (set_node (set_node md t (set_chain_next (some new_node) tn)) new_node
          (set_chain { type := node_chain_type.CHAIN, next := none, prev := some t } nn)) t =
        some (set_chain_next (some new_node) tn) := by
      rw [node_at_set_node_ne _ _ htne.symm]
      exact node_at_set_node_same _ hlt
    have h2 : node_at
        (set_node (set_node md t (set_chain_next (some new_node) tn)) new_node
          (set_chain { type := node_chain_type.CHAIN, next := none, prev := some t } nn))
        new_node =
        some (set_chain { type := node_chain_type.CHAIN, next := none, prev := some t } nn) :=
      node_at_set_node_same _ (by simpa using hnlt)
    refine chain_from_append h1 rfl h2 rfl l (some head) hc
      (chain_from_nodup hinv l _ hc) hlast ?_
    intro a ha hat
    have hane : a ≠ new_node := fun e => hnotin (e ▸ ha)
    rw [node_at_set_node_ne _ _ hane.symm, node_at_set_node_ne _ _ (Ne.symm hat)]

/-- C8: `insert_stable_node` on a node that nothing references yet, in a state whose chains
and stable index are well formed.  When the index holds a HEAD for the node's `page_hash`,
the call returns and the node is appended after the last node of that HEAD's chain, with
type `CHAIN`, `prev` the former last node and `next = NULL`; the index is unchanged and
maps the hash to the same HEAD, which is still a `HEAD`; the new node is no value of the
index and the former last node is the only node whose `chain.next` is the new node.  When
the index holds no node for that hash, the call returns, the node is a `HEAD` without
`prev` and `next`, and the index maps the hash to it. -/
theorem C8_insert_stable_node_chains (md : ksm_metadata) (new_node : Nat) (nn : stable_node)
    (hinv : chain_inv md) (hn : node_at md new_node = some nn)
    (hunref : ∀ a < md.nodes.length, ∀ n ∈ node_at md a, n.chain.next ≠ some new_node)
    (hindex : ∀ e ∈ md.stable_hash_table, e.2.2 ≠ new_node) :
    (∀ head, g_hash_table_lookup md.stable_hash_table nn.page_hash = some head →
      ∃ chain tail md1 nn1 hd1,
        chain_from md (some head) chain ∧ chain.getLast? = some tail ∧
        insert_stable_node md new_node = .ok md1 ∧
        node_at md1 new_node = some nn1 ∧
        nn1.chain = { type := node_chain_type.CHAIN, next := none, prev := some tail } ∧
        nn1.page_hash = nn.page_hash ∧
        chain_from md1 (some head) (chain ++ [new_node]) ∧
        md1.stable_hash_table = md.stable_hash_table ∧
        g_hash_table_lookup md1.stable_hash_table nn.page_hash = some head ∧
        node_at md1 head = some hd1 ∧ hd1.chain.type = node_chain_type.HEAD ∧
        (∀ e ∈ md1.stable_hash_table, e.2.2 ≠ new_node) ∧
        (∀ a n, node_at md1 a = some n → n.chain.next = some new_node → a = tail) ∧
        (∀ a, a ≠ new_node → a ≠ tail → node_at md1 a = node_at md a)) ∧
    (g_hash_table_lookup md.stable_hash_table nn.page_hash = none →
      ∃ md1 nn1,
        insert_stable_node md new_node = .ok md1 ∧
        node_at md1 new_node = some nn1 ∧
        nn1.chain = { type := node_chain_type.HEAD, next := none, prev := none } ∧
        nn1.page_hash = nn.page_hash ∧
        g_hash_table_lookup md1.stable_hash_table nn.page_hash = some new_node ∧
        (∀ a, a ≠ new_node → node_at md1 a = node_at md a)) := by
  have hnlt : new_node < md.nodes.length := node_at_lt hn
  have hfresh : ∀ a n, node_at md a = some n → n.chain.next ≠ some new_node :=
    fun a n han => hunref a (node_at_lt han) n han
  constructor
  · intro head hl
    obtain ⟨chain, t, tn, hc, hlast, htn, htnx, htne, hnotin, -, hins, hc1⟩ :=
      insert_stable_node_appends hinv hn hl hfresh hindex
    obtain ⟨v, hv, -, hvp⟩ := chain_inv_lookup hinv hl
    have hvt : v.chain.type = node_chain_type.HEAD := (chain_inv_type hinv hv).2 hvp
    have hlt : t < md.nodes.length := node_at_lt htn
    have hhead : head ≠ new_node := by
      obtain ⟨e, he, -, h2⟩ := g_hash_table_lookup_some hl
      rw [← h2]
      exact hindex e he
    have hh1 : ∃ hd1, node_at
        (set_node (set_node md t (set_chain_next (some new_node) tn)) new_node
          (set_chain { type := node_chain_type.CHAIN, next := none, prev := some t } nn))
        head = some hd1 ∧ hd1.chain.type = node_chain_type.HEAD := by
      rw [node_at_set_node_ne _ _ hhead.symm]
      by_cases hht : head = t
      · subst hht
        rw [node_at_set_node_same _ hlt]
        rw [hv] at htn
        cases htn
        exact ⟨_, rfl, hvt⟩
      · rw [node_at_set_node_ne _ _ (Ne.symm hht)]
        exact ⟨v, hv, hvt⟩
    obtain ⟨hd1, hhd1, hhd1t⟩ := hh1
    refine ⟨chain, t, _, _, hd1, hc, hlast, hins,
      node_at_set_node_same _ (by simpa using hnlt), rfl, rfl, hc1, rfl, hl, hhd1, hhd1t,
      hindex, ?_, ?_⟩
    · intro a n han hnx
      by_contra hat
      by_cases han2 : a = new_node
      · subst han2
        rw [node_at_set_node_same _ (by simpa using hnlt)] at han
        cases han
        simp [set_chain] at hnx
      · rw [node_at_set_node_ne _ _ (Ne.symm han2), node_at_set_node_ne _ _ (Ne.symm hat)]
          at han
        exact hfresh a n han hnx
    · intro a h1 h2
      rw [node_at_set_node_ne _ _ (Ne.symm h1), node_at_set_node_ne _ _ (Ne.symm h2)]
  · intro hl
    refine ⟨_, set_chain { type := node_chain_type.HEAD, next := none, prev := none } nn,
      insert_stable_node_head hn hl, ?_, rfl, rfl, ?_, ?_⟩
    · rw [node_at_set_stable_hash_table]
      exact node_at_set_node_same _ hnlt
    · exact g_hash_table_lookup_append_of_none hl _ _
    · intro a h1
      rw [node_at_set_stable_hash_table, node_at_set_node_ne _ _ (Ne.symm h1)]

/-- Witness of C7: after four identical pages under `MAX_PAGE_SHARING = 2` the chain of the
hash is a saturated HEAD followed by a saturated CHAIN node. -/
theorem C7_witness_saturated_chain :
    ∃ chain : List Nat,
      chain_from (cb_after test_params four_identical_pages).metadata
        (g_hash_table_lookup
          (cb_after test_params four_identical_pages).metadata.stable_hash_table hash_a)
        chain ∧
      (∀ a ∈ g_hash_table_lookup
          (cb_after test_params four_identical_pages).metadata.stable_hash_table hash_a,
        ∃ n, node_at (cb_after test_params four_identical_pages).metadata a = some n ∧
          n.chain.type = node_chain_type.HEAD ∧ n.page_hash = hash_a) ∧
      cmp_with_stable test_params (cb_after test_params four_identical_pages).metadata hash_a
        = .ok (chain.find?
            (fun a => unsaturated test_params
              (cb_after test_params four_identical_pages).metadata a)) ∧
      (cmp_with_stable test_params (cb_after test_params four_identical_pages).metadata hash_a
          = .ok none ↔
        g_hash_table_lookup
            (cb_after test_params four_identical_pages).metadata.stable_hash_table hash_a
            = none ∨
          ∀ a ∈ chain, unsaturated test_params
            (cb_after test_params four_identical_pages).metadata a = false) ∧
      (∀ N, cmp_with_stable test_params (cb_after test_params four_identical_pages).metadata
          hash_a = .ok (some N) →
        ∃ n, node_at (cb_after test_params four_identical_pages).metadata N = some n ∧
          n.page_hash = hash_a ∧ n.shared_cnt < (test_params.MAX_PAGE_SHARING : Int)) :=
  C7_cmp_with_stable_first_unsaturated test_params
    (cb_after test_params four_identical_pages).metadata hash_a (by decide)

/-- Witness of C8: a node allocated for the hash of an indexed HEAD is appended to its
chain. -/
theorem C8_witness_new_chain_node :
    chain_inv
      (alloc_node (cb_after server_params pair_merged_third_seen).metadata
        (new_stable_node hash_a 40)) ∧
    g_hash_table_lookup
      (alloc_node (cb_after server_params pair_merged_third_seen).metadata
        (new_stable_node hash_a 40)).stable_hash_table hash_a = some 0 ∧
    ∃ md1 nn1,
      insert_stable_node
        (alloc_node (cb_after server_params pair_merged_third_seen).metadata
          (new_stable_node hash_a 40)) 1 = .ok md1 ∧
      node_at md1 1 = some nn1 ∧
      nn1.chain = { type := node_chain_type.CHAIN, next := none, prev := some 0 } ∧
      chain_from md1 (some 0) [0, 1] ∧
      g_hash_table_lookup md1.stable_hash_table hash_a = some 0 := by
  have h := C8_insert_stable_node_chains
    (alloc_node (cb_after server_params pair_merged_third_seen).metadata
      (new_stable_node hash_a 40)) 1 (new_stable_node hash_a 40) (by decide) (by rfl)
    (by decide) (by decide)
  obtain ⟨chain, tail, md1, nn1, hd1, hc, hlast, hins, hn1, hch, -, hc1, -, hl1, -⟩ :=
    h.1 0 (by rfl)
  have he : chain = [0] :=
    chain_from_unique hc
      (show chain_from _ (some 0) [0] from ⟨rfl, _, rfl, trivial⟩)
  subst he
  cases hlast
  exact ⟨by decide, by rfl, md1, nn1, hins, hn1, hch, hc1, hl1⟩

/-! ## Undoing an unstable merge -/

theorem reset_each_item_state_ok :
    ∀ (l : List item_key) (md : ksm_metadata), l.Nodup →
      (∀ k ∈ l, ∃ it, item_at md k = .ok it ∧ it.state = item_state.Stable) →
      ∃ md1, reset_each_item_state md l = .ok md1 ∧
        md1.nodes = md.nodes ∧ md1.stable_hash_table = md.stable_hash_table ∧
        md1.unstable_hash_table = md.unstable_hash_table ∧
        (∀ k ∈ l, ∀ it, item_at md k = .ok it →
          item_at md1 k = .ok (bump_volatility (reset_item_state it))) ∧
        (∀ k, k ∉ l → item_at md1 k = item_at md k) := by
  intro l
  induction l with
  | nil =>
    intro md _ _
    exact ⟨md, rfl, rfl, rfl, rfl, by simp, fun _ _ => rfl⟩
  | cons k ks ih =>
    intro md hnd hall
    obtain ⟨it, hit, hst⟩ := hall k (List.mem_cons_self _ _)
    have hkey : it.key = k := item_at_key hit
    have hnd2 := List.nodup_cons.1 hnd
    have hall2 : ∀ k2 ∈ ks, ∃ it2,
        item_at (set_item md (bump_volatility (reset_item_state it))) k2 = .ok it2 ∧
          it2.state = item_state.Stable := by
      intro k2 hk2
      obtain ⟨it2, hit2, hst2⟩ := hall k2 (List.mem_cons_of_mem _ hk2)
      refine ⟨it2, ?_, hst2⟩
      rw [item_at_set_item_ne _ _ _ (by
        simp only [bump_volatility_key, reset_item_state_key, hkey]
        rintro rfl
        exact hnd2.1 hk2)]
      exact hit2
    obtain ⟨md1, hrun, h1, h2, h3, h4, h5⟩ := ih _ hnd2.2 hall2
    refine ⟨md1, ?_, h1, h2, h3, ?_, ?_⟩
    · simp only [reset_each_item_state, hit, bind, Except.bind, hst, ne_eq,
        not_true_eq_false, if_false]
      exact hrun
    · intro k2 hk2 it2 hit2
      rcases List.mem_cons.1 hk2 with rfl | hk2
      · rw [hit] at hit2
        cases hit2
        rw [h5 _ hnd2.1]
        exact item_at_set_item hit (by simp [hkey])
      · have hne : k ≠ k2 := by
          rintro rfl
          exact hnd2.1 hk2
        refine h4 k2 hk2 it2 ?_
        rw [item_at_set_item_ne _ _ _ (by simpa [hkey] using hne)]
        exact hit2
    · intro k2 hk2
      have hne : k ≠ k2 := fun e => hk2 (e ▸ List.mem_cons_self _ _)
      rw [h5 k2 (fun hmem => hk2 (List.mem_cons_of_mem _ hmem)),
        item_at_set_item_ne _ _ _ (by simpa [hkey] using hne)]

theorem mem_g_hash_table_remove {α : Type} {table : GHashTable α} {h : hash_pair}
    {e : hash_pair × α × α} :
    e ∈ g_hash_table_remove table h ↔ e ∈ table ∧ e.1 ≠ h := by
  unfold g_hash_table_remove
  rw [List.mem_filter]
  constructor
  · rintro ⟨h1, h2⟩
    refine ⟨h1, fun e1 => ?_⟩
    rw [(compare_hash_pair_equal_iff _ _).2 e1] at h2
    cases h2
  · rintro ⟨h1, h2⟩
    refine ⟨h1, ?_⟩
    cases hc : compare_hash_pair_equal e.1 h
    · rfl
    · exact absurd ((compare_hash_pair_equal_iff _ _).1 hc) h2

theorem mem_g_hash_table_insert {α : Type} {table : GHashTable α} {h : hash_pair}
    {key value : α} {e : hash_pair × α × α}
    (he : e ∈ g_hash_table_insert table h key value) :
    (e ∈ table ∧ e.1 ≠ h) ∨ (e.1 = h ∧ e.2.2 = value) := by
  unfold g_hash_table_insert at he
  split_ifs at he with hf
  · rw [List.mem_map] at he
    obtain ⟨e0, he0, rfl⟩ := he
    by_cases hc : compare_hash_pair_equal e0.1 h = true
    · right
      rw [if_pos hc]
      exact ⟨(compare_hash_pair_equal_iff _ _).1 hc, rfl⟩
    · left
      rw [if_neg hc]
      exact ⟨he0, fun e1 => hc ((compare_hash_pair_equal_iff _ _).2 e1)⟩
  · rw [List.mem_append] at he
    rcases he with he | he
    · left
      refine ⟨he, fun e1 => ?_⟩
      simp only [Option.isSome_iff_exists, not_exists] at hf
      have hnone : List.find? (fun e => compare_hash_pair_equal e.1 h) table = none := by
        cases hx : List.find? (fun e => compare_hash_pair_equal e.1 h) table with
        | none => rfl
        | some x => exact absurd hx (hf x)
      rw [List.find?_eq_none] at hnone
      exact hnone e he ((compare_hash_pair_equal_iff _ _).2 e1)
    · right
      simp only [List.mem_singleton] at he
      subst he
      exact ⟨rfl, rfl⟩

@[simp] theorem free_node_rmap_tree (md : ksm_metadata) (a : Nat) :
    (free_node md a).rmap_tree = md.rmap_tree := rfl

@[simp] theorem free_node_stable (md : ksm_metadata) (a : Nat) :
    (free_node md a).stable_hash_table = md.stable_hash_table := rfl

@[simp] theorem free_node_unstable (md : ksm_metadata) (a : Nat) :
    (free_node md a).unstable_hash_table = md.unstable_hash_table := rfl

@[simp] theorem item_at_free_node (md : ksm_metadata) (a : Nat) (k : item_key) :
    item_at (free_node md a) k = item_at md k := rfl

/-- In a well-formed state `remove_stable_node_no_item` returns on every live node; the
node is then freed, no longer a value of the index and no longer linked into a chain. -/
theorem remove_stable_node_no_item_ok {md : ksm_metadata} (hinv : chain_inv md) {N : Nat}
    {n : stable_node} (hn : node_at md N = some n) :
    ∃ md1, remove_stable_node_no_item md N = .ok md1 ∧
      md1.rmap_tree = md.rmap_tree ∧
      md1.unstable_hash_table = md.unstable_hash_table ∧
      node_at md1 N = none ∧
      (∀ e ∈ md1.stable_hash_table, e.2.2 ≠ N) ∧
      (∀ a m, node_at md1 a = some m →
        m.chain.next ≠ some N ∧ m.chain.prev ≠ some N) := by
  have hNlt := node_at_lt hn
  -- no value of the index with another hash is `N`
  have hidx : ∀ e ∈ md.stable_hash_table, e.1 ≠ n.page_hash → e.2.2 ≠ N := by
    intro e he hne hN
    obtain ⟨v, hv, hvh, -⟩ := chain_inv_index hinv he
    rw [hN, hn] at hv
    cases hv
    exact hne hvh.symm
  cases ht : n.chain.type with
  | HEAD =>
    have hprev : n.chain.prev = none := (chain_inv_type hinv hn).1 ht
    have hnopred : ∀ a m, node_at md a = some m → m.chain.next ≠ some N := by
      intro a m hm hmn
      obtain ⟨-, m2, hm2, hp, -⟩ := chain_inv_next hinv hm hmn
      rw [hn] at hm2
      cases hm2
      rw [hprev] at hp
      cases hp
    cases hnx : n.chain.next with
    | none =>
      refine ⟨free_node (set_stable_hash_table
          (g_hash_table_remove md.stable_hash_table n.page_hash) md) N,
        by simp [remove_stable_node_no_item, deref_node_of hn, ht, hnx, bind, Except.bind],
        rfl, rfl, node_at_free_node_same _ _, ?_, ?_⟩
      · intro e he
        simp only [free_node_stable, set_stable_hash_table_stable] at he
        obtain ⟨he1, he2⟩ := mem_g_hash_table_remove.1 he
        exact hidx e he1 he2
      · intro a m hm
        by_cases haN : a = N
        · subst haN
          rw [node_at_free_node_same] at hm
          cases hm
        · rw [node_at_free_node_ne _ (Ne.symm haN), node_at_set_stable_hash_table] at hm
          refine ⟨hnopred a m hm, fun hp => ?_⟩
          obtain ⟨m2, hm2, hmn⟩ := chain_inv_prev hinv hm hp
          rw [hn] at hm2
          cases hm2
          rw [hnx] at hmn
          cases hmn
    | some b =>
      obtain ⟨hNb, nb, hnb, hnbp, hnbh⟩ := chain_inv_next hinv hn hnx
      have hblt := node_at_lt hnb
      have hbN : b ≠ N := by omega
      have hnb1 : node_at (set_node md b (make_head nb)) b = some (make_head nb) :=
        node_at_set_node_same _ hblt
      refine ⟨free_node (set_stable_hash_table
          (g_hash_table_insert (g_hash_table_remove md.stable_hash_table n.page_hash)
            (make_head nb).page_hash b b) (set_node md b (make_head nb))) N,
        by simp [remove_stable_node_no_item, deref_node_of hn, ht, hnx, hprev, bind,
          Except.bind, modify_node_ok hnb, deref_node_of hnb1],
        rfl, rfl, node_at_free_node_same _ _, ?_, ?_⟩
      · intro e he
        simp only [free_node_stable, set_stable_hash_table_stable] at he
        rcases mem_g_hash_table_insert he with ⟨he1, -⟩ | ⟨-, he2⟩
        · obtain ⟨he3, he4⟩ := mem_g_hash_table_remove.1 he1
          exact hidx e (by simpa using he3) he4
        · rw [he2]
          exact hbN
      · intro a m hm
        by_cases haN : a = N
        · subst haN
          rw [node_at_free_node_same] at hm
          cases hm
        · rw [node_at_free_node_ne _ (Ne.symm haN), node_at_set_stable_hash_table] at hm
          by_cases hab : a = b
          · subst hab
            rw [hnb1] at hm
            cases hm
            refine ⟨fun hmn => ?_, by simp [make_head]⟩
            have hmn2 : nb.chain.next = some N := by simpa [make_head] using hmn
            have := (chain_inv_next hinv hnb hmn2).1
            omega
          · rw [node_at_set_node_ne _ _ (Ne.symm hab)] at hm
            refine ⟨hnopred a m hm, fun hp => ?_⟩
            obtain ⟨m2, hm2, hmn⟩ := chain_inv_prev hinv hm hp
            rw [hn] at hm2
            cases hm2
            rw [hnx] at hmn
            cases hmn
            exact hab rfl
  | CHAIN =>
    have hprev : n.chain.prev ≠ none := by
      intro hp
      have := (chain_inv_type hinv hn).2 hp
      rw [ht] at this
      cases this
    obtain ⟨pr, hpr⟩ := Option.ne_none_iff_exists'.1 hprev
    obtain ⟨np, hnp, hnpn⟩ := chain_inv_prev hinv hn hpr
    have hprN : pr < N := (chain_inv_next hinv hnp hnpn).1
    have hprlt := node_at_lt hnp
    have hnotval : ∀ e ∈ md.stable_hash_table, e.2.2 ≠ N := by
      intro e he hN
      obtain ⟨v, hv, -, hvp⟩ := chain_inv_index hinv he
      rw [hN, hn] at hv
      cases hv
      exact hprev hvp
    have hnp1 : node_at (set_node md pr (set_chain_next n.chain.next np)) pr =
        some (set_chain_next n.chain.next np) := node_at_set_node_same _ hprlt
    -- nodes other than the two neighbours do not point to `N`
    have hother : ∀ a m, node_at md a = some m → a ≠ pr →
        m.chain.next ≠ some N := by
      intro a m hm hapr hmn
      obtain ⟨-, m2, hm2, hp, -⟩ := chain_inv_next hinv hm hmn
      rw [hn] at hm2
      cases hm2
      rw [hpr] at hp
      cases hp
      exact hapr rfl
    cases hnx : n.chain.next with
    | none =>
      refine ⟨free_node (set_node md pr (set_chain_next none np)) N,
        by simp [remove_stable_node_no_item, deref_node_of hn, ht, hnx, hpr, bind,
          Except.bind, modify_node_ok hnp],
        rfl, rfl, node_at_free_node_same _ _, ?_, ?_⟩
      · intro e he
        exact hnotval e (by simpa using he)
      · intro a m hm
        by_cases haN : a = N
        · subst haN
          rw [node_at_free_node_same] at hm
          cases hm
        · rw [node_at_free_node_ne _ (Ne.symm haN)] at hm
          by_cases hap : a = pr
          · subst hap
            rw [node_at_set_node_same _ hprlt] at hm
            cases hm
            refine ⟨by simp [set_chain_next], fun hp => ?_⟩
            have hp2 : np.chain.prev = some N := by simpa [set_chain_next] using hp
            obtain ⟨m2, hm2, hmn⟩ := chain_inv_prev hinv hnp hp2
            have := (chain_inv_next hinv hm2 hmn).1
            omega
          · rw [node_at_set_node_ne _ _ (Ne.symm hap)] at hm
            refine ⟨hother a m hm hap, fun hp => ?_⟩
            obtain ⟨m2, hm2, hmn⟩ := chain_inv_prev hinv hm hp
            rw [hn] at hm2
            cases hm2
            rw [hnx] at hmn
            cases hmn
    | some nx =>
      obtain ⟨hNnx, nn, hnn, hnnp, hnnh⟩ := chain_inv_next hinv hn hnx
      have hnxlt := node_at_lt hnn
      have hnxpr : nx ≠ pr := by omega
      have hnn1 : node_at (set_node md pr (set_chain_next (some nx) np)) nx = some nn := by
        rw [node_at_set_node_ne _ _ (Ne.symm hnxpr)]
        exact hnn
      refine ⟨free_node (set_node (set_node md pr (set_chain_next (some nx) np)) nx
          (set_chain_prev (some pr) nn)) N,
        by simp [remove_stable_node_no_item, deref_node_of hn, ht, hnx, hpr, bind,
          Except.bind, modify_node_ok hnp, modify_node_ok hnn1],
        rfl, rfl, node_at_free_node_same _ _, ?_, ?_⟩
      · intro e he
        exact hnotval e (by simpa using he)
      · intro a m hm
        by_cases haN : a = N
        · subst haN
          rw [node_at_free_node_same] at hm
          cases hm
        · rw [node_at_free_node_ne _ (Ne.symm haN)] at hm
          by_cases hax : a = nx
          · subst hax
            rw [node_at_set_node_same _ (by simpa using hnxlt)] at hm
            cases hm
            refine ⟨fun hmn => ?_, fun hp => ?_⟩
            · have hmn2 : nn.chain.next = some N := by simpa [set_chain_prev] using hmn
              have := (chain_inv_next hinv hnn hmn2).1
              omega
            · simp only [set_chain_prev, Option.some.injEq] at hp
              omega
          · rw [node_at_set_node_ne _ _ (Ne.symm hax)] at hm
            by_cases hap : a = pr
            · subst hap
              rw [node_at_set_node_same _ hprlt] at hm
              cases hm
              refine ⟨fun hmn => ?_, fun hp => ?_⟩
              · simp only [set_chain_next, Option.some.injEq] at hmn
                omega
              · have hp2 : np.chain.prev = some N := by simpa [set_chain_next] using hp
                obtain ⟨m2, hm2, hmn⟩ := chain_inv_prev hinv hnp hp2
                have := (chain_inv_next hinv hm2 hmn).1
                omega
            · rw [node_at_set_node_ne _ _ (Ne.symm hap)] at hm
              refine ⟨hother a m hm hap, fun hp => ?_⟩
              obtain ⟨m2, hm2, hmn⟩ := chain_inv_prev hinv hm hp
              rw [hn] at hm2
              cases hm2
              rw [hnx] at hmn
              cases hmn
              exact hax rfl

theorem chain_inv_congr {md1 md2 : ksm_metadata} (hn : md1.nodes = md2.nodes)
    (ht : md1.stable_hash_table = md2.stable_hash_table) (h : chain_inv md2) :
    chain_inv md1 := by
  unfold chain_inv at h ⊢
  simp only [node_at, hn, ht]
  exact h

/-- C10: a `HOST_MERGE_TWO_FAILED` record whose from-item exists and references the live
node `N`, in a state whose chains and index are well formed and in which the sharers tree
of `N` holds each key once, each the key of an existing `Stable` item.  `do_handle_error`
returns; every sharer of `N` is then `Volatile` with no `stable_node`, `old_hash =
null_hash` and `volatility_score` one higher (modulo `2 ^ 16`; exactly one higher below
65535, so 1 for an item that had 0), its key and the other fields left by
`reset_item_state`; `N` is freed, is no value of the stable index and is the `chain.next`
or `chain.prev` of no node; the log and the unstable index are unchanged; the items that
are not sharers of `N` are unchanged. -/
theorem C10_merge_two_failed_resets_sharers (md : ksm_metadata) (log_table : ksm_log_table)
    (entry : ksm_event_log) (from_item : rmap_item) (N : Nat) (n : stable_node)
    (hinv : chain_inv md)
    (htype : entry.type = HOST_MERGE_TWO_FAILED)
    (hfrom : g_tree_lookup md.rmap_tree (entry.from_mm_id, entry.from_va) = some from_item)
    (hN : from_item.stable_node = some N) (hn : node_at md N = some n)
    (hnodup : n.sharing_item_tree.Nodup)
    (hsharers : ∀ k ∈ n.sharing_item_tree,
      ∃ it ∈ g_tree_lookup md.rmap_tree k, it.state = item_state.Stable) :
    ∃ md1,
      do_handle_error_entry md log_table entry = .ok (md1, log_table) ∧
      (∀ k ∈ n.sharing_item_tree, ∀ it, item_at md k = .ok it →
        ∃ it1, item_at md1 k = .ok it1 ∧
          it1.state = item_state.Volatile ∧ it1.stable_node = none ∧
          it1.old_hash = null_hash ∧
          it1.volatility_score = (it.volatility_score + 1) % 65536 ∧
          (it.volatility_score < 65535 → it1.volatility_score = it.volatility_score + 1) ∧
          (it.volatility_score = 0 → it1.volatility_score = 1) ∧
          it1.key = it.key ∧ it1.pfn = it.old_pfn ∧ it1.old_pfn = 0 ∧
          it1.age = it.age ∧ it1.skip_cnt = it.skip_cnt ∧
          it1.last_access = it.last_access) ∧
      (∀ k, k ∉ n.sharing_item_tree → item_at md1 k = item_at md k) ∧
      node_at md1 N = none ∧
      (∀ e ∈ md1.stable_hash_table, e.2.2 ≠ N) ∧
      (∀ a m, node_at md1 a = some m →
        m.chain.next ≠ some N ∧ m.chain.prev ≠ some N) ∧
      md1.unstable_hash_table = md.unstable_hash_table := by
  have hsh : ∀ k ∈ n.sharing_item_tree,
      ∃ it, item_at md k = .ok it ∧ it.state = item_state.Stable := by
    intro k hk
    obtain ⟨it, hit, hst⟩ := hsharers k hk
    exact ⟨it, (item_at_eq _ _ _).2 hit, hst⟩
  obtain ⟨md1, hrun, h1, h2, h3, h4, h5⟩ :=
    reset_each_item_state_ok n.sharing_item_tree md hnodup hsh
  have hinv1 : chain_inv md1 := chain_inv_congr h1 h2 hinv
  have hn1 : node_at md1 N = some n := by
    rw [node_at_congr h1]
    exact hn
  obtain ⟨md2, hrem, g1, g2, g3, g4, g5⟩ := remove_stable_node_no_item_ok hinv1 hn1
  have hitem : ∀ k, item_at md2 k = item_at md1 k := by
    intro k
    unfold item_at
    rw [g1]
  refine ⟨md2, ?_, ?_, ?_, g3, g4, g5, by rw [g2, h3]⟩
  · unfold do_handle_error_entry
    have t1 : entry.type ≠ HOST_STALE_STABLE_NODE := by rw [htype]; decide
    have t2 : entry.type ≠ HOST_NO_STABLE_NODE := by rw [htype]; decide
    have t3 : entry.type ≠ HOST_MERGE_ONE_FAILED := by rw [htype]; decide
    simp only [t1, t2, t3, htype, if_false, if_true]
    unfold undo_merge_two
    simp only [hfrom, hN, deref_node_of hn, bind, Except.bind, hrun, hrem]
    rfl
  · intro k hk it hit
    refine ⟨bump_volatility (reset_item_state it), ?_, rfl, rfl, rfl, rfl, ?_, ?_, rfl, rfl,
      rfl, rfl, rfl, rfl⟩
    · rw [hitem]
      exact h4 k hk it hit
    · intro hlt
      show (it.volatility_score + 1) % 65536 = it.volatility_score + 1
      exact Nat.mod_eq_of_lt (by omega)
    · intro h0
      show (it.volatility_score + 1) % 65536 = 1
      rw [h0]
  · intro k hk
    rw [hitem]
    exact h5 k hk

/-- Witness of C10: the host rejects the unstable merge of two identical pages; both items
go back to `Volatile` with `volatility_score = 1` and the node is freed. -/
theorem C10_witness_rejected_unstable_merge :
    ∃ md1,
      do_handle_error_entry (cb_after server_params pair_merged).metadata
        (cb_after server_params pair_merged).log_table
        { type := HOST_MERGE_TWO_FAILED, from_va := 8192, kpfn := 4096, from_mm_id := 1,
          shared_cnt := 1 } = .ok (md1, (cb_after server_params pair_merged).log_table) ∧
      (∃ a b, item_at md1 (1, 4096) = .ok a ∧ item_at md1 (1, 8192) = .ok b ∧
        a.state = item_state.Volatile ∧ b.state = item_state.Volatile ∧
        a.volatility_score = 1 ∧ b.volatility_score = 1) ∧
      node_at md1 0 = none := by
  obtain ⟨md1, hrun, hsh, -, hfree, -⟩ := C10_merge_two_failed_resets_sharers
    (cb_after server_params pair_merged).metadata
    (cb_after server_params pair_merged).log_table
    { type := HOST_MERGE_TWO_FAILED, from_va := 8192, kpfn := 4096, from_mm_id := 1,
      shared_cnt := 1 }
    ⟨1, 1, 2, 8192, 20, 20, hash_a, item_state.Stable, 0, 0, some 0⟩ 0
    ⟨hash_a, 2, 20, [(1, 4096), (1, 8192)], ⟨node_chain_type.HEAD, none, none⟩⟩
    (by decide) (by rfl) (by rfl) (by rfl) (by rfl) (by decide) (by decide)
  obtain ⟨a, ha, ha1, -, -, -, -, ha2, -⟩ := hsh (1, 4096) (by decide)
    ⟨1, 1, 2, 4096, 20, 10, hash_a, item_state.Stable, 0, 0, some 0⟩ (by rfl)
  obtain ⟨b, hb, hb1, -, -, -, -, hb2, -⟩ := hsh (1, 8192) (by decide)
    ⟨1, 1, 2, 8192, 20, 20, hash_a, item_state.Stable, 0, 0, some 0⟩ (by rfl)
  exact ⟨md1, hrun, ⟨a, b, ha, hb, ha1, hb1, ha2 rfl, hb2 rfl⟩, hfree⟩

/-! ## Promotion into an existing chain -/

theorem chain_from_congr_on {md1 md2 : ksm_metadata} :
    ∀ (l : List Nat) (o : Option Nat), chain_from md1 o l →
      (∀ a ∈ l, (node_at md2 a).map (fun n => n.chain.next) =
        (node_at md1 a).map (fun n => n.chain.next)) →
      chain_from md2 o l := by
  intro l
  induction l with
  | nil =>
    intro o hc _
    cases o with
    | none => trivial
    | some a => exact hc.elim
  | cons b l ih =>
    intro o hc hag
    cases o with
    | none => exact hc.elim
    | some a =>
      obtain ⟨hab, n, hn, hrest⟩ := hc
      have h1 := hag b (List.mem_cons_self _ _)
      rw [← hab, hn] at h1
      cases hm : node_at md2 a with
      | none => rw [hm] at h1; cases h1
      | some m =>
        rw [hm] at h1
        simp only [Option.map_some', Option.some.injEq] at h1
        refine ⟨hab, m, hm, ?_⟩
        rw [h1]
        exact ih _ hrest (fun c hc => hag c (List.mem_cons_of_mem _ hc))

theorem chain_inv_alloc_node {md : ksm_metadata} (hinv : chain_inv md) (h : hash_pair)
    (pfn : Nat) : chain_inv (alloc_node md (new_stable_node h pfn)) := by
  constructor
  · intro a _ n hn
    by_cases hlast : a = md.nodes.length
    · subst hlast
      rw [node_at_alloc_node_new] at hn
      have hnn : new_stable_node h pfn = n := Option.some.inj hn
      subst hnn
      refine ⟨?_, ?_, ?_⟩
      · intro b hb
        cases hb
      · intro c hc
        cases hc
      · simp [new_stable_node]
    · rw [node_at_alloc_node_ne md _ hlast] at hn
      have hn1 : node_at md a = some n := hn
      refine ⟨?_, ?_, chain_inv_type hinv hn1⟩
      · intro b hb
        obtain ⟨h1, m, hm, h2⟩ := chain_inv_next hinv hn1 hb
        exact ⟨h1, m, node_at_alloc_node_old _ hm, h2⟩
      · intro c hc
        obtain ⟨m, hm, h2⟩ := chain_inv_prev hinv hn1 hc
        exact ⟨m, node_at_alloc_node_old _ hm, h2⟩
  · intro e he
    obtain ⟨v, hv, h2⟩ := chain_inv_index hinv he
    exact ⟨v, node_at_alloc_node_old _ hv, h2⟩


theorem node_at_length (md : ksm_metadata) : node_at md md.nodes.length = none := by
  unfold node_at
  rw [List.getD_eq_default]
  exact Nat.le_refl _

theorem volatile_promotes_into_chain (p : ksm_params) (md : ksm_metadata)
    (hinv : chain_inv md) (log_table : ksm_log_table) (h : hash_pair) (head : Nat)
    (k u : item_key) (item uit : rmap_item)
    (hitem : item_at md k = .ok item) (hstate : item.state = item_state.Volatile)
    (hskip : (should_skip_item p (advance_age item)).1 = false)
    (hhash : item.old_hash = h)
    (hl : g_hash_table_lookup md.stable_hash_table h = some head)
    (hfind : cmp_with_stable p md h = .ok none)
    (hun : g_hash_table_lookup md.unstable_hash_table h = some u)
    (hu : item_at md u = .ok uit) (huh : uit.old_hash = h)
    (hus : uit.state = item_state.Volatile ∨ uit.state = item_state.Unstable)
    (hne : u ≠ k) :
    ∃ md1,
      cmp_and_merge_volatile p md log_table h k =
        .ok (md1, appended log_table
          { type := DPU_UNSTABLE_MERGE, from_va := item.va, kpfn := uit.va,
            from_mm_id := item.mm_id, shared_cnt := uit.mm_id }) ∧
      chain_node_added md md1 h head u k ∧
      md1.unstable_hash_table = g_hash_table_remove md.unstable_hash_table h := by
  have hinv0 : chain_inv (set_unstable_hash_table (g_hash_table_remove md.unstable_hash_table h)
      (set_item md (set_old_hash h (settled p item)))) :=
    chain_inv_congr rfl rfl hinv
  have hinv1 := chain_inv_alloc_node hinv0 h item.pfn
  have hn : node_at (alloc_node (set_unstable_hash_table
      (g_hash_table_remove md.unstable_hash_table h)
      (set_item md (set_old_hash h (settled p item)))) (new_stable_node h item.pfn))
      md.nodes.length = some (new_stable_node h item.pfn) :=
    node_at_alloc_node_new _ _
  have hold : ∀ a, a ≠ md.nodes.length → node_at (alloc_node (set_unstable_hash_table
      (g_hash_table_remove md.unstable_hash_table h)
      (set_item md (set_old_hash h (settled p item)))) (new_stable_node h item.pfn)) a =
      node_at md a :=
    fun a ha => node_at_alloc_node_ne (set_unstable_hash_table
      (g_hash_table_remove md.unstable_hash_table h)
      (set_item md (set_old_hash h (settled p item)))) _ ha
  have hfresh : ∀ a n, node_at (alloc_node (set_unstable_hash_table
      (g_hash_table_remove md.unstable_hash_table h)
      (set_item md (set_old_hash h (settled p item)))) (new_stable_node h item.pfn)) a
      = some n → n.chain.next ≠ some md.nodes.length := by
    intro a n han hnext
    by_cases ha : a = md.nodes.length
    · subst ha
      rw [hn] at han
      have := Option.some.inj han
      subst this
      cases hnext
    · rw [hold a ha] at han
      have han1 : node_at md a = some n := han
      obtain ⟨-, m, hm, -⟩ := chain_inv_next hinv han1 hnext
      exact absurd (node_at_lt hm) (Nat.lt_irrefl _)
  have hindex : ∀ e ∈ (alloc_node (set_unstable_hash_table
      (g_hash_table_remove md.unstable_hash_table h)
      (set_item md (set_old_hash h (settled p item))))
      (new_stable_node h item.pfn)).stable_hash_table, e.2.2 ≠ md.nodes.length := by
    intro e he heq
    have he1 : e ∈ md.stable_hash_table := he
    obtain ⟨v, hv, -⟩ := chain_inv_index hinv he1
    rw [heq] at hv
    exact absurd (node_at_lt hv) (Nat.lt_irrefl _)
  obtain ⟨chain, tail, tn, hch, hlast, htn, -, htne, hnotin, -, hins, hch1⟩ :=
    insert_stable_node_appends hinv1 hn hl hfresh hindex
  have hlen : md.nodes.length < (set_node (alloc_node (set_unstable_hash_table
      (g_hash_table_remove md.unstable_hash_table h)
      (set_item md (set_old_hash h (settled p item)))) (new_stable_node h item.pfn)) tail
      (set_chain_next (some md.nodes.length) tn)).nodes.length := by
    simp only [set_node_nodes_length, alloc_node_length, set_unstable_hash_table_nodes,
      set_item_nodes]
    exact Nat.lt_succ_self _
  have hnn := node_at_set_node_same
    (set_chain { type := node_chain_type.CHAIN, next := none, prev := some tail }
      (new_stable_node h item.pfn)) hlen
  have hrun := volatile_promotes p md _ log_table h k u item uit _ hitem hstate hskip hhash
    hfind hun hu huh hus hne hins rfl hnn
  refine ⟨_, hrun, ⟨chain, tail,
    add_sharer k (add_sharer u
      (set_chain { type := node_chain_type.CHAIN, next := none, prev := some tail }
        (new_stable_node h item.pfn))), link_item
    (set_chain { type := node_chain_type.CHAIN, next := none, prev := some tail }
      (new_stable_node h item.pfn)) md.nodes.length uit,
    link_item (add_sharer u
      (set_chain { type := node_chain_type.CHAIN, next := none, prev := some tail }
        (new_stable_node h item.pfn))) md.nodes.length (set_old_hash h (settled p item)),
    ?_, hlast, node_at_length md, ?_,
    ?_, rfl, rfl, ?_, ?_, ?_, rfl, hl, ?_, rfl, rfl, ?_, rfl, rfl⟩, rfl⟩
  · refine chain_from_congr_on chain _ hch ?_
    intro a ha
    have hane : a ≠ md.nodes.length := fun e => hnotin (e ▸ ha)
    rw [hold a hane]
  · simp only [set_node_nodes_length, alloc_node_length, set_unstable_hash_table_nodes,
      set_item_nodes]
  · apply node_at_set_node_same
    simp only [set_node_nodes_length, alloc_node_length, set_unstable_hash_table_nodes,
      set_item_nodes]
    exact Nat.lt_succ_self _
  · simp [add_sharer, set_chain, new_stable_node]
  · intro x
    simp only [add_sharer, set_chain, new_stable_node, mem_g_tree_insert, List.not_mem_nil,
      or_false]
    exact or_comm
  · refine chain_from_congr_on _ _ hch1 ?_
    intro a _
    by_cases ha : a = md.nodes.length
    · subst ha
      rw [node_at_set_node_same _ (by
        simp only [set_node_nodes_length, alloc_node_length, set_unstable_hash_table_nodes,
          set_item_nodes]
        exact Nat.lt_succ_self _), hnn]
      rfl
    · rw [node_at_set_node_ne _ _ (Ne.symm ha), node_at_set_item,
        node_at_set_node_ne _ _ (Ne.symm ha), node_at_set_item]
  · rw [item_at_set_node, item_at_set_item_ne _ _ _ (by
      simp only [link_item_key, set_old_hash_key, settled_key]
      rw [item_at_key hitem]
      exact Ne.symm hne), item_at_set_node]
    refine @item_at_set_item _ _ uit _ ?_ (by rw [link_item_key]; exact item_at_key hu)
    simp only [item_at_set_node, item_at_alloc_node, item_at_set_unstable_hash_table]
    rw [item_at_set_item_ne _ _ _ (by
      simp only [set_old_hash_key, settled_key]
      rw [item_at_key hitem]
      exact Ne.symm hne)]
    exact hu
  · rw [item_at_set_node]
    refine @item_at_set_item _ _ (set_old_hash h (settled p item)) _ ?_ (by
      simp only [link_item_key, set_old_hash_key, settled_key]
      exact item_at_key hitem)
    rw [item_at_set_node, item_at_set_item_ne _ _ _ (by
      rw [link_item_key, item_at_key hu]
      exact hne)]
    simp only [item_at_set_node, item_at_alloc_node, item_at_set_unstable_hash_table]
    exact item_at_set_item hitem (by
      simp only [set_old_hash_key, settled_key]
      exact item_at_key hitem)

/-- Counterexample to C9: the item that follows a saturating stable merge creates no node.
With `MAX_PAGE_SHARING = 3` and five identical pages, in the second cycle the page `12288`
is merged into the node of the first two, whose `shared_cnt` goes from 2 to 3; the page
`16384` comes next, its item is `Volatile`, holds the same hash and is not skipped, and after
it the item is `Unstable` and the only node is still the saturated HEAD.  The same happens
with `MAX_PAGE_SHARING = 256` from a node with 255 sharers. -/
theorem C9_counterexample_next_item_waits_unstable :
    ((node_at (cb_after three_params (five_identical_pages.take 9)).metadata 0).map
        (fun n => n.shared_cnt) = some 2 ∧
      (cb_after three_params (five_identical_pages.take 10)).log_table.entries.getLast? =
        some { type := DPU_STABLE_MERGE, from_va := 12288, kpfn := 20, from_mm_id := 1,
               shared_cnt := 3 } ∧
      (node_at (cb_after three_params (five_identical_pages.take 10)).metadata 0).map
        (fun n => n.shared_cnt) = some 3 ∧
      (g_tree_lookup (cb_after three_params (five_identical_pages.take 10)).metadata.rmap_tree
          (1, 16384)).map (fun i => (i.state, i.old_hash, i.skip_cnt)) =
        some (item_state.Volatile, hash_a, 0) ∧
      (g_tree_lookup (cb_after three_params (five_identical_pages.take 11)).metadata.rmap_tree
          (1, 16384)).map (fun i => i.state) = some item_state.Unstable ∧
      (cb_after three_params (five_identical_pages.take 11)).metadata.nodes.map
          (Option.map (fun n => (n.shared_cnt, n.chain.type, n.chain.next))) =
        [some (3, node_chain_type.HEAD, none)]) ∧
    ((node_at nearly_full_cb.metadata 0).map (fun n => n.shared_cnt) = some 255 ∧
      (run_from server_params nearly_full_cb
          [page_op (4096 * 256) 256 hash_a]).log_table.entries =
        [{ type := DPU_STABLE_MERGE, from_va := 4096 * 256, kpfn := 2, from_mm_id := 1,
           shared_cnt := 256 }] ∧
      (node_at (run_from server_params nearly_full_cb
          [page_op (4096 * 256) 256 hash_a]).metadata 0).map
        (fun n => n.shared_cnt) = some 256 ∧
      (g_tree_lookup (run_from server_params nearly_full_cb
          [page_op (4096 * 256) 256 hash_a]).metadata.rmap_tree
          (1, 4096 * 257)).map (fun i => (i.state, i.old_hash, i.skip_cnt)) =
        some (item_state.Volatile, hash_a, 0) ∧
      (g_tree_lookup (run_from server_params nearly_full_cb
          [page_op (4096 * 256) 256 hash_a,
           page_op (4096 * 257) 257 hash_a]).metadata.rmap_tree
          (1, 4096 * 257)).map (fun i => i.state) = some item_state.Unstable ∧
      (run_from server_params nearly_full_cb
          [page_op (4096 * 256) 256 hash_a,
           page_op (4096 * 257) 257 hash_a]).metadata.nodes.map
          (Option.map (fun n => (n.shared_cnt, n.chain.type, n.chain.next))) =
        [some (256, node_chain_type.HEAD, none)]) := by
  refine ⟨⟨?_, ?_, ?_, ?_, ?_, ?_⟩, ⟨?_, ?_, ?_, ?_, ?_, ?_⟩⟩ <;> rfl

/-! ## Saturation of a node and what follows it -/

theorem chain_inv_of_links {md md1 : ksm_metadata}
    (hfw : ∀ b m, node_at md b = some m →
      ∃ m1, node_at md1 b = some m1 ∧ m1.chain = m.chain ∧ m1.page_hash = m.page_hash)
    (hbw : ∀ b m1, node_at md1 b = some m1 →
      ∃ m, node_at md b = some m ∧ m1.chain = m.chain ∧ m1.page_hash = m.page_hash)
    (ht : md1.stable_hash_table = md.stable_hash_table) (hinv : chain_inv md) :
    chain_inv md1 := by
  constructor
  · intro x _ m1 hm1
    obtain ⟨m, hm, hc, hp⟩ := hbw x m1 hm1
    refine ⟨?_, ?_, ?_⟩
    · intro b hb
      have hb1 : m.chain.next = some b := by rw [← hc]; exact hb
      obtain ⟨hlt, m2, hm2, hpr, hph⟩ := chain_inv_next hinv hm hb1
      obtain ⟨m3, hm3, hc3, hp3⟩ := hfw b m2 hm2
      exact ⟨hlt, m3, hm3, by rw [hc3]; exact hpr, by rw [hp3, hph, hp]⟩
    · intro c hcp
      have hc1 : m.chain.prev = some c := by rw [← hc]; exact hcp
      obtain ⟨m2, hm2, hnx⟩ := chain_inv_prev hinv hm hc1
      obtain ⟨m3, hm3, hc3, -⟩ := hfw c m2 hm2
      exact ⟨m3, hm3, by rw [hc3]; exact hnx⟩
    · rw [hc]
      exact chain_inv_type hinv hm
  · intro e he
    rw [ht] at he
    obtain ⟨v, hv, hvh, hvp⟩ := chain_inv_index hinv he
    obtain ⟨m3, hm3, hc3, hp3⟩ := hfw e.2.2 v hv
    exact ⟨m3, hm3, by rw [hp3]; exact hvh, by rw [hc3]; exact hvp⟩

theorem chain_inv_set_node {md : ksm_metadata} {a : Nat} {n n1 : stable_node}
    (hn : node_at md a = some n) (hc : n1.chain = n.chain) (hp : n1.page_hash = n.page_hash)
    (hinv : chain_inv md) : chain_inv (set_node md a n1) := by
  refine @chain_inv_of_links md (set_node md a n1) ?_ ?_ rfl hinv
  · intro b m hm
    by_cases hb : a = b
    · subst hb
      rw [hn] at hm
      have := Option.some.inj hm
      subst this
      exact ⟨n1, node_at_set_node_same n1 (node_at_lt hn), hc, hp⟩
    · exact ⟨m, by rw [node_at_set_node_ne md n1 hb]; exact hm, rfl, rfl⟩
  · intro b m1 hm1
    by_cases hb : a = b
    · subst hb
      rw [node_at_set_node_same n1 (node_at_lt hn)] at hm1
      have := Option.some.inj hm1
      subst this
      exact ⟨n, hn, hc, hp⟩
    · rw [node_at_set_node_ne md n1 hb] at hm1
      exact ⟨m1, hm1, rfl, rfl⟩

theorem cmp_with_stable_unsaturated (p : ksm_params) {md : ksm_metadata} (hinv : chain_inv md)
    {h : hash_pair} {N : Nat} (hfind : cmp_with_stable p md h = .ok (some N)) :
    unsaturated p md N = true := by
  obtain ⟨chain, -, -, hres⟩ := cmp_with_stable_chain p hinv h
  rw [hres] at hfind
  have h1 : chain.find? (fun a => unsaturated p md a) = some N := by
    injection hfind
  exact List.find?_some h1

/-- Amended C9: a stable merge that raises `shared_cnt` from `MAX_PAGE_SHARING - 1` to
`MAX_PAGE_SHARING` saturates the node, and `cmp_with_stable` no longer returns it.  For a
`Volatile` item that is not skipped and whose `old_hash` is its current hash `h`, in a state
whose stable index holds a HEAD for `h` but where `cmp_with_stable` finds no node with room:
when the unstable index has no entry for `h`, `cmp_and_merge_one` makes the item `Unstable`,
enters it in the unstable index and creates no node, and it is the following such item that
is promoted with it into a new node appended to the chain as `CHAIN`; when the unstable
index already holds a partner for `h`, the item and the partner are promoted into the new
`CHAIN` node at once. -/
theorem C9_chain_node_needs_unstable_partner (p : ksm_params) (md : ksm_metadata)
    (log_table : ksm_log_table) (h : hash_pair) (k : item_key) (item : rmap_item)
    (hinv : chain_inv md)
    (hitem : item_at md k = .ok item) (hstate : item.state = item_state.Volatile)
    (hskip : (should_skip_item p (advance_age item)).1 = false)
    (hhash : item.old_hash = h) :
    (∀ N n, cmp_with_stable p md h = .ok (some N) → node_at md N = some n →
      n.shared_cnt = (p.MAX_PAGE_SHARING : Int) - 1 →
      ∃ md1 log1 n1,
        cmp_and_merge_one p md log_table h k = .ok (md1, log1) ∧
        node_at md1 N = some n1 ∧ n1.shared_cnt = (p.MAX_PAGE_SHARING : Int) ∧
        unsaturated p md1 N = false ∧
        (∀ h1, cmp_with_stable p md1 h1 ≠ .ok (some N)) ∧
        md1.nodes.length = md.nodes.length ∧ chain_inv md1) ∧
    (∀ head, g_hash_table_lookup md.stable_hash_table h = some head →
      cmp_with_stable p md h = .ok none →
      g_hash_table_lookup md.unstable_hash_table h = none →
      ∃ md1 it,
        cmp_and_merge_one p md log_table h k = .ok (md1, log_table) ∧
        md1.nodes = md.nodes ∧ md1.stable_hash_table = md.stable_hash_table ∧
        item_at md1 k = .ok it ∧ it.state = item_state.Unstable ∧
        g_hash_table_lookup md1.unstable_hash_table h = some k ∧
        ∀ k2 item2, k2 ≠ k → item_at md k2 = .ok item2 →
          item2.state = item_state.Volatile →
          (should_skip_item p (advance_age item2)).1 = false → item2.old_hash = h →
          ∃ md2 log2,
            cmp_and_merge_one p md1 log_table h k2 = .ok (md2, log2) ∧
            chain_node_added md1 md2 h head k k2) ∧
    (∀ head u uit, g_hash_table_lookup md.stable_hash_table h = some head →
      cmp_with_stable p md h = .ok none →
      g_hash_table_lookup md.unstable_hash_table h = some u →
      item_at md u = .ok uit → uit.old_hash = h → uit.state = item_state.Unstable →
      ∃ md1 log1,
        cmp_and_merge_one p md log_table h k = .ok (md1, log1) ∧
        chain_node_added md md1 h head u k) := by
  refine ⟨?_, ?_, ?_⟩
  · intro N n hfind hn hcnt
    have hrun := volatile_stable_merge p md log_table h k item N n hitem hstate hskip hhash
      hfind hn
    rw [← cmp_and_merge_one_volatile log_table h hitem hstate] at hrun
    have hlt : N < (set_item md (link_item n N (settled p item))).nodes.length := by
      rw [set_item_nodes]
      exact node_at_lt hn
    have hnode := node_at_set_node_same (add_sharer k n) hlt
    have hinv1 : chain_inv (set_node (set_item md (link_item n N (settled p item))) N
        (add_sharer k n)) :=
      @chain_inv_set_node (set_item md (link_item n N (settled p item))) N n (add_sharer k n)
        (by rw [node_at_set_item]; exact hn) rfl rfl
        (@chain_inv_congr (set_item md (link_item n N (settled p item))) md rfl rfl hinv)
    have hsat : unsaturated p (set_node (set_item md (link_item n N (settled p item))) N
        (add_sharer k n)) N = false := by
      unfold unsaturated
      rw [hnode]
      simp only [add_sharer, hcnt, decide_eq_false_iff_not]
      omega
    refine ⟨_, _, add_sharer k n, hrun, hnode, ?_, hsat, ?_, ?_, hinv1⟩
    · simp only [add_sharer, hcnt]
      omega
    · intro h1 hres
      have := cmp_with_stable_unsaturated p hinv1 hres
      rw [hsat] at this
      cases this
    · simp only [set_node_nodes_length, set_item_nodes]
  · intro head hl hfind hun
    have hrun := volatile_becomes_unstable p md log_table h k item hitem hskip hhash hfind hun
    rw [← cmp_and_merge_one_volatile log_table h hitem hstate] at hrun
    have hk : (set_state item_state.Unstable (set_old_hash h (settled p item))).key = k := by
      simp only [set_state_key, set_old_hash_key, settled_key]
      exact item_at_key hitem
    have hit : item_at (set_unstable_hash_table (md.unstable_hash_table ++ [(h, k, k)])
        (set_item md (set_state item_state.Unstable (set_old_hash h (settled p item))))) k =
        .ok (set_state item_state.Unstable (set_old_hash h (settled p item))) := by
      rw [item_at_set_unstable_hash_table]
      exact item_at_set_item hitem hk
    refine ⟨_, set_state item_state.Unstable (set_old_hash h (settled p item)), hrun, rfl,
      rfl, hit, rfl, g_hash_table_lookup_append_of_none hun k k, ?_⟩
    intro k2 item2 hne hitem2 hstate2 hskip2 hhash2
    have hitem2a : item_at (set_unstable_hash_table (md.unstable_hash_table ++ [(h, k, k)])
        (set_item md (set_state item_state.Unstable (set_old_hash h (settled p item))))) k2 =
        .ok item2 := by
      rw [item_at_set_unstable_hash_table, item_at_set_item_ne _ _ _ (by
        rw [hk]
        exact Ne.symm hne)]
      exact hitem2
    have hinv2 : chain_inv (set_unstable_hash_table (md.unstable_hash_table ++ [(h, k, k)])
        (set_item md (set_state item_state.Unstable (set_old_hash h (settled p item))))) :=
      chain_inv_congr rfl rfl hinv
    obtain ⟨md2, hrun2, hadd, -⟩ := volatile_promotes_into_chain p
      (set_unstable_hash_table (md.unstable_hash_table ++ [(h, k, k)])
        (set_item md (set_state item_state.Unstable (set_old_hash h (settled p item)))))
      hinv2 log_table h head k2 k item2
      (set_state item_state.Unstable (set_old_hash h (settled p item)))
      hitem2a hstate2 hskip2 hhash2 hl
      ((@cmp_with_stable_congr p (set_unstable_hash_table
        (md.unstable_hash_table ++ [(h, k, k)])
        (set_item md (set_state item_state.Unstable (set_old_hash h (settled p item)))))
        md rfl rfl h).trans hfind)
      (g_hash_table_lookup_append_of_none hun k k) hit rfl (Or.inr rfl) (Ne.symm hne)
    rw [← cmp_and_merge_one_volatile log_table h hitem2a hstate2] at hrun2
    exact ⟨md2, _, hrun2, hadd⟩
  · intro head u uit hl hfind hun hu huh hus
    have hne : u ≠ k := by
      intro e
      rw [e, hitem] at hu
      have := Except.ok.inj hu
      rw [this, hus] at hstate
      cases hstate
    obtain ⟨md1, hrun, hadd, -⟩ := volatile_promotes_into_chain p md hinv log_table h head
      k u item uit hitem hstate hskip hhash hl hfind hun hu huh (Or.inr hus) hne
    rw [← cmp_and_merge_one_volatile log_table h hitem hstate] at hrun
    exact ⟨md1, _, hrun, hadd⟩

/-- Witness of C9 as amended, on five identical pages with `MAX_PAGE_SHARING = 3`: the
third page saturates the node of the first two, the fourth becomes `Unstable` without a new
node, and the fifth is promoted with it into a `CHAIN` node behind the HEAD. -/
theorem C9_witness_five_identical_pages :
    (∃ md1 log1 n1,
      cmp_and_merge_one three_params
        (cb_after three_params (five_identical_pages.take 9)).metadata
        (cb_after three_params (five_identical_pages.take 9)).log_table hash_a (1, 12288) =
        .ok (md1, log1) ∧
      node_at md1 0 = some n1 ∧ n1.shared_cnt = 3 ∧ unsaturated three_params md1 0 = false) ∧
    (∃ md1 md2 log2,
      cmp_and_merge_one three_params
        (cb_after three_params (five_identical_pages.take 10)).metadata
        (cb_after three_params (five_identical_pages.take 10)).log_table hash_a (1, 16384) =
        .ok (md1, (cb_after three_params (five_identical_pages.take 10)).log_table) ∧
      md1.nodes = (cb_after three_params (five_identical_pages.take 10)).metadata.nodes ∧
      cmp_and_merge_one three_params md1
        (cb_after three_params (five_identical_pages.take 10)).log_table hash_a (1, 20480) =
        .ok (md2, log2) ∧
      chain_node_added md1 md2 hash_a 0 (1, 16384) (1, 20480)) ∧
    (∃ md1 log1,
      cmp_and_merge_one three_params
        (cb_after three_params (five_identical_pages.take 11)).metadata
        (cb_after three_params (five_identical_pages.take 11)).log_table hash_a (1, 20480) =
        .ok (md1, log1) ∧
      chain_node_added (cb_after three_params (five_identical_pages.take 11)).metadata md1
        hash_a 0 (1, 16384) (1, 20480)) := by
  refine ⟨?_, ?_, ?_⟩
  · obtain ⟨md1, log1, n1, hrun, hn1, hcnt, hsat, -⟩ :=
      (C9_chain_node_needs_unstable_partner three_params
        (cb_after three_params (five_identical_pages.take 9)).metadata
        (cb_after three_params (five_identical_pages.take 9)).log_table hash_a (1, 12288)
        ⟨1, 0, 1, 12288, 30, 0, hash_a, item_state.Volatile, 0, 0, none⟩
        (by decide) (by rfl) (by rfl) (by rfl) (by rfl)).1 0
        ⟨hash_a, 2, 20, [(1, 4096), (1, 8192)], ⟨node_chain_type.HEAD, none, none⟩⟩
        (by rfl) (by rfl) (by rfl)
    exact ⟨md1, log1, n1, hrun, hn1, hcnt, hsat⟩
  · obtain ⟨md1, it, hrun, hnodes, -, -, -, -, hnext⟩ :=
      (C9_chain_node_needs_unstable_partner three_params
        (cb_after three_params (five_identical_pages.take 10)).metadata
        (cb_after three_params (five_identical_pages.take 10)).log_table hash_a (1, 16384)
        ⟨1, 0, 1, 16384, 40, 0, hash_a, item_state.Volatile, 0, 0, none⟩
        (by decide) (by rfl) (by rfl) (by rfl) (by rfl)).2.1 0 (by rfl) (by rfl) (by rfl)
    obtain ⟨md2, log2, hrun2, hadd⟩ := hnext (1, 20480)
      ⟨1, 0, 1, 20480, 50, 0, hash_a, item_state.Volatile, 0, 0, none⟩
      (by decide) (by rfl) (by rfl) (by rfl) (by rfl)
    exact ⟨md1, md2, log2, hrun, hnodes, hrun2, hadd⟩
  · exact
      (C9_chain_node_needs_unstable_partner three_params
        (cb_after three_params (five_identical_pages.take 11)).metadata
        (cb_after three_params (five_identical_pages.take 11)).log_table hash_a (1, 20480)
        ⟨1, 0, 1, 20480, 50, 0, hash_a, item_state.Volatile, 0, 0, none⟩
        (by decide) (by rfl) (by rfl) (by rfl) (by rfl)).2.2 0 (1, 16384)
        ⟨1, 1, 2, 16384, 40, 0, hash_a, item_state.Unstable, 0, 0, none⟩
        (by rfl) (by rfl) (by rfl) (by rfl) (by rfl) (by rfl)

/-! ## Runs on which the item and node invariants are lost -/

/-- C1 fails on the run `stale_pointer_undo_twice`: `lookup_rmap_item` does not assign
`stable_node`, so the new item of page `12288` keeps the stale address of node 0 and
`HOST_MERGE_ONE_FAILED` for it passes the test `item->stable_node != NULL` and takes one
from `shared_cnt`; the same event for the sharer `4096` then brings `shared_cnt` to 0 and
node 0 is freed.  The item of page `8192` is still `Stable` with `stable_node` = node 0, and
no live node is left, so it is in no sharers tree. -/
theorem C1_stable_item_outlives_its_node :
    (g_tree_lookup (cb_after server_params stale_pointer_undo_twice).metadata.rmap_tree
        (1, 8192)).map (fun i => (i.state, i.stable_node)) =
      some (item_state.Stable, some 0) ∧
    (cb_after server_params stale_pointer_undo_twice).metadata.nodes = [none] ∧
    (cb_after server_params stale_pointer_undo_twice).metadata.stable_hash_table = [] := by
  refine ⟨?_, ?_, ?_⟩ <;> rfl

/-- C2 fails on the run `stale_pointer_undo_twice`, by the defect shown for C1 (the field
`stable_node` that `lookup_rmap_item` leaves unassigned): the item of page `8192` is `Stable`
and its `stable_node` is node 0, which has been freed, so there is no `page_hash` and no
`pfn` for its `old_hash` and `pfn` to equal, and the next worker step on that page
dereferences the freed node. -/
theorem C2_stable_item_references_freed_node :
    item_at (cb_after server_params stale_pointer_undo_twice).metadata (1, 8192) =
      .ok ⟨1, 1, 2, 8192, 20, 20, hash_a, item_state.Stable, 0, 0, some 0⟩ ∧
    deref_node (cb_after server_params stale_pointer_undo_twice).metadata 0 =
      .error fault.bad_pointer ∧
    engine_run server_params initial_cb (stale_pointer_undo_twice ++ [page_op 8192 20 hash_a]) =
      .error fault.bad_pointer := by
  refine ⟨?_, ?_, ?_⟩ <;> rfl

/-- C3 fails on the run `stale_pointer_undo`, by the defect shown for C1 (the field
`stable_node` that `lookup_rmap_item` leaves unassigned): before the event node 0 has
`shared_cnt = 2` and its two sharers, and the item of page `12288` is `Volatile`, in no
sharers tree; `HOST_MERGE_ONE_FAILED` for that item is accepted, and afterwards node 0 has
`shared_cnt = 1` with the same two sharers. -/
theorem C3_shared_cnt_below_sharers :
    (node_at (cb_after server_params (stale_pointer_undo.take 9)).metadata 0).map
        (fun n => (n.shared_cnt, n.sharing_item_tree)) =
      some (2, [(1, 4096), (1, 8192)]) ∧
    (g_tree_lookup (cb_after server_params (stale_pointer_undo.take 9)).metadata.rmap_tree
        (1, 12288)).map (fun i => (i.state, i.stable_node)) =
      some (item_state.Volatile, some 0) ∧
    (node_at (cb_after server_params stale_pointer_undo).metadata 0).map
        (fun n => (n.shared_cnt, n.sharing_item_tree)) =
      some (1, [(1, 4096), (1, 8192)]) ∧
    (g_tree_lookup (cb_after server_params stale_pointer_undo).metadata.rmap_tree
        (1, 12288)).map (fun i => (i.state, i.stable_node, i.volatility_score)) =
      some (item_state.Volatile, none, 1) := by
  refine ⟨?_, ?_, ?_, ?_⟩ <;> rfl

/-- C4 fails on the run `rehash_onto_other_head`: before its last step nodes 0 and 1 are the
HEADs the stable index holds for `hash_a` and `hash_b`.  The hash update of node 0 to
`hash_b` re-inserts it with `g_hash_table_insert`, not with `insert_stable_node`: the entry
of `hash_b` now has node 0 as its value, and node 1 is a HEAD with sharers that the index no
longer holds and that is linked to no chain. -/
theorem C4_rehash_leaves_head_outside_index :
    (cb_after server_params (rehash_onto_other_head.take 12)).metadata.stable_hash_table =
      [(hash_a, 0, 0), (hash_b, 1, 1)] ∧
    (cb_after server_params rehash_onto_other_head).metadata.stable_hash_table =
      [(hash_b, 1, 0)] ∧
    g_hash_table_lookup (cb_after server_params rehash_onto_other_head).metadata.stable_hash_table
      hash_b = some 0 ∧
    (cb_after server_params rehash_onto_other_head).metadata.nodes =
      [some ⟨hash_b, 2, 20, [(1, 4096), (1, 8192)], ⟨node_chain_type.HEAD, none, none⟩⟩,
       some ⟨hash_b, 2, 40, [(1, 12288), (1, 16384)],
         ⟨node_chain_type.HEAD, none, none⟩⟩] := by
  refine ⟨?_, ?_, ?_, ?_⟩ <;> rfl

/-! ## The chains stay well formed along every run -/

theorem bind_eq_ok {ε α β : Type} {x : Except ε α} {f : α → Except ε β} {b : β}
    (h : (x >>= f) = .ok b) : ∃ a, x = .ok a ∧ f a = .ok b := by
  cases x with
  | error e => cases h
  | ok a => exact ⟨a, rfl, h⟩

theorem modify_item_frame {md md1 : ksm_metadata} {k : item_key} {f : rmap_item → rmap_item}
    (h : modify_item md k f = .ok md1) :
    md1.nodes = md.nodes ∧ md1.stable_hash_table = md.stable_hash_table := by
  unfold modify_item at h
  obtain ⟨item, -, h2⟩ := bind_eq_ok h
  cases h2
  exact ⟨rfl, rfl⟩

theorem reset_each_item_state_frame :
    ∀ (l : List item_key) (md md1 : ksm_metadata), reset_each_item_state md l = .ok md1 →
      md1.nodes = md.nodes ∧ md1.stable_hash_table = md.stable_hash_table := by
  intro l
  induction l with
  | nil =>
    intro md md1 h
    cases h
    exact ⟨rfl, rfl⟩
  | cons k ks ih =>
    intro md md1 h
    unfold reset_each_item_state at h
    obtain ⟨item, -, h2⟩ := bind_eq_ok h
    split_ifs at h2
    · cases h2
      exact ⟨rfl, rfl⟩
    · have h3 := ih _ _ h2
      exact h3

theorem update_item_checksum_frame (hash : hash_pair) :
    ∀ (l : List item_key) (md md1 : ksm_metadata), update_item_checksum md hash l = .ok md1 →
      md1.nodes = md.nodes ∧ md1.stable_hash_table = md.stable_hash_table := by
  intro l
  induction l with
  | nil =>
    intro md md1 h
    cases h
    exact ⟨rfl, rfl⟩
  | cons k ks ih =>
    intro md md1 h
    unfold update_item_checksum at h
    obtain ⟨item, -, h2⟩ := bind_eq_ok h
    split_ifs at h2
    have h3 := ih _ _ h2
    exact h3

theorem update_item_state_frame :
    ∀ (t : GHashTable item_key) (md md1 : ksm_metadata), update_item_state md t = .ok md1 →
      md1.nodes = md.nodes ∧ md1.stable_hash_table = md.stable_hash_table := by
  intro t
  induction t with
  | nil =>
    intro md md1 h
    cases h
    exact ⟨rfl, rfl⟩
  | cons e es ih =>
    intro md md1 h
    unfold update_item_state at h
    obtain ⟨md2, h1, h2⟩ := bind_eq_ok h
    obtain ⟨h3, h4⟩ := modify_item_frame h1
    obtain ⟨h5, h6⟩ := ih _ _ h2
    exact ⟨h5.trans h3, h6.trans h4⟩

theorem clean_up_unstable_tree_frame {md md1 : ksm_metadata}
    (h : clean_up_unstable_tree md = .ok md1) :
    md1.nodes = md.nodes ∧ md1.stable_hash_table = md.stable_hash_table := by
  unfold clean_up_unstable_tree at h
  obtain ⟨md2, h1, h2⟩ := bind_eq_ok h
  cases h2
  have h3 := update_item_state_frame _ _ _ h1
  exact h3

theorem cmp_with_unstable_frame {md : ksm_metadata} {k : item_key}
    {r : Option item_key × ksm_metadata} (h : cmp_with_unstable md k = .ok r) :
    r.2.nodes = md.nodes ∧ r.2.stable_hash_table = md.stable_hash_table := by
  unfold cmp_with_unstable at h
  obtain ⟨item, -, h2⟩ := bind_eq_ok h
  split at h2
  · obtain ⟨found, -, h3⟩ := bind_eq_ok h2
    cases h3
    exact ⟨rfl, rfl⟩
  · cases h2
    exact ⟨rfl, rfl⟩

theorem insert_unstable_node_frame {md md1 : ksm_metadata} {k : item_key}
    (h : insert_unstable_node md k = .ok md1) :
    md1.nodes = md.nodes ∧ md1.stable_hash_table = md.stable_hash_table := by
  unfold insert_unstable_node at h
  obtain ⟨item, -, h2⟩ := bind_eq_ok h
  split at h2
  · cases h2
  · cases h2
    exact ⟨rfl, rfl⟩

theorem insert_item_to_node_inv {md md1 : ksm_metadata} {a : Nat} {k : item_key}
    (hinv : chain_inv md) (h : insert_item_to_node md a k = .ok md1) : chain_inv md1 := by
  unfold insert_item_to_node at h
  obtain ⟨item, -, h2⟩ := bind_eq_ok h
  obtain ⟨node, hnode, h3⟩ := bind_eq_ok h2
  split_ifs at h3
  cases h3
  exact @chain_inv_set_node (set_item md (link_item node a item)) a node (add_sharer k node)
    (by rw [node_at_set_item]; exact (deref_node_eq _ _ _).1 hnode) rfl rfl
    (@chain_inv_congr (set_item md (link_item node a item)) md rfl rfl hinv)

theorem remove_item_from_node_inv {md md1 : ksm_metadata} {a : Nat} {k : item_key}
    (hinv : chain_inv md) (h : remove_item_from_node md a k = .ok md1) : chain_inv md1 := by
  unfold remove_item_from_node at h
  obtain ⟨node, hnode, h3⟩ := bind_eq_ok h
  cases h3
  exact @chain_inv_set_node md a node (drop_sharer k node)
    ((deref_node_eq _ _ _).1 hnode) rfl rfl hinv

theorem merge_stable_inv {p : ksm_params} {md : ksm_metadata} {log_table : ksm_log_table}
    {k : item_key} {a : Nat} {r : ksm_metadata × ksm_log_table}
    (hinv : chain_inv md) (h : merge_stable p md log_table k a = .ok r) : chain_inv r.1 := by
  unfold merge_stable at h
  obtain ⟨node, -, h2⟩ := bind_eq_ok h
  split_ifs at h2
  obtain ⟨md1, h3, h4⟩ := bind_eq_ok h2
  obtain ⟨item1, -, h5⟩ := bind_eq_ok h4
  obtain ⟨node1, -, h6⟩ := bind_eq_ok h5
  obtain ⟨log1, -, h7⟩ := bind_eq_ok h6
  cases h7
  exact insert_item_to_node_inv hinv h3

theorem node_at_set_node {md : ksm_metadata} {a : Nat} {n : stable_node} (b : Nat)
    (ha : a < md.nodes.length) :
    node_at (set_node md a n) b = if b = a then some n else node_at md b := by
  by_cases h : b = a
  · subst h
    rw [if_pos rfl, node_at_set_node_same n ha]
  · rw [if_neg h, node_at_set_node_ne md n (Ne.symm h)]

theorem insert_stable_node_inv {md md1 : ksm_metadata} {new_node : Nat} {nn : stable_node}
    (hinv : chain_inv md) (hn : node_at md new_node = some nn)
    (hlast : ∀ a n, node_at md a = some n → a ≤ new_node)
    (hfresh : ∀ a n, node_at md a = some n →
      n.chain.next ≠ some new_node ∧ n.chain.prev ≠ some new_node)
    (hindex : ∀ e ∈ md.stable_hash_table, e.2.2 ≠ new_node)
    (h : insert_stable_node md new_node = .ok md1) : chain_inv md1 := by
  have hnlt := node_at_lt hn
  cases hl : g_hash_table_lookup md.stable_hash_table nn.page_hash with
  | none =>
    rw [insert_stable_node_head hn hl] at h
    cases h
    constructor
    · intro x _ m hm
      simp only [node_at_set_stable_hash_table] at hm
      have hm1 : node_at (set_node md new_node
          (set_chain { type := node_chain_type.HEAD, next := none, prev := none } nn)) x =
          some m := hm
      rw [node_at_set_node x hnlt] at hm1
      by_cases hx : x = new_node
      · rw [if_pos hx] at hm1
        have := Option.some.inj hm1
        subst this
        refine ⟨?_, ?_, ?_⟩
        · intro b hb
          cases hb
        · intro c hc
          cases hc
        · simp [set_chain]
      · rw [if_neg hx] at hm1
        refine ⟨?_, ?_, chain_inv_type hinv hm1⟩
        · intro b hb
          obtain ⟨hlt, mb, hmb, hp, hh⟩ := chain_inv_next hinv hm1 hb
          have hbn : b ≠ new_node := fun e => (hfresh x m hm1).1 (e ▸ hb)
          refine ⟨hlt, mb, ?_, hp, hh⟩
          simp only [node_at_set_stable_hash_table]
          show node_at (set_node md new_node _) b = some mb
          rw [node_at_set_node b hnlt, if_neg hbn]
          exact hmb
        · intro c hc
          obtain ⟨mc, hmc, hnx⟩ := chain_inv_prev hinv hm1 hc
          have hcn : c ≠ new_node := fun e => (hfresh x m hm1).2 (e ▸ hc)
          refine ⟨mc, ?_, hnx⟩
          simp only [node_at_set_stable_hash_table]
          show node_at (set_node md new_node _) c = some mc
          rw [node_at_set_node c hnlt, if_neg hcn]
          exact hmc
    · intro e he
      simp only [set_stable_hash_table_stable, set_node_stable_hash_table,
        List.mem_append, List.mem_singleton] at he
      rcases he with he | he
      · obtain ⟨v, hv, h1, h2⟩ := chain_inv_index hinv he
        refine ⟨v, ?_, h1, h2⟩
        simp only [node_at_set_stable_hash_table]
        show node_at (set_node md new_node _) e.2.2 = some v
        rw [node_at_set_node _ hnlt, if_neg (hindex e he)]
        exact hv
      · subst he
        refine ⟨set_chain { type := node_chain_type.HEAD, next := none, prev := none } nn,
          ?_, rfl, rfl⟩
        simp only [node_at_set_stable_hash_table]
        exact node_at_set_node_same _ hnlt
  | some head =>
    obtain ⟨chain, tail, tn, hch, hlastc, htn, htnn, htne, -, hph, hins, -⟩ :=
      insert_stable_node_appends hinv hn hl (fun a n han => (hfresh a n han).1) hindex
    rw [hins] at h
    cases h
    have htlt := node_at_lt htn
    have hlen : new_node < (set_node md tail
        (set_chain_next (some new_node) tn)).nodes.length := by
      rw [set_node_nodes_length]
      exact hnlt
    have htmem : tail ∈ chain := List.mem_of_mem_getLast? hlastc
    have key : ∀ x, node_at (set_node (set_node md tail (set_chain_next (some new_node) tn))
        new_node (set_chain
          { type := node_chain_type.CHAIN, next := none, prev := some tail } nn)) x =
        if x = new_node then some (set_chain
          { type := node_chain_type.CHAIN, next := none, prev := some tail } nn)
        else if x = tail then some (set_chain_next (some new_node) tn)
        else node_at md x := by
      intro x
      rw [node_at_set_node x hlen, node_at_set_node x htlt]
    constructor
    · intro x _ m hm
      have hm1 := hm
      rw [key x] at hm1
      by_cases hx : x = new_node
      · rw [if_pos hx] at hm1
        have := Option.some.inj hm1
        subst this
        refine ⟨?_, ?_, ?_⟩
        · intro b hb
          cases hb
        · intro c hc
          have hct : tail = c := Option.some.inj hc
          subst hct
          refine ⟨set_chain_next (some new_node) tn, ?_, ?_⟩
          · show node_at _ tail = _
            rw [key tail, if_neg htne, if_pos rfl]
          · rw [hx]
            rfl
        · simp [set_chain]
      · rw [if_neg hx] at hm1
        by_cases hxt : x = tail
        · rw [if_pos hxt] at hm1
          have := Option.some.inj hm1
          subst this
          subst hxt
          refine ⟨?_, ?_, ?_⟩
          · intro b hb
            have hbn : new_node = b := Option.some.inj hb
            subst hbn
            obtain ⟨n2, hn2, hp2⟩ := hph x htmem
            rw [htn] at hn2
            have := Option.some.inj hn2
            subst this
            refine ⟨lt_of_le_of_ne (hlast x tn htn) htne,
              set_chain { type := node_chain_type.CHAIN, next := none, prev := some x } nn,
              ?_, rfl, ?_⟩
            · show node_at _ new_node = _
              rw [key new_node, if_pos rfl]
            · exact hp2.symm
          · intro c hc
            have hc1 : tn.chain.prev = some c := hc
            obtain ⟨mc, hmc, hnx⟩ := chain_inv_prev hinv htn hc1
            have hcn : c ≠ new_node := fun e => (hfresh x tn htn).2 (e ▸ hc1)
            have hct : c ≠ x := by
              intro e
              rw [e, htn] at hmc
              have := Option.some.inj hmc
              subst this
              rw [htnn] at hnx
              cases hnx
            refine ⟨mc, ?_, hnx⟩
            show node_at _ c = _
            rw [key c, if_neg hcn, if_neg hct]
            exact hmc
          · exact @chain_inv_type md hinv x tn htn
        · rw [if_neg hxt] at hm1
          refine ⟨?_, ?_, chain_inv_type hinv hm1⟩
          · intro b hb
            obtain ⟨hlt, mb, hmb, hp, hh⟩ := chain_inv_next hinv hm1 hb
            have hbn : b ≠ new_node := fun e => (hfresh x m hm1).1 (e ▸ hb)
            by_cases hbt : b = tail
            · subst hbt
              rw [htn] at hmb
              have := Option.some.inj hmb
              subst this
              refine ⟨hlt, set_chain_next (some new_node) tn, ?_, hp, hh⟩
              show node_at _ b = _
              rw [key b, if_neg hbn, if_pos rfl]
            · refine ⟨hlt, mb, ?_, hp, hh⟩
              show node_at _ b = _
              rw [key b, if_neg hbn, if_neg hbt]
              exact hmb
          · intro c hc
            obtain ⟨mc, hmc, hnx⟩ := chain_inv_prev hinv hm1 hc
            have hcn : c ≠ new_node := fun e => (hfresh x m hm1).2 (e ▸ hc)
            have hct : c ≠ tail := by
              intro e
              rw [e, htn] at hmc
              have := Option.some.inj hmc
              subst this
              rw [htnn] at hnx
              cases hnx
            refine ⟨mc, ?_, hnx⟩
            show node_at _ c = _
            rw [key c, if_neg hcn, if_neg hct]
            exact hmc
    · intro e he
      have he1 : e ∈ md.stable_hash_table := he
      obtain ⟨v, hv, h1, h2⟩ := chain_inv_index hinv he1
      by_cases het : e.2.2 = tail
      · rw [het, htn] at hv
        have := Option.some.inj hv
        subst this
        refine ⟨set_chain_next (some new_node) tn, ?_, h1, h2⟩
        show node_at _ e.2.2 = _
        rw [key e.2.2, if_neg (hindex e he1), if_pos het]
      · refine ⟨v, ?_, h1, h2⟩
        show node_at _ e.2.2 = _
        rw [key e.2.2, if_neg (hindex e he1), if_neg het]
        exact hv

theorem node_at_free_node (md : ksm_metadata) (a b : Nat) :
    node_at (free_node md a) b = if b = a then none else node_at md b := by
  by_cases h : b = a
  · subst h
    rw [if_pos rfl, node_at_free_node_same]
  · rw [if_neg h, node_at_free_node_ne md (Ne.symm h)]

theorem remove_stable_node_no_item_inv {md md1 : ksm_metadata} (hinv : chain_inv md) {N : Nat}
    (h : remove_stable_node_no_item md N = .ok md1) : chain_inv md1 := by
  cases hn : node_at md N with
  | none =>
    simp [remove_stable_node_no_item, deref_node, hn, bind, Except.bind] at h
  | some n =>
  have hNlt := node_at_lt hn
  have hidx : ∀ e ∈ md.stable_hash_table, e.1 ≠ n.page_hash → e.2.2 ≠ N := by
    intro e he hne hN
    obtain ⟨v, hv, hvh, -⟩ := chain_inv_index hinv he
    rw [hN, hn] at hv
    cases hv
    exact hne hvh.symm
  cases ht : n.chain.type with
  | HEAD =>
    have hprev : n.chain.prev = none := (chain_inv_type hinv hn).1 ht
    have hnopred : ∀ a m, node_at md a = some m → m.chain.next ≠ some N := by
      intro a m hm hmn
      obtain ⟨-, m2, hm2, hp, -⟩ := chain_inv_next hinv hm hmn
      rw [hn] at hm2
      cases hm2
      rw [hprev] at hp
      cases hp
    cases hnx : n.chain.next with
    | none =>
      have hres : remove_stable_node_no_item md N = .ok (free_node (set_stable_hash_table
          (g_hash_table_remove md.stable_hash_table n.page_hash) md) N) := by
        simp [remove_stable_node_no_item, deref_node_of hn, ht, hnx, bind, Except.bind]
      rw [hres] at h
      cases h
      have key : ∀ x, node_at (free_node (set_stable_hash_table
          (g_hash_table_remove md.stable_hash_table n.page_hash) md) N) x =
          if x = N then none else node_at md x := by
        intro x
        rw [node_at_free_node, node_at_set_stable_hash_table]
      have hnosucc : ∀ a m, node_at md a = some m → m.chain.prev ≠ some N := by
        intro a m hm hp
        obtain ⟨m2, hm2, hmn⟩ := chain_inv_prev hinv hm hp
        rw [hn] at hm2
        cases hm2
        rw [hnx] at hmn
        cases hmn
      constructor
      · intro x _ m hm
        have hm1 := hm
        rw [key x] at hm1
        by_cases hx : x = N
        · rw [if_pos hx] at hm1
          cases hm1
        · rw [if_neg hx] at hm1
          refine ⟨?_, ?_, chain_inv_type hinv hm1⟩
          · intro c hc
            obtain ⟨hlt, mc, hmc, hp, hh⟩ := chain_inv_next hinv hm1 hc
            have hcN : c ≠ N := fun e => hnopred x m hm1 (e ▸ hc)
            refine ⟨hlt, mc, ?_, hp, hh⟩
            show node_at _ c = _
            rw [key c, if_neg hcN]
            exact hmc
          · intro c hc
            obtain ⟨mc, hmc, hnxt⟩ := chain_inv_prev hinv hm1 hc
            have hcN : c ≠ N := fun e => hnosucc x m hm1 (e ▸ hc)
            refine ⟨mc, ?_, hnxt⟩
            show node_at _ c = _
            rw [key c, if_neg hcN]
            exact hmc
      · intro e he
        simp only [free_node_stable, set_stable_hash_table_stable] at he
        obtain ⟨he1, he2⟩ := mem_g_hash_table_remove.1 he
        obtain ⟨v, hv, h1, h2⟩ := chain_inv_index hinv he1
        refine ⟨v, ?_, h1, h2⟩
        show node_at _ e.2.2 = _
        rw [key e.2.2, if_neg (hidx e he1 he2)]
        exact hv
    | some b =>
      obtain ⟨hNb, nb, hnb, hnbp, hnbh⟩ := chain_inv_next hinv hn hnx
      have hblt := node_at_lt hnb
      have hbN : b ≠ N := by omega
      have hnb1 : node_at (set_node md b (make_head nb)) b = some (make_head nb) :=
        node_at_set_node_same _ hblt
      have hres : remove_stable_node_no_item md N = .ok (free_node (set_stable_hash_table
          (g_hash_table_insert (g_hash_table_remove md.stable_hash_table n.page_hash)
            (make_head nb).page_hash b b) (set_node md b (make_head nb))) N) := by
        simp [remove_stable_node_no_item, deref_node_of hn, ht, hnx, hprev, bind,
          Except.bind, modify_node_ok hnb, deref_node_of hnb1]
      rw [hres] at h
      cases h
      have key : ∀ x, node_at (free_node (set_stable_hash_table
          (g_hash_table_insert (g_hash_table_remove md.stable_hash_table n.page_hash)
            (make_head nb).page_hash b b) (set_node md b (make_head nb))) N) x =
          if x = N then none else if x = b then some (make_head nb) else node_at md x := by
        intro x
        rw [node_at_free_node, node_at_set_stable_hash_table, node_at_set_node x hblt]
      constructor
      · intro x _ m hm
        have hm1 := hm
        rw [key x] at hm1
        by_cases hx : x = N
        · rw [if_pos hx] at hm1
          cases hm1
        · rw [if_neg hx] at hm1
          by_cases hxb : x = b
          · rw [if_pos hxb] at hm1
            have := Option.some.inj hm1
            subst this
            subst hxb
            refine ⟨?_, ?_, ?_⟩
            · intro c hc
              have hc1 : nb.chain.next = some c := hc
              obtain ⟨hlt, mc, hmc, hp, hh⟩ := chain_inv_next hinv hnb hc1
              refine ⟨hlt, mc, ?_, hp, hh⟩
              show node_at _ c = _
              rw [key c, if_neg (by omega), if_neg (by omega)]
              exact hmc
            · intro c hc
              cases hc
            · simp [make_head]
          · rw [if_neg hxb] at hm1
            refine ⟨?_, ?_, chain_inv_type hinv hm1⟩
            · intro c hc
              obtain ⟨hlt, mc, hmc, hp, hh⟩ := chain_inv_next hinv hm1 hc
              have hcN : c ≠ N := fun e => hnopred x m hm1 (e ▸ hc)
              have hcb : c ≠ b := by
                intro e
                rw [e, hnb] at hmc
                have := Option.some.inj hmc
                subst this
                rw [hnbp] at hp
                exact hx (Option.some.inj hp).symm
              refine ⟨hlt, mc, ?_, hp, hh⟩
              show node_at _ c = _
              rw [key c, if_neg hcN, if_neg hcb]
              exact hmc
            · intro c hc
              obtain ⟨mc, hmc, hnxt⟩ := chain_inv_prev hinv hm1 hc
              have hcN : c ≠ N := by
                intro e
                rw [e, hn] at hmc
                have := Option.some.inj hmc
                subst this
                rw [hnx] at hnxt
                exact hxb (Option.some.inj hnxt).symm
              by_cases hcb : c = b
              · rw [hcb, hnb] at hmc
                have := Option.some.inj hmc
                subst this
                refine ⟨make_head nb, ?_, hnxt⟩
                show node_at _ c = _
                rw [key c, if_neg hcN, if_pos hcb]
              · refine ⟨mc, ?_, hnxt⟩
                show node_at _ c = _
                rw [key c, if_neg hcN, if_neg hcb]
                exact hmc
      · intro e he
        simp only [free_node_stable, set_stable_hash_table_stable] at he
        rcases mem_g_hash_table_insert he with ⟨he1, -⟩ | ⟨he1, he2⟩
        · obtain ⟨he3, he4⟩ := mem_g_hash_table_remove.1 he1
          have he5 : e ∈ md.stable_hash_table := by simpa using he3
          obtain ⟨v, hv, h1, h2⟩ := chain_inv_index hinv he5
          have hvb : e.2.2 ≠ b := by
            intro e1
            rw [e1, hnb] at hv
            have := Option.some.inj hv
            subst this
            rw [hnbp] at h2
            cases h2
          refine ⟨v, ?_, h1, h2⟩
          show node_at _ e.2.2 = _
          rw [key e.2.2, if_neg (hidx e he5 he4), if_neg hvb]
          exact hv
        · refine ⟨make_head nb, ?_, he1.symm, rfl⟩
          show node_at _ e.2.2 = _
          rw [key e.2.2, he2, if_neg hbN, if_pos rfl]
  | CHAIN =>
    have hprev : n.chain.prev ≠ none := by
      intro hp
      have := (chain_inv_type hinv hn).2 hp
      rw [ht] at this
      cases this
    obtain ⟨pr, hpr⟩ := Option.ne_none_iff_exists'.1 hprev
    obtain ⟨np, hnp, hnpn⟩ := chain_inv_prev hinv hn hpr
    have hprN : pr < N := (chain_inv_next hinv hnp hnpn).1
    have hprlt := node_at_lt hnp
    have hnotval : ∀ e ∈ md.stable_hash_table, e.2.2 ≠ N := by
      intro e he hN
      obtain ⟨v, hv, -, hvp⟩ := chain_inv_index hinv he
      rw [hN, hn] at hv
      cases hv
      exact hprev hvp
    have hother : ∀ a m, node_at md a = some m → a ≠ pr →
        m.chain.next ≠ some N := by
      intro a m hm hapr hmn
      obtain ⟨-, m2, hm2, hp, -⟩ := chain_inv_next hinv hm hmn
      rw [hn] at hm2
      cases hm2
      rw [hpr] at hp
      cases hp
      exact hapr rfl
    -- the predecessor of `pr` is neither `N` nor `pr`
    have hprpred : ∀ c, np.chain.prev = some c → c < pr := by
      intro c hc
      obtain ⟨mc, hmc, hnxt⟩ := chain_inv_prev hinv hnp hc
      exact (chain_inv_next hinv hmc hnxt).1
    cases hnx : n.chain.next with
    | none =>
      have hres : remove_stable_node_no_item md N =
          .ok (free_node (set_node md pr (set_chain_next none np)) N) := by
        simp [remove_stable_node_no_item, deref_node_of hn, ht, hnx, hpr, bind,
          Except.bind, modify_node_ok hnp]
      rw [hres] at h
      cases h
      have key : ∀ x, node_at (free_node (set_node md pr (set_chain_next none np)) N) x =
          if x = N then none else if x = pr then some (set_chain_next none np)
          else node_at md x := by
        intro x
        rw [node_at_free_node, node_at_set_node x hprlt]
      constructor
      · intro x _ m hm
        have hm1 := hm
        rw [key x] at hm1
        by_cases hx : x = N
        · rw [if_pos hx] at hm1
          cases hm1
        · rw [if_neg hx] at hm1
          by_cases hxp : x = pr
          · rw [if_pos hxp] at hm1
            have := Option.some.inj hm1
            subst this
            subst hxp
            refine ⟨?_, ?_, ?_⟩
            · intro c hc
              cases hc
            · intro c hc
              have hc1 : np.chain.prev = some c := hc
              obtain ⟨mc, hmc, hnxt⟩ := chain_inv_prev hinv hnp hc1
              have hlt := hprpred c hc1
              refine ⟨mc, ?_, hnxt⟩
              show node_at _ c = _
              rw [key c, if_neg (by omega), if_neg (by omega)]
              exact hmc
            · exact @chain_inv_type md hinv x np hnp
          · rw [if_neg hxp] at hm1
            refine ⟨?_, ?_, chain_inv_type hinv hm1⟩
            · intro c hc
              obtain ⟨hlt, mc, hmc, hp, hh⟩ := chain_inv_next hinv hm1 hc
              have hcN : c ≠ N := fun e => hother x m hm1 hxp (e ▸ hc)
              by_cases hcp : c = pr
              · rw [hcp, hnp] at hmc
                have := Option.some.inj hmc
                subst this
                refine ⟨hlt, set_chain_next none np, ?_, hp, hh⟩
                show node_at _ c = _
                rw [key c, if_neg hcN, if_pos hcp]
              · refine ⟨hlt, mc, ?_, hp, hh⟩
                show node_at _ c = _
                rw [key c, if_neg hcN, if_neg hcp]
                exact hmc
            · intro c hc
              obtain ⟨mc, hmc, hnxt⟩ := chain_inv_prev hinv hm1 hc
              have hcN : c ≠ N := by
                intro e
                rw [e, hn] at hmc
                have := Option.some.inj hmc
                subst this
                rw [hnx] at hnxt
                cases hnxt
              have hcp : c ≠ pr := by
                intro e
                rw [e, hnp] at hmc
                have := Option.some.inj hmc
                subst this
                rw [hnpn] at hnxt
                exact hx (Option.some.inj hnxt).symm
              refine ⟨mc, ?_, hnxt⟩
              show node_at _ c = _
              rw [key c, if_neg hcN, if_neg hcp]
              exact hmc
      · intro e he
        have he1 : e ∈ md.stable_hash_table := he
        obtain ⟨v, hv, h1, h2⟩ := chain_inv_index hinv he1
        by_cases hep : e.2.2 = pr
        · rw [hep, hnp] at hv
          have := Option.some.inj hv
          subst this
          refine ⟨set_chain_next none np, ?_, h1, h2⟩
          show node_at _ e.2.2 = _
          rw [key e.2.2, if_neg (hnotval e he1), if_pos hep]
        · refine ⟨v, ?_, h1, h2⟩
          show node_at _ e.2.2 = _
          rw [key e.2.2, if_neg (hnotval e he1), if_neg hep]
          exact hv
    | some nx =>
      obtain ⟨hNnx, nn, hnn, hnnp, hnnh⟩ := chain_inv_next hinv hn hnx
      have hnxlt := node_at_lt hnn
      have hnxpr : nx ≠ pr := by omega
      have hnn1 : node_at (set_node md pr (set_chain_next (some nx) np)) nx = some nn := by
        rw [node_at_set_node_ne _ _ (Ne.symm hnxpr)]
        exact hnn
      have hres : remove_stable_node_no_item md N =
          .ok (free_node (set_node (set_node md pr (set_chain_next (some nx) np)) nx
            (set_chain_prev (some pr) nn)) N) := by
        simp [remove_stable_node_no_item, deref_node_of hn, ht, hnx, hpr, bind,
          Except.bind, modify_node_ok hnp, modify_node_ok hnn1]
      rw [hres] at h
      cases h
      have hnxlt1 : nx < (set_node md pr (set_chain_next (some nx) np)).nodes.length := by
        rw [set_node_nodes_length]
        exact hnxlt
      have key : ∀ x, node_at (free_node (set_node (set_node md pr
          (set_chain_next (some nx) np)) nx (set_chain_prev (some pr) nn)) N) x =
          if x = N then none else if x = nx then some (set_chain_prev (some pr) nn)
          else if x = pr then some (set_chain_next (some nx) np) else node_at md x := by
        intro x
        rw [node_at_free_node, node_at_set_node x hnxlt1, node_at_set_node x hprlt]
      have hph : nn.page_hash = np.page_hash := by
        rw [hnnh]
        exact (chain_inv_next hinv hnp hnpn).2.elim (fun m2 hm2 => by
          rw [hn] at hm2
          have := Option.some.inj hm2.1
          subst this
          exact hm2.2.2)
      constructor
      · intro x _ m hm
        have hm1 := hm
        rw [key x] at hm1
        by_cases hx : x = N
        · rw [if_pos hx] at hm1
          cases hm1
        · rw [if_neg hx] at hm1
          by_cases hxn : x = nx
          · rw [if_pos hxn] at hm1
            have := Option.some.inj hm1
            subst this
            subst hxn
            refine ⟨?_, ?_, ?_⟩
            · intro c hc
              have hc1 : nn.chain.next = some c := hc
              obtain ⟨hlt, mc, hmc, hp, hh⟩ := chain_inv_next hinv hnn hc1
              refine ⟨hlt, mc, ?_, hp, hh⟩
              show node_at _ c = _
              rw [key c, if_neg (by omega), if_neg (by omega), if_neg (by omega)]
              exact hmc
            · intro c hc
              have hc1 : pr = c := Option.some.inj hc
              subst hc1
              refine ⟨set_chain_next (some x) np, ?_, rfl⟩
              show node_at _ pr = _
              rw [key pr, if_neg (by omega), if_neg (by omega), if_pos rfl]
            · have h1 := @chain_inv_type md hinv x nn hnn
              constructor
              · intro h2
                have h3 : nn.chain.type = node_chain_type.HEAD := h2
                rw [h1.1 h3] at hnnp
                cases hnnp
              · intro h2
                cases h2
          · rw [if_neg hxn] at hm1
            by_cases hxp : x = pr
            · rw [if_pos hxp] at hm1
              have := Option.some.inj hm1
              subst this
              subst hxp
              refine ⟨?_, ?_, ?_⟩
              · intro c hc
                have hc1 : nx = c := Option.some.inj hc
                subst hc1
                refine ⟨by omega, set_chain_prev (some x) nn, ?_, rfl, hph⟩
                show node_at _ nx = _
                rw [key nx, if_neg (by omega), if_pos rfl]
              · intro c hc
                have hc1 : np.chain.prev = some c := hc
                obtain ⟨mc, hmc, hnxt⟩ := chain_inv_prev hinv hnp hc1
                have hlt := hprpred c hc1
                refine ⟨mc, ?_, hnxt⟩
                show node_at _ c = _
                rw [key c, if_neg (by omega), if_neg (by omega), if_neg (by omega)]
                exact hmc
              · exact @chain_inv_type md hinv x np hnp
            · rw [if_neg hxp] at hm1
              refine ⟨?_, ?_, chain_inv_type hinv hm1⟩
              · intro c hc
                obtain ⟨hlt, mc, hmc, hp, hh⟩ := chain_inv_next hinv hm1 hc
                have hcN : c ≠ N := fun e => hother x m hm1 hxp (e ▸ hc)
                have hcn : c ≠ nx := by
                  intro e
                  rw [e, hnn] at hmc
                  have := Option.some.inj hmc
                  subst this
                  rw [hnnp] at hp
                  exact hx (Option.some.inj hp).symm
                by_cases hcp : c = pr
                · rw [hcp, hnp] at hmc
                  have := Option.some.inj hmc
                  subst this
                  refine ⟨hlt, set_chain_next (some nx) np, ?_, hp, hh⟩
                  show node_at _ c = _
                  rw [key c, if_neg hcN, if_neg hcn, if_pos hcp]
                · refine ⟨hlt, mc, ?_, hp, hh⟩
                  show node_at _ c = _
                  rw [key c, if_neg hcN, if_neg hcn, if_neg hcp]
                  exact hmc
              · intro c hc
                obtain ⟨mc, hmc, hnxt⟩ := chain_inv_prev hinv hm1 hc
                have hcN : c ≠ N := by
                  intro e
                  rw [e, hn] at hmc
                  have := Option.some.inj hmc
                  subst this
                  rw [hnx] at hnxt
                  exact hxn (Option.some.inj hnxt).symm
                have hcp : c ≠ pr := by
                  intro e
                  rw [e, hnp] at hmc
                  have := Option.some.inj hmc
                  subst this
                  rw [hnpn] at hnxt
                  exact hx (Option.some.inj hnxt).symm
                by_cases hcn : c = nx
                · rw [hcn, hnn] at hmc
                  have := Option.some.inj hmc
                  subst this
                  refine ⟨set_chain_prev (some pr) nn, ?_, hnxt⟩
                  show node_at _ c = _
                  rw [key c, if_neg hcN, if_pos hcn]
                · refine ⟨mc, ?_, hnxt⟩
                  show node_at _ c = _
                  rw [key c, if_neg hcN, if_neg hcn, if_neg hcp]
                  exact hmc
      · intro e he
        have he1 : e ∈ md.stable_hash_table := he
        obtain ⟨v, hv, h1, h2⟩ := chain_inv_index hinv he1
        have hen : e.2.2 ≠ nx := by
          intro e1
          rw [e1, hnn] at hv
          have := Option.some.inj hv
          subst this
          rw [hnnp] at h2
          cases h2
        by_cases hep : e.2.2 = pr
        · rw [hep, hnp] at hv
          have := Option.some.inj hv
          subst this
          refine ⟨set_chain_next (some nx) np, ?_, h1, h2⟩
          show node_at _ e.2.2 = _
          rw [key e.2.2, if_neg (hnotval e he1), if_neg hen, if_pos hep]
        · refine ⟨v, ?_, h1, h2⟩
          show node_at _ e.2.2 = _
          rw [key e.2.2, if_neg (hnotval e he1), if_neg hen, if_neg hep]
          exact hv

theorem set_page_hash_idem (h : hash_pair) (n : stable_node) :
    set_page_hash h (set_page_hash h n) = set_page_hash h n := rfl

/-- What the loop of the hash update does to the arena: the nodes of the chain it is entered
at get the new hash, nothing else changes on the nodes or the stable index. -/
theorem update_chain_hash_nodes (hash : hash_pair) :
    ∀ (fuel : Nat) (md md1 : ksm_metadata) (o : Option Nat),
      update_chain_hash hash fuel md o = .ok md1 →
      ∃ l, chain_from md o l ∧ md1.stable_hash_table = md.stable_hash_table ∧
        ∀ b, node_at md1 b =
          if b ∈ l then (node_at md b).map (set_page_hash hash) else node_at md b := by
  intro fuel
  induction fuel with
  | zero =>
    intro md md1 o h
    cases o with
    | none =>
      cases h
      exact ⟨[], trivial, rfl, fun b => by simp⟩
    | some a => cases h
  | succ f ih =>
    intro md md1 o h
    cases o with
    | none =>
      cases h
      exact ⟨[], trivial, rfl, fun b => by simp⟩
    | some a =>
      unfold update_chain_hash at h
      obtain ⟨node, hnode, h2⟩ := bind_eq_ok h
      obtain ⟨md2, hmd2, h3⟩ := bind_eq_ok h2
      have hn : node_at md a = some node := (deref_node_eq _ _ _).1 hnode
      have halt := node_at_lt hn
      obtain ⟨hf1, hf2⟩ := update_item_checksum_frame hash _ _ _ hmd2
      have hmd2n : ∀ b, node_at md2 b =
          if b = a then some (set_page_hash hash node) else node_at md b := by
        intro b
        rw [node_at_congr hf1 b, node_at_set_node b halt]
      obtain ⟨l, hl, ht, hb⟩ := ih md2 md1 node.chain.next h3
      refine ⟨a :: l, ⟨rfl, node, hn, ?_⟩, ?_, ?_⟩
      · refine chain_from_congr_on l _ hl ?_
        intro c _
        rw [hmd2n c]
        by_cases hc : c = a
        · rw [if_pos hc, hc, hn]
          rfl
        · rw [if_neg hc]
      · rw [ht, hf2]
        rfl
      · intro b
        rw [hb b, hmd2n b]
        by_cases hba : b = a
        · subst hba
          rw [if_pos rfl, hn]
          by_cases hbl : b ∈ l
          · rw [if_pos hbl, if_pos (List.mem_cons_self _ _)]
            rfl
          · rw [if_neg hbl, if_pos (List.mem_cons_self _ _)]
            rfl
        · rw [if_neg hba]
          by_cases hbl : b ∈ l
          · rw [if_pos hbl, if_pos (List.mem_cons_of_mem _ hbl)]
          · rw [if_neg hbl, if_neg (by
              intro hmem
              rcases List.mem_cons.1 hmem with e | e
              · exact hba e
              · exact hbl e)]

theorem chain_from_closed {md : ksm_metadata} :
    ∀ (l : List Nat) (o : Option Nat), chain_from md o l →
      ∀ x m b, x ∈ l → node_at md x = some m → m.chain.next = some b → b ∈ l := by
  intro l
  induction l with
  | nil =>
    intro o _ x m b hx
    cases hx
  | cons c l ih =>
    intro o hc x m b hx hm hb
    cases o with
    | none => exact hc.elim
    | some a =>
      obtain ⟨hac, n, hn, hrest⟩ := hc
      rcases List.mem_cons.1 hx with e | e
      · subst e
        subst hac
        rw [hn] at hm
        have := Option.some.inj hm
        subst this
        rw [hb] at hrest
        cases l with
        | nil => exact hrest.elim
        | cons d l2 =>
          obtain ⟨hbd, -⟩ := hrest
          rw [hbd]
          exact List.mem_cons_of_mem _ (List.mem_cons_self _ _)
      · exact List.mem_cons_of_mem _ (ih _ hrest x m b e hm hb)

theorem rehash_chain_inv {md md1 : ksm_metadata} (hinv : chain_inv md) {head : Nat}
    {hash : hash_pair} {n : stable_node} (hn : node_at md head = some n)
    (hprev : n.chain.prev = none) (h : rehash_chain md head hash = .ok md1) :
    chain_inv md1 := by
  unfold rehash_chain at h
  rw [deref_node_of hn] at h
  simp only [bind, Except.bind] at h
  cases hup : update_chain_hash hash
      (set_stable_hash_table (g_hash_table_remove md.stable_hash_table n.page_hash) md).nodes.length
      (set_stable_hash_table (g_hash_table_remove md.stable_hash_table n.page_hash) md)
      (some head) with
  | error e =>
    rw [hup] at h
    cases h
  | ok md2 =>
    rw [hup] at h
    simp only [] at h
    obtain ⟨l, hl, ht, hb⟩ := update_chain_hash_nodes hash _ _ _ _ hup
    have hl1 : chain_from md (some head) l :=
      chain_from_congr_on l _ hl (fun c _ => by rw [node_at_set_stable_hash_table])
    have hb1 : ∀ b, node_at md2 b =
        if b ∈ l then (node_at md b).map (set_page_hash hash) else node_at md b := by
      intro b
      rw [hb b, node_at_set_stable_hash_table]
    have hhead : head ∈ l := by
      cases l with
      | nil => exact hl1.elim
      | cons c l2 =>
        obtain ⟨hc, -⟩ := hl1
        rw [hc]
        exact List.mem_cons_self _ _
    have hn2 : node_at md2 head = some (set_page_hash hash n) := by
      rw [hb1 head, if_pos hhead, hn]
      rfl
    rw [deref_node_of hn2] at h
    simp only [] at h
    cases h
    -- a member of the chain other than the head has a predecessor in the chain
    have hmem : ∀ c mc, c ∈ l → node_at md c = some mc → mc.chain.prev = none →
        c = head := by
      intro c mc hc hmc hp
      rcases chain_from_mem l head c hl1 hc with e | ⟨z, nz, -, hnz, hzn⟩
      · exact e
      · obtain ⟨-, m2, hm2, hp2, -⟩ := chain_inv_next hinv hnz hzn
        rw [hmc] at hm2
        have := Option.some.inj hm2
        subst this
        rw [hp] at hp2
        cases hp2
    constructor
    · intro x _ m1 hm1
      have hm2 : node_at md2 x = some m1 := hm1
      rw [hb1 x] at hm2
      -- the node of `md` at `x`
      obtain ⟨m, hm, hchain, hhash⟩ : ∃ m, node_at md x = some m ∧ m1.chain = m.chain ∧
          m1.page_hash = if x ∈ l then hash else m.page_hash := by
        by_cases hx : x ∈ l
        · rw [if_pos hx] at hm2
          cases hmx : node_at md x with
          | none =>
            rw [hmx] at hm2
            cases hm2
          | some m =>
            rw [hmx] at hm2
            have := Option.some.inj hm2
            subst this
            exact ⟨m, rfl, rfl, by rw [if_pos hx]; rfl⟩
        · rw [if_neg hx] at hm2
          exact ⟨m1, hm2, rfl, by rw [if_neg hx]⟩
      refine ⟨?_, ?_, ?_⟩
      · intro c hc
        have hc1 : m.chain.next = some c := by rw [← hchain]; exact hc
        obtain ⟨hlt, mc, hmc, hp, hh⟩ := chain_inv_next hinv hm hc1
        have hiff : c ∈ l ↔ x ∈ l := by
          constructor
          · intro hcl
            rcases chain_from_mem l head c hl1 hcl with e | ⟨z, nz, hz, hnz, hzn⟩
            · rw [e, hn] at hmc
              have := Option.some.inj hmc
              subst this
              rw [hprev] at hp
              cases hp
            · obtain ⟨-, m3, hm3, hp3, -⟩ := chain_inv_next hinv hnz hzn
              rw [hmc] at hm3
              have := Option.some.inj hm3
              subst this
              rw [hp] at hp3
              have := Option.some.inj hp3
              subst this
              exact hz
          · intro hxl
            exact chain_from_closed l _ hl1 x m c hxl hm hc1
        by_cases hcl : c ∈ l
        · refine ⟨hlt, set_page_hash hash mc, ?_, hp, ?_⟩
          · show node_at md2 c = _
            rw [hb1 c, if_pos hcl, hmc]
            rfl
          · rw [hhash, if_pos (hiff.1 hcl)]
            rfl
        · refine ⟨hlt, mc, ?_, hp, ?_⟩
          · show node_at md2 c = _
            rw [hb1 c, if_neg hcl]
            exact hmc
          · rw [hhash, if_neg (fun hx => hcl (hiff.2 hx))]
            exact hh
      · intro c hc
        have hc1 : m.chain.prev = some c := by rw [← hchain]; exact hc
        obtain ⟨mc, hmc, hnxt⟩ := chain_inv_prev hinv hm hc1
        by_cases hcl : c ∈ l
        · refine ⟨set_page_hash hash mc, ?_, hnxt⟩
          show node_at md2 c = _
          rw [hb1 c, if_pos hcl, hmc]
          rfl
        · refine ⟨mc, ?_, hnxt⟩
          show node_at md2 c = _
          rw [hb1 c, if_neg hcl]
          exact hmc
      · rw [hchain]
        exact chain_inv_type hinv hm
    · intro e he
      simp only [set_stable_hash_table_stable] at he
      rw [ht] at he
      simp only [set_stable_hash_table_stable] at he
      rcases mem_g_hash_table_insert he with ⟨he1, -⟩ | ⟨he1, he2⟩
      · obtain ⟨he3, he4⟩ := mem_g_hash_table_remove.1 he1
        obtain ⟨v, hv, h1, h2⟩ := chain_inv_index hinv he3
        have hnl : e.2.2 ∉ l := by
          intro hel
          have := hmem e.2.2 v hel hv h2
          rw [this, hn] at hv
          have := Option.some.inj hv
          subst this
          exact he4 h1.symm
        refine ⟨v, ?_, h1, h2⟩
        show node_at md2 e.2.2 = _
        rw [hb1 e.2.2, if_neg hnl]
        exact hv
      · refine ⟨set_page_hash hash n, ?_, he1.symm, hprev⟩
        show node_at md2 e.2.2 = _
        rw [he2]
        exact hn2

theorem refresh_stable_inv {md md1 : ksm_metadata} (hinv : chain_inv md) {hash : hash_pair}
    {item : rmap_item} {a : Nat} (h : refresh_stable md hash item a = .ok md1) :
    chain_inv md1 := by
  unfold refresh_stable at h
  obtain ⟨node, hnode, h2⟩ := bind_eq_ok h
  have hn := (deref_node_eq _ _ _).1 hnode
  split_ifs at h2 with c1 c2 c3 c4
  · exact rehash_chain_inv hinv hn ((chain_inv_type hinv hn).1 c3) h2
  · obtain ⟨head, -, h3⟩ := bind_eq_ok h2
    obtain ⟨head_node, hhn, h4⟩ := bind_eq_ok h3
    have hhn1 := (deref_node_eq _ _ _).1 hhn
    split_ifs at h4 with c5
    have c6 : head_node.chain.type = node_chain_type.HEAD := by
      by_contra hc
      exact c5 hc
    exact rehash_chain_inv hinv hhn1 ((chain_inv_type hinv hhn1).1 c6) h4
  · cases h2
    exact hinv

theorem remove_stale_node_and_log_inv {md : ksm_metadata} {log_table : ksm_log_table}
    {a : Nat} {item : rmap_item} {r : ksm_metadata × ksm_log_table}
    (hinv : chain_inv md) (h : remove_stale_node_and_log md log_table a item = .ok r) :
    chain_inv r.1 := by
  unfold remove_stale_node_and_log at h
  obtain ⟨node, -, h2⟩ := bind_eq_ok h
  obtain ⟨log1, -, h3⟩ := bind_eq_ok h2
  obtain ⟨md1, h4, h5⟩ := bind_eq_ok h3
  cases h5
  exact remove_stable_node_no_item_inv hinv h4

theorem modify_item_inv {md md1 : ksm_metadata} {k : item_key} {f : rmap_item → rmap_item}
    (hinv : chain_inv md) (h : modify_item md k f = .ok md1) : chain_inv md1 := by
  obtain ⟨h1, h2⟩ := modify_item_frame h
  exact chain_inv_congr h1 h2 hinv

theorem promote_unstable_inv {md : ksm_metadata} {log_table : ksm_log_table}
    {hash : hash_pair} {k u : item_key} {r : ksm_metadata × ksm_log_table}
    (hinv : chain_inv md) (h : promote_unstable md log_table hash k u = .ok r) :
    chain_inv r.1 := by
  unfold promote_unstable at h
  obtain ⟨item, -, h2⟩ := bind_eq_ok h
  obtain ⟨md1, hins, h3⟩ := bind_eq_ok h2
  obtain ⟨md2, hi1, h4⟩ := bind_eq_ok h3
  obtain ⟨md3, hi2, h5⟩ := bind_eq_ok h4
  obtain ⟨from_item, -, h6⟩ := bind_eq_ok h5
  obtain ⟨to_item, -, h7⟩ := bind_eq_ok h6
  obtain ⟨log1, -, h8⟩ := bind_eq_ok h7
  cases h8
  have hinv1 : chain_inv md1 := by
    refine insert_stable_node_inv (chain_inv_alloc_node hinv hash item.pfn)
      (node_at_alloc_node_new md _) ?_ ?_ ?_ hins
    · intro a n han
      have := node_at_lt han
      rw [alloc_node_length] at this
      omega
    · intro a n han
      by_cases ha : a = md.nodes.length
      · subst ha
        rw [node_at_alloc_node_new] at han
        have := Option.some.inj han
        subst this
        refine ⟨?_, ?_⟩ <;> intro e <;> cases e
      · rw [node_at_alloc_node_ne md _ ha] at han
        constructor
        · intro hnext
          obtain ⟨-, m, hm, -⟩ := chain_inv_next hinv han hnext
          exact absurd (node_at_lt hm) (Nat.lt_irrefl _)
        · intro hp
          obtain ⟨m, hm, -⟩ := chain_inv_prev hinv han hp
          exact absurd (node_at_lt hm) (Nat.lt_irrefl _)
    · intro e he heq
      have he1 : e ∈ md.stable_hash_table := he
      obtain ⟨v, hv, -⟩ := chain_inv_index hinv he1
      rw [heq] at hv
      exact absurd (node_at_lt hv) (Nat.lt_irrefl _)
  exact insert_item_to_node_inv (insert_item_to_node_inv hinv1 hi1) hi2

theorem merge_candidate_inv {p : ksm_params} {md : ksm_metadata} {log_table : ksm_log_table}
    {hash : hash_pair} {k : item_key} {r : ksm_metadata × ksm_log_table}
    (hinv : chain_inv md) (h : merge_candidate p md log_table hash k = .ok r) :
    chain_inv r.1 := by
  unfold merge_candidate at h
  obtain ⟨md1, h1, h2⟩ := bind_eq_ok h
  have hinv1 := modify_item_inv hinv h1
  obtain ⟨found, -, h3⟩ := bind_eq_ok h2
  cases found with
  | some a => exact merge_stable_inv hinv1 h3
  | none =>
    simp only [] at h3
    obtain ⟨md2, h4, h5⟩ := bind_eq_ok h3
    have hinv2 := modify_item_inv hinv1 h4
    obtain ⟨fu, h6, h7⟩ := bind_eq_ok h5
    obtain ⟨hf1, hf2⟩ := cmp_with_unstable_frame h6
    have hinv3 : chain_inv fu.2 := chain_inv_congr hf1 hf2 hinv2
    cases hfu : fu.1 with
    | some u =>
      rw [hfu] at h7
      exact promote_unstable_inv hinv3 h7
    | none =>
      rw [hfu] at h7
      simp only [] at h7
      obtain ⟨md3, h8, h9⟩ := bind_eq_ok h7
      have hinv4 := modify_item_inv hinv3 h8
      obtain ⟨md4, h10, h11⟩ := bind_eq_ok h9
      cases h11
      obtain ⟨hg1, hg2⟩ := insert_unstable_node_frame h10
      exact chain_inv_congr hg1 hg2 hinv4

theorem cmp_and_merge_volatile_inv {p : ksm_params} {md : ksm_metadata}
    {log_table : ksm_log_table} {hash : hash_pair} {k : item_key}
    {r : ksm_metadata × ksm_log_table}
    (hinv : chain_inv md) (h : cmp_and_merge_volatile p md log_table hash k = .ok r) :
    chain_inv r.1 := by
  unfold cmp_and_merge_volatile at h
  obtain ⟨item0, -, h2⟩ := bind_eq_ok h
  have hinv1 : chain_inv (set_item md (should_skip_item p (advance_age item0)).2) :=
    chain_inv_congr rfl rfl hinv
  dsimp only at h2
  split_ifs at h2 with c1 c2 c3
  · cases h2
    exact hinv1
  · exact merge_candidate_inv hinv1 h2
  · obtain ⟨md2, h3, h4⟩ := bind_eq_ok h2
    have hinv2 := modify_item_inv hinv1 h3
    obtain ⟨md3, h5, h6⟩ := bind_eq_ok h4
    cases h6
    exact modify_item_inv hinv2 h5
  · obtain ⟨md2, h3, h4⟩ := bind_eq_ok h2
    cases h3
    obtain ⟨md3, h5, h6⟩ := bind_eq_ok h4
    cases h6
    exact modify_item_inv hinv1 h5

theorem detach_stable_inv {md : ksm_metadata} {log_table : ksm_log_table} {k : item_key}
    {a : Nat} {r : ksm_metadata × ksm_log_table}
    (hinv : chain_inv md) (h : detach_stable md log_table k a = .ok r) : chain_inv r.1 := by
  unfold detach_stable at h
  obtain ⟨md1, h1, h2⟩ := bind_eq_ok h
  have hinv1 := remove_item_from_node_inv hinv h1
  obtain ⟨md2, h3, h4⟩ := bind_eq_ok h2
  have hinv2 := modify_item_inv hinv1 h3
  obtain ⟨item, -, h5⟩ := bind_eq_ok h4
  obtain ⟨node, -, h6⟩ := bind_eq_ok h5
  dsimp only at h6
  split_ifs at h6
  · obtain ⟨logged, h7, h8⟩ := bind_eq_ok h6
    obtain ⟨md3, h10, h11⟩ := bind_eq_ok h8
    cases h11
    exact modify_item_inv (remove_stale_node_and_log_inv hinv2 h7) h10
  · obtain ⟨log1, -, h8⟩ := bind_eq_ok h6
    obtain ⟨logged, h7, h9⟩ := bind_eq_ok h8
    cases h7
    obtain ⟨md3, h10, h11⟩ := bind_eq_ok h9
    cases h11
    exact modify_item_inv hinv2 h10

theorem cmp_and_merge_one_inv {p : ksm_params} {md : ksm_metadata}
    {log_table : ksm_log_table} {hash : hash_pair} {k : item_key}
    {r : ksm_metadata × ksm_log_table}
    (hinv : chain_inv md) (h : cmp_and_merge_one p md log_table hash k = .ok r) :
    chain_inv r.1 := by
  unfold cmp_and_merge_one at h
  obtain ⟨item, -, h2⟩ := bind_eq_ok h
  cases hs : item.state with
  | None =>
    rw [hs] at h2
    cases h2
  | Unstable =>
    rw [hs] at h2
    cases h2
  | Volatile =>
    rw [hs] at h2
    exact cmp_and_merge_volatile_inv hinv h2
  | Stable =>
    rw [hs] at h2
    simp only [] at h2
    cases hsn : item.stable_node with
    | none =>
      rw [hsn] at h2
      cases h2
    | some a =>
      rw [hsn] at h2
      simp only [] at h2
      obtain ⟨node, -, h3⟩ := bind_eq_ok h2
      split_ifs at h3
      · obtain ⟨detached, h4, h5⟩ := bind_eq_ok h3
        exact cmp_and_merge_volatile_inv (detach_stable_inv hinv h4) h5
      · obtain ⟨md1, h4, h5⟩ := bind_eq_ok h3
        obtain ⟨md2, h6, h7⟩ := bind_eq_ok h5
        cases h7
        exact modify_item_inv (refresh_stable_inv hinv h4) h6

theorem undo_merge_one_inv {md : ksm_metadata} {log_table : ksm_log_table}
    {entry : ksm_event_log} {r : ksm_metadata × ksm_log_table}
    (hinv : chain_inv md) (h : undo_merge_one md log_table entry = .ok r) :
    chain_inv r.1 := by
  unfold undo_merge_one at h
  cases hl : g_tree_lookup md.rmap_tree (entry.from_mm_id, entry.from_va) with
  | none =>
    rw [hl] at h
    cases h
  | some item =>
    rw [hl] at h
    dsimp only at h
    cases hsn : item.stable_node with
    | none =>
      rw [hsn] at h
      cases h
    | some a =>
      rw [hsn] at h
      dsimp only at h
      obtain ⟨node, -, h2⟩ := bind_eq_ok h
      split_ifs at h2
      obtain ⟨md1, h3, h4⟩ := bind_eq_ok h2
      have hinv1 := remove_item_from_node_inv hinv h3
      obtain ⟨md2, h5, h6⟩ := bind_eq_ok h4
      have hinv2 := modify_item_inv hinv1 h5
      obtain ⟨item2, -, h7⟩ := bind_eq_ok h6
      obtain ⟨node2, -, h8⟩ := bind_eq_ok h7
      split_ifs at h8
      · exact remove_stale_node_and_log_inv hinv2 h8
      · cases h8
        exact hinv2

theorem undo_merge_two_inv {md : ksm_metadata} {log_table : ksm_log_table}
    {entry : ksm_event_log} {r : ksm_metadata × ksm_log_table}
    (hinv : chain_inv md) (h : undo_merge_two md log_table entry = .ok r) :
    chain_inv r.1 := by
  unfold undo_merge_two at h
  cases hl : g_tree_lookup md.rmap_tree (entry.from_mm_id, entry.from_va) with
  | none =>
    rw [hl] at h
    cases h
  | some item =>
    rw [hl] at h
    dsimp only at h
    cases hsn : item.stable_node with
    | none =>
      rw [hsn] at h
      cases h
    | some a =>
      rw [hsn] at h
      dsimp only at h
      obtain ⟨node, -, h2⟩ := bind_eq_ok h
      obtain ⟨md1, h3, h4⟩ := bind_eq_ok h2
      obtain ⟨hf1, hf2⟩ := reset_each_item_state_frame _ _ _ h3
      obtain ⟨md2, h5, h6⟩ := bind_eq_ok h4
      cases h6
      exact remove_stable_node_no_item_inv (chain_inv_congr hf1 hf2 hinv) h5

theorem do_handle_error_entry_inv {md : ksm_metadata} {log_table : ksm_log_table}
    {entry : ksm_event_log} {r : ksm_metadata × ksm_log_table}
    (hinv : chain_inv md) (h : do_handle_error_entry md log_table entry = .ok r) :
    chain_inv r.1 := by
  unfold do_handle_error_entry at h
  split_ifs at h
  · exact undo_merge_one_inv hinv h
  · exact undo_merge_two_inv hinv h

theorem prune_rmap_items_inv :
    ∀ (ks : List item_key) (md : ksm_metadata) (log_table : ksm_log_table)
      (r : ksm_metadata × ksm_log_table), chain_inv md →
      prune_rmap_items md log_table ks = .ok r → chain_inv r.1 := by
  intro ks
  induction ks with
  | nil =>
    intro md log_table r hinv h
    cases h
    exact hinv
  | cons k ks ih =>
    intro md log_table r hinv h
    unfold prune_rmap_items at h
    obtain ⟨item, -, h2⟩ := bind_eq_ok h
    dsimp only at h2
    cases hsn : item.stable_node with
    | none =>
      rw [hsn] at h2
      dsimp only at h2
      obtain ⟨y, hy, h4⟩ := bind_eq_ok h2
      cases hy
      refine ih _ _ _ ?_ h4
      exact chain_inv_congr rfl rfl hinv
    | some a =>
      rw [hsn] at h2
      dsimp only at h2
      split_ifs at h2
      · obtain ⟨md1, h5, h6⟩ := bind_eq_ok h2
        have hinv2 := remove_item_from_node_inv hinv h5
        obtain ⟨node, -, h7⟩ := bind_eq_ok h6
        split_ifs at h7
        · obtain ⟨y, hy, h4⟩ := bind_eq_ok h7
          have hinv3 := remove_stale_node_and_log_inv hinv2 hy
          refine ih _ _ _ ?_ h4
          exact chain_inv_congr rfl rfl hinv3
        · obtain ⟨y, hy, h4⟩ := bind_eq_ok h7
          cases hy
          refine ih _ _ _ ?_ h4
          exact chain_inv_congr rfl rfl hinv2
      · obtain ⟨y, hy, h4⟩ := bind_eq_ok h2
        cases hy
        refine ih _ _ _ ?_ h4
        exact chain_inv_congr rfl rfl hinv

theorem prune_metadata_inv {cb cb1 : rdma_cb} (hinv : chain_inv cb.metadata)
    (h : prune_metadata cb = .ok cb1) : chain_inv cb1.metadata := by
  unfold prune_metadata at h
  obtain ⟨md1, h1, h2⟩ := bind_eq_ok h
  obtain ⟨hf1, hf2⟩ := clean_up_unstable_tree_frame h1
  have hinv1 : chain_inv md1 := chain_inv_congr hf1 hf2 hinv
  split_ifs at h2
  · obtain ⟨pruned, h3, h4⟩ := bind_eq_ok h2
    cases h4
    unfold prune_rmap_tree at h3
    obtain ⟨keys, -, h5⟩ := bind_eq_ok h3
    exact prune_rmap_items_inv _ _ _ _ hinv1 h5
  · cases h2
    exact hinv1

theorem worker_step_inv {p : ksm_params} {cb cb1 : rdma_cb} {raw : rmap_item} {mm_id : Int}
    {pte : shadow_pte} {hash : hash_pair} (hinv : chain_inv cb.metadata)
    (h : worker_step p cb raw mm_id pte hash = .ok cb1) : chain_inv cb1.metadata := by
  unfold worker_step at h
  dsimp only at h
  obtain ⟨merged, h1, h2⟩ := bind_eq_ok h
  cases h2
  refine cmp_and_merge_one_inv ?_ h1
  unfold lookup_rmap_item
  dsimp only
  cases g_tree_lookup cb.metadata.rmap_tree (mm_id, pte.va) with
  | none => exact chain_inv_congr rfl rfl hinv
  | some item => exact chain_inv_congr rfl rfl hinv

theorem engine_step_inv {p : ksm_params} {cb cb1 : rdma_cb} {op : engine_op}
    (hinv : chain_inv cb.metadata) (h : engine_step p cb op = .ok cb1) :
    chain_inv cb1.metadata := by
  cases op with
  | page raw mm_id pte hash => exact worker_step_inv hinv h
  | error_entry entry =>
    unfold engine_step at h
    obtain ⟨handled, h1, h2⟩ := bind_eq_ok h
    cases h2
    exact do_handle_error_entry_inv hinv h1
  | prune =>
    unfold engine_step at h
    obtain ⟨cb2, h1, h2⟩ := bind_eq_ok h
    cases h2
    have h3 := prune_metadata_inv hinv h1
    exact h3
  | next_cycle =>
    unfold engine_step at h
    cases h
    exact hinv

theorem engine_run_inv (p : ksm_params) :
    ∀ (ops : List engine_op) (cb cb1 : rdma_cb), chain_inv cb.metadata →
      engine_run p cb ops = .ok cb1 → chain_inv cb1.metadata := by
  intro ops
  induction ops with
  | nil =>
    intro cb cb1 hinv h
    cases h
    exact hinv
  | cons op ops ih =>
    intro cb cb1 hinv h
    unfold engine_run at h
    obtain ⟨cb2, h1, h2⟩ := bind_eq_ok h
    exact ih _ _ (engine_step_inv hinv h1) h2

/-- In every state the engine reaches from the empty metadata, whatever the storage `malloc`
returns and whatever records the error table holds, the chains and the stable index are
well formed. -/
theorem reachable_chain_inv {p : ksm_params} {cb : rdma_cb} (h : Reachable p cb) :
    chain_inv cb.metadata := by
  obtain ⟨ops, hops⟩ := h
  exact engine_run_inv p ops initial_cb cb (by decide) hops

/-! ## The skip heuristic -/

/-- C17: `skip_volatile` returns 0 when `volatility_score` is 0 (and when it is negative);
for `volatility_score > 0` and `g = volatility_score + age` it returns 1 if `g < 3`, 2 if
`g = 3`, 4 if `g = 4` and 8 if `g >= 5`.  Its result is one of 0, 1, 2, 4, 8.  For positive
scores it is non-decreasing in `volatility_score + age`, and for all arguments it is
non-decreasing in `volatility_score` and in `age` separately. -/
theorem C17_skip_volatile_table (volatility_score age : Int) :
    (volatility_score ≤ 0 → skip_volatile volatility_score age = 0) ∧
    (0 < volatility_score →
      (volatility_score + age < 3 → skip_volatile volatility_score age = 1) ∧
      (volatility_score + age = 3 → skip_volatile volatility_score age = 2) ∧
      (volatility_score + age = 4 → skip_volatile volatility_score age = 4) ∧
      (5 ≤ volatility_score + age → skip_volatile volatility_score age = 8)) ∧
    (skip_volatile volatility_score age = 0 ∨ skip_volatile volatility_score age = 1 ∨
      skip_volatile volatility_score age = 2 ∨ skip_volatile volatility_score age = 4 ∨
      skip_volatile volatility_score age = 8) ∧
    (∀ v2 a2 : Int, 0 < volatility_score → 0 < v2 →
      volatility_score + age ≤ v2 + a2 →
      skip_volatile volatility_score age ≤ skip_volatile v2 a2) ∧
    (∀ v2 : Int, volatility_score ≤ v2 →
      skip_volatile volatility_score age ≤ skip_volatile v2 age) ∧
    (∀ a2 : Int, age ≤ a2 →
      skip_volatile volatility_score age ≤ skip_volatile volatility_score a2) := by
  refine ⟨?_, ?_, ?_, ?_, ?_, ?_⟩
  · intro h
    unfold skip_volatile
    rw [if_neg (by omega)]
  · intro h
    unfold skip_volatile
    rw [if_pos h]
    dsimp only
    refine ⟨?_, ?_, ?_, ?_⟩ <;> intro hg <;> split_ifs <;> first | rfl | omega
  · unfold skip_volatile
    dsimp only
    split_ifs <;> simp
  · intro v2 a2 h1 h2 hle
    unfold skip_volatile
    rw [if_pos h1, if_pos h2]
    dsimp only
    split_ifs <;> omega
  · intro v2 hle
    unfold skip_volatile
    dsimp only
    split_ifs <;> omega
  · intro a2 hle
    unfold skip_volatile
    dsimp only
    split_ifs <;> omega

/-- Counterexample to C16: an item with `volatility_score = 0` is skipped.  On the run
`calm_item_with_skips` the item of page `4096` gets `volatility_score = 1` in the second
cycle; in the third it is given `skip_cnt = 4` and then, its hash being unchanged, its score
drops to 0.  On that item `should_skip_item` returns true and takes one from `skip_cnt`, and
the worker step of the fourth cycle skips the page: `old_hash` is still `hash_b` although
the page now has the content of `hash_a`. -/
theorem C16_counterexample_calm_item_skipped :
    g_tree_lookup (cb_after server_params (calm_item_with_skips.take 9)).metadata.rmap_tree
        (1, 4096) =
      some ⟨1, 2, 3, 4096, 10, 0, hash_b, item_state.Volatile, 0, 4, none⟩ ∧
    should_skip_item server_params
        ⟨1, 2, 3, 4096, 10, 0, hash_b, item_state.Volatile, 0, 4, none⟩ =
      (true, ⟨1, 2, 3, 4096, 10, 0, hash_b, item_state.Volatile, 0, 3, none⟩) ∧
    g_tree_lookup (cb_after server_params calm_item_with_skips).metadata.rmap_tree
        (1, 4096) =
      some ⟨1, 3, 4, 4096, 10, 0, hash_b, item_state.Volatile, 0, 3, none⟩ := by
  refine ⟨?_, ?_, ?_⟩ <;> rfl

theorem to_ushort_skip_volatile_pos (v a : Int) :
    0 < to_ushort (skip_volatile v a) ↔ 0 < v := by
  unfold skip_volatile to_ushort
  dsimp only
  split_ifs with h1 h2 h3 h4
  all_goals simp [h1]

/-- Amended C16: with the skip optimisation enabled, on a `Volatile` item `should_skip_item`
returns true if and only if `skip_cnt > 0`, whatever the `volatility_score`; when it returns
true it takes exactly one from `skip_cnt` and changes nothing else; when it returns false it
sets `skip_cnt` to `skip_volatile (volatility_score, age)`, which is positive exactly when
`volatility_score`, read as a `short`, is positive. -/
theorem C16_should_skip_item_by_skip_cnt (p : ksm_params) (item : rmap_item)
    (hp : p.smart_scan_opt = true) (hs : item.state = item_state.Volatile) :
    ((should_skip_item p item).1 = true ↔ 0 < item.skip_cnt) ∧
    (0 < item.skip_cnt →
      (should_skip_item p item).2 = { item with skip_cnt := item.skip_cnt - 1 }) ∧
    (item.skip_cnt = 0 →
      (should_skip_item p item).2 =
        { item with
          skip_cnt := to_ushort (skip_volatile (to_short item.volatility_score) item.age) }) ∧
    (item.skip_cnt = 0 →
      (0 < (should_skip_item p item).2.skip_cnt ↔ 0 < to_short item.volatility_score)) := by
  have hns : ¬ (item.state = item_state.None ∨ item.state = item_state.Stable) := by
    rw [hs]
    simp
  unfold should_skip_item
  rw [hp]
  simp only [Bool.not_true, Bool.false_eq_true, if_false, if_neg hns]
  by_cases hc : item.skip_cnt > 0
  · rw [if_pos hc]
    have hne : item.skip_cnt ≠ 0 := Nat.pos_iff_ne_zero.1 hc
    exact ⟨⟨fun _ => hc, fun _ => rfl⟩, fun _ => rfl, fun h0 => absurd h0 hne,
      fun h0 => absurd h0 hne⟩
  · rw [if_neg hc]
    refine ⟨⟨fun h => ?_, fun h => absurd h hc⟩, fun h => absurd h hc, fun _ => rfl,
      fun _ => ?_⟩
    · dsimp only at h
      cases h
    · dsimp only
      exact to_ushort_skip_volatile_pos (to_short item.volatility_score) item.age

/-- Witness of C16 as amended: the item of the counterexample, with `volatility_score = 0`
and `skip_cnt = 4`, is skipped and keeps three skips. -/
theorem C16_witness_skip_consumed :
    (should_skip_item server_params
        ⟨1, 2, 3, 4096, 10, 0, hash_b, item_state.Volatile, 0, 4, none⟩).1 = true ∧
    (should_skip_item server_params
        ⟨1, 2, 3, 4096, 10, 0, hash_b, item_state.Volatile, 0, 4, none⟩).2 =
      ⟨1, 2, 3, 4096, 10, 0, hash_b, item_state.Volatile, 0, 3, none⟩ :=
  ⟨(C16_should_skip_item_by_skip_cnt server_params
      ⟨1, 2, 3, 4096, 10, 0, hash_b, item_state.Volatile, 0, 4, none⟩ rfl rfl).1.2 (by decide),
   (C16_should_skip_item_by_skip_cnt server_params
      ⟨1, 2, 3, 4096, 10, 0, hash_b, item_state.Volatile, 0, 4, none⟩ rfl rfl).2.1 (by decide)⟩

/-- C18: with the skip optimisation disabled `should_skip_item` returns false on every item
and leaves the item as it is, `skip_cnt` included; `cmp_and_merge_one` on a `Volatile` item
then never returns through the skip path: after `age += 1` it goes on to the comparison of
`old_hash` with the hash of the page. -/
theorem C18_no_skip_opt_never_skips (p : ksm_params) (hp : p.smart_scan_opt = false) :
    (∀ item, should_skip_item p item = (false, item)) ∧
    (∀ md log_table h k item0, item_at md k = .ok item0 →
      cmp_and_merge_volatile p md log_table h k =
        if compare_hash_pair_equal item0.old_hash h then
          merge_candidate p (set_item md (advance_age item0)) log_table h k
        else do
          let md2 ←
            if !compare_hash_pair_equal item0.old_hash null_hash then
              modify_item (set_item md (advance_age item0)) k bump_volatility
            else .ok (set_item md (advance_age item0))
          let md3 ← modify_item md2 k (set_old_hash h)
          .ok (md3, log_table)) := by
  have h1 : ∀ item, should_skip_item p item = (false, item) := by
    intro item
    unfold should_skip_item
    rw [hp]
    rfl
  refine ⟨h1, ?_⟩
  intro md log_table h k item0 hitem
  unfold cmp_and_merge_volatile
  rw [hitem]
  simp only [bind, Except.bind, h1]
  rfl

/-- Witness of C18: with `no_skip_opt`, an item that holds four skips is not skipped. -/
theorem C18_witness_skips_ignored :
    should_skip_item no_skip_params
        ⟨1, 2, 3, 4096, 10, 0, hash_b, item_state.Volatile, 0, 4, none⟩ =
      (false, ⟨1, 2, 3, 4096, 10, 0, hash_b, item_state.Volatile, 0, 4, none⟩) :=
  (C18_no_skip_opt_never_skips no_skip_params rfl).1 _

/-! ## A Volatile item whose page has changed -/

/-- The item `cmp_and_merge_one` leaves when the page of a `Volatile` item has a new hash:
`age += 1`, the skip count of `should_skip_item`, the volatility bump unless `old_hash` was
`null_hash`, and the new `old_hash`. -/
theorem volatile_stores_hash (p : ksm_params) (md : ksm_metadata)
    (log_table : ksm_log_table) (h : hash_pair) (k : item_key) (item : rmap_item)
    (hitem : item_at md k = .ok item)
    (hskip : (should_skip_item p (advance_age item)).1 = false)
    (hhash : item.old_hash ≠ h) :
    cmp_and_merge_volatile p md log_table h k =
      .ok (set_item md (set_old_hash h
            (if item.old_hash = null_hash then (should_skip_item p (advance_age item)).2
             else bump_volatility (should_skip_item p (advance_age item)).2)),
           log_table) := by
  have hk : item.key = k := item_at_key hitem
  have hne : compare_hash_pair_equal (should_skip_item p (advance_age item)).2.old_hash h
      = false := by
    rw [Bool.eq_false_iff]
    intro hc
    rw [compare_hash_pair_equal_iff] at hc
    apply hhash
    simpa [advance_age] using hc
  have h1 : item_at (set_item md (should_skip_item p (advance_age item)).2) k =
      .ok (should_skip_item p (advance_age item)).2 :=
    item_at_set_item hitem (by simp [hk])
  have h2 : item_at (set_item md (bump_volatility (should_skip_item p (advance_age item)).2))
      k = .ok (bump_volatility (should_skip_item p (advance_age item)).2) :=
    item_at_set_item hitem (by simp [hk])
  unfold cmp_and_merge_volatile
  simp only [hitem, bind, Except.bind, hskip, hne, Bool.false_eq_true, if_false]
  by_cases hnull : item.old_hash = null_hash
  · have hc : compare_hash_pair_equal (should_skip_item p (advance_age item)).2.old_hash
        null_hash = true := by
      rw [compare_hash_pair_equal_iff]
      simpa [advance_age] using hnull
    simp only [hc, Bool.not_true, Bool.false_eq_true, if_false, if_pos hnull]
    rw [modify_item_ok h1, set_item_set_item _ _ _ (by simp)]
  · have hc : compare_hash_pair_equal (should_skip_item p (advance_age item)).2.old_hash
        null_hash = false := by
      rw [Bool.eq_false_iff]
      intro hc
      rw [compare_hash_pair_equal_iff] at hc
      apply hnull
      simpa [advance_age] using hc
    simp only [hc, Bool.not_false, if_true, if_neg hnull]
    rw [modify_item_ok h1, set_item_set_item _ _ _ (by simp)]
    simp only []
    rw [modify_item_ok h2, set_item_set_item _ _ _ (by simp)]

@[simp] theorem should_skip_item_stable_node (p : ksm_params) (item : rmap_item) :
    (should_skip_item p item).2.stable_node = item.stable_node := by
  obtain ⟨c, hc⟩ := should_skip_item_snd p item
  rw [hc]

/-- The bump is the C statement `volatility_score += 1` on an `unsigned short`, with the
skip optimisation enabled too.  The item of `volatility_at_max` is `Volatile`, is not
skipped, holds `hash_a` (not `null_hash`) and has `volatility_score = 65535`; its page now has
the content of `hash_b`.  `cmp_and_merge_one` stores `hash_b` and leaves
`volatility_score = 0`, not one more than before. -/
theorem volatility_wraps_at_max :
    item_at volatility_at_max (1, 4096) =
      .ok ⟨1, 1, 2, 4096, 10, 0, hash_a, item_state.Volatile, 65535, 0, none⟩ ∧
    (should_skip_item server_params (advance_age
      ⟨1, 1, 2, 4096, 10, 0, hash_a, item_state.Volatile, 65535, 0, none⟩)).1 = false ∧
    cmp_and_merge_one server_params volatility_at_max ⟨[], 1024⟩ hash_b (1, 4096) =
      .ok ({ rmap_tree := [⟨1, 1, 3, 4096, 10, 0, hash_b, item_state.Volatile, 0, 0, none⟩],
             nodes := [], stable_hash_table := [], unstable_hash_table := [] },
           ⟨[], 1024⟩) := by
  refine ⟨?_, ?_, ?_⟩ <;> rfl

/-- Amended C19: for a `Volatile` item that is not skipped and whose page hash pair `h`
differs from its `old_hash`, `cmp_and_merge_one` returns, stores `h` into `old_hash`, keeps
the item `Volatile`, appends no log entry and changes neither index nor any node nor any
other item.  Its `volatility_score` is unchanged when `old_hash` was `null_hash`; otherwise
it is increased by one modulo `2 ^ 16`: by exactly one below 65535, and from 65535 to 0. -/
theorem C19_changed_hash_is_stored (p : ksm_params) (md : ksm_metadata)
    (log_table : ksm_log_table) (h : hash_pair) (k : item_key) (item : rmap_item)
    (hitem : item_at md k = .ok item) (hstate : item.state = item_state.Volatile)
    (hskip : (should_skip_item p (advance_age item)).1 = false)
    (hhash : item.old_hash ≠ h) :
    ∃ md1 item1,
      cmp_and_merge_one p md log_table h k = .ok (md1, log_table) ∧
      item_at md1 k = .ok item1 ∧
      item1.old_hash = h ∧ item1.state = item_state.Volatile ∧
      item1.stable_node = item.stable_node ∧ item1.pfn = item.pfn ∧
      md1.nodes = md.nodes ∧ md1.stable_hash_table = md.stable_hash_table ∧
      md1.unstable_hash_table = md.unstable_hash_table ∧
      (∀ k2, k2 ≠ k → item_at md1 k2 = item_at md k2) ∧
      (item.old_hash = null_hash → item1.volatility_score = item.volatility_score) ∧
      (item.old_hash ≠ null_hash →
        item1.volatility_score = (item.volatility_score + 1) % 65536 ∧
        (item.volatility_score < 65535 →
          item1.volatility_score = item.volatility_score + 1) ∧
        (item.volatility_score = 65535 → item1.volatility_score = 0)) := by
  have hk : item.key = k := item_at_key hitem
  have hrun := volatile_stores_hash p md log_table h k item hitem hskip hhash
  rw [← cmp_and_merge_one_volatile log_table h hitem hstate] at hrun
  have hkey : (set_old_hash h
      (if item.old_hash = null_hash then (should_skip_item p (advance_age item)).2
       else bump_volatility (should_skip_item p (advance_age item)).2)).key = k := by
    split_ifs <;> simp [hk]
  refine ⟨_, set_old_hash h
      (if item.old_hash = null_hash then (should_skip_item p (advance_age item)).2
       else bump_volatility (should_skip_item p (advance_age item)).2), hrun,
    item_at_set_item hitem hkey, rfl, ?_, ?_, ?_, rfl, rfl, rfl, ?_, ?_, ?_⟩
  · split_ifs <;> simp [set_old_hash, bump_volatility, advance_age, hstate]
  · split_ifs <;> simp [set_old_hash, bump_volatility, advance_age]
  · split_ifs <;> simp [set_old_hash, bump_volatility, advance_age]
  · intro k2 hk2
    exact item_at_set_item_ne _ _ _ (by rw [hkey]; exact Ne.symm hk2)
  · intro hnull
    rw [if_pos hnull]
    simp [set_old_hash, advance_age]
  · intro hnull
    rw [if_neg hnull]
    have hv : (set_old_hash h (bump_volatility
        (should_skip_item p (advance_age item)).2)).volatility_score =
        (item.volatility_score + 1) % 65536 := by
      simp [set_old_hash, bump_volatility, advance_age]
    rw [hv]
    refine ⟨rfl, fun hlt => ?_, fun heq => ?_⟩
    · exact Nat.mod_eq_of_lt (by omega)
    · rw [heq]

/-- Witness of C19 as amended: in the second cycle of `calm_item_with_skips` the page
`4096`, first seen with `hash_a`, has the content of `hash_b`; the item keeps `hash_b` and its
`volatility_score` goes from 0 to 1. -/
theorem C19_witness_first_change :
    ∃ md1 item1,
      cmp_and_merge_one server_params
        (cb_after server_params (calm_item_with_skips.take 3)).metadata
        (cb_after server_params (calm_item_with_skips.take 3)).log_table hash_b (1, 4096) =
        .ok (md1, (cb_after server_params (calm_item_with_skips.take 3)).log_table) ∧
      item_at md1 (1, 4096) = .ok item1 ∧ item1.old_hash = hash_b ∧
      item1.state = item_state.Volatile ∧ item1.volatility_score = 1 := by
  obtain ⟨md1, item1, hrun, hit, hh, hs, -, -, -, -, -, -, -, hv⟩ :=
    C19_changed_hash_is_stored server_params
      (cb_after server_params (calm_item_with_skips.take 3)).metadata
      (cb_after server_params (calm_item_with_skips.take 3)).log_table hash_b (1, 4096)
      ⟨1, 0, 1, 4096, 10, 0, hash_a, item_state.Volatile, 0, 0, none⟩
      (by rfl) (by rfl) (by rfl) (by decide)
  exact ⟨md1, item1, hrun, hit, hh, hs, (hv (by decide)).2.1 (by decide)⟩

/-! ## Reconciliation of a rejected stable merge -/

theorem mem_g_tree_remove (tree : List item_key) (k x : item_key) :
    x ∈ g_tree_remove tree k ↔ x ∈ tree ∧ x ≠ k := by
  unfold g_tree_remove
  rw [List.mem_filter]
  simp only [ne_eq, decide_not, Bool.not_eq_true', decide_eq_false_iff_not,
    rmap_item_compare_eq_zero_iff]

/-! ## The error table is applied record by record -/

theorem apply_error_records_append (md : ksm_metadata) (log_table : ksm_log_table)
    (l1 l2 : List ksm_event_log) :
    apply_error_records md log_table (l1 ++ l2) =
      (apply_error_records md log_table l1).bind
        (fun st => apply_error_records st.1 st.2 l2) := by
  induction l1 generalizing md log_table with
  | nil => rfl
  | cons e rest ih =>
    simp only [List.cons_append, apply_error_records]
    cases h : do_handle_error_entry md log_table e with
    | error f => rfl
    | ok st => exact ih st.1 st.2

theorem handle_error_records_host (records : List ksm_event_log) (pad : ksm_event_log)
    (i : Nat) :
    ∀ (m j : Nat) (md : ksm_metadata) (log_table : ksm_log_table),
      i * 8388608 + j + m ≤ records.length →
      handle_error_records (host_error_regions records pad i) m j md log_table =
        apply_error_records md log_table ((records.drop (i * 8388608 + j)).take m) := by
  intro m
  induction m with
  | zero => intro j md log_table _; rfl
  | succ m ih =>
    intro j md log_table hle
    have hlt : i * 8388608 + j < records.length := by omega
    have hget : host_error_regions records pad i j = records[i * 8388608 + j] := by
      unfold host_error_regions PAGE_SIZE sizeof_ksm_event_log MAX_PAGES_IN_SGL
      have : 4096 / 32 * (i * 65536) + j = i * 8388608 + j := by omega
      rw [this, List.getD_eq_getElem _ _ hlt]
    rw [List.drop_eq_getElem_cons hlt, List.take_succ_cons]
    simp only [handle_error_records, apply_error_records, hget]
    cases h : do_handle_error_entry md log_table records[i * 8388608 + j] with
    | error f => rfl
    | ok st =>
      have := ih (j + 1) st.1 st.2 (by omega)
      simpa [Nat.add_assoc] using this

set_option maxRecDepth 2000 in
theorem host_error_descriptor_desc_cnt (n : Nat) (hn : n ≤ 2147483647) :
    (host_error_descriptor n).desc_cnt =
      ((((n * 32 + 4095) / 4096 + 65535) / 65536 : Nat) : Int) := by
  unfold host_error_descriptor DIV_ROUND_UP sizeof_ksm_event_log PAGE_SIZE MAX_PAGES_IN_SGL
  dsimp only
  omega

set_option maxRecDepth 2000 in
theorem host_total_sgl_entries (n : Nat) (hn : n ≤ 2147483647) :
    DIV_ROUND_UP (to_ulong ((host_error_descriptor n).total_cnt *
      (sizeof_ksm_event_log : Int))) PAGE_SIZE = (n * 32 + 4095) / 4096 := by
  unfold host_error_descriptor DIV_ROUND_UP sizeof_ksm_event_log PAGE_SIZE to_ulong
  dsimp only
  omega

set_option maxRecDepth 2000 in
theorem host_this_sgl_size (n i : Nat) (hn : n ≤ 2147483647)
    (hi : i < ((n * 32 + 4095) / 4096 + 65535) / 65536) :
    this_sgl_size (host_error_descriptor n) ((n * 32 + 4095) / 4096) i =
      min ((n * 32 + 4095) / 4096 - i * 65536) 65536 := by
  rw [this_sgl_size, host_error_descriptor_desc_cnt n hn]
  generalize hT : (n * 32 + 4095) / 4096 = T at hi ⊢
  have hTle : T ≤ 16777216 := by omega
  generalize hD : (T + 65535) / 65536 = D at hi ⊢
  have hiT : i * 65536 < T := by omega
  split_ifs with hlast
  · have hsz : to_ulong ((T : Int) - to_int ((i : Int) * (MAX_PAGES_IN_SGL : Int))) =
        T - i * 65536 := by
      unfold to_ulong to_int MAX_PAGES_IN_SGL
      omega
    rw [hsz]
    omega
  · unfold MAX_PAGES_IN_SGL
    omega

set_option maxRecDepth 2000 in
theorem this_log_cnt_small (m s : Nat) (hm : m ≤ 2147483647) (hs : s ≤ 65536) :
    this_log_cnt (m : Int) s = ((min m (s * 128) : Nat) : Int) := by
  unfold this_log_cnt to_ulong to_int sizeof_ksm_event_log PAGE_SIZE
  have h1 : ((m : Int) % 18446744073709551616).toNat = m := by omega
  have h2 : s * 4096 % 18446744073709551616 / 32 = s * 128 := by omega
  rw [h1, h2]
  split_ifs <;> omega

set_option maxRecDepth 2000 in
theorem host_this_log_cnt (n i : Nat) (hn : n ≤ 2147483647)
    (hi : i < ((n * 32 + 4095) / 4096 + 65535) / 65536) :
    this_log_cnt ((n - i * 8388608 : Nat) : Int)
        (this_sgl_size (host_error_descriptor n) ((n * 32 + 4095) / 4096) i) =
      ((min (n - i * 8388608) 8388608 : Nat) : Int) := by
  rw [host_this_sgl_size n i hn hi, this_log_cnt_small _ _ (by omega) (by omega)]
  omega

set_option maxRecDepth 2000 in
theorem host_total_log_cnt (n i : Nat) (hn : n ≤ 2147483647) :
    to_int (((n - i * 8388608 : Nat) : Int) - ((min (n - i * 8388608) 8388608 : Nat) : Int)) =
      ((n - (i + 1) * 8388608 : Nat) : Int) := by
  unfold to_int
  omega

set_option maxRecDepth 2000 in
theorem handle_error_regions_host (records : List ksm_event_log) (pad : ksm_event_log)
    (hlen : records.length ≤ 2147483647) :
    ∀ (left i : Nat) (md : ksm_metadata) (log_table : ksm_log_table),
      i + left = ((records.length * 32 + 4095) / 4096 + 65535) / 65536 →
      handle_error_regions (host_error_descriptor records.length)
          (host_error_regions records pad) ((records.length * 32 + 4095) / 4096)
          left i ((records.length - i * 8388608 : Nat) : Int) md log_table =
        apply_error_records md log_table (records.drop (i * 8388608)) := by
  intro left
  induction left with
  | zero =>
    intro i md log_table hi
    have hdrop : records.drop (i * 8388608) = [] := by
      apply List.drop_eq_nil_of_le
      omega
    rw [hdrop]
    rfl
  | succ left ih =>
    intro i md log_table hi
    have hcnt := host_this_log_cnt records.length i hlen (by omega)
    have hnext := host_total_log_cnt records.length i hlen
    have hrec := handle_error_records_host records pad i
      (min (records.length - i * 8388608) 8388608) 0 md log_table (by omega)
    have hsplit : records.drop (i * 8388608) =
        (records.drop (i * 8388608 + 0)).take (min (records.length - i * 8388608) 8388608) ++
          records.drop ((i + 1) * 8388608) := by
      rw [Nat.add_zero]
      have hrest : records.drop ((i + 1) * 8388608) =
          (records.drop (i * 8388608)).drop (min (records.length - i * 8388608) 8388608) := by
        rw [List.drop_drop]
        by_cases hfull : 8388608 ≤ records.length - i * 8388608
        · rw [Nat.min_eq_right hfull]
          have hsum : i * 8388608 + 8388608 = (i + 1) * 8388608 := by omega
          rw [hsum]
        · rw [List.drop_eq_nil_of_le (by omega), List.drop_eq_nil_of_le (by omega)]
      rw [hrest, List.take_append_drop]
    unfold handle_error_regions
    simp only [hcnt, hnext, Int.toNat_ofNat, hrec]
    rw [hsplit, apply_error_records_append]
    cases h : apply_error_records md log_table
        ((records.drop (i * 8388608 + 0)).take
          (min (records.length - i * 8388608) 8388608)) with
    | error f => rfl
    | ok st => exact ih (i + 1) st.1 st.2 (by omega)

set_option maxRecDepth 2000 in
/-- On the descriptor and the regions the host registers for a table kept in one piece,
`do_handle_error` applies the records of the table one after the other. -/
theorem do_handle_error_host_table (md : ksm_metadata) (log_table : ksm_log_table)
    (records : List ksm_event_log) (pad : ksm_event_log)
    (hlen : records.length ≤ 2147483647) :
    do_handle_error md log_table (host_error_descriptor records.length)
        (host_error_regions records pad) =
      apply_error_records md log_table records := by
  unfold do_handle_error
  rw [host_total_sgl_entries _ hlen, host_error_descriptor_desc_cnt _ hlen, Int.toNat_ofNat]
  have h := handle_error_regions_host records pad hlen
    (((records.length * 32 + 4095) / 4096 + 65535) / 65536) 0 md log_table (by omega)
  simpa [host_error_descriptor] using h

theorem apply_error_records_eq_foldlM (md : ksm_metadata) (log_table : ksm_log_table)
    (records : List ksm_event_log) :
    apply_error_records md log_table records =
      records.foldlM (fun st e => do_handle_error_entry st.1 st.2 e) (md, log_table) := by
  induction records generalizing md log_table with
  | nil => rfl
  | cons e rest ih =>
    rw [List.foldlM_cons, apply_error_records]
    cases h : do_handle_error_entry md log_table e with
    | error f => rfl
    | ok st => exact ih st.1 st.2

theorem do_handle_error_entry_fatal (md : ksm_metadata) (log_table : ksm_log_table)
    (e : ksm_event_log) (h1 : e.type ≠ HOST_MERGE_ONE_FAILED)
    (h2 : e.type ≠ HOST_MERGE_TWO_FAILED) :
    do_handle_error_entry md log_table e = .error fault.stop := by
  unfold do_handle_error_entry
  split_ifs <;> rfl

theorem do_handle_error_entry_ok {md : ksm_metadata} {log_table : ksm_log_table}
    {e : ksm_event_log} {st : ksm_metadata × ksm_log_table}
    (h : do_handle_error_entry md log_table e = .ok st) :
    (e.type = HOST_MERGE_ONE_FAILED ∨ e.type = HOST_MERGE_TWO_FAILED) ∧
      ∃ item a, g_tree_lookup md.rmap_tree (e.from_mm_id, e.from_va) = some item ∧
        item.stable_node = some a ∧ ∃ n, node_at md a = some n := by
  unfold do_handle_error_entry at h
  split_ifs at h with h5 h6 h7 h8
  · refine ⟨Or.inl h7, ?_⟩
    unfold undo_merge_one at h
    cases hitem : g_tree_lookup md.rmap_tree (e.from_mm_id, e.from_va) with
    | none => rw [hitem] at h; cases h
    | some item =>
      rw [hitem] at h
      dsimp only at h
      cases ha : item.stable_node with
      | none => rw [ha] at h; cases h
      | some a =>
        rw [ha] at h
        dsimp only at h
        obtain ⟨n, hn, -⟩ := bind_eq_ok h
        refine ⟨item, a, rfl, ha, n, ?_⟩
        unfold deref_node at hn
        cases hna : node_at md a with
        | none => rw [hna] at hn; cases hn
        | some n0 => rw [hna] at hn; cases hn; rfl
  · refine ⟨Or.inr h8, ?_⟩
    unfold undo_merge_two at h
    cases hitem : g_tree_lookup md.rmap_tree (e.from_mm_id, e.from_va) with
    | none => rw [hitem] at h; cases h
    | some item =>
      rw [hitem] at h
      dsimp only at h
      cases ha : item.stable_node with
      | none => rw [ha] at h; cases h
      | some a =>
        rw [ha] at h
        dsimp only at h
        obtain ⟨n, hn, -⟩ := bind_eq_ok h
        refine ⟨item, a, rfl, ha, n, ?_⟩
        unfold deref_node at hn
        cases hna : node_at md a with
        | none => rw [hna] at hn; cases hn
        | some n0 => rw [hna] at hn; cases hn; rfl

theorem apply_error_records_ok_split {md : ksm_metadata} {log_table : ksm_log_table}
    {pre post : List ksm_event_log} {e : ksm_event_log} {r : ksm_metadata × ksm_log_table}
    (h : apply_error_records md log_table (pre ++ e :: post) = .ok r) :
    ∃ st st1, apply_error_records md log_table pre = .ok st ∧
      do_handle_error_entry st.1 st.2 e = .ok st1 := by
  rw [apply_error_records_append] at h
  cases hpre : apply_error_records md log_table pre with
  | error f => rw [hpre] at h; cases h
  | ok st =>
    rw [hpre] at h
    change apply_error_records st.1 st.2 (e :: post) = .ok r at h
    unfold apply_error_records at h
    obtain ⟨st1, h1, -⟩ := bind_eq_ok h
    exact ⟨st, st1, rfl, h1⟩

/-! ## C12 and C13: the error table -/

/-- On the table `records` the host registers, a record of type `HOST_STALE_STABLE_NODE`
or of any type other than `HOST_MERGE_ONE_FAILED` and `HOST_MERGE_TWO_FAILED` makes
`do_handle_error` stop the engine (`ERR_LOG_AND_STOP`) when the records before it were
handled, and in no case lets it return normally; when `do_handle_error` returns normally,
every record of the table has one of the two types and, at its turn (after the records
before it), names an item of the rmap tree whose `stable_node` points to a live node. -/
theorem error_table_fatal_types (md : ksm_metadata) (log_table : ksm_log_table)
    (records : List ksm_event_log) (pad : ksm_event_log)
    (hlen : records.length ≤ 2147483647) :
    (∀ pre e post st, records = pre ++ e :: post →
      e.type ≠ HOST_MERGE_ONE_FAILED → e.type ≠ HOST_MERGE_TWO_FAILED →
      do_handle_error md log_table (host_error_descriptor pre.length)
        (host_error_regions pre pad) = .ok st →
      do_handle_error md log_table (host_error_descriptor records.length)
        (host_error_regions records pad) = .error fault.stop) ∧
    (∀ e ∈ records, e.type = HOST_STALE_STABLE_NODE ∨
        (e.type ≠ HOST_MERGE_ONE_FAILED ∧ e.type ≠ HOST_MERGE_TWO_FAILED) →
      ∀ r, do_handle_error md log_table (host_error_descriptor records.length)
        (host_error_regions records pad) ≠ .ok r) ∧
    (∀ r, do_handle_error md log_table (host_error_descriptor records.length)
        (host_error_regions records pad) = .ok r →
      ∀ pre e post, records = pre ++ e :: post →
        (e.type = HOST_MERGE_ONE_FAILED ∨ e.type = HOST_MERGE_TWO_FAILED) ∧
        ∃ st item a n,
          do_handle_error md log_table (host_error_descriptor pre.length)
            (host_error_regions pre pad) = .ok st ∧
          g_tree_lookup st.1.rmap_tree (e.from_mm_id, e.from_va) = some item ∧
          item.stable_node = some a ∧ node_at st.1 a = some n) := by
  have hpre_len : ∀ pre e post, records = pre ++ e :: post → pre.length ≤ 2147483647 := by
    intro pre e post hsplit
    have : records.length = pre.length + (post.length + 1) := by
      rw [hsplit, List.length_append, List.length_cons]
    omega
  have hsurvive : ∀ r, do_handle_error md log_table (host_error_descriptor records.length)
        (host_error_regions records pad) = .ok r →
      ∀ pre e post, records = pre ++ e :: post →
        (e.type = HOST_MERGE_ONE_FAILED ∨ e.type = HOST_MERGE_TWO_FAILED) ∧
        ∃ st item a n,
          do_handle_error md log_table (host_error_descriptor pre.length)
            (host_error_regions pre pad) = .ok st ∧
          g_tree_lookup st.1.rmap_tree (e.from_mm_id, e.from_va) = some item ∧
          item.stable_node = some a ∧ node_at st.1 a = some n := by
    intro r hr pre e post hsplit
    rw [do_handle_error_host_table md log_table records pad hlen, hsplit] at hr
    obtain ⟨st, st1, hpre, he⟩ := apply_error_records_ok_split hr
    obtain ⟨htype, item, a, hitem, ha, n, hn⟩ := do_handle_error_entry_ok he
    refine ⟨htype, st, item, a, n, ?_, hitem, ha, hn⟩
    rw [do_handle_error_host_table md log_table pre pad (hpre_len pre e post hsplit)]
    exact hpre
  refine ⟨?_, ?_, hsurvive⟩
  · intro pre e post st hsplit h1 h2 hpre
    rw [do_handle_error_host_table md log_table pre pad (hpre_len pre e post hsplit)] at hpre
    rw [do_handle_error_host_table md log_table records pad hlen, hsplit,
      apply_error_records_append, hpre]
    change apply_error_records st.1 st.2 (e :: post) = .error fault.stop
    unfold apply_error_records
    rw [do_handle_error_entry_fatal st.1 st.2 e h1 h2]
    rfl
  · intro e he htype r hr
    obtain ⟨pre, post, hsplit⟩ := List.append_of_mem he
    obtain ⟨hgood, -⟩ := hsurvive r hr pre e post hsplit
    have hne : e.type ≠ HOST_MERGE_ONE_FAILED ∧ e.type ≠ HOST_MERGE_TWO_FAILED := by
      rcases htype with h5 | h
      · rw [h5]
        exact ⟨by decide, by decide⟩
      · exact h
    rcases hgood with h | h
    · exact hne.1 h
    · exact hne.2 h

/-- After `three_sharers`, the table made of the record for the page `12288` followed by a
record `HOST_STALE_STABLE_NODE` stops the engine. -/
theorem stale_node_record_stops :
    [merge_one_failed 12288, host_stale_node].length ≤ 2147483647 ∧
    do_handle_error (cb_after server_params three_sharers).metadata
      (cb_after server_params three_sharers).log_table ⟨2, 1⟩
      (host_error_regions [merge_one_failed 12288, host_stale_node] host_stale_node) =
      .error fault.stop :=
  ⟨by decide,
   (error_table_fatal_types (cb_after server_params three_sharers).metadata
      (cb_after server_params three_sharers).log_table
      [merge_one_failed 12288, host_stale_node] host_stale_node (by decide)).1
      [merge_one_failed 12288] host_stale_node []
      ((run_from server_params (cb_after server_params three_sharers)
          [engine_op.error_entry (merge_one_failed 12288)]).metadata,
        (run_from server_params (cb_after server_params three_sharers)
          [engine_op.error_entry (merge_one_failed 12288)]).log_table)
      rfl (by decide) (by decide) (by rfl)⟩

/-- C12: `do_handle_error` tests `item->stable_node`, which `lookup_rmap_item` leaves as
`malloc` returned it, and not the state of the item (the defect shown for C1).  After
`stale_pointer_seen` node 0 has the two sharers `4096` and `8192`, and the item of the page
`12288`, made from `stale_item`, is `Volatile`, in no sharers tree, with the stale address
of node 0 in `stable_node`.  The error table of the next cycle holds the one record
`HOST_MERGE_ONE_FAILED` for that item and frame 20: `do_handle_error` returns normally,
takes one from the `shared_cnt` of node 0, whose two sharers stay, and resets the item. -/
theorem C12_record_for_unlinked_item_is_survived :
    item_at (cb_after server_params stale_pointer_seen).metadata (1, 12288) =
      .ok ⟨1, 2, 1, 12288, 30, 0, hash_a, item_state.Volatile, 0, 0, some 0⟩ ∧
    (cb_after server_params stale_pointer_seen).metadata.nodes =
      [some ⟨hash_a, 2, 20, [(1, 4096), (1, 8192)], ⟨node_chain_type.HEAD, none, none⟩⟩] ∧
    (merge_one_failed 12288).type = HOST_MERGE_ONE_FAILED ∧
    host_error_descriptor 1 = ⟨1, 1⟩ ∧
    ∃ md1,
      do_handle_error (cb_after server_params stale_pointer_seen).metadata
        (cb_after server_params stale_pointer_seen).log_table (host_error_descriptor 1)
        (host_error_regions [merge_one_failed 12288] host_stale_node) =
        .ok (md1, (cb_after server_params stale_pointer_seen).log_table) ∧
      md1.nodes =
        [some ⟨hash_a, 1, 20, [(1, 4096), (1, 8192)],
          ⟨node_chain_type.HEAD, none, none⟩⟩] ∧
      item_at md1 (1, 12288) =
        .ok ⟨1, 2, 1, 12288, 0, 0, null_hash, item_state.Volatile, 1, 0, none⟩ :=
  ⟨rfl, rfl, rfl, rfl, _, rfl, rfl, rfl⟩

/-- C13: for a table of `n` records kept in one piece, which the host registers with
`total_cnt = n` in `desc_cnt = DIV_ROUND_UP (DIV_ROUND_UP (n * 32, 4096), MAX_PAGES_IN_SGL)`
regions, `do_handle_error` returns what handling the `n` records one after the other, each
once and in table order, returns (a left fold of the body of the `switch` over the table);
for `n = 0`, whatever the memory holds, it returns at once with the rmap tree, the nodes,
both indexes and the decision log unchanged. -/
theorem C13_error_table_applied_in_order (md : ksm_metadata) (log_table : ksm_log_table)
    (records : List ksm_event_log) (pad : ksm_event_log)
    (hlen : records.length ≤ 2147483647) :
    (host_error_descriptor records.length).total_cnt = records.length ∧
    (host_error_descriptor records.length).desc_cnt =
      (((records.length * 32 + 4095) / 4096 + 65535) / 65536 : Nat) ∧
    do_handle_error md log_table (host_error_descriptor records.length)
        (host_error_regions records pad) =
      apply_error_records md log_table records ∧
    do_handle_error md log_table (host_error_descriptor records.length)
        (host_error_regions records pad) =
      records.foldlM (fun st e => do_handle_error_entry st.1 st.2 e) (md, log_table) ∧
    (∀ remote, do_handle_error md log_table (host_error_descriptor 0) remote =
      .ok (md, log_table)) :=
  ⟨rfl, host_error_descriptor_desc_cnt _ hlen,
   do_handle_error_host_table md log_table records pad hlen,
   (do_handle_error_host_table md log_table records pad hlen).trans
     (apply_error_records_eq_foldlM md log_table records),
   fun _ => rfl⟩

/-- Witness of C13.  After `three_sharers`, the table of the two records for the pages `12288`
and `8192` is registered in one region; `do_handle_error` handles both: node 0 keeps the
page `4096` alone and the two items are `Volatile`. -/
theorem C13_witness_two_records :
    [merge_one_failed 12288, merge_one_failed 8192].length ≤ 2147483647 ∧
    do_handle_error (cb_after server_params three_sharers).metadata
      (cb_after server_params three_sharers).log_table ⟨2, 1⟩
      (host_error_regions [merge_one_failed 12288, merge_one_failed 8192] host_stale_node) =
      .ok
        ({ rmap_tree :=
             [⟨1, 2, 2, 4096, 20, 10, hash_a, item_state.Stable, 0, 0, some 0⟩,
              ⟨1, 2, 2, 8192, 20, 0, null_hash, item_state.Volatile, 1, 0, none⟩,
              ⟨1, 2, 2, 12288, 30, 0, null_hash, item_state.Volatile, 1, 0, none⟩],
           nodes := [some ⟨hash_a, 1, 20, [(1, 4096)], ⟨node_chain_type.HEAD, none, none⟩⟩],
           stable_hash_table := [(hash_a, 0, 0)],
           unstable_hash_table := [] },
         (cb_after server_params three_sharers).log_table) :=
  ⟨by decide,
   (C13_error_table_applied_in_order (cb_after server_params three_sharers).metadata
      (cb_after server_params three_sharers).log_table
      [merge_one_failed 12288, merge_one_failed 8192] host_stale_node (by decide)).2.2.1.trans
      (by rfl)⟩

/-! ## The unstable index at the end of a cycle -/

theorem modify_node_items {md md1 : ksm_metadata} {a : Nat} {f : stable_node → stable_node}
    (h : modify_node md a f = .ok md1) :
    md1.rmap_tree = md.rmap_tree ∧ md1.unstable_hash_table = md.unstable_hash_table := by
  unfold modify_node at h
  obtain ⟨node, -, h2⟩ := bind_eq_ok h
  cases h2
  exact ⟨rfl, rfl⟩

theorem remove_item_from_node_items {md md1 : ksm_metadata} {a : Nat} {k : item_key}
    (h : remove_item_from_node md a k = .ok md1) :
    md1.rmap_tree = md.rmap_tree ∧ md1.unstable_hash_table = md.unstable_hash_table := by
  unfold remove_item_from_node at h
  obtain ⟨node, -, h2⟩ := bind_eq_ok h
  cases h2
  exact ⟨rfl, rfl⟩

theorem remove_stable_node_no_item_items {md md1 : ksm_metadata} {a : Nat}
    (h : remove_stable_node_no_item md a = .ok md1) :
    md1.rmap_tree = md.rmap_tree ∧ md1.unstable_hash_table = md.unstable_hash_table := by
  unfold remove_stable_node_no_item at h
  obtain ⟨node, -, h2⟩ := bind_eq_ok h
  cases ht : node.chain.type with
  | HEAD =>
    rw [ht] at h2
    dsimp only at h2
    cases hnx : node.chain.next with
    | none =>
      rw [hnx] at h2
      cases h2
      exact ⟨rfl, rfl⟩
    | some b =>
      rw [hnx] at h2
      dsimp only at h2
      split_ifs at h2
      obtain ⟨md2, h3, h4⟩ := bind_eq_ok h2
      obtain ⟨next_node, -, h5⟩ := bind_eq_ok h4
      cases h5
      obtain ⟨e1, e2⟩ := modify_node_items h3
      exact ⟨e1, e2⟩
  | CHAIN =>
    rw [ht] at h2
    dsimp only at h2
    cases hp : node.chain.prev with
    | none =>
      rw [hp] at h2
      cases h2
    | some c =>
      rw [hp] at h2
      dsimp only at h2
      obtain ⟨md2, h3, h4⟩ := bind_eq_ok h2
      obtain ⟨e1, e2⟩ := modify_node_items h3
      cases hnx : node.chain.next with
      | none =>
        rw [hnx] at h4
        cases h4
        exact ⟨e1, e2⟩
      | some b =>
        rw [hnx] at h4
        dsimp only at h4
        obtain ⟨md3, h5, h6⟩ := bind_eq_ok h4
        obtain ⟨e3, e4⟩ := modify_node_items h5
        cases h6
        exact ⟨e3.trans e1, e4.trans e2⟩

theorem remove_stale_node_and_log_items {md : ksm_metadata} {log_table : ksm_log_table}
    {a : Nat} {last_item : rmap_item} {r : ksm_metadata × ksm_log_table}
    (h : remove_stale_node_and_log md log_table a last_item = .ok r) :
    r.1.rmap_tree = md.rmap_tree ∧ r.1.unstable_hash_table = md.unstable_hash_table := by
  unfold remove_stale_node_and_log at h
  obtain ⟨node, -, h2⟩ := bind_eq_ok h
  obtain ⟨log1, -, h3⟩ := bind_eq_ok h2
  obtain ⟨md1, h4, h5⟩ := bind_eq_ok h3
  cases h5
  exact remove_stable_node_no_item_items h4

theorem find_filter_key (tree : List rmap_item) (k0 k : item_key) :
    (tree.filter (fun x => rmap_item_compare x.key k0 ≠ 0)).find?
        (fun x => decide (x.key = k)) =
      if k = k0 then none else tree.find? (fun x => decide (x.key = k)) := by
  induction tree with
  | nil => split_ifs <;> rfl
  | cons x xs ih =>
    by_cases hx0 : x.key = k0
    · have hf : (x :: xs).filter (fun x => rmap_item_compare x.key k0 ≠ 0) =
          xs.filter (fun x => rmap_item_compare x.key k0 ≠ 0) := by
        apply List.filter_cons_of_neg
        simp [rmap_item_compare_eq_zero_iff, hx0]
      rw [hf, ih]
      by_cases hk : k = k0
      · rw [if_pos hk, if_pos hk]
      · rw [if_neg hk, if_neg hk, List.find?_cons]
        have : x.key ≠ k := by rw [hx0]; exact Ne.symm hk
        simp [this]
    · have hf : (x :: xs).filter (fun x => rmap_item_compare x.key k0 ≠ 0) =
          x :: xs.filter (fun x => rmap_item_compare x.key k0 ≠ 0) := by
        apply List.filter_cons_of_pos
        simp [rmap_item_compare_eq_zero_iff, hx0]
      rw [hf, List.find?_cons, List.find?_cons, ih]
      by_cases hxk : x.key = k
      · have hk : k ≠ k0 := by rw [← hxk]; exact hx0
        simp [hxk, hk]
      · simp [hxk]

theorem item_at_of_filter {md md1 : ksm_metadata} {k0 : item_key}
    (ht : md1.rmap_tree = md.rmap_tree.filter (fun x => rmap_item_compare x.key k0 ≠ 0))
    {k : item_key} {item : rmap_item} (h : item_at md1 k = .ok item) :
    k ≠ k0 ∧ item_at md k = .ok item := by
  rw [item_at_eq, g_tree_lookup_eq, ht, find_filter_key] at h
  rw [item_at_eq, g_tree_lookup_eq]
  by_cases hk : k = k0
  · rw [if_pos hk] at h
    cases h
  · rw [if_neg hk] at h
    exact ⟨hk, h⟩

/-- The items `prune_rmap_tree` leaves are items of the tree it started from, unchanged, and
it does not touch the unstable index. -/
theorem prune_rmap_items_items :
    ∀ (ks : List item_key) (md : ksm_metadata) (log_table : ksm_log_table)
      (r : ksm_metadata × ksm_log_table),
      prune_rmap_items md log_table ks = .ok r →
      r.1.unstable_hash_table = md.unstable_hash_table ∧
      ∀ k item, item_at r.1 k = .ok item → item_at md k = .ok item := by
  intro ks
  induction ks with
  | nil =>
    intro md log_table r h
    cases h
    exact ⟨rfl, fun _ _ h => h⟩
  | cons k0 ks ih =>
    intro md log_table r h
    have hstep : ∀ (y : ksm_metadata × ksm_log_table),
        y.1.rmap_tree = md.rmap_tree → y.1.unstable_hash_table = md.unstable_hash_table →
        prune_rmap_items
          { y.1 with
            rmap_tree := y.1.rmap_tree.filter (fun x => rmap_item_compare x.key k0 ≠ 0) }
          y.2 ks = .ok r →
        r.1.unstable_hash_table = md.unstable_hash_table ∧
        ∀ k item, item_at r.1 k = .ok item → item_at md k = .ok item := by
      intro y e1 e2 h4
      obtain ⟨hun, hitems⟩ := ih _ _ _ h4
      refine ⟨hun.trans e2, ?_⟩
      intro k item hk
      have h5 := (@item_at_of_filter y.1
        { y.1 with
          rmap_tree := y.1.rmap_tree.filter (fun x => rmap_item_compare x.key k0 ≠ 0) }
        k0 rfl k item (hitems k item hk)).2
      rw [item_at_eq] at h5 ⊢
      rw [← e1]
      exact h5
    unfold prune_rmap_items at h
    obtain ⟨item0, -, h2⟩ := bind_eq_ok h
    dsimp only at h2
    cases hsn : item0.stable_node with
    | none =>
      rw [hsn] at h2
      dsimp only at h2
      obtain ⟨y, hy, h4⟩ := bind_eq_ok h2
      cases hy
      exact hstep _ rfl rfl h4
    | some a =>
      rw [hsn] at h2
      dsimp only at h2
      split_ifs at h2
      · obtain ⟨md1, h5, h6⟩ := bind_eq_ok h2
        obtain ⟨e1, e2⟩ := remove_item_from_node_items h5
        obtain ⟨node, -, h7⟩ := bind_eq_ok h6
        split_ifs at h7
        · obtain ⟨y, hy, h4⟩ := bind_eq_ok h7
          obtain ⟨e3, e4⟩ := remove_stale_node_and_log_items hy
          exact hstep y (e3.trans e1) (e4.trans e2) h4
        · obtain ⟨y, hy, h4⟩ := bind_eq_ok h7
          cases hy
          exact hstep _ e1 e2 h4
      · obtain ⟨y, hy, h4⟩ := bind_eq_ok h2
        cases hy
        exact hstep _ rfl rfl h4

/-- The traversal of the unstable index by `update_item_state`, when every value of the
index is an item of the rmap tree: it returns, the items the index holds get the state
`Volatile`, and nothing else changes. -/
theorem update_item_state_ok :
    ∀ (t : GHashTable item_key) (md : ksm_metadata),
      (∀ e ∈ t, ∃ item, item_at md e.2.2 = .ok item) →
      ∃ md1, update_item_state md t = .ok md1 ∧
        md1.nodes = md.nodes ∧ md1.stable_hash_table = md.stable_hash_table ∧
        md1.unstable_hash_table = md.unstable_hash_table ∧
        ∀ k, item_at md1 k =
          (item_at md k).map
            (fun it => if ∃ e ∈ t, e.2.2 = k then set_state item_state.Volatile it else it) := by
  intro t
  induction t with
  | nil =>
    intro md _
    refine ⟨md, rfl, rfl, rfl, rfl, ?_⟩
    intro k
    cases item_at md k <;> simp [Except.map]
  | cons e es ih =>
    intro md hex
    obtain ⟨item0, hi0⟩ := hex e (List.mem_cons_self _ _)
    have hk0 : item0.key = e.2.2 := item_at_key hi0
    have hstep : ∀ k, item_at (set_item md (set_state item_state.Volatile item0)) k =
        if k = e.2.2 then .ok (set_state item_state.Volatile item0) else item_at md k := by
      intro k
      by_cases hk : k = e.2.2
      · rw [if_pos hk, hk]
        exact item_at_set_item hi0 hk0
      · rw [if_neg hk]
        exact item_at_set_item_ne _ _ _ (by
          intro h
          exact hk (h.symm.trans hk0))
    obtain ⟨md1, hrun, hn, hs, hu, hitems⟩ :=
      ih (set_item md (set_state item_state.Volatile item0)) (by
        intro e2 he2
        obtain ⟨it, hit⟩ := hex e2 (List.mem_cons_of_mem _ he2)
        rw [hstep]
        split_ifs
        · exact ⟨_, rfl⟩
        · exact ⟨it, hit⟩)
    refine ⟨md1, ?_, hn, hs, hu, ?_⟩
    · unfold update_item_state modify_item
      rw [hi0]
      exact hrun
    · intro k
      rw [hitems k, hstep k]
      by_cases hk : k = e.2.2
      · rw [if_pos hk, hk, hi0]
        have h1 : ∃ e2 ∈ e :: es, e2.2.2 = e.2.2 := ⟨e, List.mem_cons_self _ _, rfl⟩
        simp only [Except.map, if_pos h1]
        split_ifs <;> rfl
      · rw [if_neg hk]
        have hiff : (∃ e2 ∈ e :: es, e2.2.2 = k) ↔ ∃ e2 ∈ es, e2.2.2 = k := by
          constructor
          · rintro ⟨e2, he2, hek⟩
            rcases List.mem_cons.1 he2 with h | h
            · subst h
              exact (hk hek.symm).elim
            · exact ⟨e2, h, hek⟩
          · rintro ⟨e2, he2, hek⟩
            exact ⟨e2, List.mem_cons_of_mem _ he2, hek⟩
        cases item_at md k with
        | error f => rfl
        | ok it =>
          simp only [Except.map]
          by_cases hin : ∃ e2 ∈ es, e2.2.2 = k
          · rw [if_pos hin, if_pos (hiff.2 hin)]
          · rw [if_neg hin, if_neg (fun h => hin (hiff.1 h))]

theorem update_item_state_length :
    ∀ (t : GHashTable item_key) (md md1 : ksm_metadata), update_item_state md t = .ok md1 →
      md1.rmap_tree.length = md.rmap_tree.length := by
  intro t
  induction t with
  | nil =>
    intro md md1 h
    cases h
    rfl
  | cons e es ih =>
    intro md md1 h
    unfold update_item_state at h
    obtain ⟨md2, h1, h2⟩ := bind_eq_ok h
    unfold modify_item at h1
    obtain ⟨item, -, h3⟩ := bind_eq_ok h1
    cases h3
    rw [ih _ _ h2, set_item_rmap_tree, List.length_map]

/-- What `clean_up_unstable_tree` does when every value of the unstable index is an item of
the rmap tree and every `Unstable` item is a value of the index. -/
theorem clean_up_unstable_tree_ok {md : ksm_metadata}
    (hvals : ∀ e ∈ md.unstable_hash_table, ∃ item, item_at md e.2.2 = .ok item) :
    ∃ md1, clean_up_unstable_tree md = .ok md1 ∧
      md1.unstable_hash_table = [] ∧
      md1.nodes = md.nodes ∧ md1.stable_hash_table = md.stable_hash_table ∧
      (∀ e ∈ md.unstable_hash_table, ∃ item,
        item_at md1 e.2.2 = .ok item ∧ item.state = item_state.Volatile) ∧
      (∀ k, (∀ e ∈ md.unstable_hash_table, e.2.2 ≠ k) → item_at md1 k = item_at md k) ∧
      ((∀ k item, item_at md k = .ok item → item.state = item_state.Unstable →
          ∃ e ∈ md.unstable_hash_table, e.2.2 = k) →
        ∀ k item, item_at md1 k = .ok item → item.state ≠ item_state.Unstable) := by
  obtain ⟨md1, hrun, hn, hs, -, hitems⟩ := update_item_state_ok md.unstable_hash_table md hvals
  refine ⟨set_unstable_hash_table [] md1, ?_, rfl, hn, hs, ?_, ?_, ?_⟩
  · unfold clean_up_unstable_tree
    rw [hrun]
    rfl
  · intro e he
    obtain ⟨item, hitem⟩ := hvals e he
    refine ⟨set_state item_state.Volatile item, ?_, rfl⟩
    change item_at md1 e.2.2 = _
    rw [hitems, hitem]
    simp only [Except.map]
    rw [if_pos ⟨e, he, rfl⟩]
  · intro k hk
    change item_at md1 k = _
    rw [hitems]
    cases item_at md k with
    | error f => rfl
    | ok it =>
      simp only [Except.map]
      rw [if_neg]
      rintro ⟨e, he, hek⟩
      exact hk e he hek
  · intro hunst k item hk
    change item_at md1 k = _ at hk
    rw [hitems] at hk
    cases hold : item_at md k with
    | error f =>
      rw [hold] at hk
      cases hk
    | ok it =>
      rw [hold] at hk
      simp only [Except.map] at hk
      by_cases hin : ∃ e ∈ md.unstable_hash_table, e.2.2 = k
      · rw [if_pos hin] at hk
        cases hk
        intro h
        cases h
      · rw [if_neg hin] at hk
        cases hk
        intro h
        exact hin (hunst k _ hold h)

/-- The unstable index after `prune_metadata`, in a state where every value of the unstable
index is an item of the rmap tree and every `Unstable` item is a value of the index:
`clean_up_unstable_tree` returns, and `prune_metadata` returns when the rmap tree holds at
most `RMAP_PRUNE_MARGIN` items more than were accessed; whenever `prune_metadata` returns,
the unstable index is empty, no item of the rmap tree is `Unstable`, every item that was in
the index and is still in the tree is `Volatile`; the passage to the next cycle leaves the
index empty. -/
theorem prune_metadata_unstable_index (cb : rdma_cb)
    (hvals : ∀ e ∈ cb.metadata.unstable_hash_table,
      ∃ item, item_at cb.metadata e.2.2 = .ok item)
    (hunst : ∀ k item, item_at cb.metadata k = .ok item →
      item.state = item_state.Unstable →
      ∃ e ∈ cb.metadata.unstable_hash_table, e.2.2 = k) :
    (∃ md1, clean_up_unstable_tree cb.metadata = .ok md1 ∧
      md1.unstable_hash_table = [] ∧
      (∀ k item, item_at md1 k = .ok item → item.state ≠ item_state.Unstable) ∧
      (∀ e ∈ cb.metadata.unstable_hash_table, ∃ item,
        item_at md1 e.2.2 = .ok item ∧ item.state = item_state.Volatile)) ∧
    (¬ to_ulong ((cb.metadata.rmap_tree.length : Int) - (cb.total_accessed_cnt : Int))
        > RMAP_PRUNE_MARGIN →
      ∃ cb1, prune_metadata cb = .ok cb1 ∧
        ∀ e ∈ cb.metadata.unstable_hash_table, ∃ item,
          item_at cb1.metadata e.2.2 = .ok item ∧ item.state = item_state.Volatile) ∧
    (∀ cb1, prune_metadata cb = .ok cb1 →
      cb1.metadata.unstable_hash_table = [] ∧
      (∀ k item, item_at cb1.metadata k = .ok item → item.state ≠ item_state.Unstable) ∧
      (∀ e ∈ cb.metadata.unstable_hash_table, ∀ item,
        item_at cb1.metadata e.2.2 = .ok item → item.state = item_state.Volatile)) ∧
    (∀ p cb2, engine_run p cb [engine_op.prune, engine_op.next_cycle] = .ok cb2 →
      cb2.metadata.unstable_hash_table = [] ∧
      (∀ k item, item_at cb2.metadata k = .ok item → item.state ≠ item_state.Unstable) ∧
      cb2.iteration = cb.iteration + 1) := by
  obtain ⟨md1, hclean, hempty, -, -, hvol, -, hno⟩ := clean_up_unstable_tree_ok hvals
  have hlen : md1.rmap_tree.length = cb.metadata.rmap_tree.length := by
    unfold clean_up_unstable_tree at hclean
    obtain ⟨md2, h1, h2⟩ := bind_eq_ok hclean
    cases h2
    have h3 := update_item_state_length _ _ _ h1
    exact h3
  have hafter : ∀ cb1, prune_metadata cb = .ok cb1 →
      cb1.metadata.unstable_hash_table = [] ∧
      (∀ k item, item_at cb1.metadata k = .ok item → item.state ≠ item_state.Unstable) ∧
      (∀ e ∈ cb.metadata.unstable_hash_table, ∀ item,
        item_at cb1.metadata e.2.2 = .ok item → item.state = item_state.Volatile) ∧
      cb1.iteration = cb.iteration := by
    intro cb1 h
    unfold prune_metadata at h
    rw [hclean] at h
    change (if to_ulong ((md1.rmap_tree.length : Int) - (cb.total_accessed_cnt : Int))
        > RMAP_PRUNE_MARGIN then _ else _) = _ at h
    split_ifs at h
    · obtain ⟨pruned, h3, h4⟩ := bind_eq_ok h
      cases h4
      unfold prune_rmap_tree at h3
      obtain ⟨keys, -, h5⟩ := bind_eq_ok h3
      obtain ⟨hun, hitems⟩ := prune_rmap_items_items _ _ _ _ h5
      refine ⟨hun.trans hempty, ?_, ?_, rfl⟩
      · intro k item hk
        exact hno hunst k item (hitems k item hk)
      · intro e he item hk
        obtain ⟨it, hit, hst⟩ := hvol e he
        have := hitems _ _ hk
        rw [hit] at this
        cases this
        exact hst
    · cases h
      refine ⟨hempty, hno hunst, ?_, rfl⟩
      intro e he item hk
      obtain ⟨it, hit, hst⟩ := hvol e he
      change item_at md1 e.2.2 = _ at hk
      rw [hit] at hk
      cases hk
      exact hst
  refine ⟨⟨md1, hclean, hempty, hno hunst, hvol⟩, ?_, ?_, ?_⟩
  · intro hsmall
    refine ⟨{ cb with metadata := md1 }, ?_, hvol⟩
    unfold prune_metadata
    rw [hclean]
    change (if to_ulong ((md1.rmap_tree.length : Int) - (cb.total_accessed_cnt : Int))
        > RMAP_PRUNE_MARGIN then _ else _) = _
    rw [hlen, if_neg hsmall]
  · intro cb1 h
    obtain ⟨h1, h2, h3, -⟩ := hafter cb1 h
    exact ⟨h1, h2, h3⟩
  · intro p cb2 h
    unfold engine_run at h
    obtain ⟨cb1, h1, h2⟩ := bind_eq_ok h
    unfold engine_step at h1
    obtain ⟨cb0, h3, h4⟩ := bind_eq_ok h1
    obtain ⟨e1, e2, -, e4⟩ := hafter cb0 h3
    cases h4
    unfold engine_run at h2
    obtain ⟨cb3, h5, h6⟩ := bind_eq_ok h2
    unfold engine_run at h6
    cases h6
    unfold engine_step at h5
    cases h5
    exact ⟨e1, e2, by rw [← e4]⟩

/-! ## C15: the pre-hash hit path -/

set_option maxRecDepth 2000 in
theorem page_idx_of_page (base p : Nat) (hp : p < 16384) :
    to_ulong (((base + p * 4096 : Nat) : Int) - (base : Int)) / 4096 = p := by
  unfold to_ulong
  omega

/-- The state the running worker reaches: after `n` iterations from the start of a batch
the index is `n` and each slot below it holds the hashes of its page. -/
theorem pre_hash_worker_slots (XXH3_128bits_withSeed : List Nat → Nat → XXH128_hash_t)
    (mem : Nat → Nat) :
    ∀ (left i : Nat) (t : pre_hash_table), i + left ≤ PRE_HASH_NUM →
      t.pre_hash_pair_curr_idx = i →
      (∀ j, j < i → t.pre_hash_pair_chunk j =
        hash_page XXH3_128bits_withSeed mem (t.pre_hash_pair_table_base_ptr + j * PAGE_SIZE)) →
      (pre_hash_worker XXH3_128bits_withSeed mem left i t).pre_hash_pair_curr_idx =
        ((i + left : Nat) : Int) ∧
      (pre_hash_worker XXH3_128bits_withSeed mem left i t).pre_hash_pair_table_base_ptr =
        t.pre_hash_pair_table_base_ptr ∧
      (pre_hash_worker XXH3_128bits_withSeed mem left i t).pre_hash_opt = t.pre_hash_opt ∧
      ∀ j, j < i + left →
        (pre_hash_worker XXH3_128bits_withSeed mem left i t).pre_hash_pair_chunk j =
          hash_page XXH3_128bits_withSeed mem
            (t.pre_hash_pair_table_base_ptr + j * PAGE_SIZE) := by
  intro left
  induction left with
  | zero =>
    intro i t _ hidx hslots
    exact ⟨by simpa using hidx, rfl, rfl, fun j hj => hslots j hj⟩
  | succ left ih =>
    intro i t hle hidx hslots
    unfold pre_hash_worker
    have hnum : PRE_HASH_NUM = 16384 := rfl
    obtain ⟨h1, h2, h3, h4⟩ := ih (i + 1)
      { t with
        pre_hash_pair_chunk := fun j =>
          if j = i then
            hash_page XXH3_128bits_withSeed mem (t.pre_hash_pair_table_base_ptr + i * PAGE_SIZE)
          else t.pre_hash_pair_chunk j,
        pre_hash_pair_curr_idx := to_int (t.pre_hash_pair_curr_idx + 1) }
      (by omega)
      (by
        dsimp only
        rw [hidx]
        unfold to_int
        omega)
      (by
        intro j hj
        dsimp only
        by_cases hji : j = i
        · rw [if_pos hji, hji]
        · rw [if_neg hji]
          exact hslots j (by omega))
    refine ⟨?_, h2, h3, ?_⟩
    · rw [h1]
      congr 1
      omega
    · intro j hj
      exact h4 j (by omega)

/-- C15: in a pre-hash state whose completed index is a non-negative `int` and in which each
slot below the completed index holds the two hashes of its page, counted from the registered
base pointer, for a page pointer `p < PRE_HASH_NUM` pages above the base:
`calculate_hash_pair` returns, with the option enabled, what it returns with the option
disabled, the two hashes of the page; enabled, `lookup_pre_hash_pair` reports a hit on the
slot `p` when `p` is below the completed index and a miss otherwise; disabled, always a
miss. -/
theorem C15_pre_hash_hit_equals_on_demand
    (XXH3_128bits_withSeed : List Nat → Nat → XXH128_hash_t) (mem : Nat → Nat)
    (t : pre_hash_table) (p : Nat)
    (hidx : 0 ≤ t.pre_hash_pair_curr_idx ∧ t.pre_hash_pair_curr_idx ≤ 2147483647)
    (hslots : ∀ i : Nat, (i : Int) < t.pre_hash_pair_curr_idx → i < PRE_HASH_NUM →
      t.pre_hash_pair_chunk i =
        hash_page XXH3_128bits_withSeed mem (t.pre_hash_pair_table_base_ptr + i * PAGE_SIZE))
    (hp : p < PRE_HASH_NUM) :
    calculate_hash_pair XXH3_128bits_withSeed mem { t with pre_hash_opt := true }
        (t.pre_hash_pair_table_base_ptr + p * PAGE_SIZE) =
      calculate_hash_pair XXH3_128bits_withSeed mem { t with pre_hash_opt := false }
        (t.pre_hash_pair_table_base_ptr + p * PAGE_SIZE) ∧
    calculate_hash_pair XXH3_128bits_withSeed mem { t with pre_hash_opt := false }
        (t.pre_hash_pair_table_base_ptr + p * PAGE_SIZE) =
      .ok (hash_page XXH3_128bits_withSeed mem
        (t.pre_hash_pair_table_base_ptr + p * PAGE_SIZE)) ∧
    lookup_pre_hash_pair { t with pre_hash_opt := true }
        (t.pre_hash_pair_table_base_ptr + p * PAGE_SIZE) =
      .ok (if (p : Int) < t.pre_hash_pair_curr_idx then some p else none) ∧
    lookup_pre_hash_pair { t with pre_hash_opt := false }
        (t.pre_hash_pair_table_base_ptr + p * PAGE_SIZE) = .ok none := by
  have hnum : PRE_HASH_NUM = 16384 := rfl
  have hpage : PAGE_SIZE = 4096 := rfl
  have hpidx : to_ulong (((t.pre_hash_pair_table_base_ptr + p * PAGE_SIZE : Nat) : Int) -
      (t.pre_hash_pair_table_base_ptr : Int)) / PAGE_SIZE = p := by
    rw [hpage]
    exact page_idx_of_page _ p (by omega)
  have hcur : to_ulong t.pre_hash_pair_curr_idx = t.pre_hash_pair_curr_idx.toNat := by
    unfold to_ulong
    congr 1
    omega
  have hoff : lookup_pre_hash_pair { t with pre_hash_opt := false }
      (t.pre_hash_pair_table_base_ptr + p * PAGE_SIZE) = .ok none := by
    unfold lookup_pre_hash_pair
    rfl
  have hon : lookup_pre_hash_pair { t with pre_hash_opt := true }
      (t.pre_hash_pair_table_base_ptr + p * PAGE_SIZE) =
      .ok (if (p : Int) < t.pre_hash_pair_curr_idx then some p else none) := by
    unfold lookup_pre_hash_pair
    dsimp only
    rw [hpidx, hcur]
    have h1 : ¬ p ≥ PRE_HASH_NUM := by omega
    simp only [Bool.not_true, Bool.false_eq_true, if_false, h1]
    by_cases hlt : (p : Int) < t.pre_hash_pair_curr_idx
    · rw [if_pos hlt, if_pos (by omega)]
    · rw [if_neg hlt, if_neg (by omega)]
  have hdis : calculate_hash_pair XXH3_128bits_withSeed mem { t with pre_hash_opt := false }
      (t.pre_hash_pair_table_base_ptr + p * PAGE_SIZE) =
      .ok (hash_page XXH3_128bits_withSeed mem
        (t.pre_hash_pair_table_base_ptr + p * PAGE_SIZE)) := by
    unfold calculate_hash_pair
    rw [hoff]
    rfl
  refine ⟨?_, hdis, hon, hoff⟩
  rw [hdis]
  unfold calculate_hash_pair
  rw [hon]
  by_cases hlt : (p : Int) < t.pre_hash_pair_curr_idx
  · rw [if_pos hlt]
    change Except.ok (t.pre_hash_pair_chunk p) = _
    rw [hslots p hlt hp]
  · rw [if_neg hlt]
    rfl

/-- Witness of C15.  In `two_pages_hashed` the page 1 is a hit and the page 2 a miss, and
both get the hash pair the disabled option computes. -/
theorem C15_witness_hit_and_miss :
    (lookup_pre_hash_pair two_pages_hashed (65536 + 1 * 4096) = .ok (some 1) ∧
      calculate_hash_pair byte_sum (fun a => a % 251) two_pages_hashed (65536 + 1 * 4096) =
        calculate_hash_pair byte_sum (fun a => a % 251)
          { two_pages_hashed with pre_hash_opt := false } (65536 + 1 * 4096)) ∧
    (lookup_pre_hash_pair two_pages_hashed (65536 + 2 * 4096) = .ok none ∧
      calculate_hash_pair byte_sum (fun a => a % 251) two_pages_hashed (65536 + 2 * 4096) =
        calculate_hash_pair byte_sum (fun a => a % 251)
          { two_pages_hashed with pre_hash_opt := false } (65536 + 2 * 4096)) := by
  have hslots : ∀ i : Nat, (i : Int) < two_pages_hashed.pre_hash_pair_curr_idx →
      i < PRE_HASH_NUM →
      two_pages_hashed.pre_hash_pair_chunk i =
        hash_page byte_sum (fun a => a % 251)
          (two_pages_hashed.pre_hash_pair_table_base_ptr + i * PAGE_SIZE) := by
    intro i hi _
    have hcur : two_pages_hashed.pre_hash_pair_curr_idx = 2 := by decide
    rw [hcur] at hi
    have hi2 : i = 0 ∨ i = 1 := by omega
    rcases hi2 with h | h <;> subst h <;> rfl
  have h1 := C15_pre_hash_hit_equals_on_demand byte_sum (fun a => a % 251) two_pages_hashed 1
    (by decide) hslots (by decide)
  have h2 := C15_pre_hash_hit_equals_on_demand byte_sum (fun a => a % 251) two_pages_hashed 2
    (by decide) hslots (by decide)
  exact ⟨⟨h1.2.2.1, h1.1⟩, ⟨h2.2.2.1, h2.1⟩⟩

/-! ## The hash update on the items -/

theorem map_set_old_hash_twice (hash : hash_pair) (a b : Bool) (x : Except fault rmap_item) :
    (x.map (fun it => if a then set_old_hash hash it else it)).map
        (fun it => if b then set_old_hash hash it else it) =
      x.map (fun it => if (a || b) then set_old_hash hash it else it) := by
  cases x with
  | error f => rfl
  | ok it => cases a <;> cases b <;> rfl

/-- What `update_item_checksum` does to the items: the items of the traversed tree get
`old_hash = hash`, nothing else changes. -/
theorem update_item_checksum_items (hash : hash_pair) :
    ∀ (l : List item_key) (md md1 : ksm_metadata), update_item_checksum md hash l = .ok md1 →
      md1.unstable_hash_table = md.unstable_hash_table ∧
      ∀ k, item_at md1 k =
        (item_at md k).map (fun it => if decide (k ∈ l) then set_old_hash hash it else it) := by
  intro l
  induction l with
  | nil =>
    intro md md1 h
    cases h
    refine ⟨rfl, fun k => ?_⟩
    cases item_at md k <;> rfl
  | cons k0 ks ih =>
    intro md md1 h
    unfold update_item_checksum at h
    obtain ⟨item0, hi0, h2⟩ := bind_eq_ok h
    split_ifs at h2
    obtain ⟨hu, hitems⟩ := ih _ _ h2
    refine ⟨hu, fun k => ?_⟩
    rw [hitems k]
    have hk0 : item0.key = k0 := item_at_key hi0
    by_cases hk : k = k0
    · subst hk
      rw [item_at_set_item hi0 (by exact hk0), hi0]
      simp only [Except.map, List.mem_cons, true_or, decide_True, if_true]
      split_ifs <;> rfl
    · rw [item_at_set_item_ne _ _ _ (by
        intro e
        exact hk (e.symm.trans hk0))]
      have : decide (k ∈ k0 :: ks) = decide (k ∈ ks) := by
        simp [hk]
      rw [this]

theorem update_item_checksum_ok (hash : hash_pair) :
    ∀ (l : List item_key) (md : ksm_metadata),
      (∀ k ∈ l, ∃ it, item_at md k = .ok it ∧ it.state = item_state.Stable) →
      ∃ md1, update_item_checksum md hash l = .ok md1 := by
  intro l
  induction l with
  | nil => intro md _; exact ⟨md, rfl⟩
  | cons k0 ks ih =>
    intro md hall
    obtain ⟨item0, hi0, hs0⟩ := hall k0 (List.mem_cons_self _ _)
    have hk0 : item0.key = k0 := item_at_key hi0
    obtain ⟨md1, hrun⟩ := ih (set_item md (set_old_hash hash item0)) (by
      intro k hk
      obtain ⟨it, hit, hst⟩ := hall k (List.mem_cons_of_mem _ hk)
      by_cases hkk : k = k0
      · subst hkk
        exact ⟨_, item_at_set_item hi0 hk0, hs0⟩
      · rw [item_at_set_item_ne _ _ _ (by
          intro e
          exact hkk (e.symm.trans hk0))]
        exact ⟨it, hit, hst⟩)
    refine ⟨md1, ?_⟩
    unfold update_item_checksum
    rw [hi0]
    change (if item0.state ≠ item_state.Stable then _ else _) = _
    rw [if_neg (by rw [hs0]; exact fun h => h rfl)]
    exact hrun

theorem chain_sharer_cons (md : ksm_metadata) (a : Nat) (l : List Nat) (k : item_key)
    (n : stable_node) (hn : node_at md a = some n) :
    chain_sharer md (a :: l) k = (decide (k ∈ n.sharing_item_tree) || chain_sharer md l k) := by
  unfold chain_sharer
  rw [List.any_cons, hn]

theorem chain_sharer_congr {md1 md2 : ksm_metadata} (l : List Nat) (k : item_key)
    (h : ∀ a ∈ l, (node_at md2 a).map (fun n => n.sharing_item_tree) =
      (node_at md1 a).map (fun n => n.sharing_item_tree)) :
    chain_sharer md2 l k = chain_sharer md1 l k := by
  induction l with
  | nil => rfl
  | cons a l ih =>
    unfold chain_sharer at ih ⊢
    rw [List.any_cons, List.any_cons, ih (fun b hb => h b (List.mem_cons_of_mem _ hb))]
    congr 1
    have ha := h a (List.mem_cons_self _ _)
    cases h1 : node_at md1 a with
    | none =>
      rw [h1] at ha
      cases h2 : node_at md2 a with
      | none => rfl
      | some n2 => rw [h2] at ha; cases ha
    | some n1 =>
      rw [h1] at ha
      cases h2 : node_at md2 a with
      | none => rw [h2] at ha; cases ha
      | some n2 =>
        rw [h2] at ha
        simp only [Option.map_some', Option.some.injEq] at ha
        simp only [ha]

theorem chain_sharer_of_mem {md : ksm_metadata} {l : List Nat} {k : item_key} {a : Nat}
    {n : stable_node} (ha : a ∈ l) (hn : node_at md a = some n)
    (hk : k ∈ n.sharing_item_tree) : chain_sharer md l k = true := by
  unfold chain_sharer
  rw [List.any_eq_true]
  refine ⟨a, ha, ?_⟩
  rw [hn]
  simpa using hk

/-- What the loop of the hash update does to the items: the sharers of the nodes of the
chain it is entered at get `old_hash = hash`, nothing else changes. -/
theorem update_chain_hash_items (hash : hash_pair) :
    ∀ (fuel : Nat) (md md1 : ksm_metadata) (o : Option Nat),
      update_chain_hash hash fuel md o = .ok md1 →
      ∃ l, chain_from md o l ∧ md1.unstable_hash_table = md.unstable_hash_table ∧
        ∀ k, item_at md1 k =
          (item_at md k).map
            (fun it => if chain_sharer md l k then set_old_hash hash it else it) := by
  intro fuel
  induction fuel with
  | zero =>
    intro md md1 o h
    cases o with
    | none =>
      cases h
      refine ⟨[], trivial, rfl, fun k => ?_⟩
      cases item_at md k <;> rfl
    | some a => cases h
  | succ f ih =>
    intro md md1 o h
    cases o with
    | none =>
      cases h
      refine ⟨[], trivial, rfl, fun k => ?_⟩
      cases item_at md k <;> rfl
    | some a =>
      unfold update_chain_hash at h
      obtain ⟨node, hnode, h2⟩ := bind_eq_ok h
      obtain ⟨md2, hmd2, h3⟩ := bind_eq_ok h2
      have hn : node_at md a = some node := (deref_node_eq _ _ _).1 hnode
      have halt := node_at_lt hn
      obtain ⟨hf1, -⟩ := update_item_checksum_frame hash _ _ _ hmd2
      obtain ⟨hu2, hitems2⟩ := update_item_checksum_items hash _ _ _ hmd2
      have hmd2n : ∀ b, node_at md2 b =
          if b = a then some (set_page_hash hash node) else node_at md b := by
        intro b
        rw [node_at_congr hf1 b, node_at_set_node b halt]
      obtain ⟨l, hl, hu, hitems⟩ := ih md2 md1 node.chain.next h3
      have hsame : ∀ c, (node_at md c).map (fun n => n.sharing_item_tree) =
          (node_at md2 c).map (fun n => n.sharing_item_tree) := by
        intro c
        rw [hmd2n c]
        by_cases hc : c = a
        · rw [if_pos hc, hc, hn]
          rfl
        · rw [if_neg hc]
      refine ⟨a :: l, ⟨rfl, node, hn, ?_⟩, hu.trans hu2, ?_⟩
      · refine chain_from_congr_on l _ hl ?_
        intro c _
        rw [hmd2n c]
        by_cases hc : c = a
        · rw [if_pos hc, hc, hn]
          rfl
        · rw [if_neg hc]
      · intro k
        rw [hitems k, hitems2 k, item_at_set_node, map_set_old_hash_twice,
          chain_sharer_cons md a l k node hn,
          chain_sharer_congr l k (fun c _ => hsame c)]

/-- The effect of `rehash_chain` on the head `head` of a chain: the nodes of the chain get
`page_hash = hash` and their sharers `old_hash = hash`; the entry of the old hash leaves
the stable index and the head is entered under `hash`; nothing else changes. -/
theorem rehash_chain_effect {md md1 : ksm_metadata} {head : Nat} {hash : hash_pair}
    {n : stable_node} (hn : node_at md head = some n)
    (h : rehash_chain md head hash = .ok md1) :
    ∃ l, chain_from md (some head) l ∧ head ∈ l ∧
      (∀ b, node_at md1 b =
        if b ∈ l then (node_at md b).map (set_page_hash hash) else node_at md b) ∧
      (∀ k, item_at md1 k =
        (item_at md k).map
          (fun it => if chain_sharer md l k then set_old_hash hash it else it)) ∧
      md1.stable_hash_table =
        g_hash_table_insert (g_hash_table_remove md.stable_hash_table n.page_hash)
          hash head head ∧
      md1.unstable_hash_table = md.unstable_hash_table := by
  unfold rehash_chain at h
  rw [deref_node_of hn] at h
  simp only [bind, Except.bind] at h
  cases hup : update_chain_hash hash
      (set_stable_hash_table (g_hash_table_remove md.stable_hash_table n.page_hash) md).nodes.length
      (set_stable_hash_table (g_hash_table_remove md.stable_hash_table n.page_hash) md)
      (some head) with
  | error e =>
    rw [hup] at h
    cases h
  | ok md2 =>
    rw [hup] at h
    simp only [] at h
    obtain ⟨l, hl, ht, hb⟩ := update_chain_hash_nodes hash _ _ _ _ hup
    obtain ⟨l2, hl2, hu, hitems⟩ := update_chain_hash_items hash _ _ _ _ hup
    have hll : l2 = l := chain_from_unique hl2 hl
    subst hll
    have hl1 : chain_from md (some head) l2 :=
      chain_from_congr_on l2 _ hl (fun c _ => by rw [node_at_set_stable_hash_table])
    have hb1 : ∀ b, node_at md2 b =
        if b ∈ l2 then (node_at md b).map (set_page_hash hash) else node_at md b := by
      intro b
      rw [hb b, node_at_set_stable_hash_table]
    have hhead : head ∈ l2 := by
      cases l2 with
      | nil => exact hl1.elim
      | cons c l3 =>
        obtain ⟨hc, -⟩ := hl1
        rw [hc]
        exact List.mem_cons_self _ _
    have hn2 : node_at md2 head = some (set_page_hash hash n) := by
      rw [hb1 head, if_pos hhead, hn]
      rfl
    rw [deref_node_of hn2] at h
    simp only [] at h
    cases h
    refine ⟨l2, hl1, hhead, hb1, ?_, ?_, hu⟩
    · intro k
      have := hitems k
      rw [item_at_set_stable_hash_table] at this
      rw [item_at_set_stable_hash_table, this]
      congr 1
    · change g_hash_table_insert md2.stable_hash_table hash head head = _
      rw [ht]
      rfl

/-- Walking `chain.prev` from a live node of a well-formed state ends on the head of its
chain, from which `chain.next` leads back to the node. -/
theorem chain_head_ok {md : ksm_metadata} (hinv : chain_inv md) :
    ∀ (fuel a : Nat) (n : stable_node), a < fuel → node_at md a = some n →
      ∃ hd hn, chain_head md fuel a = .ok hd ∧ node_at md hd = some hn ∧
        hn.chain.prev = none ∧ hn.page_hash = n.page_hash ∧
        ∀ l, chain_from md (some hd) l → a ∈ l := by
  intro fuel
  induction fuel with
  | zero => intro a n ha; omega
  | succ f ih =>
    intro a n ha hn
    unfold chain_head
    rw [hn]
    dsimp only
    cases hp : n.chain.prev with
    | none =>
      refine ⟨a, n, rfl, hn, hp, rfl, ?_⟩
      intro l hl
      obtain ⟨_, l1, hl1, -, -⟩ := chain_from_some hl
      rw [hl1]
      exact List.mem_cons_self _ _
    | some c =>
      dsimp only
      obtain ⟨m, hm, hmn⟩ := chain_inv_prev hinv hn hp
      obtain ⟨hlt, m2, hm2, -, hhash⟩ := chain_inv_next hinv hm hmn
      rw [hn] at hm2
      cases hm2
      obtain ⟨hd, hdn, hrun, hhd, hprev, hh, hmem⟩ := ih c m (by omega) hm
      refine ⟨hd, hdn, hrun, hhd, hprev, hh.trans hhash.symm, ?_⟩
      intro l hl
      exact chain_from_closed l _ hl c m a (hmem l hl) hm hmn

/-- The loop of the hash update returns on a chain whose sharers are `Stable` items of the
rmap tree, given fuel for every node of the chain. -/
theorem update_chain_hash_ok (hash : hash_pair) :
    ∀ (l : List Nat) (fuel : Nat) (md : ksm_metadata) (o : Option Nat),
      chain_from md o l → l.length ≤ fuel →
      (∀ a ∈ l, ∀ m, node_at md a = some m → ∀ k ∈ m.sharing_item_tree,
        ∃ it, item_at md k = .ok it ∧ it.state = item_state.Stable) →
      ∃ md1, update_chain_hash hash fuel md o = .ok md1 := by
  intro l
  induction l with
  | nil =>
    intro fuel md o hl _ _
    cases o with
    | none =>
      refine ⟨md, ?_⟩
      cases fuel <;> rfl
    | some a => exact hl.elim
  | cons b l ih =>
    intro fuel md o hl hfuel hS
    cases o with
    | none => exact hl.elim
    | some a =>
      obtain ⟨hab, n, hn, hrest⟩ := hl
      subst hab
      cases fuel with
      | zero => simp at hfuel
      | succ f =>
        have halt := node_at_lt hn
        obtain ⟨md2, hmd2⟩ := update_item_checksum_ok hash n.sharing_item_tree
          (set_node md a (set_page_hash hash n)) (by
            intro k hk
            rw [item_at_set_node]
            exact hS a (List.mem_cons_self _ _) n hn k hk)
        obtain ⟨hf1, -⟩ := update_item_checksum_frame hash _ _ _ hmd2
        obtain ⟨-, hitems2⟩ := update_item_checksum_items hash _ _ _ hmd2
        have hmd2n : ∀ c, node_at md2 c =
            if c = a then some (set_page_hash hash n) else node_at md c := by
          intro c
          rw [node_at_congr hf1 c, node_at_set_node c halt]
        obtain ⟨md1, hrun⟩ := ih f md2 n.chain.next
          (by
            refine chain_from_congr_on l _ hrest ?_
            intro c _
            rw [hmd2n c]
            by_cases hc : c = a
            · rw [if_pos hc, hc, hn]
              rfl
            · rw [if_neg hc])
          (by simpa using hfuel)
          (by
            intro c hc m hm k hk
            have hex : ∃ m0, node_at md c = some m0 ∧
                m0.sharing_item_tree = m.sharing_item_tree := by
              rw [hmd2n c] at hm
              by_cases hca : c = a
              · rw [if_pos hca] at hm
                cases hm
                exact ⟨n, hca ▸ hn, rfl⟩
              · rw [if_neg hca] at hm
                exact ⟨m, hm, rfl⟩
            obtain ⟨m0, hm0, hsh⟩ := hex
            obtain ⟨it, hit, hst⟩ := hS c (List.mem_cons_of_mem _ hc) m0 hm0 k (hsh ▸ hk)
            rw [hitems2 k, item_at_set_node, hit]
            simp only [Except.map]
            split_ifs
            · exact ⟨_, rfl, hst⟩
            · exact ⟨_, rfl, hst⟩)
        refine ⟨md1, ?_⟩
        unfold update_chain_hash
        rw [deref_node_of hn]
        simp only [bind, Except.bind]
        rw [hmd2]
        exact hrun

/-- In a well-formed state `rehash_chain` returns on a live head whose chain has `Stable`
items of the rmap tree as sharers. -/
theorem rehash_chain_ok {md : ksm_metadata} (hinv : chain_inv md) {head : Nat}
    {n : stable_node} (hash : hash_pair) (hn : node_at md head = some n)
    (hS : ∀ a m, node_at md a = some m → ∀ k ∈ m.sharing_item_tree,
      ∃ it, item_at md k = .ok it ∧ it.state = item_state.Stable) :
    ∃ md1, rehash_chain md head hash = .ok md1 := by
  obtain ⟨l, hl, hlen, -⟩ := chain_from_exists hinv (md.nodes.length - head) head n
    (le_refl _) hn
  obtain ⟨md2, hup⟩ := update_chain_hash_ok hash l md.nodes.length
    (set_stable_hash_table (g_hash_table_remove md.stable_hash_table n.page_hash) md)
    (some head)
    (chain_from_congr_on l _ hl (fun c _ => by rw [node_at_set_stable_hash_table]))
    (by omega)
    (by
      intro a _ m hm k hk
      rw [node_at_set_stable_hash_table] at hm
      rw [item_at_set_stable_hash_table]
      exact hS a m hm k hk)
  obtain ⟨l2, hl2, ht, hb⟩ := update_chain_hash_nodes hash _ _ _ _ hup
  have hhead : head ∈ l2 := by
    obtain ⟨_, l3, hl3, -, -⟩ := chain_from_some hl2
    rw [hl3]
    exact List.mem_cons_self _ _
  have hn2 : node_at md2 head = some (set_page_hash hash n) := by
    rw [hb head, if_pos hhead, node_at_set_stable_hash_table, hn]
    rfl
  refine ⟨set_stable_hash_table
    (g_hash_table_insert md2.stable_hash_table (set_page_hash hash n).page_hash head head)
    md2, ?_⟩
  have hup2 : update_chain_hash hash
      (set_stable_hash_table
        (g_hash_table_remove md.stable_hash_table n.page_hash) md).nodes.length
      (set_stable_hash_table (g_hash_table_remove md.stable_hash_table n.page_hash) md)
      (some head) = .ok md2 := hup
  unfold rehash_chain
  rw [deref_node_of hn]
  simp only [bind, Except.bind]
  rw [hup2]
  simp only []
  rw [deref_node_of hn2]

@[simp] theorem calm_volatility_stable_node (item : rmap_item) :
    (calm_volatility item).stable_node = item.stable_node := by
  unfold calm_volatility
  split_ifs <;> rfl

/-- The `case Stable` of `cmp_and_merge_one` when the pfn is unchanged: the hash check and
the decrement of `volatility_score`. -/
theorem cmp_and_merge_one_stable_same_pfn (p : ksm_params) {md : ksm_metadata}
    (log_table : ksm_log_table) (hash : hash_pair) {k : item_key} {item : rmap_item}
    {N : Nat} {n : stable_node} (hitem : item_at md k = .ok item)
    (hst : item.state = item_state.Stable) (hN : item.stable_node = some N)
    (hn : node_at md N = some n) (hpfn : n.pfn = item.pfn) :
    cmp_and_merge_one p md log_table hash k =
      (refresh_stable md hash item N).bind (fun md1 =>
        (modify_item md1 k calm_volatility).bind (fun md2 => .ok (md2, log_table))) := by
  unfold cmp_and_merge_one
  rw [hitem]
  simp only [bind, Except.bind]
  rw [hst]
  simp only []
  rw [hN]
  simp only []
  rw [deref_node_of hn]
  simp only []
  rw [if_neg (by rw [hpfn]; exact fun h => h rfl)]

/-- A run of `cmp_and_merge_one` on a `Stable` item with unchanged pfn whose page hash is
the one it holds: only `volatility_score` of the item may change. -/
theorem cmp_and_merge_one_stable_same_hash (p : ksm_params) {md : ksm_metadata}
    (log_table : ksm_log_table) {hash : hash_pair} {k : item_key} {item : rmap_item}
    {N : Nat} {n : stable_node} (hitem : item_at md k = .ok item)
    (hst : item.state = item_state.Stable) (hN : item.stable_node = some N)
    (hn : node_at md N = some n) (hpfn : n.pfn = item.pfn) (hh : item.old_hash = hash) :
    cmp_and_merge_one p md log_table hash k =
      .ok (set_item md (calm_volatility item), log_table) := by
  rw [cmp_and_merge_one_stable_same_pfn p log_table hash hitem hst hN hn hpfn]
  have hr : refresh_stable md hash item N = .ok md := by
    unfold refresh_stable
    rw [deref_node_of hn]
    simp only [bind, Except.bind]
    have : compare_hash_pair_equal hash item.old_hash = true :=
      (compare_hash_pair_equal_iff _ _).2 hh.symm
    rw [this]
    rfl
  rw [hr]
  simp only [Except.bind]
  rw [modify_item_ok hitem]

/-- What `refresh_stable` does when it returns on a live node of a well-formed state. -/
theorem refresh_stable_effect {md md1 : ksm_metadata} (hinv : chain_inv md)
    {hash : hash_pair} {item : rmap_item} {N : Nat} {n : stable_node}
    (hn : node_at md N = some n) (h : refresh_stable md hash item N = .ok md1) :
    (item.old_hash = hash ∧ md1 = md) ∨
    (item.old_hash ≠ hash ∧ item.old_hash = n.page_hash ∧
      ∃ head hnode l, node_at md head = some hnode ∧ hnode.chain.prev = none ∧
        hnode.page_hash = n.page_hash ∧
        chain_from md (some head) l ∧ head ∈ l ∧ N ∈ l ∧
        (∀ b, node_at md1 b =
          if b ∈ l then (node_at md b).map (set_page_hash hash) else node_at md b) ∧
        (∀ k, item_at md1 k =
          (item_at md k).map
            (fun it => if chain_sharer md l k then set_old_hash hash it else it)) ∧
        md1.stable_hash_table =
          g_hash_table_insert (g_hash_table_remove md.stable_hash_table n.page_hash)
            hash head head ∧
        md1.unstable_hash_table = md.unstable_hash_table) := by
  unfold refresh_stable at h
  rw [deref_node_of hn] at h
  simp only [bind, Except.bind] at h
  by_cases hh : item.old_hash = hash
  · left
    have : compare_hash_pair_equal hash item.old_hash = true :=
      (compare_hash_pair_equal_iff _ _).2 hh.symm
    rw [this] at h
    cases h
    exact ⟨hh, rfl⟩
  · right
    have hne : compare_hash_pair_equal hash item.old_hash = false := by
      cases hc : compare_hash_pair_equal hash item.old_hash with
      | false => rfl
      | true => exact (hh ((compare_hash_pair_equal_iff _ _).1 hc).symm).elim
    rw [hne] at h
    simp only [Bool.not_false, if_true] at h
    by_cases hnode : item.old_hash = n.page_hash
    · have : compare_hash_pair_equal item.old_hash n.page_hash = true :=
        (compare_hash_pair_equal_iff _ _).2 hnode
      rw [this] at h
      simp only [Bool.not_true, Bool.false_eq_true, if_false] at h
      refine ⟨hh, hnode, ?_⟩
      by_cases ht : n.chain.type = node_chain_type.HEAD
      · rw [if_pos ht] at h
        obtain ⟨l, hl, hhead, hb, hitems, hidx, hu⟩ := rehash_chain_effect hn h
        exact ⟨N, n, l, hn, (chain_inv_type hinv hn).1 ht, rfl, hl, hhead, hhead, hb, hitems,
          hidx, hu⟩
      · rw [if_neg ht] at h
        split_ifs at h with hprev
        obtain ⟨hd, hdn, hrun, hhd, hprevd, hhash, hmem⟩ :=
          chain_head_ok hinv md.nodes.length N n (node_at_lt hn) hn
        rw [hrun] at h
        simp only [] at h
        rw [deref_node_of hhd] at h
        simp only [] at h
        split_ifs at h
        obtain ⟨l, hl, hhead, hb, hitems, hidx, hu⟩ := rehash_chain_effect hhd h
        rw [hhash] at hidx
        exact ⟨hd, hdn, l, hhd, hprevd, hhash, hl, hhead, hmem l hl, hb, hitems, hidx, hu⟩
    · have : compare_hash_pair_equal item.old_hash n.page_hash = false := by
        cases hc : compare_hash_pair_equal item.old_hash n.page_hash with
        | false => rfl
        | true => exact (hnode ((compare_hash_pair_equal_iff _ _).1 hc)).elim
      rw [this] at h
      cases h

/-- In a well-formed state whose sharers are `Stable` items of the rmap tree,
`refresh_stable` returns for an item that holds the hash of the node. -/
theorem refresh_stable_ok {md : ksm_metadata} (hinv : chain_inv md) (hash : hash_pair)
    {item : rmap_item} {N : Nat} {n : stable_node} (hn : node_at md N = some n)
    (hold : item.old_hash = n.page_hash)
    (hS : ∀ a m, node_at md a = some m → ∀ k ∈ m.sharing_item_tree,
      ∃ it, item_at md k = .ok it ∧ it.state = item_state.Stable) :
    ∃ md1, refresh_stable md hash item N = .ok md1 := by
  unfold refresh_stable
  rw [deref_node_of hn]
  simp only [bind, Except.bind]
  by_cases hh : compare_hash_pair_equal hash item.old_hash = true
  · rw [hh]
    exact ⟨md, rfl⟩
  · have hne : compare_hash_pair_equal hash item.old_hash = false := by
      cases hc : compare_hash_pair_equal hash item.old_hash with
      | false => rfl
      | true => exact (hh hc).elim
    rw [hne]
    simp only [Bool.not_false, if_true]
    have : compare_hash_pair_equal item.old_hash n.page_hash = true :=
      (compare_hash_pair_equal_iff _ _).2 hold
    rw [this]
    simp only [Bool.not_true, Bool.false_eq_true, if_false]
    by_cases ht : n.chain.type = node_chain_type.HEAD
    · rw [if_pos ht]
      exact rehash_chain_ok hinv hash hn hS
    · rw [if_neg ht]
      have hprev : n.chain.prev ≠ none := fun e => ht ((chain_inv_type hinv hn).2 e)
      have hsome : n.chain.prev.isNone = false := by
        cases hp : n.chain.prev with
        | none => exact (hprev hp).elim
        | some c => rfl
      rw [hsome]
      simp only [Bool.false_eq_true, if_false]
      obtain ⟨hd, hdn, hrun, hhd, hprevd, -, -⟩ :=
        chain_head_ok hinv md.nodes.length N n (node_at_lt hn) hn
      rw [hrun]
      simp only []
      rw [deref_node_of hhd]
      simp only []
      rw [if_neg (by
        intro hcon
        exact hcon ((chain_inv_type hinv hhd).2 hprevd))]
      exact rehash_chain_ok hinv hash hhd hS

theorem set_item_old_hash_frame {md : ksm_metadata} {k : item_key} {it0 it1 : rmap_item}
    (h0 : item_at md k = .ok it0) (hk : it1.key = k) (hh : it1.old_hash = it0.old_hash) :
    md.nodes = (set_item md it1).nodes ∧
    (set_item md it1).nodes = md.nodes ∧
    (set_item md it1).stable_hash_table = md.stable_hash_table ∧
    (set_item md it1).unstable_hash_table = md.unstable_hash_table ∧
    (∀ k2, (item_at (set_item md it1) k2).map (fun it => it.old_hash) =
      (item_at md k2).map (fun it => it.old_hash)) ∧
    (∀ k2, k2 ≠ k → item_at (set_item md it1) k2 = item_at md k2) := by
  refine ⟨rfl, rfl, rfl, rfl, ?_, ?_⟩
  · intro k2
    by_cases hk2 : k2 = k
    · rw [hk2, item_at_set_item h0 hk, h0]
      simp only [Except.map, hh]
    · rw [item_at_set_item_ne _ _ _ (by rw [hk]; exact fun e => hk2 e.symm)]
  · intro k2 hk2
    exact item_at_set_item_ne _ _ _ (by rw [hk]; exact fun e => hk2 e.symm)

/-! ## C20: the hash propagation run twice -/

/-- C20: a `Stable` item `k` of a well-formed state, in the sharers tree of the live node
`N` its `stable_node` points to, with the pfn of `N`.  When `cmp_and_merge_one` returns on
a page with hash pair `hash`, the log is unchanged, the item holds `hash`, and a second run
on the same content returns and leaves the nodes (their `page_hash` and chain links), both
indexes and the `old_hash` of every item as the first run left them, and every item other
than `k` unchanged.  A run with the hash the item holds returns and changes none of them.
In a state whose sharers are `Stable` items of the rmap tree, as every state of a scan is
(`scan_end_items_inv`), the first run returns for an item that holds the hash of `N`; when
the hash differs it sets `page_hash = hash` on the nodes of the chain of `N` and
`old_hash = hash` on their sharers, and replaces the entry of the old hash in the stable
index by an entry of the head of the chain under `hash`. -/
theorem C20_hash_update_twice_as_once (p : ksm_params) (md : ksm_metadata)
    (log_table : ksm_log_table) (hash : hash_pair) (k : item_key) (item : rmap_item)
    (N : Nat) (n : stable_node) (hinv : chain_inv md)
    (hitem : item_at md k = .ok item) (hst : item.state = item_state.Stable)
    (hN : item.stable_node = some N) (hn : node_at md N = some n)
    (hpfn : n.pfn = item.pfn) (hshare : k ∈ n.sharing_item_tree) :
    (∀ md1 log1, cmp_and_merge_one p md log_table hash k = .ok (md1, log1) →
      log1 = log_table ∧
      (∃ item1, item_at md1 k = .ok item1 ∧ item1.old_hash = hash ∧
        item1.state = item_state.Stable ∧ item1.stable_node = some N) ∧
      ∃ md2, cmp_and_merge_one p md1 log1 hash k = .ok (md2, log1) ∧
        md2.nodes = md1.nodes ∧ md2.stable_hash_table = md1.stable_hash_table ∧
        md2.unstable_hash_table = md1.unstable_hash_table ∧
        (∀ k2, (item_at md2 k2).map (fun it => it.old_hash) =
          (item_at md1 k2).map (fun it => it.old_hash)) ∧
        (∀ k2, k2 ≠ k → item_at md2 k2 = item_at md1 k2)) ∧
    (item.old_hash = hash →
      ∃ md1, cmp_and_merge_one p md log_table hash k = .ok (md1, log_table) ∧
        md1.nodes = md.nodes ∧ md1.stable_hash_table = md.stable_hash_table ∧
        md1.unstable_hash_table = md.unstable_hash_table ∧
        (∀ k2, (item_at md1 k2).map (fun it => it.old_hash) =
          (item_at md k2).map (fun it => it.old_hash)) ∧
        (∀ k2, k2 ≠ k → item_at md1 k2 = item_at md k2)) ∧
    (item.old_hash = n.page_hash →
      (∀ a m, node_at md a = some m → ∀ k2 ∈ m.sharing_item_tree,
        ∃ it, item_at md k2 = .ok it ∧ it.state = item_state.Stable) →
      ∃ md1, cmp_and_merge_one p md log_table hash k = .ok (md1, log_table) ∧
        (item.old_hash ≠ hash →
          ∃ head l, chain_from md (some head) l ∧ head ∈ l ∧ N ∈ l ∧
            (∀ b, node_at md1 b =
              if b ∈ l then (node_at md b).map (set_page_hash hash) else node_at md b) ∧
            (∀ k2, (item_at md1 k2).map (fun it => it.old_hash) =
              (item_at md k2).map
                (fun it => if chain_sharer md l k2 then hash else it.old_hash)) ∧
            (∀ k2, k2 ≠ k → item_at md1 k2 =
              (item_at md k2).map
                (fun it => if chain_sharer md l k2 then set_old_hash hash it else it)) ∧
            md1.stable_hash_table =
              g_hash_table_insert (g_hash_table_remove md.stable_hash_table n.page_hash)
                hash head head)) := by
  have hrun := cmp_and_merge_one_stable_same_pfn p log_table hash hitem hst hN hn hpfn
  have hk : item.key = k := item_at_key hitem
  refine ⟨?_, ?_, ?_⟩
  · intro md1 log1 h
    rw [hrun] at h
    cases hr : refresh_stable md hash item N with
    | error e =>
      rw [hr] at h
      cases h
    | ok mdr =>
      rw [hr] at h
      simp only [Except.bind] at h
      have key : ∃ itemR nR, item_at mdr k = .ok itemR ∧ itemR.key = k ∧
          itemR.state = item_state.Stable ∧ itemR.stable_node = some N ∧
          itemR.old_hash = hash ∧ node_at mdr N = some nR ∧ nR.pfn = itemR.pfn := by
        rcases refresh_stable_effect hinv hn hr with ⟨hh, hmd⟩ | ⟨-, -, hd, hdn, l, -, -, -, -,
            -, hNl, hb, hitems, -, -⟩
        · rw [hmd]
          exact ⟨item, n, hitem, hk, hst, hN, hh, hn, hpfn⟩
        · refine ⟨set_old_hash hash item, set_page_hash hash n, ?_, hk, hst, hN, rfl, ?_,
            hpfn⟩
          · rw [hitems k, hitem, chain_sharer_of_mem hNl hn hshare]
            rfl
          · rw [hb N, if_pos hNl, hn]
            rfl
      obtain ⟨itemR, nR, hiR, hkR, hstR, hNR, hhR, hnR, hpR⟩ := key
      rw [modify_item_ok hiR] at h
      simp only [Except.bind] at h
      cases h
      have hi1 : item_at (set_item mdr (calm_volatility itemR)) k =
          .ok (calm_volatility itemR) :=
        item_at_set_item hiR (by rw [calm_volatility_key]; exact hkR)
      refine ⟨rfl, ⟨calm_volatility itemR, hi1, ?_, ?_, ?_⟩, ?_⟩
      · rw [calm_volatility_old_hash]
        exact hhR
      · rw [calm_volatility_state]
        exact hstR
      · rw [calm_volatility_stable_node]
        exact hNR
      · have h2 := @cmp_and_merge_one_stable_same_hash p
          (set_item mdr (calm_volatility itemR)) log_table hash k (calm_volatility itemR)
          N nR hi1 (by rw [calm_volatility_state]; exact hstR)
          (by rw [calm_volatility_stable_node]; exact hNR)
          (by rw [node_at_set_item]; exact hnR)
          (by rw [calm_volatility_pfn]; exact hpR)
          (by rw [calm_volatility_old_hash]; exact hhR)
        obtain ⟨-, e1, e2, e3, e4, e5⟩ := @set_item_old_hash_frame
          (set_item mdr (calm_volatility itemR)) k (calm_volatility itemR)
          (calm_volatility (calm_volatility itemR)) hi1
          (by rw [calm_volatility_key, calm_volatility_key]; exact hkR)
          (by rw [calm_volatility_old_hash])
        exact ⟨_, h2, e1, e2, e3, e4, e5⟩
  · intro hh
    refine ⟨_, cmp_and_merge_one_stable_same_hash p log_table hitem hst hN hn hpfn hh, ?_⟩
    obtain ⟨-, e1, e2, e3, e4, e5⟩ := @set_item_old_hash_frame md k item
      (calm_volatility item) hitem (by rw [calm_volatility_key]; exact hk)
      (by rw [calm_volatility_old_hash])
    exact ⟨e1, e2, e3, e4, e5⟩
  · intro hold hS
    obtain ⟨mdr, hr⟩ := refresh_stable_ok hinv hash hn hold hS
    have hex : ∃ itemR, item_at mdr k = .ok itemR ∧ itemR.key = k ∧
        itemR.old_hash = (if item.old_hash = hash then item.old_hash else hash) := by
      rcases refresh_stable_effect hinv hn hr with ⟨hh, hmd⟩ | ⟨hh, -, hd, hdn, l, -, -, -,
          -, -, hNl, hb, hitems, -, -⟩
      · rw [hmd]
        exact ⟨item, hitem, hk, by rw [if_pos hh]⟩
      · refine ⟨set_old_hash hash item, ?_, hk, by rw [if_neg hh]; rfl⟩
        rw [hitems k, hitem, chain_sharer_of_mem hNl hn hshare]
        rfl
    obtain ⟨itemR, hiR, hkR, hhR⟩ := hex
    refine ⟨set_item mdr (calm_volatility itemR), ?_, ?_⟩
    · rw [hrun, hr]
      simp only [Except.bind]
      rw [modify_item_ok hiR]
    · intro hh
      rcases refresh_stable_effect hinv hn hr with ⟨hh2, -⟩ | ⟨-, -, hd, hdn, l, -, -, -,
          hl, hhead, hNl, hb, hitems, hidx, -⟩
      · exact (hh hh2).elim
      · refine ⟨hd, l, hl, hhead, hNl, ?_, ?_, ?_, ?_⟩
        · intro b
          rw [node_at_set_item]
          exact hb b
        · intro k2
          obtain ⟨-, -, -, -, e4, -⟩ := @set_item_old_hash_frame mdr k itemR
            (calm_volatility itemR) hiR (by rw [calm_volatility_key]; exact hkR)
            (by rw [calm_volatility_old_hash])
          rw [e4 k2, hitems k2]
          cases item_at md k2 with
          | error f => rfl
          | ok it =>
            simp only [Except.map]
            split_ifs <;> rfl
        · intro k2 hk2
          rw [item_at_set_item_ne _ _ _ (by
            rw [calm_volatility_key, hkR]
            exact fun e => hk2 e.symm)]
          exact hitems k2
        · exact hidx

/-- Witness of C20.  After `four_identical_pages` under `test_params` the pages `12288` and
`16384` share the CHAIN node 1 behind the HEAD node 0.  A run on the page `16384` with the
new hash `hash_b` returns and gives node 1 the hash `hash_b`; a second run with `hash_b`
returns and leaves the nodes and the stable index as the first left them. -/
theorem C20_witness_chain_of_two :
    ∃ md1 md2 n1,
      cmp_and_merge_one test_params (cb_after test_params four_identical_pages).metadata
        (cb_after test_params four_identical_pages).log_table hash_b (1, 16384) =
        .ok (md1, (cb_after test_params four_identical_pages).log_table) ∧
      node_at md1 1 = some n1 ∧ n1.page_hash = hash_b ∧
      cmp_and_merge_one test_params md1
        (cb_after test_params four_identical_pages).log_table hash_b (1, 16384) =
        .ok (md2, (cb_after test_params four_identical_pages).log_table) ∧
      md2.nodes = md1.nodes ∧ md2.stable_hash_table = md1.stable_hash_table := by
  have hnodes : (cb_after test_params four_identical_pages).metadata.nodes =
      [some ⟨hash_a, 2, 20, [(1, 4096), (1, 8192)], ⟨node_chain_type.HEAD, some 1, none⟩⟩,
       some ⟨hash_a, 2, 40, [(1, 12288), (1, 16384)],
         ⟨node_chain_type.CHAIN, none, some 0⟩⟩] := by rfl
  have h := C20_hash_update_twice_as_once test_params
    (cb_after test_params four_identical_pages).metadata
    (cb_after test_params four_identical_pages).log_table hash_b (1, 16384)
    ⟨1, 1, 2, 16384, 40, 40, hash_a, item_state.Stable, 0, 0, some 1⟩ 1
    ⟨hash_a, 2, 40, [(1, 12288), (1, 16384)], ⟨node_chain_type.CHAIN, none, some 0⟩⟩
    (by decide) (by rfl) (by rfl) (by rfl) (by rfl) (by rfl) (by decide)
  obtain ⟨md1, hrun1, heff⟩ := h.2.2 (by rfl) (by
    intro a m hm k2 hk2
    unfold node_at at hm
    rw [hnodes] at hm
    match a, hm with
    | 0, hm =>
      cases hm
      rcases List.mem_cons.1 hk2 with e | e
      · rw [e]
        exact ⟨_, rfl, rfl⟩
      · rcases List.mem_cons.1 e with e2 | e2
        · rw [e2]
          exact ⟨_, rfl, rfl⟩
        · cases e2
    | 1, hm =>
      cases hm
      rcases List.mem_cons.1 hk2 with e | e
      · rw [e]
        exact ⟨_, rfl, rfl⟩
      · rcases List.mem_cons.1 e with e2 | e2
        · rw [e2]
          exact ⟨_, rfl, rfl⟩
        · cases e2
    | a + 2, hm => cases hm)
  obtain ⟨head, l, -, -, hNl, hb, -⟩ := heff (by decide)
  obtain ⟨-, -, md2, hrun2, e1, e2, -⟩ := h.1 md1 _ hrun1
  refine ⟨md1, md2,
    set_page_hash hash_b
      ⟨hash_a, 2, 40, [(1, 12288), (1, 16384)], ⟨node_chain_type.CHAIN, none, some 0⟩⟩,
    hrun1, ?_, rfl, hrun2, e1, e2⟩
  rw [hb 1, if_pos hNl]
  rfl

/-! ## Consistency of the items with the sharers trees and the unstable index -/

theorem item_at_set_item_if {md : ksm_metadata} {k : item_key} {it0 it1 : rmap_item}
    (h0 : item_at md k = .ok it0) (hk : it1.key = k) (k2 : item_key) :
    item_at (set_item md it1) k2 = if k2 = k then .ok it1 else item_at md k2 := by
  by_cases h : k2 = k
  · rw [if_pos h, h]
    exact item_at_set_item h0 hk
  · rw [if_neg h]
    exact item_at_set_item_ne _ _ _ (by rw [hk]; exact fun e => h e.symm)

/-- A change of the nodes that leaves the rmap tree and the unstable index alone and adds no
key to a sharers tree keeps the consistency. -/
theorem items_inv_nodes {md md1 : ksm_metadata} {x : Option item_key}
    (ht : md1.rmap_tree = md.rmap_tree)
    (hu : md1.unstable_hash_table = md.unstable_hash_table)
    (hs : ∀ a n1, node_at md1 a = some n1 → ∀ k ∈ n1.sharing_item_tree,
      ∃ n, node_at md a = some n ∧ k ∈ n.sharing_item_tree)
    (h : items_inv_but md x) : items_inv_but md1 x := by
  have hitem : ∀ k, item_at md1 k = item_at md k := by
    intro k
    unfold item_at
    rw [ht]
  obtain ⟨hS, hU1, hU5, hU3, hX⟩ := h
  refine ⟨?_, ?_, ?_, ?_, ?_⟩
  · intro a n1 hn1 k hk
    obtain ⟨n, hn, hkn⟩ := hs a n1 hn1 k hk
    rw [hitem]
    exact hS a n hn k hkn
  · intro k it hit
    rw [hitem] at hit
    rw [hu]
    exact hU1 k it hit
  · intro e he
    rw [hu] at he
    rw [hitem]
    exact hU5 e he
  · rw [hu]
    exact hU3
  · rw [hu]
    exact hX

/-- A store to an item that keeps its state and its `stable_node`, and its `old_hash` when
it is `Unstable`, keeps the consistency. -/
theorem items_inv_set_item_neutral {md : ksm_metadata} {x : Option item_key} {k : item_key}
    {it0 it1 : rmap_item} (h0 : item_at md k = .ok it0) (hk : it1.key = k)
    (hst : it1.state = it0.state) (hp : it1.stable_node = it0.stable_node)
    (hh : it0.state = item_state.Unstable → it1.old_hash = it0.old_hash)
    (h : items_inv_but md x) : items_inv_but (set_item md it1) x := by
  obtain ⟨hS, hU1, hU5, hU3, hX⟩ := h
  refine ⟨?_, ?_, ?_, hU3, hX⟩
  · intro a n hn k2 hk2
    rw [node_at_set_item] at hn
    obtain ⟨it, hit, hs, hpn⟩ := hS a n hn k2 hk2
    rw [item_at_set_item_if h0 hk]
    by_cases hkk : k2 = k
    · rw [if_pos hkk]
      rw [hkk, h0] at hit
      cases hit
      exact ⟨it1, rfl, hst.trans hs, hp.trans hpn⟩
    · rw [if_neg hkk]
      exact ⟨it, hit, hs, hpn⟩
  · intro k2 it hit hs
    rw [item_at_set_item_if h0 hk] at hit
    by_cases hkk : k2 = k
    · rw [if_pos hkk] at hit
      cases hit
      rw [hkk]
      exact hU1 k it0 h0 (hst.symm.trans hs)
    · rw [if_neg hkk] at hit
      exact hU1 k2 it hit hs
  · intro e he
    obtain ⟨it, hit, hs, ho⟩ := hU5 e he
    rw [item_at_set_item_if h0 hk]
    by_cases hkk : e.2.2 = k
    · rw [if_pos hkk]
      rw [hkk, h0] at hit
      cases hit
      exact ⟨it1, rfl, hst.trans hs, (hh hs).trans ho⟩
    · rw [if_neg hkk]
      exact ⟨it, hit, hs, ho⟩

/-- A store that makes `Volatile` an item that is not `Unstable` and is in no sharers tree
keeps the consistency. -/
theorem items_inv_set_item_volatile {md : ksm_metadata} {x : Option item_key} {k : item_key}
    {it0 it1 : rmap_item} (h0 : item_at md k = .ok it0) (hk : it1.key = k)
    (hst : it1.state = item_state.Volatile) (h0s : it0.state ≠ item_state.Unstable)
    (hns : ∀ a n, node_at md a = some n → k ∉ n.sharing_item_tree)
    (h : items_inv_but md x) : items_inv_but (set_item md it1) x := by
  obtain ⟨hS, hU1, hU5, hU3, hX⟩ := h
  refine ⟨?_, ?_, ?_, hU3, hX⟩
  · intro a n hn k2 hk2
    rw [node_at_set_item] at hn
    obtain ⟨it, hit, hs, hpn⟩ := hS a n hn k2 hk2
    rw [item_at_set_item_if h0 hk]
    by_cases hkk : k2 = k
    · rw [hkk] at hk2
      exact (hns a n hn hk2).elim
    · rw [if_neg hkk]
      exact ⟨it, hit, hs, hpn⟩
  · intro k2 it hit hs
    rw [item_at_set_item_if h0 hk] at hit
    by_cases hkk : k2 = k
    · rw [if_pos hkk] at hit
      cases hit
      rw [hst] at hs
      cases hs
    · rw [if_neg hkk] at hit
      exact hU1 k2 it hit hs
  · intro e he
    obtain ⟨it, hit, hs, ho⟩ := hU5 e he
    rw [item_at_set_item_if h0 hk]
    by_cases hkk : e.2.2 = k
    · rw [hkk, h0] at hit
      cases hit
      exact (h0s hs).elim
    · rw [if_neg hkk]
      exact ⟨it, hit, hs, ho⟩

/-- A store that makes a `Volatile` item `Unstable`: the item is the one excepted until it
is entered in the unstable index. -/
theorem items_inv_set_item_unstable {md : ksm_metadata} {k : item_key}
    {it0 it1 : rmap_item} (h0 : item_at md k = .ok it0) (hk : it1.key = k)
    (h0s : it0.state = item_state.Volatile)
    (h : items_inv_but md none) : items_inv_but (set_item md it1) (some k) := by
  obtain ⟨hS, hU1, hU5, hU3, -⟩ := h
  refine ⟨?_, ?_, ?_, hU3, ?_⟩
  · intro a n hn k2 hk2
    rw [node_at_set_item] at hn
    obtain ⟨it, hit, hs, hpn⟩ := hS a n hn k2 hk2
    rw [item_at_set_item_if h0 hk]
    by_cases hkk : k2 = k
    · rw [hkk, h0] at hit
      cases hit
      rw [h0s] at hs
      cases hs
    · rw [if_neg hkk]
      exact ⟨it, hit, hs, hpn⟩
  · intro k2 it hit hs
    rw [item_at_set_item_if h0 hk] at hit
    by_cases hkk : k2 = k
    · left
      rw [hkk]
    · rw [if_neg hkk] at hit
      rcases hU1 k2 it hit hs with hx | hx
      · cases hx
      · exact Or.inr hx
  · intro e he
    obtain ⟨it, hit, hs, ho⟩ := hU5 e he
    rw [item_at_set_item_if h0 hk]
    by_cases hkk : e.2.2 = k
    · rw [hkk, h0] at hit
      cases hit
      rw [h0s] at hs
      cases hs
    · rw [if_neg hkk]
      exact ⟨it, hit, hs, ho⟩
  · intro e he hx
    obtain ⟨it, hit, hs, -⟩ := hU5 e he
    have hkk : e.2.2 = k := (Option.some.inj hx).symm
    rw [hkk, h0] at hit
    cases hit
    rw [h0s] at hs
    cases hs

/-- The effect of `insert_item_to_node` on the consistency: the item, which is `x` or an item
outside the unstable index, becomes a `Stable` sharer. -/
theorem insert_item_to_node_items {md md1 : ksm_metadata} {x : Option item_key} {a : Nat}
    {k : item_key} (h : insert_item_to_node md a k = .ok md1)
    (hx : x = none ∨ x = some k) (hidx : ∀ e ∈ md.unstable_hash_table, e.2.2 ≠ k)
    (hinv : items_inv_but md x) : items_inv_but md1 none := by
  unfold insert_item_to_node at h
  obtain ⟨it0, h0, h2⟩ := bind_eq_ok h
  obtain ⟨node, hnode, h3⟩ := bind_eq_ok h2
  split_ifs at h3 with hstate
  cases h3
  have hn : node_at md a = some node := (deref_node_eq _ _ _).1 hnode
  have halt := node_at_lt hn
  have hk : it0.key = k := item_at_key h0
  have hns : it0.state ≠ item_state.Stable := fun e => hstate (Or.inr e)
  obtain ⟨hS, hU1, hU5, hU3, hX⟩ := hinv
  have hitem : ∀ k2, item_at (set_node (set_item md (link_item node a it0)) a
      (add_sharer k node)) k2 = if k2 = k then .ok (link_item node a it0)
        else item_at md k2 := by
    intro k2
    rw [item_at_set_node]
    exact item_at_set_item_if h0 ((link_item_key _ _ _).trans hk) k2
  have hnode2 : ∀ b, node_at (set_node (set_item md (link_item node a it0)) a
      (add_sharer k node)) b = if b = a then some (add_sharer k node) else node_at md b := by
    intro b
    rw [node_at_set_node b (by simpa using halt), node_at_set_item]
  refine ⟨?_, ?_, ?_, hU3, fun _ _ hx => (by cases hx)⟩
  · intro b n hn2 k2 hk2
    rw [hnode2 b] at hn2
    rw [hitem k2]
    by_cases hkk : k2 = k
    · rw [if_pos hkk]
      by_cases hba : b = a
      · exact ⟨_, rfl, rfl, by rw [hba]; rfl⟩
      · rw [if_neg hba] at hn2
        obtain ⟨it, hit, hs, -⟩ := hS b n hn2 k2 hk2
        rw [hkk, h0] at hit
        cases hit
        exact (hns hs).elim
    · rw [if_neg hkk]
      by_cases hba : b = a
      · rw [if_pos hba] at hn2
        cases hn2
        have hmem : k2 ∈ node.sharing_item_tree := by
          have := (mem_g_tree_insert node.sharing_item_tree k k2).1 hk2
          rcases this with e | e
          · exact (hkk e).elim
          · exact e
        rw [hba]
        exact hS a node hn k2 hmem
      · rw [if_neg hba] at hn2
        exact hS b n hn2 k2 hk2
  · intro k2 it hit hs
    rw [hitem k2] at hit
    by_cases hkk : k2 = k
    · rw [if_pos hkk] at hit
      cases hit
      cases hs
    · rw [if_neg hkk] at hit
      rcases hU1 k2 it hit hs with e | e
      · rcases hx with hx | hx
        · rw [hx] at e
          cases e
        · rw [hx] at e
          exact (hkk (Option.some.inj e).symm).elim
      · exact Or.inr e
  · intro e he
    obtain ⟨it, hit, hs, ho⟩ := hU5 e he
    rw [hitem e.2.2, if_neg (hidx e he)]
    exact ⟨it, hit, hs, ho⟩

/-- The effect of `cmp_with_unstable` on the consistency: the partner it finds leaves the
unstable index and is the excepted item. -/
theorem cmp_with_unstable_items {md : ksm_metadata} {k : item_key}
    {r : Option item_key × ksm_metadata} (h : cmp_with_unstable md k = .ok r)
    (hinv : items_inv_but md none) :
    (r.1 = none → r.2 = md) ∧
    (∀ node, r.1 = some node →
      items_inv_but r.2 (some node) ∧
      (∀ k2, item_at r.2 k2 = item_at md k2) ∧ (∀ b, node_at r.2 b = node_at md b) ∧
      ∃ itn, item_at md node = .ok itn ∧ itn.state = item_state.Unstable) := by
  unfold cmp_with_unstable at h
  obtain ⟨item, -, h2⟩ := bind_eq_ok h
  cases hl : g_hash_table_lookup md.unstable_hash_table item.old_hash with
  | none =>
    rw [hl] at h2
    cases h2
    exact ⟨fun _ => rfl, fun node hn => by cases hn⟩
  | some node =>
    rw [hl] at h2
    obtain ⟨found, hfound, h3⟩ := bind_eq_ok h2
    cases h3
    refine ⟨fun hn => (by cases hn), ?_⟩
    intro node2 hnode2
    cases hnode2
    obtain ⟨hS, hU1, hU5, hU3, -⟩ := hinv
    obtain ⟨e, he, -, hev⟩ := g_hash_table_lookup_some hl
    obtain ⟨it, hit, hs, ho⟩ := hU5 e he
    rw [hev, hfound] at hit
    cases hit
    refine ⟨⟨hS, ?_, ?_, ?_, ?_⟩, fun _ => rfl, fun _ => rfl, found, hfound, hs⟩
    · intro k2 it2 hit2 hs2
      change item_at md k2 = _ at hit2
      rcases hU1 k2 it2 hit2 hs2 with hx | ⟨e2, he2, hek⟩
      · cases hx
      · by_cases hkk : k2 = node
        · exact Or.inl (by rw [hkk])
        · right
          refine ⟨e2, ?_, hek⟩
          change e2 ∈ g_hash_table_remove md.unstable_hash_table found.old_hash
          rw [mem_g_hash_table_remove]
          refine ⟨he2, fun hh => hkk ?_⟩
          rw [← hek, ← hev]
          exact hU3 e2 he2 e he (hh.trans ho)
    · intro e2 he2
      change e2 ∈ g_hash_table_remove md.unstable_hash_table found.old_hash at he2
      rw [mem_g_hash_table_remove] at he2
      exact hU5 e2 he2.1
    · intro e1 he1 e2 he2
      change e1 ∈ g_hash_table_remove md.unstable_hash_table found.old_hash at he1
      change e2 ∈ g_hash_table_remove md.unstable_hash_table found.old_hash at he2
      rw [mem_g_hash_table_remove] at he1 he2
      exact hU3 e1 he1.1 e2 he2.1
    · intro e2 he2 hx
      change e2 ∈ g_hash_table_remove md.unstable_hash_table found.old_hash at he2
      rw [mem_g_hash_table_remove] at he2
      obtain ⟨it2, hit2, -, ho2⟩ := hU5 e2 he2.1
      have hkk : e2.2.2 = node := (Option.some.inj hx).symm
      rw [hkk, hfound] at hit2
      cases hit2
      exact he2.2 ho2.symm

/-- The effect of `insert_unstable_node` on the consistency: the excepted `Unstable` item is
entered in the unstable index. -/
theorem insert_unstable_node_items {md md1 : ksm_metadata} {k : item_key} {it : rmap_item}
    (h : insert_unstable_node md k = .ok md1) (hit : item_at md k = .ok it)
    (hs : it.state = item_state.Unstable) (hinv : items_inv_but md (some k)) :
    items_inv_but md1 none := by
  unfold insert_unstable_node at h
  rw [hit] at h
  simp only [bind, Except.bind] at h
  cases hl : g_hash_table_lookup md.unstable_hash_table it.old_hash with
  | some v =>
    rw [hl] at h
    cases h
  | none =>
    rw [hl] at h
    simp only [] at h
    cases h
    rw [g_hash_table_insert_of_none hl]
    have hnone := (g_hash_table_lookup_eq_none _ _).1 hl
    obtain ⟨hS, hU1, hU5, hU3, hX⟩ := hinv
    refine ⟨hS, ?_, ?_, ?_, fun _ _ hx => (by cases hx)⟩
    · intro k2 it2 hit2 hs2
      change item_at md k2 = _ at hit2
      right
      rcases hU1 k2 it2 hit2 hs2 with hx | ⟨e, he, hek⟩
      · refine ⟨(it.old_hash, k, k), ?_, (Option.some.inj hx)⟩
        change _ ∈ md.unstable_hash_table ++ [(it.old_hash, k, k)]
        exact List.mem_append_right _ (List.mem_singleton_self _)
      · refine ⟨e, ?_, hek⟩
        change _ ∈ md.unstable_hash_table ++ [(it.old_hash, k, k)]
        exact List.mem_append_left _ he
    · intro e he
      change e ∈ md.unstable_hash_table ++ [(it.old_hash, k, k)] at he
      change ∃ it2, item_at md e.2.2 = _ ∧ _
      rcases List.mem_append.1 he with he | he
      · exact hU5 e he
      · rw [List.mem_singleton.1 he]
        exact ⟨it, hit, hs, rfl⟩
    · intro e1 he1 e2 he2 heq
      change e1 ∈ md.unstable_hash_table ++ [(it.old_hash, k, k)] at he1
      change e2 ∈ md.unstable_hash_table ++ [(it.old_hash, k, k)] at he2
      rcases List.mem_append.1 he1 with he1 | he1
      · rcases List.mem_append.1 he2 with he2 | he2
        · exact hU3 e1 he1 e2 he2 heq
        · rw [List.mem_singleton.1 he2] at heq
          exact (hnone e1 he1 heq).elim
      · rcases List.mem_append.1 he2 with he2 | he2
        · rw [List.mem_singleton.1 he1] at heq
          exact (hnone e2 he2 heq.symm).elim
        · rw [List.mem_singleton.1 he1, List.mem_singleton.1 he2]

theorem sharers_within_refl (md : ksm_metadata) : sharers_within md md :=
  ⟨rfl, rfl, fun _ n1 hn1 _ hk => ⟨n1, hn1, hk⟩⟩

theorem sharers_within_trans {md md1 md2 : ksm_metadata} (h1 : sharers_within md md1)
    (h2 : sharers_within md1 md2) : sharers_within md md2 := by
  obtain ⟨a1, b1, c1⟩ := h1
  obtain ⟨a2, b2, c2⟩ := h2
  refine ⟨a2.trans a1, b2.trans b1, ?_⟩
  intro a n2 hn2 k hk
  obtain ⟨n1, hn1, hk1⟩ := c2 a n2 hn2 k hk
  exact c1 a n1 hn1 k hk1

theorem items_inv_of_sharers_within {md md1 : ksm_metadata} {x : Option item_key}
    (h : sharers_within md md1) (hinv : items_inv_but md x) : items_inv_but md1 x :=
  items_inv_nodes h.1 h.2.1 h.2.2 hinv

theorem sharers_within_item_at {md md1 : ksm_metadata} (h : sharers_within md md1)
    (k : item_key) : item_at md1 k = item_at md k := by
  unfold item_at
  rw [h.1]

theorem modify_node_sharers {md md1 : ksm_metadata} {a : Nat} {f : stable_node → stable_node}
    (hf : ∀ n k, k ∈ (f n).sharing_item_tree → k ∈ n.sharing_item_tree)
    (h : modify_node md a f = .ok md1) : sharers_within md md1 := by
  unfold modify_node at h
  obtain ⟨node, hnode, h2⟩ := bind_eq_ok h
  cases h2
  have hn : node_at md a = some node := (deref_node_eq _ _ _).1 hnode
  refine ⟨rfl, rfl, ?_⟩
  intro b n1 hn1 k hk
  rw [node_at_set_node b (node_at_lt hn)] at hn1
  by_cases hba : b = a
  · rw [if_pos hba] at hn1
    cases hn1
    exact ⟨node, hba ▸ hn, hf node k hk⟩
  · rw [if_neg hba] at hn1
    exact ⟨n1, hn1, hk⟩

theorem free_node_sharers (md : ksm_metadata) (a : Nat) :
    sharers_within md (free_node md a) := by
  refine ⟨rfl, rfl, ?_⟩
  intro b n1 hn1 k hk
  rw [node_at_free_node md a b] at hn1
  by_cases hba : b = a
  · rw [if_pos hba] at hn1
    cases hn1
  · rw [if_neg hba] at hn1
    exact ⟨n1, hn1, hk⟩

theorem set_stable_hash_table_sharers (t : GHashTable Nat) (md : ksm_metadata) :
    sharers_within md (set_stable_hash_table t md) :=
  ⟨rfl, rfl, fun _ n1 hn1 _ hk => ⟨n1, hn1, hk⟩⟩

theorem remove_item_from_node_sharers {md md1 : ksm_metadata} {a : Nat} {k : item_key}
    (h : remove_item_from_node md a k = .ok md1) : sharers_within md md1 := by
  have h2 : modify_node md a (drop_sharer k) = .ok md1 := h
  refine modify_node_sharers ?_ h2
  intro n k2 hk2
  exact ((mem_g_tree_remove _ _ _).1 hk2).1

theorem modify_chain_sharers {md md1 : ksm_metadata} {a : Nat} {f : stable_node → stable_node}
    (h : modify_node md a f = .ok md1)
    (hf : ∀ n, (f n).sharing_item_tree = n.sharing_item_tree) : sharers_within md md1 :=
  modify_node_sharers (fun n k hk => by rw [hf n] at hk; exact hk) h

theorem remove_stable_node_no_item_sharers {md md1 : ksm_metadata} {a : Nat}
    (h : remove_stable_node_no_item md a = .ok md1) :
    sharers_within md md1 ∧ node_at md1 a = none := by
  unfold remove_stable_node_no_item at h
  obtain ⟨node, hnode, h2⟩ := bind_eq_ok h
  have hfree : ∀ md2 : ksm_metadata, node_at (free_node md2 a) a = none := by
    intro md2
    rw [node_at_free_node md2 a a, if_pos rfl]
  cases ht : node.chain.type with
  | HEAD =>
    rw [ht] at h2
    dsimp only at h2
    cases hnx : node.chain.next with
    | none =>
      rw [hnx] at h2
      cases h2
      exact ⟨sharers_within_trans (set_stable_hash_table_sharers _ md)
        (free_node_sharers _ a), hfree _⟩
    | some b =>
      rw [hnx] at h2
      dsimp only at h2
      split_ifs at h2
      obtain ⟨md2, h3, h4⟩ := bind_eq_ok h2
      obtain ⟨next_node, -, h5⟩ := bind_eq_ok h4
      have hs := modify_chain_sharers h3 (fun _ => rfl)
      cases h5
      exact ⟨sharers_within_trans hs
        (sharers_within_trans (set_stable_hash_table_sharers _ md2)
          (free_node_sharers _ a)), hfree _⟩
  | CHAIN =>
    rw [ht] at h2
    dsimp only at h2
    cases hp : node.chain.prev with
    | none =>
      rw [hp] at h2
      cases h2
    | some c =>
      rw [hp] at h2
      dsimp only at h2
      obtain ⟨md2, h3, h4⟩ := bind_eq_ok h2
      have hs := modify_chain_sharers h3 (fun _ => rfl)
      cases hnx : node.chain.next with
      | none =>
        rw [hnx] at h4
        cases h4
        exact ⟨sharers_within_trans hs (free_node_sharers _ a), hfree _⟩
      | some b =>
        rw [hnx] at h4
        dsimp only at h4
        obtain ⟨md3, h5, h6⟩ := bind_eq_ok h4
        have hs2 := modify_chain_sharers h5 (fun _ => rfl)
        cases h6
        exact ⟨sharers_within_trans hs (sharers_within_trans hs2 (free_node_sharers _ a)),
          hfree _⟩

theorem remove_stale_node_and_log_sharers {md : ksm_metadata} {log_table : ksm_log_table}
    {a : Nat} {last_item : rmap_item} {r : ksm_metadata × ksm_log_table}
    (h : remove_stale_node_and_log md log_table a last_item = .ok r) :
    sharers_within md r.1 ∧ node_at r.1 a = none := by
  unfold remove_stale_node_and_log at h
  obtain ⟨node, -, h2⟩ := bind_eq_ok h
  obtain ⟨log1, -, h3⟩ := bind_eq_ok h2
  obtain ⟨md1, h4, h5⟩ := bind_eq_ok h3
  cases h5
  exact remove_stable_node_no_item_sharers h4

theorem insert_stable_node_sharers {md md1 : ksm_metadata} {a : Nat}
    (h : insert_stable_node md a = .ok md1) : sharers_within md md1 := by
  unfold insert_stable_node at h
  obtain ⟨node, -, h2⟩ := bind_eq_ok h
  cases hl : g_hash_table_lookup md.stable_hash_table node.page_hash with
  | some first =>
    rw [hl] at h2
    dsimp only at h2
    obtain ⟨tail, -, h3⟩ := bind_eq_ok h2
    obtain ⟨md2, h4, h5⟩ := bind_eq_ok h3
    exact sharers_within_trans (modify_chain_sharers h4 (fun _ => rfl))
      (modify_chain_sharers h5 (fun _ => rfl))
  | none =>
    rw [hl] at h2
    dsimp only at h2
    obtain ⟨md2, h4, h5⟩ := bind_eq_ok h2
    cases h5
    exact sharers_within_trans (modify_chain_sharers h4 (fun _ => rfl))
      (set_stable_hash_table_sharers _ md2)

theorem alloc_node_sharers (md : ksm_metadata) (hash : hash_pair) (pfn : Nat) :
    sharers_within md (alloc_node md (new_stable_node hash pfn)) := by
  refine ⟨rfl, rfl, ?_⟩
  intro b n1 hn1 k hk
  by_cases hb : b = md.nodes.length
  · rw [hb, node_at_alloc_node_new] at hn1
    cases hn1
    cases hk
  · rw [node_at_alloc_node_ne _ _ hb] at hn1
    exact ⟨n1, hn1, hk⟩

theorem set_node_sharers {md : ksm_metadata} {a : Nat} {n n1 : stable_node}
    (hn : node_at md a = some n)
    (hsub : ∀ k ∈ n1.sharing_item_tree, k ∈ n.sharing_item_tree) :
    sharers_within md (set_node md a n1) := by
  refine ⟨rfl, rfl, ?_⟩
  intro b m hm k hk
  rw [node_at_set_node b (node_at_lt hn)] at hm
  by_cases hba : b = a
  · rw [if_pos hba] at hm
    cases hm
    exact ⟨n, hba ▸ hn, hsub k hk⟩
  · rw [if_neg hba] at hm
    exact ⟨m, hm, hk⟩

/-- A read-modify-write of an item that keeps its key, its state and its `stable_node`, and
its `old_hash` when it is `Unstable`, keeps the consistency. -/
theorem modify_item_items {md md1 : ksm_metadata} {x : Option item_key} {k : item_key}
    {f : rmap_item → rmap_item} (h : modify_item md k f = .ok md1)
    (hf : ∀ it, item_at md k = .ok it →
      (f it).key = it.key ∧ (f it).state = it.state ∧
      (f it).stable_node = it.stable_node ∧
      (it.state = item_state.Unstable → (f it).old_hash = it.old_hash))
    (hinv : items_inv_but md x) : items_inv_but md1 x := by
  unfold modify_item at h
  obtain ⟨it, hit, h2⟩ := bind_eq_ok h
  cases h2
  obtain ⟨h1, h2, h3, h4⟩ := hf it hit
  exact items_inv_set_item_neutral hit (h1.trans (item_at_key hit)) h2 h3 h4 hinv

theorem modify_item_item_at {md md1 : ksm_metadata} {k : item_key}
    {f : rmap_item → rmap_item} (h : modify_item md k f = .ok md1)
    (hf : ∀ it, (f it).key = it.key) :
    ∃ it, item_at md k = .ok it ∧ item_at md1 k = .ok (f it) ∧
      (∀ k2, k2 ≠ k → item_at md1 k2 = item_at md k2) ∧
      (∀ b, node_at md1 b = node_at md b) ∧
      md1.unstable_hash_table = md.unstable_hash_table := by
  unfold modify_item at h
  obtain ⟨it, hit, h2⟩ := bind_eq_ok h
  cases h2
  have hk : (f it).key = k := (hf it).trans (item_at_key hit)
  refine ⟨it, hit, ?_, ?_, fun _ => rfl, rfl⟩
  · rw [item_at_set_item_if hit hk, if_pos rfl]
  · intro k2 hk2
    rw [item_at_set_item_if hit hk, if_neg hk2]

theorem update_item_checksum_inv (hash : hash_pair) {x : Option item_key} :
    ∀ (l : List item_key) (md md1 : ksm_metadata), update_item_checksum md hash l = .ok md1 →
      items_inv_but md x → items_inv_but md1 x := by
  intro l
  induction l with
  | nil =>
    intro md md1 h hinv
    cases h
    exact hinv
  | cons k0 ks ih =>
    intro md md1 h hinv
    unfold update_item_checksum at h
    obtain ⟨item0, hi0, h2⟩ := bind_eq_ok h
    split_ifs at h2 with hs
    refine ih _ _ h2 ?_
    have hst : item0.state = item_state.Stable := by
      by_contra hne
      exact hs hne
    exact @items_inv_set_item_neutral md x k0 item0 (set_old_hash hash item0) hi0
      ((set_old_hash_key hash item0).trans (item_at_key hi0)) rfl rfl (fun hu => by rw [hst] at hu; cases hu) hinv

theorem update_chain_hash_inv (hash : hash_pair) {x : Option item_key} :
    ∀ (fuel : Nat) (md md1 : ksm_metadata) (o : Option Nat),
      update_chain_hash hash fuel md o = .ok md1 →
      items_inv_but md x → items_inv_but md1 x := by
  intro fuel
  induction fuel with
  | zero =>
    intro md md1 o h hinv
    cases o with
    | none =>
      cases h
      exact hinv
    | some a => cases h
  | succ f ih =>
    intro md md1 o h hinv
    cases o with
    | none =>
      cases h
      exact hinv
    | some a =>
      unfold update_chain_hash at h
      obtain ⟨node, hnode, h2⟩ := bind_eq_ok h
      obtain ⟨md2, hmd2, h3⟩ := bind_eq_ok h2
      have hn : node_at md a = some node := (deref_node_eq _ _ _).1 hnode
      refine ih _ _ _ h3 ?_
      refine update_item_checksum_inv hash _ _ _ hmd2 ?_
      exact items_inv_of_sharers_within
        (@set_node_sharers md a node (set_page_hash hash node) hn (fun k hk => hk)) hinv

theorem rehash_chain_items {md md1 : ksm_metadata} {x : Option item_key} {head : Nat}
    {hash : hash_pair} (h : rehash_chain md head hash = .ok md1)
    (hinv : items_inv_but md x) : items_inv_but md1 x := by
  unfold rehash_chain at h
  obtain ⟨node, -, h2⟩ := bind_eq_ok h
  obtain ⟨md2, hmd2, h3⟩ := bind_eq_ok h2
  obtain ⟨node2, -, h4⟩ := bind_eq_ok h3
  cases h4
  have h5 := update_chain_hash_inv hash _ _ _ _ hmd2
    (items_inv_of_sharers_within (set_stable_hash_table_sharers _ md) hinv)
  exact items_inv_of_sharers_within (set_stable_hash_table_sharers _ md2) h5

theorem refresh_stable_items {md md1 : ksm_metadata} {x : Option item_key}
    {hash : hash_pair} {item : rmap_item} {a : Nat}
    (h : refresh_stable md hash item a = .ok md1)
    (hinv : items_inv_but md x) : items_inv_but md1 x := by
  unfold refresh_stable at h
  obtain ⟨node, -, h2⟩ := bind_eq_ok h
  split_ifs at h2
  · exact rehash_chain_items h2 hinv
  · obtain ⟨head, -, h3⟩ := bind_eq_ok h2
    obtain ⟨head_node, -, h4⟩ := bind_eq_ok h3
    split_ifs at h4
    exact rehash_chain_items h4 hinv
  · cases h2
    exact hinv

theorem insert_item_to_node_item_at {md md1 : ksm_metadata} {a : Nat} {k : item_key}
    (h : insert_item_to_node md a k = .ok md1) :
    (∀ k2, k2 ≠ k → item_at md1 k2 = item_at md k2) ∧
    (∃ it, item_at md1 k = .ok it ∧ it.state = item_state.Stable) ∧
    md1.unstable_hash_table = md.unstable_hash_table := by
  unfold insert_item_to_node at h
  obtain ⟨it0, h0, h2⟩ := bind_eq_ok h
  obtain ⟨node, hnode, h3⟩ := bind_eq_ok h2
  split_ifs at h3 with hstate
  cases h3
  have hk : (link_item node a it0).key = k := (link_item_key _ _ _).trans (item_at_key h0)
  refine ⟨?_, ⟨link_item node a it0, ?_, rfl⟩, rfl⟩
  · intro k2 hk2
    rw [item_at_set_node, item_at_set_item_if h0 hk, if_neg hk2]
  · rw [item_at_set_node, item_at_set_item_if h0 hk, if_pos rfl]

theorem not_index_value_of_volatile {md : ksm_metadata} {x : Option item_key} {k : item_key}
    {it : rmap_item} (hinv : items_inv_but md x) (hit : item_at md k = .ok it)
    (hs : it.state ≠ item_state.Unstable) :
    ∀ e ∈ md.unstable_hash_table, e.2.2 ≠ k := by
  intro e he hek
  obtain ⟨it2, hit2, hs2, -⟩ := hinv.2.2.1 e he
  rw [hek, hit] at hit2
  cases hit2
  exact hs hs2

theorem promote_unstable_items {md : ksm_metadata} {log_table : ksm_log_table}
    {hash : hash_pair} {k u : item_key} {r : ksm_metadata × ksm_log_table} {it : rmap_item}
    (h : promote_unstable md log_table hash k u = .ok r)
    (hit : item_at md k = .ok it) (hs : it.state = item_state.Volatile)
    (hinv : items_inv_but md (some u)) : items_inv_but r.1 none := by
  unfold promote_unstable at h
  obtain ⟨item, -, h2⟩ := bind_eq_ok h
  obtain ⟨md1, hins, h3⟩ := bind_eq_ok h2
  obtain ⟨md2, hi1, h4⟩ := bind_eq_ok h3
  obtain ⟨md3, hi2, h5⟩ := bind_eq_ok h4
  obtain ⟨from_item, -, h6⟩ := bind_eq_ok h5
  obtain ⟨to_item, -, h7⟩ := bind_eq_ok h6
  obtain ⟨log1, -, h8⟩ := bind_eq_ok h7
  cases h8
  have hw : sharers_within md md1 :=
    sharers_within_trans (alloc_node_sharers md hash item.pfn)
      (insert_stable_node_sharers hins)
  have hinv1 : items_inv_but md1 (some u) := items_inv_of_sharers_within hw hinv
  have hinv2 : items_inv_but md2 none :=
    insert_item_to_node_items hi1 (Or.inr rfl)
      (fun e he heu => hinv1.2.2.2.2 e he (by rw [heu])) hinv1
  obtain ⟨hother, ⟨itu, hitu, hsu⟩, -⟩ := insert_item_to_node_item_at hi1
  have hk2 : ∃ it2, item_at md2 k = .ok it2 ∧ it2.state ≠ item_state.Unstable := by
    by_cases hku : k = u
    · rw [hku]
      exact ⟨itu, hitu, by rw [hsu]; exact fun e => by cases e⟩
    · rw [hother k hku, sharers_within_item_at hw, hit]
      exact ⟨it, rfl, by rw [hs]; exact fun e => by cases e⟩
  obtain ⟨it2, hit2, hs2⟩ := hk2
  exact insert_item_to_node_items hi2 (Or.inl rfl)
    (not_index_value_of_volatile hinv2 hit2 hs2) hinv2

theorem merge_stable_items {p : ksm_params} {md : ksm_metadata} {log_table : ksm_log_table}
    {k : item_key} {a : Nat} {r : ksm_metadata × ksm_log_table} {it : rmap_item}
    (h : merge_stable p md log_table k a = .ok r)
    (hit : item_at md k = .ok it) (hs : it.state = item_state.Volatile)
    (hinv : items_inv_but md none) : items_inv_but r.1 none := by
  unfold merge_stable at h
  obtain ⟨node, -, h2⟩ := bind_eq_ok h
  split_ifs at h2
  obtain ⟨md1, h3, h4⟩ := bind_eq_ok h2
  obtain ⟨item1, -, h5⟩ := bind_eq_ok h4
  obtain ⟨node1, -, h6⟩ := bind_eq_ok h5
  obtain ⟨log1, -, h7⟩ := bind_eq_ok h6
  cases h7
  exact insert_item_to_node_items h3 (Or.inl rfl)
    (not_index_value_of_volatile hinv hit (by rw [hs]; exact fun e => by cases e)) hinv

theorem merge_candidate_items {p : ksm_params} {md : ksm_metadata}
    {log_table : ksm_log_table} {hash : hash_pair} {k : item_key}
    {r : ksm_metadata × ksm_log_table} {it : rmap_item}
    (h : merge_candidate p md log_table hash k = .ok r)
    (hit : item_at md k = .ok it) (hs : it.state = item_state.Volatile)
    (hinv : items_inv_but md none) : items_inv_but r.1 none := by
  unfold merge_candidate at h
  obtain ⟨md1, h1, h2⟩ := bind_eq_ok h
  have hinv1 : items_inv_but md1 none :=
    modify_item_items h1 (fun it _ => ⟨calm_volatility_key it, calm_volatility_state it,
      calm_volatility_stable_node it, fun _ => calm_volatility_old_hash it⟩) hinv
  obtain ⟨it0, hit0, hit1, -, -, -⟩ := modify_item_item_at h1 calm_volatility_key
  rw [hit] at hit0
  cases hit0
  have hs1 : (calm_volatility it).state = item_state.Volatile := by
    rw [calm_volatility_state]
    exact hs
  obtain ⟨found, -, h3⟩ := bind_eq_ok h2
  cases found with
  | some a => exact merge_stable_items h3 hit1 hs1 hinv1
  | none =>
    simp only [] at h3
    obtain ⟨md2, h4, h5⟩ := bind_eq_ok h3
    have hinv2 : items_inv_but md2 none :=
      modify_item_items h4 (fun it2 hit2 => ⟨rfl, rfl, rfl, fun hu => by
        rw [hit1] at hit2
        cases hit2
        rw [hs1] at hu
        cases hu⟩) hinv1
    obtain ⟨it2, hit2, hit3, -, -, -⟩ := modify_item_item_at h4 (set_old_hash_key hash)
    rw [hit1] at hit2
    cases hit2
    obtain ⟨fu, h6, h7⟩ := bind_eq_ok h5
    obtain ⟨hnone, hsome⟩ := cmp_with_unstable_items h6 hinv2
    cases hfu : fu.1 with
    | some u =>
      rw [hfu] at h7
      obtain ⟨hinv3, hitems, -, -⟩ := hsome u hfu
      exact promote_unstable_items h7 ((hitems k).trans hit3) hs1 hinv3
    | none =>
      rw [hfu] at h7
      simp only [] at h7
      have hmd : fu.2 = md2 := hnone hfu
      rw [hmd] at h7
      obtain ⟨md3, h8, h9⟩ := bind_eq_ok h7
      obtain ⟨md4, h10, h11⟩ := bind_eq_ok h9
      cases h11
      unfold modify_item at h8
      rw [hit3] at h8
      cases h8
      have hk : (set_state item_state.Unstable
          (set_old_hash hash (set_old_hash hash (calm_volatility it)))).key = k := by
        have := item_at_key hit3
        exact this
      have hinv3 := @items_inv_set_item_unstable md2 k _ _ hit3 hk hs1 hinv2
      exact insert_unstable_node_items h10 (item_at_set_item hit3 hk) rfl hinv3

theorem cmp_and_merge_volatile_items {p : ksm_params} {md : ksm_metadata}
    {log_table : ksm_log_table} {hash : hash_pair} {k : item_key}
    {r : ksm_metadata × ksm_log_table} {it : rmap_item}
    (h : cmp_and_merge_volatile p md log_table hash k = .ok r)
    (hit : item_at md k = .ok it) (hs : it.state = item_state.Volatile)
    (hinv : items_inv_but md none) : items_inv_but r.1 none := by
  unfold cmp_and_merge_volatile at h
  rw [hit] at h
  simp only [bind, Except.bind] at h
  have hk : (should_skip_item p (advance_age it)).2.key = k := by
    rw [should_skip_item_key, advance_age_key]
    exact item_at_key hit
  have hs1 : (should_skip_item p (advance_age it)).2.state = item_state.Volatile := by
    rw [should_skip_item_state]
    exact hs
  have hinv1 : items_inv_but (set_item md (should_skip_item p (advance_age it)).2) none :=
    items_inv_set_item_neutral hit hk (by rw [hs1, hs])
      (by rw [should_skip_item_stable_node]; rfl)
      (fun hu => by rw [hs] at hu; cases hu) hinv
  have hit1 := item_at_set_item hit hk
  have hnu : ∀ it2, item_at (set_item md (should_skip_item p (advance_age it)).2) k =
      .ok it2 → it2.state = item_state.Unstable → False := by
    intro it2 hit2 hu
    rw [hit1] at hit2
    cases hit2
    rw [hs1] at hu
    cases hu
  split_ifs at h with c1 c2 c3
  · cases h
    exact hinv1
  · exact merge_candidate_items h hit1 hs1 hinv1
  · cases h3 : modify_item (set_item md (should_skip_item p (advance_age it)).2) k
        bump_volatility with
    | error e =>
      rw [h3] at h
      cases h
    | ok md2 =>
      rw [h3] at h
      simp only [] at h
      have hinv2 : items_inv_but md2 none :=
        modify_item_items h3 (fun it2 _ => ⟨rfl, rfl, rfl, fun _ => rfl⟩) hinv1
      obtain ⟨it2, hit2, hit3, -, -, -⟩ := modify_item_item_at h3 bump_volatility_key
      rw [hit1] at hit2
      cases hit2
      cases h5 : modify_item md2 k (set_old_hash hash) with
      | error e =>
        rw [h5] at h
        cases h
      | ok md3 =>
        rw [h5] at h
        cases h
        exact modify_item_items h5 (fun it4 hit4 => ⟨rfl, rfl, rfl, fun hu => by
          rw [hit3] at hit4
          cases hit4
          exact (hnu _ hit1 hu).elim⟩) hinv2
  · cases h5 : modify_item (set_item md (should_skip_item p (advance_age it)).2) k
        (set_old_hash hash) with
    | error e =>
      rw [h5] at h
      cases h
    | ok md3 =>
      rw [h5] at h
      cases h
      exact modify_item_items h5 (fun it4 hit4 => ⟨rfl, rfl, rfl, fun hu =>
        (hnu _ hit4 hu).elim⟩) hinv1

theorem remove_item_from_node_not_sharer {md md1 : ksm_metadata} {x : Option item_key}
    {a : Nat} {k : item_key} {it : rmap_item} (hinv : items_inv_but md x)
    (hit : item_at md k = .ok it) (hp : it.stable_node = some a)
    (h : remove_item_from_node md a k = .ok md1) :
    ∀ b n, node_at md1 b = some n → k ∉ n.sharing_item_tree := by
  unfold remove_item_from_node at h
  obtain ⟨node, hnode, h2⟩ := bind_eq_ok h
  cases h2
  have hn : node_at md a = some node := (deref_node_eq _ _ _).1 hnode
  intro b n hb hk
  rw [node_at_set_node b (node_at_lt hn)] at hb
  by_cases hba : b = a
  · rw [if_pos hba] at hb
    cases hb
    exact ((mem_g_tree_remove _ _ _).1 hk).2 rfl
  · rw [if_neg hba] at hb
    obtain ⟨it2, hit2, -, hp2⟩ := hinv.1 b n hb k hk
    rw [hit] at hit2
    cases hit2
    rw [hp] at hp2
    exact hba (Option.some.inj hp2).symm

theorem detach_stable_items {md : ksm_metadata} {log_table : ksm_log_table} {k : item_key}
    {a : Nat} {r : ksm_metadata × ksm_log_table} {it : rmap_item}
    (h : detach_stable md log_table k a = .ok r)
    (hit : item_at md k = .ok it) (hs : it.state = item_state.Stable)
    (hp : it.stable_node = some a) (hinv : items_inv_but md none) :
    items_inv_but r.1 none ∧
    ∃ it2, item_at r.1 k = .ok it2 ∧ it2.state = item_state.Volatile := by
  unfold detach_stable at h
  obtain ⟨md1, h1, h2⟩ := bind_eq_ok h
  have hw1 := remove_item_from_node_sharers h1
  have hinv1 : items_inv_but md1 none := items_inv_of_sharers_within hw1 hinv
  have hns := remove_item_from_node_not_sharer hinv hit hp h1
  have hit1 : item_at md1 k = .ok it := (sharers_within_item_at hw1 k).trans hit
  obtain ⟨md2, h3, h4⟩ := bind_eq_ok h2
  unfold modify_item at h3
  rw [hit1] at h3
  cases h3
  have hk : (reset_item_state it).key = k := (reset_item_state_key it).trans (item_at_key hit)
  have hinv2 : items_inv_but (set_item md1 (reset_item_state it)) none :=
    items_inv_set_item_volatile hit1 hk rfl (by rw [hs]; exact fun e => by cases e) hns hinv1
  have hit2 : item_at (set_item md1 (reset_item_state it)) k = .ok (reset_item_state it) :=
    item_at_set_item hit1 hk
  obtain ⟨item, -, h5⟩ := bind_eq_ok h4
  obtain ⟨node, -, h6⟩ := bind_eq_ok h5
  dsimp only at h6
  have hfin : ∀ (md3 md4 : ksm_metadata),
      sharers_within (set_item md1 (reset_item_state it)) md3 →
      modify_item md3 k bump_volatility = .ok md4 →
      items_inv_but md4 none ∧
      ∃ it2, item_at md4 k = .ok it2 ∧ it2.state = item_state.Volatile := by
    intro md3 md4 hw hm
    have hinv3 : items_inv_but md3 none := items_inv_of_sharers_within hw hinv2
    refine ⟨modify_item_items hm (fun _ _ => ⟨rfl, rfl, rfl, fun _ => rfl⟩) hinv3, ?_⟩
    obtain ⟨it3, hit3, hit4, -, -, -⟩ := modify_item_item_at hm bump_volatility_key
    rw [sharers_within_item_at hw, hit2] at hit3
    cases hit3
    exact ⟨_, hit4, rfl⟩
  split_ifs at h6
  · obtain ⟨logged, h7, h8⟩ := bind_eq_ok h6
    obtain ⟨md3, h10, h11⟩ := bind_eq_ok h8
    cases h11
    exact hfin _ _ (remove_stale_node_and_log_sharers h7).1 h10
  · obtain ⟨log1, -, h8⟩ := bind_eq_ok h6
    obtain ⟨logged, h7, h9⟩ := bind_eq_ok h8
    cases h7
    obtain ⟨md3, h10, h11⟩ := bind_eq_ok h9
    cases h11
    exact hfin _ _ (sharers_within_refl _) h10

theorem cmp_and_merge_one_items {p : ksm_params} {md : ksm_metadata}
    {log_table : ksm_log_table} {hash : hash_pair} {k : item_key}
    {r : ksm_metadata × ksm_log_table}
    (h : cmp_and_merge_one p md log_table hash k = .ok r)
    (hinv : items_inv_but md none) : items_inv_but r.1 none := by
  unfold cmp_and_merge_one at h
  obtain ⟨item, hit, h2⟩ := bind_eq_ok h
  cases hs : item.state with
  | None =>
    rw [hs] at h2
    cases h2
  | Unstable =>
    rw [hs] at h2
    cases h2
  | Volatile =>
    rw [hs] at h2
    exact cmp_and_merge_volatile_items h2 hit hs hinv
  | Stable =>
    rw [hs] at h2
    simp only [] at h2
    cases hsn : item.stable_node with
    | none =>
      rw [hsn] at h2
      cases h2
    | some a =>
      rw [hsn] at h2
      simp only [] at h2
      obtain ⟨node, -, h3⟩ := bind_eq_ok h2
      split_ifs at h3
      · obtain ⟨detached, h4, h5⟩ := bind_eq_ok h3
        obtain ⟨hinv1, it2, hit2, hs2⟩ := detach_stable_items h4 hit hs hsn hinv
        exact cmp_and_merge_volatile_items h5 hit2 hs2 hinv1
      · obtain ⟨md1, h4, h5⟩ := bind_eq_ok h3
        obtain ⟨md2, h6, h7⟩ := bind_eq_ok h5
        cases h7
        exact modify_item_items h6 (fun it2 _ => ⟨calm_volatility_key it2,
          calm_volatility_state it2, calm_volatility_stable_node it2,
          fun _ => calm_volatility_old_hash it2⟩) (refresh_stable_items h4 hinv)

theorem find_rmap_tree_insert (item : rmap_item) (k2 : item_key) :
    ∀ tree : List rmap_item, tree.find? (fun x => decide (x.key = item.key)) = none →
      (rmap_tree_insert tree item).find? (fun x => decide (x.key = k2)) =
        if k2 = item.key then some item else tree.find? (fun x => decide (x.key = k2)) := by
  intro tree
  induction tree with
  | nil =>
    intro _
    unfold rmap_tree_insert
    by_cases hk : k2 = item.key
    · rw [if_pos hk, hk]
      simp
    · rw [if_neg hk]
      have : item.key ≠ k2 := fun e => hk e.symm
      simp [this]
  | cons y ys ih =>
    intro hnone
    have hy : y.key ≠ item.key := by
      intro e
      rw [List.find?_cons] at hnone
      simp [e] at hnone
    have hys : ys.find? (fun x => decide (x.key = item.key)) = none := by
      rw [List.find?_cons] at hnone
      simpa [hy] using hnone
    unfold rmap_tree_insert
    by_cases c1 : rmap_item_compare item.key y.key < 0
    · rw [if_pos c1]
      by_cases hk : k2 = item.key
      · rw [if_pos hk, hk]
        simp
      · rw [if_neg hk]
        have : item.key ≠ k2 := fun e => hk e.symm
        simp [List.find?_cons, this]
    · rw [if_neg c1]
      by_cases c2 : rmap_item_compare item.key y.key = 0
      · exact (hy ((rmap_item_compare_eq_zero_iff _ _).1 c2).symm).elim
      · rw [if_neg c2, List.find?_cons, ih hys]
        by_cases hk : k2 = item.key
        · rw [if_pos hk, if_pos hk]
          have : y.key ≠ k2 := by rw [hk]; exact hy
          simp [this]
        · rw [if_neg hk, if_neg hk, List.find?_cons]

theorem items_inv_new_item {md md1 : ksm_metadata} {x : Option item_key} {new : rmap_item}
    (hnone : ∀ it, item_at md new.key ≠ .ok it) (hs : new.state = item_state.Volatile)
    (hitems : ∀ k2, item_at md1 k2 = if k2 = new.key then .ok new else item_at md k2)
    (hn : ∀ b, node_at md1 b = node_at md b)
    (hu : md1.unstable_hash_table = md.unstable_hash_table)
    (hinv : items_inv_but md x) : items_inv_but md1 x := by
  obtain ⟨hS, hU1, hU5, hU3, hX⟩ := hinv
  refine ⟨?_, ?_, ?_, by rw [hu]; exact hU3, by rw [hu]; exact hX⟩
  · intro a n hna k hk
    rw [hn] at hna
    obtain ⟨it, hit, h1, h2⟩ := hS a n hna k hk
    rw [hitems k]
    by_cases hkk : k = new.key
    · rw [hkk] at hit
      exact (hnone it hit).elim
    · rw [if_neg hkk]
      exact ⟨it, hit, h1, h2⟩
  · intro k it hit hst
    rw [hitems k] at hit
    rw [hu]
    by_cases hkk : k = new.key
    · rw [if_pos hkk] at hit
      cases hit
      rw [hs] at hst
      cases hst
    · rw [if_neg hkk] at hit
      exact hU1 k it hit hst
  · intro e he
    rw [hu] at he
    obtain ⟨it, hit, h1, h2⟩ := hU5 e he
    rw [hitems e.2.2]
    by_cases hkk : e.2.2 = new.key
    · rw [hkk] at hit
      exact (hnone it hit).elim
    · rw [if_neg hkk]
      exact ⟨it, hit, h1, h2⟩

theorem lookup_rmap_item_items (cb : rdma_cb) (raw : rmap_item) (mm_id : Int)
    (pte : shadow_pte) (hinv : items_inv_but cb.metadata none) :
    items_inv_but (lookup_rmap_item cb raw mm_id pte).1.metadata none := by
  unfold lookup_rmap_item
  dsimp only
  cases hl : g_tree_lookup cb.metadata.rmap_tree (mm_id, pte.va) with
  | some item =>
    dsimp only
    have h0 : item_at cb.metadata (mm_id, pte.va) = .ok item := (item_at_eq _ _ _).2 hl
    exact items_inv_set_item_neutral h0
      ((touch_item_key _ _ _).trans (item_at_key h0)) rfl rfl (fun _ => rfl) hinv
  | none =>
    dsimp only
    have hnone : ∀ it, item_at cb.metadata (new_rmap_item raw mm_id pte.va).key ≠ .ok it := by
      intro it hit
      rw [item_at_eq] at hit
      have hk : (new_rmap_item raw mm_id pte.va).key = (mm_id, pte.va) := rfl
      rw [hk, hl] at hit
      cases hit
    have hfind : cb.metadata.rmap_tree.find?
        (fun x => decide (x.key = (new_rmap_item raw mm_id pte.va).key)) = none := by
      rw [← g_tree_lookup_eq]
      exact hl
    have hitems : ∀ k2, item_at
        { cb.metadata with
          rmap_tree := rmap_tree_insert cb.metadata.rmap_tree
            (new_rmap_item raw mm_id pte.va) } k2 =
        if k2 = (new_rmap_item raw mm_id pte.va).key
          then .ok (new_rmap_item raw mm_id pte.va) else item_at cb.metadata k2 := by
      intro k2
      unfold item_at
      rw [g_tree_lookup_eq, g_tree_lookup_eq]
      dsimp only
      rw [find_rmap_tree_insert _ k2 _ hfind]
      split_ifs <;> rfl
    have hinv1 := @items_inv_new_item cb.metadata
      { cb.metadata with
        rmap_tree := rmap_tree_insert cb.metadata.rmap_tree
          (new_rmap_item raw mm_id pte.va) } none (new_rmap_item raw mm_id pte.va)
      hnone rfl hitems (fun _ => rfl) rfl hinv
    have h0 := hitems (new_rmap_item raw mm_id pte.va).key
    rw [if_pos rfl] at h0
    exact items_inv_set_item_neutral h0 rfl rfl rfl (fun _ => rfl) hinv1

theorem worker_step_items {p : ksm_params} {cb cb1 : rdma_cb} {raw : rmap_item}
    {mm_id : Int} {pte : shadow_pte} {hash : hash_pair}
    (hinv : items_inv_but cb.metadata none)
    (h : worker_step p cb raw mm_id pte hash = .ok cb1) :
    items_inv_but cb1.metadata none := by
  unfold worker_step at h
  dsimp only at h
  obtain ⟨merged, h1, h2⟩ := bind_eq_ok h
  cases h2
  exact cmp_and_merge_one_items h1 (lookup_rmap_item_items cb raw mm_id pte hinv)

theorem not_unstable_of_empty_index {md : ksm_metadata} (hinv : items_inv_but md none)
    (hidx : md.unstable_hash_table = []) {k : item_key} {it : rmap_item}
    (hit : item_at md k = .ok it) : it.state ≠ item_state.Unstable := by
  intro hs
  rcases hinv.2.1 k it hit hs with h | ⟨e, he, -⟩
  · cases h
  · rw [hidx] at he
    cases he

theorem undo_merge_one_items {md : ksm_metadata} {log_table : ksm_log_table}
    {entry : ksm_event_log} {r : ksm_metadata × ksm_log_table}
    (h : undo_merge_one md log_table entry = .ok r)
    (hinv : items_inv_but md none) (hidx : md.unstable_hash_table = []) :
    items_inv_but r.1 none ∧ r.1.unstable_hash_table = [] := by
  unfold undo_merge_one at h
  cases hl : g_tree_lookup md.rmap_tree (entry.from_mm_id, entry.from_va) with
  | none =>
    rw [hl] at h
    cases h
  | some item =>
    rw [hl] at h
    dsimp only at h
    have hit : item_at md (entry.from_mm_id, entry.from_va) = .ok item :=
      (item_at_eq _ _ _).2 hl
    have hkey : item.key = (entry.from_mm_id, entry.from_va) := item_at_key hit
    rw [hkey] at h
    cases hsn : item.stable_node with
    | none =>
      rw [hsn] at h
      cases h
    | some a =>
      rw [hsn] at h
      dsimp only at h
      obtain ⟨node, -, h2⟩ := bind_eq_ok h
      split_ifs at h2
      obtain ⟨md1, h3, h4⟩ := bind_eq_ok h2
      have hw1 := remove_item_from_node_sharers h3
      have hinv1 : items_inv_but md1 none := items_inv_of_sharers_within hw1 hinv
      have hns := remove_item_from_node_not_sharer hinv hit hsn h3
      have hit1 : item_at md1 (entry.from_mm_id, entry.from_va) = .ok item :=
        (sharers_within_item_at hw1 _).trans hit
      obtain ⟨md2, h5, h6⟩ := bind_eq_ok h4
      unfold modify_item at h5
      rw [hit1] at h5
      cases h5
      have hinv2 : items_inv_but
          (set_item md1 (bump_volatility (reset_item_state item))) none :=
        items_inv_set_item_volatile hit1 hkey rfl
          (not_unstable_of_empty_index hinv hidx hit) hns hinv1
      have hidx2 : (set_item md1 (bump_volatility (reset_item_state item))).unstable_hash_table
          = [] := by
        rw [set_item_unstable_hash_table, hw1.2.1]
        exact hidx
      obtain ⟨item2, -, h7⟩ := bind_eq_ok h6
      obtain ⟨node2, -, h8⟩ := bind_eq_ok h7
      split_ifs at h8
      · obtain ⟨hw3, -⟩ := remove_stale_node_and_log_sharers h8
        exact ⟨items_inv_of_sharers_within hw3 hinv2, hw3.2.1.trans hidx2⟩
      · cases h8
        exact ⟨hinv2, hidx2⟩

theorem reset_each_item_state_items (a : Nat) {x : Option item_key} :
    ∀ (l : List item_key) (md md1 : ksm_metadata), reset_each_item_state md l = .ok md1 →
      (∀ k ∈ l, ∀ b n, node_at md b = some n → b ≠ a → k ∉ n.sharing_item_tree) →
      items_inv_but (free_node md a) x → items_inv_but (free_node md1 a) x := by
  intro l
  induction l with
  | nil =>
    intro md md1 h _ hinv
    cases h
    exact hinv
  | cons k ks ih =>
    intro md md1 h hl hinv
    unfold reset_each_item_state at h
    obtain ⟨item, hit, h2⟩ := bind_eq_ok h
    split_ifs at h2 with hs
    · cases h2
      exact hinv
    · have hst : item.state = item_state.Stable := by
        by_contra hne
        exact hs hne
      refine ih _ _ h2 ?_ ?_
      · intro k2 hk2 b n hn hb
        rw [node_at_set_item] at hn
        exact hl k2 (List.mem_cons_of_mem _ hk2) b n hn hb
      · have hk : item.key = k := item_at_key hit
        have hstep : items_inv_but
            (set_item (free_node md a) (bump_volatility (reset_item_state item))) x := by
          refine items_inv_set_item_volatile (by rw [item_at_free_node]; exact hit)
            hk rfl (by rw [hst]; exact fun e => by cases e) ?_ hinv
          intro b n hn
          rw [node_at_free_node md a b] at hn
          by_cases hb : b = a
          · rw [if_pos hb] at hn
            cases hn
          · rw [if_neg hb] at hn
            exact hl k (List.mem_cons_self _ _) b n hn hb
        exact hstep

theorem reset_each_item_state_unstable :
    ∀ (l : List item_key) (md md1 : ksm_metadata), reset_each_item_state md l = .ok md1 →
      md1.unstable_hash_table = md.unstable_hash_table := by
  intro l
  induction l with
  | nil =>
    intro md md1 h
    cases h
    rfl
  | cons k ks ih =>
    intro md md1 h
    unfold reset_each_item_state at h
    obtain ⟨item, -, h2⟩ := bind_eq_ok h
    split_ifs at h2
    · cases h2
      rfl
    · have h3 := ih _ _ h2
      exact h3

theorem undo_merge_two_items {md : ksm_metadata} {log_table : ksm_log_table}
    {entry : ksm_event_log} {r : ksm_metadata × ksm_log_table}
    (h : undo_merge_two md log_table entry = .ok r)
    (hinv : items_inv_but md none) (hidx : md.unstable_hash_table = []) :
    items_inv_but r.1 none ∧ r.1.unstable_hash_table = [] := by
  unfold undo_merge_two at h
  cases hl : g_tree_lookup md.rmap_tree (entry.from_mm_id, entry.from_va) with
  | none =>
    rw [hl] at h
    cases h
  | some item =>
    rw [hl] at h
    dsimp only at h
    cases hsn : item.stable_node with
    | none =>
      rw [hsn] at h
      cases h
    | some a =>
      rw [hsn] at h
      dsimp only at h
      obtain ⟨node, hnode, h2⟩ := bind_eq_ok h
      have hn : node_at md a = some node := (deref_node_eq _ _ _).1 hnode
      obtain ⟨md1, h3, h4⟩ := bind_eq_ok h2
      obtain ⟨md2, h5, h6⟩ := bind_eq_ok h4
      cases h6
      have hinv1 : items_inv_but (free_node md1 a) none := by
        refine reset_each_item_state_items a _ _ _ h3 ?_
          (items_inv_of_sharers_within (free_node_sharers md a) hinv)
        intro k hk b n hnb hb hkb
        obtain ⟨it1, hit1, -, hp1⟩ := hinv.1 a node hn k hk
        obtain ⟨it2, hit2, -, hp2⟩ := hinv.1 b n hnb k hkb
        rw [hit1] at hit2
        cases hit2
        rw [hp1] at hp2
        exact hb (Option.some.inj hp2).symm
      obtain ⟨hw, hfreed⟩ := remove_stable_node_no_item_sharers h5
      have hu1 : md1.unstable_hash_table = [] := by
        have := reset_each_item_state_unstable _ _ _ h3
        rw [this]
        exact hidx
      refine ⟨?_, hw.2.1.trans hu1⟩
      refine @items_inv_nodes (free_node md1 a) md2 none ?_ ?_ ?_ hinv1
      · rw [free_node_rmap_tree]
        exact hw.1
      · rw [free_node_unstable]
        exact hw.2.1
      · intro b n2 hn2 k hk
        obtain ⟨n, hnn, hkn⟩ := hw.2.2 b n2 hn2 k hk
        have hb : b ≠ a := by
          intro e
          rw [e, hfreed] at hn2
          cases hn2
        exact ⟨n, by rw [node_at_free_node md1 a b, if_neg hb]; exact hnn, hkn⟩

theorem do_handle_error_entry_items {md : ksm_metadata} {log_table : ksm_log_table}
    {entry : ksm_event_log} {r : ksm_metadata × ksm_log_table}
    (h : do_handle_error_entry md log_table entry = .ok r)
    (hinv : items_inv_but md none) (hidx : md.unstable_hash_table = []) :
    items_inv_but r.1 none ∧ r.1.unstable_hash_table = [] := by
  unfold do_handle_error_entry at h
  split_ifs at h
  · exact undo_merge_one_items h hinv hidx
  · exact undo_merge_two_items h hinv hidx

theorem clean_up_unstable_tree_items {md md1 : ksm_metadata}
    (h : clean_up_unstable_tree md = .ok md1) (hinv : items_inv_but md none) :
    items_inv_but md1 none ∧ md1.unstable_hash_table = [] := by
  obtain ⟨hS, hU1, hU5, -, -⟩ := hinv
  obtain ⟨md2, hrun, hempty, hnodes, -, -, hother, hno⟩ :=
    @clean_up_unstable_tree_ok md (fun e he => by
      obtain ⟨it, hit, -, -⟩ := hU5 e he
      exact ⟨it, hit⟩)
  rw [hrun] at h
  cases h
  refine ⟨⟨?_, ?_, ?_, ?_, ?_⟩, hempty⟩
  · intro a n hn k hk
    rw [node_at_congr hnodes a] at hn
    obtain ⟨it, hit, hs, hp⟩ := hS a n hn k hk
    rw [hother k (by
      intro e he hek
      obtain ⟨it2, hit2, hs2, -⟩ := hU5 e he
      rw [hek, hit] at hit2
      cases hit2
      rw [hs] at hs2
      cases hs2)]
    exact ⟨it, hit, hs, hp⟩
  · intro k it hit hs
    exact (hno (fun k2 it2 hit2 hs2 => by
      rcases hU1 k2 it2 hit2 hs2 with e | e
      · cases e
      · exact e) k it hit hs).elim
  · intro e he
    rw [hempty] at he
    cases he
  · intro e he
    rw [hempty] at he
    cases he
  · intro e he
    rw [hempty] at he
    cases he

theorem items_inv_filter {md : ksm_metadata} {k : item_key}
    (hinv : items_inv_but md none) (hidx : md.unstable_hash_table = [])
    (hns : ∀ b n, node_at md b = some n → k ∉ n.sharing_item_tree) :
    items_inv_but
      { md with rmap_tree := md.rmap_tree.filter (fun x => rmap_item_compare x.key k ≠ 0) }
      none := by
  obtain ⟨hS, hU1, -, -, -⟩ := hinv
  have hitem : ∀ k2, k2 ≠ k → item_at
      { md with rmap_tree := md.rmap_tree.filter (fun x => rmap_item_compare x.key k ≠ 0) }
      k2 = item_at md k2 := by
    intro k2 hk2
    unfold item_at
    rw [g_tree_lookup_eq, g_tree_lookup_eq]
    dsimp only
    rw [find_filter_key, if_neg hk2]
  refine ⟨?_, ?_, ?_, ?_, ?_⟩
  · intro a n hn k2 hk2
    have hn0 : node_at md a = some n := hn
    have hne : k2 ≠ k := by
      intro e
      rw [e] at hk2
      exact hns a n hn0 hk2
    rw [hitem k2 hne]
    exact hS a n hn0 k2 hk2
  · intro k2 it hit hs
    have h2 := (@item_at_of_filter md
      { md with rmap_tree := md.rmap_tree.filter (fun x => rmap_item_compare x.key k ≠ 0) }
      k rfl k2 it hit).2
    exact hU1 k2 it h2 hs
  · intro e he
    have he0 : e ∈ md.unstable_hash_table := he
    rw [hidx] at he0
    cases he0
  · intro e he
    have he0 : e ∈ md.unstable_hash_table := he
    rw [hidx] at he0
    cases he0
  · intro e he
    have he0 : e ∈ md.unstable_hash_table := he
    rw [hidx] at he0
    cases he0

theorem prune_rmap_items_consistent :
    ∀ (ks : List item_key) (md : ksm_metadata) (log_table : ksm_log_table)
      (r : ksm_metadata × ksm_log_table),
      prune_rmap_items md log_table ks = .ok r →
      items_inv_but md none → md.unstable_hash_table = [] →
      items_inv_but r.1 none ∧ r.1.unstable_hash_table = [] := by
  intro ks
  induction ks with
  | nil =>
    intro md log_table r h hinv hidx
    cases h
    exact ⟨hinv, hidx⟩
  | cons k ks ih =>
    intro md log_table r h hinv hidx
    have hstep : ∀ (y : ksm_metadata × ksm_log_table), sharers_within md y.1 →
        (∀ b n, node_at y.1 b = some n → k ∉ n.sharing_item_tree) →
        prune_rmap_items
          { y.1 with
            rmap_tree := y.1.rmap_tree.filter (fun x => rmap_item_compare x.key k ≠ 0) }
          y.2 ks = .ok r →
        items_inv_but r.1 none ∧ r.1.unstable_hash_table = [] := by
      intro y hw hns h4
      have hinvy : items_inv_but y.1 none := items_inv_of_sharers_within hw hinv
      have hidxy : y.1.unstable_hash_table = [] := hw.2.1.trans hidx
      exact ih _ _ _ h4 (items_inv_filter hinvy hidxy hns) hidxy
    unfold prune_rmap_items at h
    obtain ⟨item, hit, h2⟩ := bind_eq_ok h
    dsimp only at h2
    cases hsn : item.stable_node with
    | none =>
      rw [hsn] at h2
      dsimp only at h2
      obtain ⟨y, hy, h4⟩ := bind_eq_ok h2
      cases hy
      refine hstep _ (sharers_within_refl md) ?_ h4
      intro b n hn hk
      obtain ⟨it2, hit2, -, hp2⟩ := hinv.1 b n hn k hk
      rw [hit] at hit2
      cases hit2
      rw [hsn] at hp2
      cases hp2
    | some a =>
      rw [hsn] at h2
      dsimp only at h2
      split_ifs at h2 with hst
      · obtain ⟨md1, h5, h6⟩ := bind_eq_ok h2
        have hw1 := remove_item_from_node_sharers h5
        have hns1 := remove_item_from_node_not_sharer hinv hit hsn h5
        obtain ⟨node, -, h7⟩ := bind_eq_ok h6
        split_ifs at h7
        · obtain ⟨y, hy, h4⟩ := bind_eq_ok h7
          obtain ⟨hw2, -⟩ := remove_stale_node_and_log_sharers hy
          refine hstep y (sharers_within_trans hw1 hw2) ?_ h4
          intro b n hn hk
          obtain ⟨n1, hn1, hk1⟩ := hw2.2.2 b n hn k hk
          exact hns1 b n1 hn1 hk1
        · obtain ⟨y, hy, h4⟩ := bind_eq_ok h7
          cases hy
          exact hstep _ hw1 hns1 h4
      · obtain ⟨y, hy, h4⟩ := bind_eq_ok h2
        cases hy
        refine hstep _ (sharers_within_refl md) ?_ h4
        intro b n hn hk
        obtain ⟨it2, hit2, hs2, -⟩ := hinv.1 b n hn k hk
        rw [hit] at hit2
        cases hit2
        exact hst hs2

theorem prune_metadata_items {cb cb1 : rdma_cb} (h : prune_metadata cb = .ok cb1)
    (hinv : items_inv_but cb.metadata none) :
    items_inv_but cb1.metadata none ∧ cb1.metadata.unstable_hash_table = [] := by
  unfold prune_metadata at h
  obtain ⟨md1, h1, h2⟩ := bind_eq_ok h
  obtain ⟨hinv1, hidx1⟩ := clean_up_unstable_tree_items h1 hinv
  split_ifs at h2
  · obtain ⟨pruned, h3, h4⟩ := bind_eq_ok h2
    cases h4
    unfold prune_rmap_tree at h3
    obtain ⟨keys, -, h5⟩ := bind_eq_ok h3
    exact prune_rmap_items_consistent _ _ _ _ h5 hinv1 hidx1
  · cases h2
    exact ⟨hinv1, hidx1⟩

theorem engine_run_append (p : ksm_params) :
    ∀ (l1 l2 : List engine_op) (cb : rdma_cb),
      engine_run p cb (l1 ++ l2) =
        (engine_run p cb l1).bind (fun cb1 => engine_run p cb1 l2) := by
  intro l1
  induction l1 with
  | nil => intro l2 cb; rfl
  | cons op ops ih =>
    intro l2 cb
    have e1 : engine_run p cb (op :: (ops ++ l2)) =
        (engine_step p cb op).bind (fun cb1 => engine_run p cb1 (ops ++ l2)) := rfl
    have e2 : engine_run p cb (op :: ops) =
        (engine_step p cb op).bind (fun cb1 => engine_run p cb1 ops) := rfl
    rw [List.cons_append, e1, e2]
    cases engine_step p cb op with
    | error e => rfl
    | ok cb1 => exact ih l2 cb1

theorem engine_run_errors_items (p : ksm_params) :
    ∀ (errors : List engine_op) (cb cb1 : rdma_cb),
      (∀ op ∈ errors, is_error_op op = true) →
      engine_run p cb errors = .ok cb1 →
      items_inv_but cb.metadata none → cb.metadata.unstable_hash_table = [] →
      items_inv_but cb1.metadata none ∧ cb1.metadata.unstable_hash_table = [] := by
  intro errors
  induction errors with
  | nil =>
    intro cb cb1 _ h hinv hidx
    cases h
    exact ⟨hinv, hidx⟩
  | cons op ops ih =>
    intro cb cb1 hall h hinv hidx
    unfold engine_run at h
    obtain ⟨cb2, h1, h2⟩ := bind_eq_ok h
    have hop := hall op (List.mem_cons_self _ _)
    cases op with
    | error_entry entry =>
      unfold engine_step at h1
      obtain ⟨handled, h3, h4⟩ := bind_eq_ok h1
      cases h4
      obtain ⟨hinv2, hidx2⟩ := do_handle_error_entry_items h3 hinv hidx
      exact ih _ _ (fun o ho => hall o (List.mem_cons_of_mem _ ho)) h2 hinv2 hidx2
    | page raw mm_id pte hash => cases hop
    | prune => cases hop
    | next_cycle => cases hop

theorem engine_run_pages_items (p : ksm_params) :
    ∀ (pages : List engine_op) (cb cb1 : rdma_cb),
      (∀ op ∈ pages, is_page_op op = true) →
      engine_run p cb pages = .ok cb1 →
      items_inv_but cb.metadata none → items_inv_but cb1.metadata none := by
  intro pages
  induction pages with
  | nil =>
    intro cb cb1 _ h hinv
    cases h
    exact hinv
  | cons op ops ih =>
    intro cb cb1 hall h hinv
    unfold engine_run at h
    obtain ⟨cb2, h1, h2⟩ := bind_eq_ok h
    have hop := hall op (List.mem_cons_self _ _)
    cases op with
    | page raw mm_id pte hash =>
      exact ih _ _ (fun o ho => hall o (List.mem_cons_of_mem _ ho)) h2
        (worker_step_items hinv h1)
    | error_entry entry => cases hop
    | prune => cases hop
    | next_cycle => cases hop

theorem engine_run_scan_items (p : ksm_params) {errors pages : List engine_op}
    {cb cb1 : rdma_cb} (he : ∀ op ∈ errors, is_error_op op = true)
    (hp : ∀ op ∈ pages, is_page_op op = true)
    (h : engine_run p cb (errors ++ pages) = .ok cb1)
    (hinv : items_inv_but cb.metadata none) (hidx : cb.metadata.unstable_hash_table = []) :
    items_inv_but cb1.metadata none := by
  rw [engine_run_append] at h
  cases h1 : engine_run p cb errors with
  | error e =>
    rw [h1] at h
    cases h
  | ok cb2 =>
    rw [h1] at h
    obtain ⟨hinv2, -⟩ := engine_run_errors_items p errors cb cb2 he h1 hinv hidx
    exact engine_run_pages_items p pages cb2 cb1 hp h hinv2

theorem engine_run_cycle_items (p : ksm_params) {c : List engine_op × List engine_op}
    {cb cb1 : rdma_cb} (he : ∀ op ∈ c.1, is_error_op op = true)
    (hp : ∀ op ∈ c.2, is_page_op op = true)
    (h : engine_run p cb (cycle_ops c) = .ok cb1)
    (hinv : items_inv_but cb.metadata none) (hidx : cb.metadata.unstable_hash_table = []) :
    items_inv_but cb1.metadata none ∧ cb1.metadata.unstable_hash_table = [] := by
  unfold cycle_ops at h
  rw [← List.append_assoc, engine_run_append] at h
  cases h1 : engine_run p cb (c.1 ++ c.2) with
  | error e =>
    rw [h1] at h
    cases h
  | ok cb2 =>
    rw [h1] at h
    have hinv2 := engine_run_scan_items p he hp h1 hinv hidx
    change engine_run p cb2 [engine_op.prune, engine_op.next_cycle] = .ok cb1 at h
    unfold engine_run at h
    obtain ⟨cb3, h3, h4⟩ := bind_eq_ok h
    unfold engine_step at h3
    obtain ⟨cb4, h5, h6⟩ := bind_eq_ok h3
    cases h6
    obtain ⟨hinv4, hidx4⟩ := prune_metadata_items h5 hinv2
    unfold engine_run at h4
    obtain ⟨cb5, h7, h8⟩ := bind_eq_ok h4
    unfold engine_run at h8
    cases h8
    unfold engine_step at h7
    cases h7
    exact ⟨hinv4, hidx4⟩

/-- At the end of the scan of every cycle the items are consistent with the sharers trees
and the unstable index, whatever the storage `malloc` returns and whatever records the
error tables hold. -/
theorem scan_end_items_inv {p : ksm_params} {cb : rdma_cb} (h : ScanEnd p cb) :
    items_inv cb.metadata := by
  obtain ⟨cycles, errors, pages, hc, he, hp, hrun⟩ := h
  have hgen : ∀ (cycles : List (List engine_op × List engine_op)) (cb0 : rdma_cb),
      (∀ c ∈ cycles, (∀ op ∈ c.1, is_error_op op = true) ∧
        ∀ op ∈ c.2, is_page_op op = true) →
      items_inv_but cb0.metadata none → cb0.metadata.unstable_hash_table = [] →
      engine_run p cb0
        (cycles.foldr (fun c ops => cycle_ops c ++ ops) (errors ++ pages)) = .ok cb →
      items_inv_but cb.metadata none := by
    intro cycles
    induction cycles with
    | nil =>
      intro cb0 _ hinv hidx hr
      exact engine_run_scan_items p he hp hr hinv hidx
    | cons c cs ih =>
      intro cb0 hall hinv hidx hr
      rw [List.foldr_cons, engine_run_append] at hr
      cases h1 : engine_run p cb0 (cycle_ops c) with
      | error e =>
        rw [h1] at hr
        cases hr
      | ok cb2 =>
        rw [h1] at hr
        obtain ⟨hc1, hc2⟩ := hall c (List.mem_cons_self _ _)
        obtain ⟨hinv2, hidx2⟩ := engine_run_cycle_items p hc1 hc2 h1 hinv hidx
        exact ih cb2 (fun c2 h2 => hall c2 (List.mem_cons_of_mem _ h2)) hinv2 hidx2 hr
  refine hgen cycles initial_cb hc ?_ rfl hrun
  refine ⟨?_, ?_, ?_, ?_, ?_⟩
  · intro a n hn
    cases hn
  · intro k it hit
    cases hit
  · intro e he2
    cases he2
  · intro e he2
    cases he2
  · intro e he2
    cases he2

/-! ## C14: the unstable index after `prune_metadata` -/

/-- C14: in every state `cb` at the end of the scan of a cycle (`ScanEnd`),
`clean_up_unstable_tree` returns, and `prune_metadata` returns when the rmap tree holds at
most `RMAP_PRUNE_MARGIN` items more than were accessed; whenever `prune_metadata` returns,
the unstable index is empty, no item of the rmap tree is `Unstable`, and every item that was
in the index and is still in the tree is `Volatile`; the passage to the next cycle leaves
the index empty, so the next scan starts with an empty unstable index. -/
theorem C14_prune_metadata_empties_unstable_index (p : ksm_params) (cb : rdma_cb)
    (hscan : ScanEnd p cb) :
    (∃ md1, clean_up_unstable_tree cb.metadata = .ok md1 ∧
      md1.unstable_hash_table = [] ∧
      (∀ k item, item_at md1 k = .ok item → item.state ≠ item_state.Unstable) ∧
      (∀ e ∈ cb.metadata.unstable_hash_table, ∃ item,
        item_at md1 e.2.2 = .ok item ∧ item.state = item_state.Volatile)) ∧
    (¬ to_ulong ((cb.metadata.rmap_tree.length : Int) - (cb.total_accessed_cnt : Int))
        > RMAP_PRUNE_MARGIN →
      ∃ cb1, prune_metadata cb = .ok cb1 ∧
        ∀ e ∈ cb.metadata.unstable_hash_table, ∃ item,
          item_at cb1.metadata e.2.2 = .ok item ∧ item.state = item_state.Volatile) ∧
    (∀ cb1, prune_metadata cb = .ok cb1 →
      cb1.metadata.unstable_hash_table = [] ∧
      (∀ k item, item_at cb1.metadata k = .ok item → item.state ≠ item_state.Unstable) ∧
      (∀ e ∈ cb.metadata.unstable_hash_table, ∀ item,
        item_at cb1.metadata e.2.2 = .ok item → item.state = item_state.Volatile)) ∧
    (∀ cb2, engine_run p cb [engine_op.prune, engine_op.next_cycle] = .ok cb2 →
      cb2.metadata.unstable_hash_table = [] ∧
      (∀ k item, item_at cb2.metadata k = .ok item → item.state ≠ item_state.Unstable) ∧
      cb2.iteration = cb.iteration + 1) := by
  obtain ⟨-, hU1, hU5, -, -⟩ := scan_end_items_inv hscan
  obtain ⟨h1, h2, h3, h4⟩ := prune_metadata_unstable_index cb
    (fun e he => by
      obtain ⟨it, hit, -, -⟩ := hU5 e he
      exact ⟨it, hit⟩)
    (fun k it hit hs => by
      rcases hU1 k it hit hs with e | e
      · cases e
      · exact e)
  exact ⟨h1, h2, h3, h4 p⟩

/-- Witness of C14.  After `one_unstable_item`, one cycle and the scan of the next, the two
items are `Unstable` and in the unstable index; `prune_metadata` returns, the index is then
empty and the two items are `Volatile`. -/
theorem C14_witness_two_unstable_items :
    ∃ cb1, prune_metadata (cb_after server_params one_unstable_item) = .ok cb1 ∧
      cb1.metadata.unstable_hash_table = [] ∧
      (∃ item, item_at cb1.metadata (1, 4096) = .ok item ∧
        item.state = item_state.Volatile) ∧
      (∃ item, item_at cb1.metadata (1, 8192) = .ok item ∧
        item.state = item_state.Volatile) := by
  have hindex : (cb_after server_params one_unstable_item).metadata.unstable_hash_table =
      [(hash_a, (1, 4096), (1, 4096)), (hash_b, (1, 8192), (1, 8192))] := by rfl
  have h := C14_prune_metadata_empties_unstable_index server_params
    (cb_after server_params one_unstable_item)
    ⟨[([], [page_op 4096 10 hash_a, page_op 8192 20 hash_b])], [],
      [page_op 4096 10 hash_a, page_op 8192 20 hash_b],
      by decide, by decide, by decide, by rfl⟩
  obtain ⟨cb1, hrun, hvol⟩ := h.2.1 (by decide)
  have hempty := (h.2.2.1 cb1 hrun).1
  refine ⟨cb1, hrun, hempty, ?_, ?_⟩
  · exact hvol (hash_a, (1, 4096), (1, 4096)) (by rw [hindex]; exact List.mem_cons_self _ _)
  · exact hvol (hash_b, (1, 8192), (1, 8192))
      (by rw [hindex]; exact List.mem_cons_of_mem _ (List.mem_cons_self _ _))

/-! ## The bound on `volatility_score` along a cycle -/

theorem volatility_inv_of_item_at {md md1 : ksm_metadata}
    (h : ∀ k, item_at md1 k = item_at md k) (hq : volatility_inv md) : volatility_inv md1 :=
  fun k it hit => hq k it ((h k).symm.trans hit)

theorem volatility_inv_of_sharers_within {md md1 : ksm_metadata}
    (h : sharers_within md md1) (hq : volatility_inv md) : volatility_inv md1 :=
  volatility_inv_of_item_at (sharers_within_item_at h) hq

theorem volatility_inv_of_rmap_tree {md md1 : ksm_metadata}
    (h : md1.rmap_tree = md.rmap_tree) (hq : volatility_inv md) : volatility_inv md1 := by
  apply volatility_inv_of_item_at _ hq
  intro k
  unfold item_at
  rw [h]

theorem volatility_inv_set_item {md : ksm_metadata} {k : item_key} {it0 it1 : rmap_item}
    (h0 : item_at md k = .ok it0) (hk : it1.key = k) (hb : volatility_bounded it1)
    (hq : volatility_inv md) : volatility_inv (set_item md it1) := by
  intro k2 it2 h2
  rw [item_at_set_item_if h0 hk] at h2
  split_ifs at h2 with c
  · cases h2
    exact hb
  · exact hq k2 it2 h2

theorem modify_item_vol {md md1 : ksm_metadata} {k : item_key} {f : rmap_item → rmap_item}
    (h : modify_item md k f = .ok md1) (hf : ∀ it, (f it).key = it.key)
    (hb : ∀ it, item_at md k = .ok it → volatility_bounded it → volatility_bounded (f it))
    (hq : volatility_inv md) : volatility_inv md1 := by
  unfold modify_item at h
  obtain ⟨it, hit, h2⟩ := bind_eq_ok h
  cases h2
  exact volatility_inv_set_item hit ((hf it).trans (item_at_key hit)) (hb it hit (hq k it hit)) hq

theorem volatility_bounded_calm {it : rmap_item} (hb : volatility_bounded it) :
    volatility_bounded (calm_volatility it) ∧ (calm_volatility it).volatility_score ≤ 65534 := by
  unfold calm_volatility
  obtain ⟨h1, h2⟩ := hb
  split_ifs with c
  · refine ⟨⟨?_, fun _ => ?_⟩, ?_⟩ <;> dsimp only <;> omega
  · refine ⟨⟨h1, h2⟩, ?_⟩
    omega

theorem volatility_bounded_bump {it : rmap_item} (hs : it.state = item_state.Volatile) :
    volatility_bounded (bump_volatility it) := by
  unfold bump_volatility
  refine ⟨?_, fun hn => (hn hs).elim⟩
  dsimp only
  omega

theorem volatility_bounded_set_old_hash (hash : hash_pair) {it : rmap_item}
    (hb : volatility_bounded it) : volatility_bounded (set_old_hash hash it) := hb

theorem volatility_bounded_link {it : rmap_item} (node : stable_node) (a : Nat)
    (hv : it.volatility_score ≤ 65534) : volatility_bounded (link_item node a it) :=
  ⟨Nat.le_succ_of_le hv, fun _ => hv⟩

theorem volatility_bounded_skip (p : ksm_params) {it : rmap_item}
    (hb : volatility_bounded it) :
    volatility_bounded (should_skip_item p (advance_age it)).2 := by
  unfold volatility_bounded
  rw [should_skip_item_volatility, should_skip_item_state]
  exact hb

theorem insert_item_to_node_vol {md md1 : ksm_metadata} {a : Nat} {k : item_key}
    (h : insert_item_to_node md a k = .ok md1)
    (hv : ∀ it, item_at md k = .ok it → it.volatility_score ≤ 65534)
    (hq : volatility_inv md) : volatility_inv md1 := by
  unfold insert_item_to_node at h
  obtain ⟨it0, h0, h2⟩ := bind_eq_ok h
  obtain ⟨node, hnode, h3⟩ := bind_eq_ok h2
  split_ifs at h3 with hstate
  cases h3
  have hk : (link_item node a it0).key = k := (link_item_key _ _ _).trans (item_at_key h0)
  exact volatility_inv_of_item_at (item_at_set_node _ _ _)
    (volatility_inv_set_item h0 hk (volatility_bounded_link node a (hv it0 h0)) hq)

theorem merge_stable_vol {p : ksm_params} {md : ksm_metadata} {log_table : ksm_log_table}
    {k : item_key} {a : Nat} {r : ksm_metadata × ksm_log_table}
    (h : merge_stable p md log_table k a = .ok r)
    (hv : ∀ it, item_at md k = .ok it → it.volatility_score ≤ 65534)
    (hq : volatility_inv md) : volatility_inv r.1 := by
  unfold merge_stable at h
  obtain ⟨node, -, h2⟩ := bind_eq_ok h
  split_ifs at h2
  obtain ⟨md1, h3, h4⟩ := bind_eq_ok h2
  obtain ⟨item1, -, h5⟩ := bind_eq_ok h4
  obtain ⟨node1, -, h6⟩ := bind_eq_ok h5
  obtain ⟨log1, -, h7⟩ := bind_eq_ok h6
  cases h7
  exact insert_item_to_node_vol h3 hv hq

theorem promote_unstable_vol {md : ksm_metadata} {log_table : ksm_log_table}
    {hash : hash_pair} {k u : item_key} {r : ksm_metadata × ksm_log_table}
    (h : promote_unstable md log_table hash k u = .ok r)
    (hvk : ∀ it, item_at md k = .ok it → it.volatility_score ≤ 65534)
    (hvu : ∀ it, item_at md u = .ok it → it.volatility_score ≤ 65534)
    (hq : volatility_inv md) : volatility_inv r.1 := by
  unfold promote_unstable at h
  obtain ⟨item, -, h2⟩ := bind_eq_ok h
  obtain ⟨md1, hins, h3⟩ := bind_eq_ok h2
  obtain ⟨md2, hi1, h4⟩ := bind_eq_ok h3
  obtain ⟨md3, hi2, h5⟩ := bind_eq_ok h4
  obtain ⟨from_item, -, h6⟩ := bind_eq_ok h5
  obtain ⟨to_item, -, h7⟩ := bind_eq_ok h6
  obtain ⟨log1, -, h8⟩ := bind_eq_ok h7
  cases h8
  have hw : sharers_within md md1 :=
    sharers_within_trans (alloc_node_sharers md hash item.pfn)
      (insert_stable_node_sharers hins)
  have hq1 : volatility_inv md1 := volatility_inv_of_sharers_within hw hq
  have hq2 : volatility_inv md2 :=
    insert_item_to_node_vol hi1
      (fun it hit => hvu it ((sharers_within_item_at hw u).symm.trans hit)) hq1
  obtain ⟨hother, ⟨itu, hitu, hsu⟩, -⟩ := insert_item_to_node_item_at hi1
  refine insert_item_to_node_vol hi2 ?_ hq2
  intro it hit
  by_cases hku : k = u
  · rw [hku, hitu] at hit
    have hb := (hq2 u itu hitu).2 (by rw [hsu]; exact fun e => by cases e)
    cases hit
    exact hb
  · rw [hother k hku, sharers_within_item_at hw] at hit
    exact hvk it hit

theorem insert_unstable_node_rmap_tree {md md1 : ksm_metadata} {k : item_key}
    (h : insert_unstable_node md k = .ok md1) : md1.rmap_tree = md.rmap_tree := by
  unfold insert_unstable_node at h
  obtain ⟨item, -, h2⟩ := bind_eq_ok h
  split at h2
  · cases h2
  · cases h2
    rfl

theorem merge_candidate_vol {p : ksm_params} {md : ksm_metadata}
    {log_table : ksm_log_table} {hash : hash_pair} {k : item_key}
    {r : ksm_metadata × ksm_log_table} {it : rmap_item}
    (h : merge_candidate p md log_table hash k = .ok r)
    (hit : item_at md k = .ok it) (hs : it.state = item_state.Volatile)
    (hinv : items_inv_but md none) (hq : volatility_inv md) : volatility_inv r.1 := by
  unfold merge_candidate at h
  obtain ⟨md1, h1, h2⟩ := bind_eq_ok h
  have hinv1 : items_inv_but md1 none :=
    modify_item_items h1 (fun it _ => ⟨calm_volatility_key it, calm_volatility_state it,
      calm_volatility_stable_node it, fun _ => calm_volatility_old_hash it⟩) hinv
  have hq1 : volatility_inv md1 :=
    modify_item_vol h1 calm_volatility_key (fun _ _ hb => (volatility_bounded_calm hb).1) hq
  obtain ⟨it0, hit0, hit1, -, -, -⟩ := modify_item_item_at h1 calm_volatility_key
  rw [hit] at hit0
  cases hit0
  have hv1 : (calm_volatility it).volatility_score ≤ 65534 :=
    (volatility_bounded_calm (hq k it hit)).2
  have hs1 : (calm_volatility it).state = item_state.Volatile := by
    rw [calm_volatility_state]
    exact hs
  obtain ⟨found, -, h3⟩ := bind_eq_ok h2
  cases found with
  | some a =>
    refine merge_stable_vol h3 ?_ hq1
    intro it2 hit2
    rw [hit1] at hit2
    cases hit2
    exact hv1
  | none =>
    simp only [] at h3
    obtain ⟨md2, h4, h5⟩ := bind_eq_ok h3
    have hinv2 : items_inv_but md2 none :=
      modify_item_items h4 (fun it2 hit2 => ⟨rfl, rfl, rfl, fun hu => by
        rw [hit1] at hit2
        cases hit2
        rw [hs1] at hu
        cases hu⟩) hinv1
    have hq2 : volatility_inv md2 :=
      modify_item_vol h4 (set_old_hash_key hash) (fun _ _ hb => hb) hq1
    obtain ⟨it2, hit2, hit3, -, -, -⟩ := modify_item_item_at h4 (set_old_hash_key hash)
    rw [hit1] at hit2
    cases hit2
    obtain ⟨fu, h6, h7⟩ := bind_eq_ok h5
    obtain ⟨hnone, hsome⟩ := cmp_with_unstable_items h6 hinv2
    cases hfu : fu.1 with
    | some u =>
      rw [hfu] at h7
      obtain ⟨-, hitems, -, itn, hitn, hsn⟩ := hsome u hfu
      have hq3 : volatility_inv fu.2 := volatility_inv_of_item_at hitems hq2
      refine promote_unstable_vol h7 ?_ ?_ hq3
      · intro it4 hit4
        rw [hitems, hit3] at hit4
        cases hit4
        exact hv1
      · intro it4 hit4
        have hb := (hq2 u itn hitn).2 (by rw [hsn]; exact fun e => by cases e)
        rw [hitems, hitn] at hit4
        cases hit4
        exact hb
    | none =>
      rw [hfu] at h7
      simp only [] at h7
      have hmd : fu.2 = md2 := hnone hfu
      rw [hmd] at h7
      obtain ⟨md3, h8, h9⟩ := bind_eq_ok h7
      obtain ⟨md4, h10, h11⟩ := bind_eq_ok h9
      cases h11
      have hq3 : volatility_inv md3 := by
        refine modify_item_vol h8 (fun _ => rfl) ?_ hq2
        intro it4 hit4 _
        rw [hit3] at hit4
        cases hit4
        exact ⟨Nat.le_succ_of_le hv1, fun _ => hv1⟩
      exact volatility_inv_of_rmap_tree (insert_unstable_node_rmap_tree h10) hq3

theorem cmp_and_merge_volatile_vol {p : ksm_params} {md : ksm_metadata}
    {log_table : ksm_log_table} {hash : hash_pair} {k : item_key}
    {r : ksm_metadata × ksm_log_table} {it : rmap_item}
    (h : cmp_and_merge_volatile p md log_table hash k = .ok r)
    (hit : item_at md k = .ok it) (hs : it.state = item_state.Volatile)
    (hinv : items_inv_but md none) (hq : volatility_inv md) : volatility_inv r.1 := by
  unfold cmp_and_merge_volatile at h
  rw [hit] at h
  simp only [bind, Except.bind] at h
  have hk : (should_skip_item p (advance_age it)).2.key = k := by
    rw [should_skip_item_key, advance_age_key]
    exact item_at_key hit
  have hs1 : (should_skip_item p (advance_age it)).2.state = item_state.Volatile := by
    rw [should_skip_item_state]
    exact hs
  have hinv1 : items_inv_but (set_item md (should_skip_item p (advance_age it)).2) none :=
    items_inv_set_item_neutral hit hk (by rw [hs1, hs])
      (by rw [should_skip_item_stable_node]; rfl)
      (fun hu => by rw [hs] at hu; cases hu) hinv
  have hq1 : volatility_inv (set_item md (should_skip_item p (advance_age it)).2) :=
    volatility_inv_set_item hit hk (volatility_bounded_skip p (hq k it hit)) hq
  have hit1 := item_at_set_item hit hk
  split_ifs at h with c1 c2 c3
  · cases h
    exact hq1
  · exact merge_candidate_vol h hit1 hs1 hinv1 hq1
  · cases h3 : modify_item (set_item md (should_skip_item p (advance_age it)).2) k
        bump_volatility with
    | error e =>
      rw [h3] at h
      cases h
    | ok md2 =>
      rw [h3] at h
      simp only [] at h
      have hq2 : volatility_inv md2 := by
        refine modify_item_vol h3 bump_volatility_key ?_ hq1
        intro it2 hit2 _
        rw [hit1] at hit2
        cases hit2
        exact volatility_bounded_bump hs1
      cases h5 : modify_item md2 k (set_old_hash hash) with
      | error e =>
        rw [h5] at h
        cases h
      | ok md3 =>
        rw [h5] at h
        cases h
        exact modify_item_vol h5 (set_old_hash_key hash) (fun _ _ hb => hb) hq2
  · cases h5 : modify_item (set_item md (should_skip_item p (advance_age it)).2) k
        (set_old_hash hash) with
    | error e =>
      rw [h5] at h
      cases h
    | ok md3 =>
      rw [h5] at h
      cases h
      exact modify_item_vol h5 (set_old_hash_key hash) (fun _ _ hb => hb) hq1

theorem volatility_inv_of_map {md md1 : ksm_metadata} {g : item_key → rmap_item → rmap_item}
    (h : ∀ k, item_at md1 k = (item_at md k).map (g k))
    (hg : ∀ k it, volatility_bounded it → volatility_bounded (g k it))
    (hq : volatility_inv md) : volatility_inv md1 := by
  intro k it hit
  rw [h k] at hit
  cases hi : item_at md k with
  | error e =>
    rw [hi] at hit
    cases hit
  | ok it0 =>
    rw [hi] at hit
    cases hit
    exact hg k it0 (hq k it0 hi)

theorem rehash_chain_vol {md md1 : ksm_metadata} {head : Nat} {hash : hash_pair}
    (h : rehash_chain md head hash = .ok md1) (hq : volatility_inv md) :
    volatility_inv md1 := by
  unfold rehash_chain at h
  obtain ⟨node, -, h2⟩ := bind_eq_ok h
  obtain ⟨md2, hmd2, h3⟩ := bind_eq_ok h2
  obtain ⟨node2, -, h4⟩ := bind_eq_ok h3
  cases h4
  obtain ⟨l, -, -, hitems⟩ := update_chain_hash_items hash _ _ _ _ hmd2
  have hq0 : volatility_inv
      (set_stable_hash_table (g_hash_table_remove md.stable_hash_table node.page_hash) md) :=
    volatility_inv_of_rmap_tree rfl hq
  have hq2 : volatility_inv md2 := by
    refine volatility_inv_of_map hitems ?_ hq0
    intro k it hb
    dsimp only
    split_ifs
    · exact hb
    · exact hb
  exact volatility_inv_of_rmap_tree rfl hq2

theorem refresh_stable_vol {md md1 : ksm_metadata} {hash : hash_pair} {item : rmap_item}
    {a : Nat} (h : refresh_stable md hash item a = .ok md1) (hq : volatility_inv md) :
    volatility_inv md1 := by
  unfold refresh_stable at h
  obtain ⟨node, -, h2⟩ := bind_eq_ok h
  split_ifs at h2
  · exact rehash_chain_vol h2 hq
  · obtain ⟨head, -, h3⟩ := bind_eq_ok h2
    obtain ⟨head_node, -, h4⟩ := bind_eq_ok h3
    split_ifs at h4
    exact rehash_chain_vol h4 hq
  · cases h2
    exact hq

theorem detach_stable_vol {md : ksm_metadata} {log_table : ksm_log_table} {k : item_key}
    {a : Nat} {r : ksm_metadata × ksm_log_table}
    (h : detach_stable md log_table k a = .ok r) (hq : volatility_inv md) :
    volatility_inv r.1 := by
  unfold detach_stable at h
  obtain ⟨md1, h1, h2⟩ := bind_eq_ok h
  have hw1 := remove_item_from_node_sharers h1
  have hq1 : volatility_inv md1 := volatility_inv_of_sharers_within hw1 hq
  obtain ⟨md2, h3, h4⟩ := bind_eq_ok h2
  obtain ⟨it1, hit1, hit2, -, -, -⟩ := modify_item_item_at h3 reset_item_state_key
  have hq2 : volatility_inv md2 :=
    modify_item_vol h3 reset_item_state_key
      (fun it _ hb => ⟨hb.1, fun hn => (hn rfl).elim⟩) hq1
  obtain ⟨item, -, h5⟩ := bind_eq_ok h4
  obtain ⟨node, -, h6⟩ := bind_eq_ok h5
  dsimp only at h6
  have hfin : ∀ (md3 md4 : ksm_metadata), sharers_within md2 md3 →
      modify_item md3 k bump_volatility = .ok md4 → volatility_inv md4 := by
    intro md3 md4 hw hm
    refine modify_item_vol hm bump_volatility_key ?_ (volatility_inv_of_sharers_within hw hq2)
    intro it3 hit3 _
    rw [sharers_within_item_at hw, hit2] at hit3
    cases hit3
    exact volatility_bounded_bump rfl
  split_ifs at h6
  · obtain ⟨logged, h7, h8⟩ := bind_eq_ok h6
    obtain ⟨md3, h10, h11⟩ := bind_eq_ok h8
    cases h11
    exact hfin _ _ (remove_stale_node_and_log_sharers h7).1 h10
  · obtain ⟨log1, -, h8⟩ := bind_eq_ok h6
    obtain ⟨logged, h7, h9⟩ := bind_eq_ok h8
    cases h7
    obtain ⟨md3, h10, h11⟩ := bind_eq_ok h9
    cases h11
    exact hfin _ _ (sharers_within_refl _) h10

theorem cmp_and_merge_one_vol {p : ksm_params} {md : ksm_metadata}
    {log_table : ksm_log_table} {hash : hash_pair} {k : item_key}
    {r : ksm_metadata × ksm_log_table}
    (h : cmp_and_merge_one p md log_table hash k = .ok r)
    (hinv : items_inv_but md none) (hq : volatility_inv md) : volatility_inv r.1 := by
  unfold cmp_and_merge_one at h
  obtain ⟨item, hit, h2⟩ := bind_eq_ok h
  cases hs : item.state with
  | None =>
    rw [hs] at h2
    cases h2
  | Unstable =>
    rw [hs] at h2
    cases h2
  | Volatile =>
    rw [hs] at h2
    exact cmp_and_merge_volatile_vol h2 hit hs hinv hq
  | Stable =>
    rw [hs] at h2
    simp only [] at h2
    cases hsn : item.stable_node with
    | none =>
      rw [hsn] at h2
      cases h2
    | some a =>
      rw [hsn] at h2
      simp only [] at h2
      obtain ⟨node, -, h3⟩ := bind_eq_ok h2
      split_ifs at h3
      · obtain ⟨detached, h4, h5⟩ := bind_eq_ok h3
        obtain ⟨hinv1, it2, hit2, hs2⟩ := detach_stable_items h4 hit hs hsn hinv
        exact cmp_and_merge_volatile_vol h5 hit2 hs2 hinv1 (detach_stable_vol h4 hq)
      · obtain ⟨md1, h4, h5⟩ := bind_eq_ok h3
        obtain ⟨md2, h6, h7⟩ := bind_eq_ok h5
        cases h7
        exact modify_item_vol h6 calm_volatility_key
          (fun _ _ hb => (volatility_bounded_calm hb).1) (refresh_stable_vol h4 hq)

theorem lookup_rmap_item_vol (cb : rdma_cb) (raw : rmap_item) (mm_id : Int)
    (pte : shadow_pte) (hq : volatility_inv cb.metadata) :
    volatility_inv (lookup_rmap_item cb raw mm_id pte).1.metadata := by
  unfold lookup_rmap_item
  dsimp only
  cases hl : g_tree_lookup cb.metadata.rmap_tree (mm_id, pte.va) with
  | some item =>
    dsimp only
    have h0 : item_at cb.metadata (mm_id, pte.va) = .ok item := (item_at_eq _ _ _).2 hl
    have hb : volatility_bounded item := hq _ _ h0
    exact volatility_inv_set_item h0 ((touch_item_key _ _ _).trans (item_at_key h0)) hb hq
  | none =>
    dsimp only
    have hfind : cb.metadata.rmap_tree.find?
        (fun x => decide (x.key = (new_rmap_item raw mm_id pte.va).key)) = none := by
      rw [← g_tree_lookup_eq]
      exact hl
    have hitems : ∀ k2, item_at
        { cb.metadata with
          rmap_tree := rmap_tree_insert cb.metadata.rmap_tree
            (new_rmap_item raw mm_id pte.va) } k2 =
        if k2 = (new_rmap_item raw mm_id pte.va).key
          then .ok (new_rmap_item raw mm_id pte.va) else item_at cb.metadata k2 := by
      intro k2
      unfold item_at
      rw [g_tree_lookup_eq, g_tree_lookup_eq]
      dsimp only
      rw [find_rmap_tree_insert _ k2 _ hfind]
      split_ifs <;> rfl
    have hnew : volatility_bounded (new_rmap_item raw mm_id pte.va) := by
      refine ⟨?_, fun hn => (hn rfl).elim⟩
      unfold new_rmap_item
      dsimp only
      omega
    have hq1 : volatility_inv
        { cb.metadata with
          rmap_tree := rmap_tree_insert cb.metadata.rmap_tree
            (new_rmap_item raw mm_id pte.va) } := by
      intro k2 it2 h2
      rw [hitems k2] at h2
      split_ifs at h2
      · cases h2
        exact hnew
      · exact hq k2 it2 h2
    have h0 := hitems (new_rmap_item raw mm_id pte.va).key
    rw [if_pos rfl] at h0
    exact volatility_inv_set_item h0 rfl hnew hq1

theorem worker_step_vol {p : ksm_params} {cb cb1 : rdma_cb} {raw : rmap_item}
    {mm_id : Int} {pte : shadow_pte} {hash : hash_pair}
    (hinv : items_inv_but cb.metadata none) (hq : volatility_inv cb.metadata)
    (h : worker_step p cb raw mm_id pte hash = .ok cb1) :
    volatility_inv cb1.metadata := by
  unfold worker_step at h
  dsimp only at h
  obtain ⟨merged, h1, h2⟩ := bind_eq_ok h
  cases h2
  exact cmp_and_merge_one_vol h1 (lookup_rmap_item_items cb raw mm_id pte hinv)
    (lookup_rmap_item_vol cb raw mm_id pte hq)

theorem undo_merge_one_vol {md : ksm_metadata} {log_table : ksm_log_table}
    {entry : ksm_event_log} {r : ksm_metadata × ksm_log_table}
    (h : undo_merge_one md log_table entry = .ok r) (hq : volatility_inv md) :
    volatility_inv r.1 := by
  unfold undo_merge_one at h
  cases hl : g_tree_lookup md.rmap_tree (entry.from_mm_id, entry.from_va) with
  | none =>
    rw [hl] at h
    cases h
  | some item =>
    rw [hl] at h
    dsimp only at h
    cases hsn : item.stable_node with
    | none =>
      rw [hsn] at h
      cases h
    | some a =>
      rw [hsn] at h
      dsimp only at h
      obtain ⟨node, -, h2⟩ := bind_eq_ok h
      split_ifs at h2
      obtain ⟨md1, h3, h4⟩ := bind_eq_ok h2
      have hw1 := remove_item_from_node_sharers h3
      have hq1 : volatility_inv md1 := volatility_inv_of_sharers_within hw1 hq
      obtain ⟨md2, h5, h6⟩ := bind_eq_ok h4
      have hq2 : volatility_inv md2 :=
        modify_item_vol h5 (fun _ => rfl) (fun _ _ _ => volatility_bounded_bump rfl) hq1
      obtain ⟨item2, -, h7⟩ := bind_eq_ok h6
      obtain ⟨node2, -, h8⟩ := bind_eq_ok h7
      split_ifs at h8
      · obtain ⟨hw3, -⟩ := remove_stale_node_and_log_sharers h8
        exact volatility_inv_of_sharers_within hw3 hq2
      · cases h8
        exact hq2

theorem reset_each_item_state_vol :
    ∀ (l : List item_key) (md md1 : ksm_metadata), reset_each_item_state md l = .ok md1 →
      volatility_inv md → volatility_inv md1 := by
  intro l
  induction l with
  | nil =>
    intro md md1 h hq
    cases h
    exact hq
  | cons k ks ih =>
    intro md md1 h hq
    unfold reset_each_item_state at h
    obtain ⟨item, hit, h2⟩ := bind_eq_ok h
    split_ifs at h2 with hs
    · cases h2
      exact hq
    · have hk0 : item.key = k := item_at_key hit
      have hk : (bump_volatility (reset_item_state item)).key = k := hk0
      exact ih _ _ h2 (volatility_inv_set_item hit hk (volatility_bounded_bump rfl) hq)

theorem undo_merge_two_vol {md : ksm_metadata} {log_table : ksm_log_table}
    {entry : ksm_event_log} {r : ksm_metadata × ksm_log_table}
    (h : undo_merge_two md log_table entry = .ok r) (hq : volatility_inv md) :
    volatility_inv r.1 := by
  unfold undo_merge_two at h
  cases hl : g_tree_lookup md.rmap_tree (entry.from_mm_id, entry.from_va) with
  | none =>
    rw [hl] at h
    cases h
  | some item =>
    rw [hl] at h
    dsimp only at h
    cases hsn : item.stable_node with
    | none =>
      rw [hsn] at h
      cases h
    | some a =>
      rw [hsn] at h
      dsimp only at h
      obtain ⟨node, -, h2⟩ := bind_eq_ok h
      obtain ⟨md1, h3, h4⟩ := bind_eq_ok h2
      obtain ⟨md2, h5, h6⟩ := bind_eq_ok h4
      cases h6
      exact volatility_inv_of_sharers_within (remove_stable_node_no_item_sharers h5).1
        (reset_each_item_state_vol _ _ _ h3 hq)

theorem do_handle_error_entry_vol {md : ksm_metadata} {log_table : ksm_log_table}
    {entry : ksm_event_log} {r : ksm_metadata × ksm_log_table}
    (h : do_handle_error_entry md log_table entry = .ok r) (hq : volatility_inv md) :
    volatility_inv r.1 := by
  unfold do_handle_error_entry at h
  split_ifs at h
  · exact undo_merge_one_vol h hq
  · exact undo_merge_two_vol h hq

theorem update_item_state_vol :
    ∀ (t : GHashTable item_key) (md md1 : ksm_metadata), update_item_state md t = .ok md1 →
      volatility_inv md → volatility_inv md1 := by
  intro t
  induction t with
  | nil =>
    intro md md1 h hq
    cases h
    exact hq
  | cons e es ih =>
    intro md md1 h hq
    unfold update_item_state at h
    obtain ⟨md2, h1, h2⟩ := bind_eq_ok h
    exact ih _ _ h2
      (modify_item_vol h1 (set_state_key _) (fun _ _ hb => ⟨hb.1, fun hn => (hn rfl).elim⟩) hq)

theorem prune_metadata_vol {cb cb1 : rdma_cb} (h : prune_metadata cb = .ok cb1)
    (hq : volatility_inv cb.metadata) : volatility_inv cb1.metadata := by
  unfold prune_metadata at h
  obtain ⟨md1, h1, h2⟩ := bind_eq_ok h
  unfold clean_up_unstable_tree at h1
  obtain ⟨md0, h0, h00⟩ := bind_eq_ok h1
  cases h00
  have hq0 : volatility_inv md0 := update_item_state_vol _ _ _ h0 hq
  have hq1 : volatility_inv (set_unstable_hash_table [] md0) :=
    volatility_inv_of_rmap_tree rfl hq0
  split_ifs at h2
  · obtain ⟨pruned, h3, h4⟩ := bind_eq_ok h2
    cases h4
    unfold prune_rmap_tree at h3
    obtain ⟨keys, -, h5⟩ := bind_eq_ok h3
    intro k it hit
    exact hq1 k it ((prune_rmap_items_items _ _ _ _ h5).2 k it hit)
  · cases h2
    exact hq1

theorem engine_run_errors_vol (p : ksm_params) :
    ∀ (errors : List engine_op) (cb cb1 : rdma_cb),
      (∀ op ∈ errors, is_error_op op = true) →
      engine_run p cb errors = .ok cb1 →
      volatility_inv cb.metadata → volatility_inv cb1.metadata := by
  intro errors
  induction errors with
  | nil =>
    intro cb cb1 _ h hq
    cases h
    exact hq
  | cons op ops ih =>
    intro cb cb1 hall h hq
    unfold engine_run at h
    obtain ⟨cb2, h1, h2⟩ := bind_eq_ok h
    have hop := hall op (List.mem_cons_self _ _)
    cases op with
    | error_entry entry =>
      unfold engine_step at h1
      obtain ⟨handled, h3, h4⟩ := bind_eq_ok h1
      cases h4
      exact ih _ _ (fun o ho => hall o (List.mem_cons_of_mem _ ho)) h2
        (do_handle_error_entry_vol h3 hq)
    | page raw mm_id pte hash => cases hop
    | prune => cases hop
    | next_cycle => cases hop

theorem engine_run_pages_vol (p : ksm_params) :
    ∀ (pages : List engine_op) (cb cb1 : rdma_cb),
      (∀ op ∈ pages, is_page_op op = true) →
      engine_run p cb pages = .ok cb1 →
      items_inv_but cb.metadata none → volatility_inv cb.metadata →
      volatility_inv cb1.metadata := by
  intro pages
  induction pages with
  | nil =>
    intro cb cb1 _ h _ hq
    cases h
    exact hq
  | cons op ops ih =>
    intro cb cb1 hall h hinv hq
    unfold engine_run at h
    obtain ⟨cb2, h1, h2⟩ := bind_eq_ok h
    have hop := hall op (List.mem_cons_self _ _)
    cases op with
    | page raw mm_id pte hash =>
      exact ih _ _ (fun o ho => hall o (List.mem_cons_of_mem _ ho)) h2
        (worker_step_items hinv h1) (worker_step_vol hinv hq h1)
    | error_entry entry => cases hop
    | prune => cases hop
    | next_cycle => cases hop

theorem engine_run_scan_vol (p : ksm_params) {errors pages : List engine_op}
    {cb cb1 : rdma_cb} (he : ∀ op ∈ errors, is_error_op op = true)
    (hp : ∀ op ∈ pages, is_page_op op = true)
    (h : engine_run p cb (errors ++ pages) = .ok cb1)
    (hinv : items_inv_but cb.metadata none) (hidx : cb.metadata.unstable_hash_table = [])
    (hq : volatility_inv cb.metadata) : volatility_inv cb1.metadata := by
  rw [engine_run_append] at h
  cases h1 : engine_run p cb errors with
  | error e =>
    rw [h1] at h
    cases h
  | ok cb2 =>
    rw [h1] at h
    obtain ⟨hinv2, -⟩ := engine_run_errors_items p errors cb cb2 he h1 hinv hidx
    exact engine_run_pages_vol p pages cb2 cb1 hp h hinv2
      (engine_run_errors_vol p errors cb cb2 he h1 hq)

theorem engine_run_cycle_vol (p : ksm_params) {c : List engine_op × List engine_op}
    {cb cb1 : rdma_cb} (he : ∀ op ∈ c.1, is_error_op op = true)
    (hp : ∀ op ∈ c.2, is_page_op op = true)
    (h : engine_run p cb (cycle_ops c) = .ok cb1)
    (hinv : items_inv_but cb.metadata none) (hidx : cb.metadata.unstable_hash_table = [])
    (hq : volatility_inv cb.metadata) : volatility_inv cb1.metadata := by
  unfold cycle_ops at h
  rw [← List.append_assoc, engine_run_append] at h
  cases h1 : engine_run p cb (c.1 ++ c.2) with
  | error e =>
    rw [h1] at h
    cases h
  | ok cb2 =>
    rw [h1] at h
    have hq2 := engine_run_scan_vol p he hp h1 hinv hidx hq
    change engine_run p cb2 [engine_op.prune, engine_op.next_cycle] = .ok cb1 at h
    unfold engine_run at h
    obtain ⟨cb3, h3, h4⟩ := bind_eq_ok h
    unfold engine_step at h3
    obtain ⟨cb4, h5, h6⟩ := bind_eq_ok h3
    cases h6
    have hq4 := prune_metadata_vol h5 hq2
    unfold engine_run at h4
    obtain ⟨cb5, h7, h8⟩ := bind_eq_ok h4
    unfold engine_run at h8
    cases h8
    unfold engine_step at h7
    cases h7
    exact hq4

/-- At the end of the scan of every cycle, and so whenever `do_handle_error` reads a record,
every item has its `volatility_score` within the width of the field, and below 65535 when
it is not `Volatile`: an item is calmed before it is linked to a node or entered into the
unstable index. -/
theorem scan_end_volatility_inv {p : ksm_params} {cb : rdma_cb} (h : ScanEnd p cb) :
    volatility_inv cb.metadata := by
  obtain ⟨cycles, errors, pages, hc, he, hp, hrun⟩ := h
  have hgen : ∀ (cycles : List (List engine_op × List engine_op)) (cb0 : rdma_cb),
      (∀ c ∈ cycles, (∀ op ∈ c.1, is_error_op op = true) ∧
        ∀ op ∈ c.2, is_page_op op = true) →
      items_inv_but cb0.metadata none → cb0.metadata.unstable_hash_table = [] →
      volatility_inv cb0.metadata →
      engine_run p cb0
        (cycles.foldr (fun c ops => cycle_ops c ++ ops) (errors ++ pages)) = .ok cb →
      volatility_inv cb.metadata := by
    intro cycles
    induction cycles with
    | nil =>
      intro cb0 _ hinv hidx hq hr
      exact engine_run_scan_vol p he hp hr hinv hidx hq
    | cons c cs ih =>
      intro cb0 hall hinv hidx hq hr
      rw [List.foldr_cons, engine_run_append] at hr
      cases h1 : engine_run p cb0 (cycle_ops c) with
      | error e =>
        rw [h1] at hr
        cases hr
      | ok cb2 =>
        rw [h1] at hr
        obtain ⟨hc1, hc2⟩ := hall c (List.mem_cons_self _ _)
        obtain ⟨hinv2, hidx2⟩ := engine_run_cycle_items p hc1 hc2 h1 hinv hidx
        exact ih cb2 (fun c2 h2 => hall c2 (List.mem_cons_of_mem _ h2)) hinv2 hidx2
          (engine_run_cycle_vol p hc1 hc2 h1 hinv hidx hq) hr
  refine hgen cycles initial_cb hc ?_ rfl ?_ hrun
  · refine ⟨?_, ?_, ?_, ?_, ?_⟩
    · intro a n hn
      cases hn
    · intro k it hit
      cases hit
    · intro e he2
      cases he2
    · intro e he2
      cases he2
    · intro e he2
      cases he2
  · intro k it hit
    cases hit

/-! ## Reconciliation of a rejected stable merge: the claim -/

/-- C11: a `HOST_MERGE_ONE_FAILED` record that names an existing item linked to the live
node `N`, with `N.pfn` equal to the record's `kpfn` and `N.shared_cnt >= 1`, in a state
whose chains and index are well formed.  `do_handle_error` returns; the item is then
`Volatile` with no `stable_node` and `old_hash = null_hash`, its `volatility_score` is one
higher (modulo `2 ^ 16`; exactly one higher below 65535, so 1 for an item that had 0; and
exactly one higher for every `Stable` item and every sharer of `N` when the state is one the
engine has reached in a run made of cycles, `scan_end_volatility_inv`), and the other items
and the unstable index are unchanged.  When `N.shared_cnt` was 1 the node is
freed, is no value of the stable index and is linked to no node, and exactly one record
`DPU_STALE_STABLE_NODE` with the item's key and `N.pfn` is appended to the log.  Otherwise
`N` stays, with `shared_cnt` one lower (2 when it was 3), without the item's key in its
sharers tree and with its other sharers, its `pfn`, `page_hash` and chain links as before;
the log and the stable index are unchanged. -/
theorem C11_merge_one_failed_unlinks_item (md : ksm_metadata) (log_table : ksm_log_table)
    (entry : ksm_event_log) (item : rmap_item) (N : Nat) (n : stable_node)
    (hinv : chain_inv md)
    (htype : entry.type = HOST_MERGE_ONE_FAILED)
    (hitem : g_tree_lookup md.rmap_tree (entry.from_mm_id, entry.from_va) = some item)
    (hN : item.stable_node = some N) (hn : node_at md N = some n)
    (hpfn : n.pfn = entry.kpfn) (hcnt : 1 ≤ n.shared_cnt) :
    ∃ md1 log1 item1,
      do_handle_error_entry md log_table entry = .ok (md1, log1) ∧
      item_at md1 (entry.from_mm_id, entry.from_va) = .ok item1 ∧
      item1.state = item_state.Volatile ∧ item1.stable_node = none ∧
      item1.old_hash = null_hash ∧
      item1.volatility_score = (item.volatility_score + 1) % 65536 ∧
      (item.volatility_score < 65535 →
        item1.volatility_score = item.volatility_score + 1) ∧
      (item.volatility_score = 0 → item1.volatility_score = 1) ∧
      ((∃ p cb, ScanEnd p cb ∧ cb.metadata = md) →
        item.state = item_state.Stable ∨
          (entry.from_mm_id, entry.from_va) ∈ n.sharing_item_tree →
        item1.volatility_score = item.volatility_score + 1) ∧
      (∀ k2, k2 ≠ (entry.from_mm_id, entry.from_va) → item_at md1 k2 = item_at md k2) ∧
      md1.unstable_hash_table = md.unstable_hash_table ∧
      (n.shared_cnt = 1 →
        node_at md1 N = none ∧ (∀ e ∈ md1.stable_hash_table, e.2.2 ≠ N) ∧
        (∀ a m, node_at md1 a = some m →
          m.chain.next ≠ some N ∧ m.chain.prev ≠ some N) ∧
        log1.entries = log_table.entries ++
          [{ type := DPU_STALE_STABLE_NODE, from_va := entry.from_va, kpfn := n.pfn,
             from_mm_id := entry.from_mm_id, shared_cnt := 0 }]) ∧
      (n.shared_cnt ≠ 1 →
        ∃ n1, node_at md1 N = some n1 ∧ n1.shared_cnt = n.shared_cnt - 1 ∧
          (n.shared_cnt = 3 → n1.shared_cnt = 2) ∧
          (∀ x, x ∈ n1.sharing_item_tree ↔
            x ∈ n.sharing_item_tree ∧ x ≠ (entry.from_mm_id, entry.from_va)) ∧
          n1.pfn = n.pfn ∧ n1.page_hash = n.page_hash ∧ n1.chain = n.chain ∧
          (∀ a, a ≠ N → node_at md1 a = node_at md a) ∧
          log1 = log_table ∧ md1.stable_hash_table = md.stable_hash_table) := by
  have hk : item.key = (entry.from_mm_id, entry.from_va) := g_tree_lookup_key hitem
  have hia : item_at md (entry.from_mm_id, entry.from_va) = .ok item :=
    (item_at_eq _ _ _).2 hitem
  have hNlt := node_at_lt hn
  -- the state after `remove_item_from_node`, `reset_item_state` and the bump
  have hi1 : item_at (set_node md N (drop_sharer item.key n)) item.key = .ok item := by
    rw [item_at_set_node, hk]
    exact hia
  have hi2 : item_at (set_item (set_node md N (drop_sharer item.key n))
      (bump_volatility (reset_item_state item))) item.key =
      .ok (bump_volatility (reset_item_state item)) :=
    item_at_set_item hi1 rfl
  have hn2 : node_at (set_item (set_node md N (drop_sharer item.key n))
      (bump_volatility (reset_item_state item))) N = some (drop_sharer item.key n) := by
    rw [node_at_set_item]
    exact node_at_set_node_same _ hNlt
  have hinv2 : chain_inv (set_item (set_node md N (drop_sharer item.key n))
      (bump_volatility (reset_item_state item))) :=
    @chain_inv_congr _ (set_node md N (drop_sharer item.key n)) rfl rfl
      (@chain_inv_set_node md N n (drop_sharer item.key n) hn rfl rfl hinv)
  have hother : ∀ k2, k2 ≠ (entry.from_mm_id, entry.from_va) →
      item_at (set_item (set_node md N (drop_sharer item.key n))
        (bump_volatility (reset_item_state item))) k2 = item_at md k2 := by
    intro k2 hk2
    rw [item_at_set_item_ne _ _ _ (by
      show item.key ≠ k2
      rw [hk]
      exact Ne.symm hk2), item_at_set_node]
  have hvol : (bump_volatility (reset_item_state item)).volatility_score =
      (item.volatility_score + 1) % 65536 := rfl
  have hstep : ∀ r, (if (drop_sharer item.key n).shared_cnt = 0 then
        remove_stale_node_and_log (set_item (set_node md N (drop_sharer item.key n))
          (bump_volatility (reset_item_state item))) log_table N
          (bump_volatility (reset_item_state item))
      else .ok (set_item (set_node md N (drop_sharer item.key n))
          (bump_volatility (reset_item_state item)), log_table)) = r →
      do_handle_error_entry md log_table entry = r := by
    intro r hr
    unfold do_handle_error_entry
    rw [htype]
    simp only [HOST_MERGE_ONE_FAILED, HOST_STALE_STABLE_NODE, HOST_NO_STABLE_NODE,
      Nat.reduceEqDiff, if_false, if_true]
    unfold undo_merge_one
    rw [hitem]
    simp only [hN, deref_node_of hn, bind, Except.bind]
    rw [if_neg (by rw [hpfn]; exact fun h => h rfl), if_neg (by omega)]
    unfold remove_item_from_node
    simp only [deref_node_of hn, bind, Except.bind]
    rw [modify_item_ok hi1]
    simp only [hi2, deref_node_of hn2]
    exact hr
  have hv1 : item.volatility_score < 65535 →
      (item.volatility_score + 1) % 65536 = item.volatility_score + 1 :=
    fun hlt => Nat.mod_eq_of_lt (by omega)
  have hexact : (∃ p cb, ScanEnd p cb ∧ cb.metadata = md) →
      item.state = item_state.Stable ∨
        (entry.from_mm_id, entry.from_va) ∈ n.sharing_item_tree →
      (bump_volatility (reset_item_state item)).volatility_score =
        item.volatility_score + 1 := by
    intro hex hlinked
    obtain ⟨p, cb, hscan, hmd⟩ := hex
    have hitems : items_inv_but md none := by
      rw [← hmd]
      exact scan_end_items_inv hscan
    have hq : volatility_inv md := by
      rw [← hmd]
      exact scan_end_volatility_inv hscan
    have hst : item.state = item_state.Stable := by
      rcases hlinked with hs | hmem
      · exact hs
      · obtain ⟨it, hit, hs, -⟩ := hitems.1 N n hn _ hmem
        rw [hia] at hit
        cases hit
        exact hs
    have hb := (hq _ item hia).2 (by rw [hst]; exact fun e => by cases e)
    exact hvol.trans (hv1 (by omega))
  by_cases hone : n.shared_cnt = 1
  · -- the node is removed
    have hz : (drop_sharer item.key n).shared_cnt = 0 := by
      simp [drop_sharer, hone]
    obtain ⟨md3, hrm, hrt, hun, hfree, hidx, hlinks⟩ :=
      remove_stable_node_no_item_ok hinv2 hn2
    have hrun := hstep (.ok (md3, appended log_table
        { type := DPU_STALE_STABLE_NODE, from_va := entry.from_va, kpfn := n.pfn,
          from_mm_id := entry.from_mm_id, shared_cnt := 0 })) (by
      rw [if_pos hz]
      unfold remove_stale_node_and_log
      simp only [deref_node_of hn2, bind, Except.bind]
      rw [insert_ksm_log_appended _ _ (Or.inr (Or.inr (Or.inl rfl)))]
      simp only [hrm]
      have e1 : (bump_volatility (reset_item_state item)).va = entry.from_va := by
        show item.va = _
        have := congrArg Prod.snd hk
        exact this
      have e2 : (bump_volatility (reset_item_state item)).mm_id = entry.from_mm_id := by
        show item.mm_id = _
        have := congrArg Prod.fst hk
        exact this
      rw [e1, e2]
      rfl)
    have hitem3 : ∀ k2, item_at md3 k2 = item_at (set_item (set_node md N
        (drop_sharer item.key n)) (bump_volatility (reset_item_state item))) k2 := by
      intro k2
      unfold item_at
      rw [hrt]
    refine ⟨md3, _, bump_volatility (reset_item_state item), hrun, ?_, rfl, rfl, rfl, hvol,
      fun hlt => hvol.trans (hv1 hlt), fun h0 => by rw [hvol, h0], hexact, ?_, ?_, ?_, ?_⟩
    · rw [hitem3, ← hk]
      exact hi2
    · intro k2 hk2
      rw [hitem3]
      exact hother k2 hk2
    · rw [hun]
      rfl
    · intro _
      exact ⟨hfree, hidx, hlinks, rfl⟩
    · intro hne
      exact absurd hone hne
  · -- the node stays
    have hz : (drop_sharer item.key n).shared_cnt ≠ 0 := by
      simp only [drop_sharer]
      omega
    have hrun := hstep _ (by rw [if_neg hz])
    refine ⟨_, _, bump_volatility (reset_item_state item), hrun, ?_, rfl, rfl, rfl, hvol,
      fun hlt => hvol.trans (hv1 hlt), fun h0 => by rw [hvol, h0], hexact, hother, rfl, ?_, ?_⟩
    · rw [← hk]
      exact hi2
    · intro h1
      exact absurd h1 hone
    · intro _
      refine ⟨drop_sharer item.key n, hn2, rfl, ?_, ?_, rfl, rfl, rfl, ?_, rfl, rfl⟩
      · intro h3
        simp only [drop_sharer, h3]
        rfl
      · intro x
        rw [← hk]
        exact mem_g_tree_remove _ _ _
      · intro a ha
        rw [node_at_set_item, node_at_set_node_ne _ _ (Ne.symm ha)]

/-- Witness of C11.  After `three_sharers` node 0 has three sharers: the record for the page
`12288` leaves it with `shared_cnt = 2` and appends nothing, and the item is `Volatile` with
`volatility_score = 1`.  After the records for `12288` and `8192` the node has one sharer:
the record for `4096` frees it and appends `DPU_STALE_STABLE_NODE`. -/
theorem C11_witness_third_sharer_rejected :
    (∃ md1 item1 n1,
      do_handle_error_entry (cb_after server_params three_sharers).metadata
        (cb_after server_params three_sharers).log_table (merge_one_failed 12288) =
        .ok (md1, (cb_after server_params three_sharers).log_table) ∧
      item_at md1 (1, 12288) = .ok item1 ∧ item1.state = item_state.Volatile ∧
      item1.volatility_score = 1 ∧ node_at md1 0 = some n1 ∧ n1.shared_cnt = 2) ∧
    (∃ md1 log1,
      do_handle_error_entry
        (cb_after server_params (three_sharers ++
          [engine_op.error_entry (merge_one_failed 12288),
           engine_op.error_entry (merge_one_failed 8192)])).metadata
        (cb_after server_params (three_sharers ++
          [engine_op.error_entry (merge_one_failed 12288),
           engine_op.error_entry (merge_one_failed 8192)])).log_table
        (merge_one_failed 4096) = .ok (md1, log1) ∧
      node_at md1 0 = none ∧
      log1.entries =
        [{ type := DPU_STALE_STABLE_NODE, from_va := 4096, kpfn := 20, from_mm_id := 1,
           shared_cnt := 0 }]) := by
  constructor
  · obtain ⟨md1, log1, item1, hrun, hit, hs, -, -, -, -, -, hex, -, -, -, hstay⟩ :=
      C11_merge_one_failed_unlinks_item (cb_after server_params three_sharers).metadata
        (cb_after server_params three_sharers).log_table (merge_one_failed 12288)
        ⟨1, 2, 2, 12288, 20, 30, hash_a, item_state.Stable, 0, 0, some 0⟩ 0
        ⟨hash_a, 3, 20, [(1, 4096), (1, 8192), (1, 12288)],
          ⟨node_chain_type.HEAD, none, none⟩⟩
        (by decide) (by rfl) (by rfl) (by rfl) (by rfl) (by rfl) (by decide)
    obtain ⟨n1, hn1, -, h32, -, -, -, -, -, hlog, -⟩ := hstay (by decide)
    rw [hlog] at hrun
    have hscan : ScanEnd server_params (cb_after server_params three_sharers) :=
      ⟨[([], [page_op 4096 10 hash_a, page_op 8192 20 hash_a]),
        ([], [page_op 4096 10 hash_a, page_op 8192 20 hash_a, page_op 12288 30 hash_a]),
        ([], [page_op 4096 20 hash_a, page_op 8192 20 hash_a, page_op 12288 30 hash_a])],
        [], [], by decide, by decide, by decide, by rfl⟩
    exact ⟨md1, item1, n1, hrun, hit, hs, hex ⟨_, _, hscan, rfl⟩ (Or.inl rfl), hn1, h32 rfl⟩
  · obtain ⟨md1, log1, item1, hrun, -, -, -, -, -, -, -, -, -, -, hfreed, -⟩ :=
      C11_merge_one_failed_unlinks_item
        (cb_after server_params (three_sharers ++
          [engine_op.error_entry (merge_one_failed 12288),
           engine_op.error_entry (merge_one_failed 8192)])).metadata
        (cb_after server_params (three_sharers ++
          [engine_op.error_entry (merge_one_failed 12288),
           engine_op.error_entry (merge_one_failed 8192)])).log_table
        (merge_one_failed 4096)
        ⟨1, 2, 2, 4096, 20, 10, hash_a, item_state.Stable, 0, 0, some 0⟩ 0
        ⟨hash_a, 1, 20, [(1, 4096)], ⟨node_chain_type.HEAD, none, none⟩⟩
        (by decide) (by rfl) (by rfl) (by rfl) (by rfl) (by rfl) (by decide)
    obtain ⟨hfree, -, -, hlog⟩ := hfreed rfl
    exact ⟨md1, log1, hrun, hfree, hlog⟩

/-! ## The volatility score of a page that changes in every cycle -/

theorem changing_hash_ne (n : Nat) : changing_hash n ≠ changing_hash (n + 1) := by
  unfold changing_hash
  have h : n % 2 = 0 ∨ n % 2 = 1 := by omega
  rcases h with h | h
  · have h2 : (n + 1) % 2 ≠ 0 := by omega
    rw [if_pos h, if_neg h2]
    decide
  · have h1 : n % 2 ≠ 0 := by omega
    have h2 : (n + 1) % 2 = 0 := by omega
    rw [if_neg h1, if_pos h2]
    decide

theorem changing_hash_ne_null (n : Nat) : changing_hash n ≠ null_hash := by
  unfold changing_hash
  split_ifs <;> decide

set_option maxRecDepth 2000 in
theorem to_short_succ (x : Int) : to_short (to_short x + 1) = to_short (x + 1) := by
  unfold to_short
  omega

/-- One more cycle of `changing_page`: the hash is stored and `volatility_score` goes up by
one modulo `2 ^ 16`. -/
theorem changed_cb_step (n : Nat) :
    engine_run no_skip_params (changed_cb n)
      [page_op 4096 10 (changing_hash (n + 1)), engine_op.prune, engine_op.next_cycle] =
      .ok (changed_cb (n + 1)) := by
  have hitem : item_at
      (set_item (changed_cb n).metadata
        (touch_item (changed_cb n).iteration 10
          ⟨1, to_short n, to_short (n + 1), 4096, 10, 0, changing_hash n,
            item_state.Volatile, n % 65536, 0, none⟩)) (1, 4096) =
      .ok (touch_item (changed_cb n).iteration 10
          ⟨1, to_short n, to_short (n + 1), 4096, 10, 0, changing_hash n,
            item_state.Volatile, n % 65536, 0, none⟩) := by rfl
  have hmerge := volatile_stores_hash no_skip_params _ (changed_cb n).log_table
    (changing_hash (n + 1)) (1, 4096) _ hitem rfl (changing_hash_ne n)
  have hnn : (touch_item (changed_cb n).iteration 10
      ⟨1, to_short n, to_short (n + 1), 4096, 10, 0, changing_hash n,
        item_state.Volatile, n % 65536, 0, none⟩).old_hash ≠ null_hash :=
    changing_hash_ne_null n
  rw [if_neg hnn] at hmerge
  have hone := (cmp_and_merge_one_volatile (changed_cb n).log_table
    (changing_hash (n + 1)) hitem rfl).trans hmerge
  have hstep := @worker_step_found no_skip_params (changed_cb n) zero_item 1 ⟨4096, 10⟩
    (changing_hash (n + 1)) _ (by rfl) _ _ hone
  have hop : engine_step no_skip_params (changed_cb n)
      (page_op 4096 10 (changing_hash (n + 1))) =
      .ok { metadata :=
              { rmap_tree :=
                  [⟨1, to_short (n + 1), to_short (to_short (n + 1) + 1), 4096, 10, 0,
                    changing_hash (n + 1), item_state.Volatile, (n % 65536 + 1) % 65536, 0,
                    none⟩],
                nodes := [], stable_hash_table := [], unstable_hash_table := [] },
            log_table := { entries := [], capacity := 1024 },
            iteration := n + 1,
            total_accessed_cnt := 1 } := hstep
  have h1 : to_short (to_short ((n : Int) + 1) + 1) = to_short (((n + 1 : Nat) : Int) + 1) := by
    rw [to_short_succ]
    push_cast
    rfl
  have h2 : to_short ((n : Int) + 1) = to_short ((n + 1 : Nat) : Int) := by
    push_cast
    rfl
  have h3 : (n % 65536 + 1) % 65536 = (n + 1) % 65536 := by omega
  have h4 : ((n : Int) + 1 + 1) = ((n + 1 : Nat) : Int) + 1 := by
    push_cast
    rfl
  unfold engine_run
  rw [hop]
  unfold changed_cb
  rw [← h1, ← h2, ← h3, ← h4]
  rfl

/-- The run `changing_page` from the initial control block ends in `changed_cb`. -/
theorem changing_page_run (n : Nat) :
    engine_run no_skip_params initial_cb (changing_page (n + 1)) = .ok (changed_cb n) := by
  induction n with
  | zero => rfl
  | succ n ih =>
    have e : changing_page (n + 1 + 1) = changing_page (n + 1) ++
        [page_op 4096 10 (changing_hash (n + 1)), engine_op.prune, engine_op.next_cycle] := rfl
    rw [e, engine_run_append, ih]
    exact changed_cb_step n

/-- Counterexample to C19: the bump is the C statement `volatility_score += 1` on an
`unsigned short`, and the engine reaches the largest value.  With the skip optimisation
disabled, after the 65536 cycles of `changing_page`, in each of which the page `4096` has a
content other than in the cycle before, the engine is in `changed_cb 65535`.  There
`lookup_rmap_item` returns the item of the page, which is `Volatile`, is not skipped, holds
`hash_b` (not `null_hash`) and has `volatility_score = 65535`.  The page now has the content
of `hash_a`: `cmp_and_merge_one` stores `hash_a`, keeps the item `Volatile` and leaves
`volatility_score = 0`, not one more than before. -/
theorem C19_counterexample_changing_page :
    engine_run no_skip_params initial_cb (changing_page 65536) = .ok (changed_cb 65535) ∧
    lookup_rmap_item (changed_cb 65535) zero_item 1 ⟨4096, 10⟩ =
      ({ metadata :=
           { rmap_tree :=
               [⟨1, 0, 0, 4096, 10, 0, hash_b, item_state.Volatile, 65535, 0, none⟩],
             nodes := [], stable_hash_table := [], unstable_hash_table := [] },
         log_table := { entries := [], capacity := 1024 },
         iteration := 65536,
         total_accessed_cnt := 1 }, (1, 4096)) ∧
    (should_skip_item no_skip_params (advance_age
      ⟨1, 0, 0, 4096, 10, 0, hash_b, item_state.Volatile, 65535, 0, none⟩)).1 = false ∧
    hash_b ≠ null_hash ∧ hash_b ≠ hash_a ∧
    cmp_and_merge_one no_skip_params
        { rmap_tree := [⟨1, 0, 0, 4096, 10, 0, hash_b, item_state.Volatile, 65535, 0, none⟩],
          nodes := [], stable_hash_table := [], unstable_hash_table := [] }
        ⟨[], 1024⟩ hash_a (1, 4096) =
      .ok ({ rmap_tree :=
               [⟨1, 0, 1, 4096, 10, 0, hash_a, item_state.Volatile, 0, 0, none⟩],
             nodes := [], stable_hash_table := [], unstable_hash_table := [] },
           ⟨[], 1024⟩) := by
  refine ⟨changing_page_run 65535, ?_, ?_, ?_, ?_, ?_⟩
  · rfl
  · rfl
  · decide
  · decide
  · rfl

/-! ## The decision log grows by doubling -/

theorem insert_ksm_log_type {table t1 : ksm_log_table} {entry : ksm_event_log}
    (h : insert_ksm_log table entry = .ok t1) : t1 = appended table entry := by
  by_cases ht : entry.type = DPU_STABLE_MERGE ∨ entry.type = DPU_UNSTABLE_MERGE ∨
      entry.type = DPU_STALE_STABLE_NODE ∨ entry.type = DPU_ITEM_STATE_CHANGE
  · rw [insert_ksm_log_appended table entry ht] at h
    cases h
    rfl
  · unfold insert_ksm_log at h
    dsimp only at h
    rw [if_neg ht] at h
    cases h

theorem log_table_inv_appended (table : ksm_log_table) (entry : ksm_event_log)
    (h : log_table_inv table) : log_table_inv (appended table entry) := by
  obtain ⟨⟨k, hk⟩, hc⟩ := h
  have hpos : 0 < 2 ^ k := Nat.pow_pos (by decide)
  unfold ksm_log_table.cnt at hc
  unfold log_table_inv appended ksm_log_table.cnt
  dsimp only
  rw [List.length_append, List.length_singleton]
  split_ifs with c
  · refine ⟨⟨k + 1, ?_⟩, ?_⟩
    · rw [hk, pow_succ]
      ring
    · omega
  · exact ⟨⟨k, hk⟩, by omega⟩

/-- A property of the log table that every append keeps is kept by every function of the
engine that returns. -/
theorem remove_stale_node_and_log_log {P : ksm_log_table → Prop}
    (hP : ∀ t e, P t → P (appended t e)) {md : ksm_metadata} {log_table : ksm_log_table}
    {a : Nat} {last_item : rmap_item} {r : ksm_metadata × ksm_log_table}
    (h : remove_stale_node_and_log md log_table a last_item = .ok r) (hl : P log_table) :
    P r.2 := by
  unfold remove_stale_node_and_log at h
  obtain ⟨node, -, h2⟩ := bind_eq_ok h
  obtain ⟨log1, h3, h4⟩ := bind_eq_ok h2
  obtain ⟨md1, -, h5⟩ := bind_eq_ok h4
  cases h5
  rw [insert_ksm_log_type h3]
  exact hP _ _ hl

theorem promote_unstable_log {P : ksm_log_table → Prop}
    (hP : ∀ t e, P t → P (appended t e)) {md : ksm_metadata} {log_table : ksm_log_table}
    {hash : hash_pair} {k u : item_key} {r : ksm_metadata × ksm_log_table}
    (h : promote_unstable md log_table hash k u = .ok r) (hl : P log_table) : P r.2 := by
  unfold promote_unstable at h
  obtain ⟨item, -, h2⟩ := bind_eq_ok h
  obtain ⟨md1, -, h3⟩ := bind_eq_ok h2
  obtain ⟨md2, -, h4⟩ := bind_eq_ok h3
  obtain ⟨md3, -, h5⟩ := bind_eq_ok h4
  obtain ⟨from_item, -, h6⟩ := bind_eq_ok h5
  obtain ⟨to_item, -, h7⟩ := bind_eq_ok h6
  obtain ⟨log1, h8, h9⟩ := bind_eq_ok h7
  cases h9
  unfold log_unstable_merge at h8
  rw [insert_ksm_log_type h8]
  exact hP _ _ hl

theorem merge_stable_log {P : ksm_log_table → Prop}
    (hP : ∀ t e, P t → P (appended t e)) {p : ksm_params} {md : ksm_metadata}
    {log_table : ksm_log_table} {k : item_key} {a : Nat} {r : ksm_metadata × ksm_log_table}
    (h : merge_stable p md log_table k a = .ok r) (hl : P log_table) : P r.2 := by
  unfold merge_stable at h
  obtain ⟨node, -, h2⟩ := bind_eq_ok h
  split_ifs at h2
  obtain ⟨md1, -, h4⟩ := bind_eq_ok h2
  obtain ⟨item1, -, h5⟩ := bind_eq_ok h4
  obtain ⟨node1, -, h6⟩ := bind_eq_ok h5
  obtain ⟨log1, h7, h8⟩ := bind_eq_ok h6
  cases h8
  unfold log_stable_merge at h7
  rw [insert_ksm_log_type h7]
  exact hP _ _ hl

theorem merge_candidate_log {P : ksm_log_table → Prop}
    (hP : ∀ t e, P t → P (appended t e)) {p : ksm_params} {md : ksm_metadata}
    {log_table : ksm_log_table} {hash : hash_pair} {k : item_key}
    {r : ksm_metadata × ksm_log_table}
    (h : merge_candidate p md log_table hash k = .ok r) (hl : P log_table) : P r.2 := by
  unfold merge_candidate at h
  obtain ⟨md1, -, h2⟩ := bind_eq_ok h
  obtain ⟨found, -, h3⟩ := bind_eq_ok h2
  cases found with
  | some a => exact merge_stable_log hP h3 hl
  | none =>
    simp only [] at h3
    obtain ⟨md2, -, h5⟩ := bind_eq_ok h3
    obtain ⟨fu, -, h7⟩ := bind_eq_ok h5
    cases hfu : fu.1 with
    | some u =>
      rw [hfu] at h7
      exact promote_unstable_log hP h7 hl
    | none =>
      rw [hfu] at h7
      simp only [] at h7
      obtain ⟨md3, -, h9⟩ := bind_eq_ok h7
      obtain ⟨md4, -, h11⟩ := bind_eq_ok h9
      cases h11
      exact hl

theorem cmp_and_merge_volatile_log {P : ksm_log_table → Prop}
    (hP : ∀ t e, P t → P (appended t e)) {p : ksm_params} {md : ksm_metadata}
    {log_table : ksm_log_table} {hash : hash_pair} {k : item_key}
    {r : ksm_metadata × ksm_log_table}
    (h : cmp_and_merge_volatile p md log_table hash k = .ok r) (hl : P log_table) :
    P r.2 := by
  unfold cmp_and_merge_volatile at h
  obtain ⟨it, -, h2⟩ := bind_eq_ok h
  dsimp only at h2
  split_ifs at h2 with c1 c2 c3
  · cases h2
    exact hl
  · exact merge_candidate_log hP h2 hl
  · obtain ⟨md2, -, h4⟩ := bind_eq_ok h2
    obtain ⟨md3, -, h5⟩ := bind_eq_ok h4
    cases h5
    exact hl
  · obtain ⟨md2, -, h4⟩ := bind_eq_ok h2
    obtain ⟨md3, -, h5⟩ := bind_eq_ok h4
    cases h5
    exact hl

theorem detach_stable_log {P : ksm_log_table → Prop}
    (hP : ∀ t e, P t → P (appended t e)) {md : ksm_metadata} {log_table : ksm_log_table}
    {k : item_key} {a : Nat} {r : ksm_metadata × ksm_log_table}
    (h : detach_stable md log_table k a = .ok r) (hl : P log_table) : P r.2 := by
  unfold detach_stable at h
  obtain ⟨md1, -, h2⟩ := bind_eq_ok h
  obtain ⟨md2, -, h4⟩ := bind_eq_ok h2
  obtain ⟨item, -, h5⟩ := bind_eq_ok h4
  obtain ⟨node, -, h6⟩ := bind_eq_ok h5
  dsimp only at h6
  split_ifs at h6
  · obtain ⟨logged, h7, h8⟩ := bind_eq_ok h6
    obtain ⟨md3, -, h11⟩ := bind_eq_ok h8
    cases h11
    have h12 := remove_stale_node_and_log_log hP h7 hl
    exact h12
  · obtain ⟨log1, h7, h8⟩ := bind_eq_ok h6
    obtain ⟨logged, h9, h10⟩ := bind_eq_ok h8
    cases h9
    obtain ⟨md3, -, h11⟩ := bind_eq_ok h10
    cases h11
    unfold log_item_state_change at h7
    rw [insert_ksm_log_type h7]
    exact hP _ _ hl

theorem cmp_and_merge_one_log {P : ksm_log_table → Prop}
    (hP : ∀ t e, P t → P (appended t e)) {p : ksm_params} {md : ksm_metadata}
    {log_table : ksm_log_table} {hash : hash_pair} {k : item_key}
    {r : ksm_metadata × ksm_log_table}
    (h : cmp_and_merge_one p md log_table hash k = .ok r) (hl : P log_table) : P r.2 := by
  unfold cmp_and_merge_one at h
  obtain ⟨item, -, h2⟩ := bind_eq_ok h
  cases hs : item.state with
  | None =>
    rw [hs] at h2
    cases h2
  | Unstable =>
    rw [hs] at h2
    cases h2
  | Volatile =>
    rw [hs] at h2
    exact cmp_and_merge_volatile_log hP h2 hl
  | Stable =>
    rw [hs] at h2
    simp only [] at h2
    cases hsn : item.stable_node with
    | none =>
      rw [hsn] at h2
      cases h2
    | some a =>
      rw [hsn] at h2
      simp only [] at h2
      obtain ⟨node, -, h3⟩ := bind_eq_ok h2
      split_ifs at h3
      · obtain ⟨detached, h4, h5⟩ := bind_eq_ok h3
        exact cmp_and_merge_volatile_log hP h5 (detach_stable_log hP h4 hl)
      · obtain ⟨md1, -, h5⟩ := bind_eq_ok h3
        obtain ⟨md2, -, h7⟩ := bind_eq_ok h5
        cases h7
        exact hl

theorem do_handle_error_entry_log {P : ksm_log_table → Prop}
    (hP : ∀ t e, P t → P (appended t e)) {md : ksm_metadata} {log_table : ksm_log_table}
    {entry : ksm_event_log} {r : ksm_metadata × ksm_log_table}
    (h : do_handle_error_entry md log_table entry = .ok r) (hl : P log_table) : P r.2 := by
  unfold do_handle_error_entry at h
  split_ifs at h
  · unfold undo_merge_one at h
    cases hlk : g_tree_lookup md.rmap_tree (entry.from_mm_id, entry.from_va) with
    | none =>
      rw [hlk] at h
      cases h
    | some item =>
      rw [hlk] at h
      dsimp only at h
      cases hsn : item.stable_node with
      | none =>
        rw [hsn] at h
        cases h
      | some a =>
        rw [hsn] at h
        dsimp only at h
        obtain ⟨node, -, h2⟩ := bind_eq_ok h
        split_ifs at h2
        obtain ⟨md1, -, h4⟩ := bind_eq_ok h2
        obtain ⟨md2, -, h6⟩ := bind_eq_ok h4
        obtain ⟨item2, -, h7⟩ := bind_eq_ok h6
        obtain ⟨node2, -, h8⟩ := bind_eq_ok h7
        split_ifs at h8
        · exact remove_stale_node_and_log_log hP h8 hl
        · cases h8
          exact hl
  · unfold undo_merge_two at h
    cases hlk : g_tree_lookup md.rmap_tree (entry.from_mm_id, entry.from_va) with
    | none =>
      rw [hlk] at h
      cases h
    | some item =>
      rw [hlk] at h
      dsimp only at h
      cases hsn : item.stable_node with
      | none =>
        rw [hsn] at h
        cases h
      | some a =>
        rw [hsn] at h
        dsimp only at h
        obtain ⟨node, -, h2⟩ := bind_eq_ok h
        obtain ⟨md1, -, h4⟩ := bind_eq_ok h2
        obtain ⟨md2, -, h6⟩ := bind_eq_ok h4
        cases h6
        exact hl

theorem prune_rmap_items_log {P : ksm_log_table → Prop}
    (hP : ∀ t e, P t → P (appended t e)) :
    ∀ (ks : List item_key) (md : ksm_metadata) (log_table : ksm_log_table)
      (r : ksm_metadata × ksm_log_table),
      prune_rmap_items md log_table ks = .ok r → P log_table → P r.2 := by
  intro ks
  induction ks with
  | nil =>
    intro md log_table r h hl
    cases h
    exact hl
  | cons k ks ih =>
    intro md log_table r h hl
    unfold prune_rmap_items at h
    obtain ⟨item, -, h2⟩ := bind_eq_ok h
    dsimp only at h2
    cases hsn : item.stable_node with
    | none =>
      rw [hsn] at h2
      dsimp only at h2
      obtain ⟨y, hy, h4⟩ := bind_eq_ok h2
      cases hy
      exact ih _ _ _ h4 hl
    | some a =>
      rw [hsn] at h2
      dsimp only at h2
      split_ifs at h2 with hst
      · obtain ⟨md1, -, h6⟩ := bind_eq_ok h2
        obtain ⟨node, -, h7⟩ := bind_eq_ok h6
        split_ifs at h7
        · obtain ⟨y, hy, h4⟩ := bind_eq_ok h7
          exact ih _ _ _ h4 (remove_stale_node_and_log_log hP hy hl)
        · obtain ⟨y, hy, h4⟩ := bind_eq_ok h7
          cases hy
          exact ih _ _ _ h4 hl
      · obtain ⟨y, hy, h4⟩ := bind_eq_ok h2
        cases hy
        exact ih _ _ _ h4 hl

theorem engine_step_log {P : ksm_log_table → Prop}
    (hP : ∀ t e, P t → P (appended t e)) (hclear : ∀ t, P t → P (clear_log_table t))
    {p : ksm_params} {cb cb1 : rdma_cb} {op : engine_op}
    (h : engine_step p cb op = .ok cb1) (hl : P cb.log_table) : P cb1.log_table := by
  cases op with
  | page raw mm_id pte hash =>
    unfold engine_step worker_step at h
    dsimp only at h
    obtain ⟨merged, h1, h2⟩ := bind_eq_ok h
    cases h2
    exact cmp_and_merge_one_log hP h1 hl
  | error_entry entry =>
    unfold engine_step at h
    obtain ⟨handled, h3, h4⟩ := bind_eq_ok h
    cases h4
    exact do_handle_error_entry_log hP h3 hl
  | prune =>
    unfold engine_step at h
    obtain ⟨cb2, h3, h4⟩ := bind_eq_ok h
    cases h4
    unfold prune_metadata at h3
    obtain ⟨md1, -, h5⟩ := bind_eq_ok h3
    split_ifs at h5
    · obtain ⟨pruned, h6, h7⟩ := bind_eq_ok h5
      cases h7
      unfold prune_rmap_tree at h6
      obtain ⟨keys, -, h8⟩ := bind_eq_ok h6
      exact prune_rmap_items_log hP _ _ _ _ h8 hl
    · cases h5
      exact hl
  | next_cycle =>
    unfold engine_step at h
    cases h
    exact hclear _ hl

theorem engine_run_log {P : ksm_log_table → Prop}
    (hP : ∀ t e, P t → P (appended t e)) (hclear : ∀ t, P t → P (clear_log_table t))
    (p : ksm_params) :
    ∀ (ops : List engine_op) (cb cb1 : rdma_cb), engine_run p cb ops = .ok cb1 →
      P cb.log_table → P cb1.log_table := by
  intro ops
  induction ops with
  | nil =>
    intro cb cb1 h hl
    cases h
    exact hl
  | cons op ops ih =>
    intro cb cb1 h hl
    unfold engine_run at h
    obtain ⟨cb2, h1, h2⟩ := bind_eq_ok h
    exact ih _ _ h2 (engine_step_log hP hclear h1 hl)

theorem log_table_inv_clear (t : ksm_log_table) (h : log_table_inv t) :
    log_table_inv (clear_log_table t) :=
  ⟨h.1, Nat.zero_le _⟩

theorem reachable_log_table_inv {p : ksm_params} {cb : rdma_cb} (h : Reachable p cb) :
    log_table_inv cb.log_table := by
  obtain ⟨ops, hrun⟩ := h
  exact engine_run_log log_table_inv_appended log_table_inv_clear p ops _ _ hrun
    ⟨⟨0, rfl⟩, Nat.zero_le _⟩

/-- C21: `insert_ksm_log` with a record of a `DPU_*` type, when the doubled capacity is an
`int` in case the table has to grow (`realloc` is taken to succeed).  It returns; the
record is stored at index `cnt`, `cnt` is one higher and the records below it are
unchanged; the capacity stays an `int`; in a table with `cnt <= capacity` the capacity is
doubled when `cnt = capacity` and unchanged otherwise; a table whose capacity is
`1024 * 2 ^ k` with `cnt <= capacity` is left such a table.  `clear_log_table` sets `cnt`
to 0 and keeps the capacity.  The table `main` sets up is empty with capacity 1024, and in
every state the engine reaches the capacity is `1024 * 2 ^ k` for some `k` and
`cnt <= capacity`.  The capacity is a natural number here; `hint` states the range of the C
field for the one doubling of the insert. -/
theorem C21_insert_ksm_log_appends (table : ksm_log_table) (entry : ksm_event_log)
    (htype : entry.type = DPU_STABLE_MERGE ∨ entry.type = DPU_UNSTABLE_MERGE ∨
      entry.type = DPU_STALE_STABLE_NODE ∨ entry.type = DPU_ITEM_STATE_CHANGE)
    (hint : table.cnt ≥ table.capacity → 2 * table.capacity ≤ 2147483647) :
    (∃ t1, insert_ksm_log table entry = .ok t1 ∧
      t1.entries[table.cnt]? = some entry ∧ t1.cnt = table.cnt + 1 ∧
      (∀ i, i < table.cnt → t1.entries[i]? = table.entries[i]?) ∧
      (table.capacity ≤ 2147483647 → t1.capacity ≤ 2147483647) ∧
      (table.cnt ≤ table.capacity →
        (table.cnt = table.capacity → t1.capacity = 2 * table.capacity) ∧
        (table.cnt ≠ table.capacity → t1.capacity = table.capacity)) ∧
      (log_table_inv table → log_table_inv t1)) ∧
    (clear_log_table table).cnt = 0 ∧
    (clear_log_table table).capacity = table.capacity ∧
    (log_table_inv table → log_table_inv (clear_log_table table)) ∧
    initial_cb.log_table.capacity = 1024 ∧ initial_cb.log_table.cnt = 0 ∧
    (∀ p cb, Reachable p cb → log_table_inv cb.log_table) := by
  refine ⟨⟨appended table entry, insert_ksm_log_appended table entry htype, ?_, ?_, ?_, ?_,
    ?_, log_table_inv_appended table entry⟩, rfl, rfl, log_table_inv_clear table, rfl, rfl,
    fun p cb h => reachable_log_table_inv h⟩
  · unfold appended ksm_log_table.cnt
    dsimp only
    rw [List.getElem?_append_right (Nat.le_refl _), Nat.sub_self]
    rfl
  · unfold appended ksm_log_table.cnt
    dsimp only
    rw [List.length_append, List.length_singleton]
  · intro i hi
    unfold appended
    dsimp only
    exact List.getElem?_append_left hi
  · intro hcap
    unfold appended
    dsimp only
    split_ifs with c
    · have := hint c
      omega
    · exact hcap
  · intro hle
    unfold appended
    dsimp only
    constructor
    · intro heq
      rw [if_pos (by omega)]
      omega
    · intro hne
      rw [if_neg (by omega)]

/-- Witness of C21.  A full table of capacity 1024 takes the record at index 1024 and has
capacity 2048 afterwards. -/
theorem C21_witness_full_table_doubles :
    ∃ t1, insert_ksm_log ⟨List.replicate 1024 (merge_one_failed 0), 1024⟩
        { type := DPU_STABLE_MERGE, from_va := 4096, kpfn := 20, from_mm_id := 1,
          shared_cnt := 2 } = .ok t1 ∧
      t1.entries[1024]? =
        some { type := DPU_STABLE_MERGE, from_va := 4096, kpfn := 20, from_mm_id := 1,
               shared_cnt := 2 } ∧
      t1.cnt = 1025 ∧ t1.capacity = 2048 := by
  have hc : (⟨List.replicate 1024 (merge_one_failed 0), 1024⟩ : ksm_log_table).cnt = 1024 :=
    List.length_replicate 1024 _
  obtain ⟨⟨t1, hrun, hget, hcnt, -, -, hcap, -⟩, -⟩ :=
    C21_insert_ksm_log_appends ⟨List.replicate 1024 (merge_one_failed 0), 1024⟩
      { type := DPU_STABLE_MERGE, from_va := 4096, kpfn := 20, from_mm_id := 1,
        shared_cnt := 2 } (Or.inl rfl) (fun _ => by decide)
  rw [hc] at hget hcnt
  exact ⟨t1, hrun, hget, hcnt, (hcap (by rw [hc])).1 hc⟩

set_option maxRecDepth 2000 in
theorem sgl_nums_eq (entry_cnt : Nat) (h : entry_cnt ≤ 33554432) :
    sgl_nums entry_cnt = (((entry_cnt + 65535) / 65536 : Nat) : Int) := by
  unfold sgl_nums DIV_ROUND_UP to_int MAX_PAGES_IN_SGL
  omega

set_option maxRecDepth 2000 in
theorem window_idx_adjust (sgl_idx : Nat) (h : sgl_idx < 512) :
    to_ulong (to_int ((sgl_idx : Int) * (MAX_PAGES_IN_SGL : Int))) = sgl_idx * 65536 := by
  unfold to_ulong to_int MAX_PAGES_IN_SGL
  omega

set_option maxRecDepth 2000 in
theorem page_sgl_size_full (entry_cnt : Nat) (n sgl_idx : Nat) (h : sgl_idx + 1 < n) :
    page_sgl_size entry_cnt (n : Int) sgl_idx = 65536 := by
  unfold page_sgl_size
  rw [if_neg (by omega)]
  rfl

set_option maxRecDepth 2000 in
theorem page_sgl_size_last (entry_cnt : Nat) (n : Nat) (hn : 1 ≤ n) (hn2 : n ≤ 512)
    (hlo : (n - 1) * 65536 ≤ entry_cnt) (hhi : entry_cnt ≤ 33554432) :
    page_sgl_size entry_cnt (n : Int) (n - 1) = entry_cnt - (n - 1) * 65536 := by
  unfold page_sgl_size
  rw [if_pos (by omega)]
  unfold to_ulong to_int MAX_PAGES_IN_SGL
  omega

theorem do_ksm_v3_windows_ok (pt_desc : shadow_pt_descriptor) (nums : Int) :
    ∀ (left sgl_idx : Nat), sgl_idx + left ≤ pt_desc.desc_entries.length →
      do_ksm_v3_windows pt_desc nums left sgl_idx =
        .ok ((List.range left).map (fun j =>
          window_job pt_desc nums (sgl_idx + j)
            (pt_desc.desc_entries.getD (sgl_idx + j) ⟨0, 0⟩))) := by
  intro left
  induction left with
  | zero => intro _ _; rfl
  | succ left ih =>
    intro sgl_idx h
    unfold do_ksm_v3_windows
    have hlt : sgl_idx < pt_desc.desc_entries.length := by omega
    rw [List.getElem?_eq_getElem hlt]
    dsimp only
    rw [ih (sgl_idx + 1) (by omega)]
    simp only [bind, Except.bind]
    rw [List.range_succ_eq_map, List.map_cons, List.map_map]
    congr 2
    · congr 1
      rw [Nat.add_zero, List.getD_eq_getElem _ _ hlt]
    · apply List.map_congr_left
      intro j _
      simp only [Function.comp]
      rw [show sgl_idx + 1 + j = sgl_idx + (j + 1) by omega]

theorem flatMap_full_windows (m : Nat) :
    (List.range m).flatMap (fun k => (List.range 65536).map (fun i => k * 65536 + i)) =
      List.range (m * 65536) := by
  induction m with
  | zero => rfl
  | succ m ih =>
    rw [List.range_succ, List.flatMap_append, ih, List.flatMap_singleton,
      Nat.succ_mul, List.range_add]

theorem flatMap_windows (size : Nat → Nat) :
    ∀ m : Nat, (∀ k, k < m → size k = 65536) →
      (List.range m).flatMap (fun k => (List.range (size k)).map (fun i => k * 65536 + i)) =
        List.range (m * 65536) := by
  intro m
  induction m with
  | zero => intro _; rfl
  | succ m ih =>
    intro h
    rw [List.range_succ, List.flatMap_append, ih (fun k hk => h k (Nat.lt_succ_of_lt hk)),
      List.flatMap_singleton, h m (Nat.lt_succ_self m), Nat.succ_mul, List.range_add]

theorem sum_windows (size : Nat → Nat) :
    ∀ m : Nat, (∀ k, k < m → size k = 65536) →
      ((List.range m).map size).sum = m * 65536 := by
  intro m
  induction m with
  | zero =>
    intro _
    rw [Nat.zero_mul]
    rfl
  | succ m ih =>
    intro h
    rw [List.range_succ, List.map_append, List.sum_append,
      ih (fun k hk => h k (Nat.lt_succ_of_lt hk)), List.map_singleton, List.sum_singleton,
      h m (Nat.lt_succ_self m), Nat.succ_mul]

set_option maxRecDepth 2000 in
theorem ksm_page_worker_pairs_eq (work : worker_job) (k : Nat)
    (hidx : work.idx_adjust = k * 65536) (hk : k < 512) (hn : work.num_pages ≤ 65536) :
    ksm_page_worker_pairs work =
      (List.range work.num_pages).map (fun i => (i, k * 65536 + i)) := by
  unfold ksm_page_worker_pairs
  apply List.map_congr_left
  intro i hi
  rw [List.mem_range] at hi
  rw [hidx, Nat.mod_eq_of_lt (by omega)]

theorem va2dma_map_entry_lt (entry_cnt : Nat) (remote_map : Nat → shadow_pte) (idx : Nat)
    (h : idx < entry_cnt) :
    va2dma_map_entry entry_cnt remote_map idx = .ok (remote_map idx) := by
  unfold va2dma_map_entry
  rw [if_pos h]

theorem do_ksm_v3_jobs_unfold (pt_desc : shadow_pt_descriptor)
    (remote_map : Nat → shadow_pte) (hcnt : 1 ≤ pt_desc.entry_cnt) :
    do_ksm_v3_jobs pt_desc remote_map =
      if (remote_map 0).va = 0 then .ok none
      else (do_ksm_v3_windows pt_desc (sgl_nums pt_desc.entry_cnt)
        (sgl_nums pt_desc.entry_cnt).toNat 0).bind (fun jobs => .ok (some jobs)) := by
  have e : do_ksm_v3_jobs pt_desc remote_map =
      (va2dma_map_entry pt_desc.entry_cnt remote_map 0).bind (fun first =>
        if first.va = 0 then .ok none
        else (do_ksm_v3_windows pt_desc (sgl_nums pt_desc.entry_cnt)
          (sgl_nums pt_desc.entry_cnt).toNat 0).bind (fun jobs => .ok (some jobs))) := rfl
  rw [e, va2dma_map_entry_lt _ _ _ hcnt]
  rfl

/-- A shadow page table whose first map entry has `va == 0` is taken for a failed read:
`do_ksm_v3` returns `-1` and no window is handed to the worker. -/
theorem do_ksm_v3_jobs_invalid_read (pt_desc : shadow_pt_descriptor)
    (remote_map : Nat → shadow_pte) (hcnt : 1 ≤ pt_desc.entry_cnt)
    (hva : (remote_map 0).va = 0) :
    do_ksm_v3_jobs pt_desc remote_map = .ok none := by
  rw [do_ksm_v3_jobs_unfold pt_desc remote_map hcnt, if_pos hva]

/-- The jobs of a shadow page table that fits its descriptor and whose first map entry has
a `va` other than 0. -/
theorem do_ksm_v3_jobs_eq (pt_desc : shadow_pt_descriptor) (remote_map : Nat → shadow_pte)
    (hcnt : 1 ≤ pt_desc.entry_cnt) (hva : (remote_map 0).va ≠ 0)
    (hdesc : pt_desc.desc_entries.length = MAX_PAGES_DESCS)
    (hfit : pt_desc.entry_cnt ≤ MAX_PAGES_DESCS * MAX_PAGES_IN_SGL) :
    do_ksm_v3_jobs pt_desc remote_map =
      .ok (some ((List.range ((pt_desc.entry_cnt + 65535) / 65536)).map (fun j =>
        window_job pt_desc (((pt_desc.entry_cnt + 65535) / 65536 : Nat) : Int) j
          (pt_desc.desc_entries.getD j ⟨0, 0⟩)))) := by
  have hE : pt_desc.entry_cnt ≤ 33554432 := hfit
  have hlen : pt_desc.desc_entries.length = 512 := hdesc
  rw [do_ksm_v3_jobs_unfold pt_desc remote_map hcnt, if_neg hva, sgl_nums_eq _ hE,
    Int.toNat_ofNat, do_ksm_v3_windows_ok pt_desc _ _ 0 (by rw [hlen]; omega)]
  simp only [Nat.zero_add]
  rfl

/-- The window loop on a descriptor that has fewer entries than windows: the loop reaches
an index past the array `desc_entries`. -/
theorem do_ksm_v3_windows_past (pt_desc : shadow_pt_descriptor) (nums : Int) :
    ∀ (left sgl_idx : Nat), sgl_idx ≤ pt_desc.desc_entries.length →
      pt_desc.desc_entries.length < sgl_idx + left →
      do_ksm_v3_windows pt_desc nums left sgl_idx = .error fault.bad_pointer := by
  intro left
  induction left with
  | zero =>
    intro sgl_idx h1 h2
    omega
  | succ left ih =>
    intro sgl_idx h1 h2
    unfold do_ksm_v3_windows
    by_cases hlt : sgl_idx < pt_desc.desc_entries.length
    · rw [List.getElem?_eq_getElem hlt]
      dsimp only
      rw [ih (sgl_idx + 1) (by omega) (by omega)]
      rfl
    · rw [List.getElem?_eq_none (by omega)]

set_option maxRecDepth 2000 in
/-- A shadow page table of more than `MAX_PAGES_DESCS * MAX_PAGES_IN_SGL` entries (the host
reports it with `pr_err` and sends it all the same) has more windows than the array
`desc_entries` has entries: the window loop of `do_ksm_v3` indexes the array past its
end. -/
theorem do_ksm_v3_jobs_past_descriptor (pt_desc : shadow_pt_descriptor)
    (remote_map : Nat → shadow_pte) (hva : (remote_map 0).va ≠ 0)
    (hdesc : pt_desc.desc_entries.length = MAX_PAGES_DESCS)
    (hbig : MAX_PAGES_DESCS * MAX_PAGES_IN_SGL < pt_desc.entry_cnt)
    (hint : pt_desc.entry_cnt ≤ 140737488289792) :
    do_ksm_v3_jobs pt_desc remote_map = .error fault.bad_pointer := by
  have hE : 33554432 < pt_desc.entry_cnt := hbig
  have hlen : pt_desc.desc_entries.length = 512 := hdesc
  have hnums : 512 < (sgl_nums pt_desc.entry_cnt).toNat := by
    unfold sgl_nums DIV_ROUND_UP to_int MAX_PAGES_IN_SGL
    omega
  rw [do_ksm_v3_jobs_unfold pt_desc remote_map (by omega), if_neg hva,
    do_ksm_v3_windows_past pt_desc _ _ 0 (Nat.zero_le _) (by rw [hlen]; omega)]
  rfl

theorem window_job_idx_adjust (pt_desc : shadow_pt_descriptor) (nums : Int) (k : Nat)
    (d : desc_entry) (h : k < 512) : (window_job pt_desc nums k d).idx_adjust = k * 65536 := by
  unfold window_job
  dsimp only
  exact window_idx_adjust k h

theorem oversized_table_past_descriptor :
    oversized_table.desc_entries.length = MAX_PAGES_DESCS ∧
    MAX_PAGES_DESCS * MAX_PAGES_IN_SGL < oversized_table.entry_cnt ∧
    do_ksm_v3_jobs oversized_table pages_from_4096 = .error fault.bad_pointer := by
  have hdesc : oversized_table.desc_entries.length = MAX_PAGES_DESCS := by
    unfold oversized_table
    simp only [List.length_map, List.length_range]
    rfl
  have hbig : MAX_PAGES_DESCS * MAX_PAGES_IN_SGL < oversized_table.entry_cnt := by
    unfold oversized_table MAX_PAGES_DESCS MAX_PAGES_IN_SGL
    norm_num
  refine ⟨hdesc, hbig, do_ksm_v3_jobs_past_descriptor oversized_table pages_from_4096 ?_
    hdesc hbig ?_⟩
  · unfold pages_from_4096
    norm_num
  · unfold oversized_table
    norm_num

/-- Counterexample to C29: the table `two_window_table` has 70000 entries and fits its
descriptor; in host memory its first entry maps the page at `va = 0`.  `do_ksm_v3` takes the
read of the map for a failed one ("Invalid page table read") and returns `-1`: no window is
handed to the worker and no map index is processed. -/
theorem C29_counterexample_first_entry_at_0 :
    1 ≤ two_window_table.entry_cnt ∧
    two_window_table.desc_entries.length = MAX_PAGES_DESCS ∧
    two_window_table.entry_cnt ≤ MAX_PAGES_DESCS * MAX_PAGES_IN_SGL ∧
    va2dma_map_entry two_window_table.entry_cnt pages_from_0 0 = .ok ⟨0, 100⟩ ∧
    va2dma_map_entry two_window_table.entry_cnt pages_from_0 1 = .ok ⟨4096, 101⟩ ∧
    do_ksm_v3_jobs two_window_table pages_from_0 = .ok none := by
  have hcnt : 1 ≤ two_window_table.entry_cnt := by
    unfold two_window_table
    norm_num
  refine ⟨hcnt, ?_, ?_, ?_, ?_,
    do_ksm_v3_jobs_invalid_read two_window_table pages_from_0 hcnt rfl⟩
  · unfold two_window_table
    simp only [List.length_map, List.length_range]
    rfl
  · unfold two_window_table MAX_PAGES_DESCS MAX_PAGES_IN_SGL
    norm_num
  · unfold va2dma_map_entry two_window_table
    rw [if_pos (by norm_num)]
    rfl
  · unfold va2dma_map_entry two_window_table
    rw [if_pos (by norm_num)]
    rfl

set_option maxRecDepth 2000 in
/-- Amended C29: a shadow page table with `entry_cnt >= 1` that fits its descriptor
(`entry_cnt <= MAX_PAGES_DESCS * MAX_PAGES_IN_SGL`, one entry of the array
`desc_entries[MAX_PAGES_DESCS]` for each window).  When the first entry of the map read from
the host has `va == 0`, `do_ksm_v3` returns `-1` and hands no window to the worker.
Otherwise the window loop returns; it hands `ceil (entry_cnt / MAX_PAGES_IN_SGL)` jobs to
the worker, each of 1 to `MAX_PAGES_IN_SGL` pages, all but the last of `MAX_PAGES_IN_SGL`
pages, `entry_cnt` pages in all; the job of window `k` carries
`idx_adjust = k * MAX_PAGES_IN_SGL` and the key and address of `desc_entries[k]`, and
`ksm_page_worker` processes its page `i` with the map index `k * MAX_PAGES_IN_SGL + i`; the
map indices processed, in the order of processing, are `0, 1, ..., entry_cnt - 1`, each an
entry of the map buffer. -/
theorem C29_valid_table_is_scanned_in_order (pt_desc : shadow_pt_descriptor)
    (remote_map : Nat → shadow_pte)
    (hcnt : 1 ≤ pt_desc.entry_cnt)
    (hdesc : pt_desc.desc_entries.length = MAX_PAGES_DESCS)
    (hfit : pt_desc.entry_cnt ≤ MAX_PAGES_DESCS * MAX_PAGES_IN_SGL) :
    ((remote_map 0).va = 0 → do_ksm_v3_jobs pt_desc remote_map = .ok none) ∧
    ((remote_map 0).va ≠ 0 →
      ∃ jobs, do_ksm_v3_jobs pt_desc remote_map = .ok (some jobs) ∧
        jobs.length = (pt_desc.entry_cnt + MAX_PAGES_IN_SGL - 1) / MAX_PAGES_IN_SGL ∧
        (∀ work ∈ jobs, 1 ≤ work.num_pages ∧ work.num_pages ≤ MAX_PAGES_IN_SGL) ∧
        (jobs.map (fun work => work.num_pages)).sum = pt_desc.entry_cnt ∧
        (∀ k work, jobs[k]? = some work →
          work.mm_id = pt_desc.mm_id ∧
          work.idx_adjust = k * MAX_PAGES_IN_SGL ∧
          (∃ d, pt_desc.desc_entries[k]? = some d ∧ work.rkey = d.pages_rkey ∧
            work.pages_addr = d.pages_base_addr) ∧
          (k + 1 < jobs.length → work.num_pages = MAX_PAGES_IN_SGL) ∧
          ksm_page_worker_pairs work =
            (List.range work.num_pages).map (fun i => (i, k * MAX_PAGES_IN_SGL + i))) ∧
        scanned_indices jobs = List.range pt_desc.entry_cnt ∧
        (∀ idx ∈ scanned_indices jobs,
          va2dma_map_entry pt_desc.entry_cnt remote_map idx = .ok (remote_map idx))) := by
  refine ⟨fun hva => do_ksm_v3_jobs_invalid_read pt_desc remote_map hcnt hva, fun hva => ?_⟩
  have hE : pt_desc.entry_cnt ≤ 33554432 := hfit
  have hlen : pt_desc.desc_entries.length = 512 := hdesc
  have hM : MAX_PAGES_IN_SGL = 65536 := rfl
  obtain ⟨n, hn⟩ : ∃ n, n = (pt_desc.entry_cnt + 65535) / 65536 := ⟨_, rfl⟩
  have hn1 : 1 ≤ n := by omega
  have hn2 : n ≤ 512 := by omega
  have hlo : (n - 1) * 65536 < pt_desc.entry_cnt := by omega
  have hhi : pt_desc.entry_cnt ≤ n * 65536 := by omega
  have hsize : ∀ j, j + 1 < n → page_sgl_size pt_desc.entry_cnt (n : Int) j = 65536 :=
    fun j hj => page_sgl_size_full _ n j hj
  have hlast : page_sgl_size pt_desc.entry_cnt (n : Int) (n - 1) =
      pt_desc.entry_cnt - (n - 1) * 65536 :=
    page_sgl_size_last _ n hn1 hn2 (Nat.le_of_lt hlo) hE
  have hbound : ∀ j, j < n → 1 ≤ page_sgl_size pt_desc.entry_cnt (n : Int) j ∧
      page_sgl_size pt_desc.entry_cnt (n : Int) j ≤ 65536 := by
    intro j hj
    by_cases hjl : j + 1 < n
    · rw [hsize j hjl]
      omega
    · have : j = n - 1 := by omega
      rw [this, hlast]
      omega
  have hsplit : List.range n = List.range (n - 1) ++ [n - 1] := by
    have : n = (n - 1) + 1 := by omega
    rw [this, List.range_succ]
    simp
  have hscan : scanned_indices ((List.range n).map (fun j =>
      window_job pt_desc (n : Int) j (pt_desc.desc_entries.getD j ⟨0, 0⟩))) =
      List.range pt_desc.entry_cnt := by
    unfold scanned_indices
    rw [List.flatMap_map]
    have hfun : ∀ j ∈ List.range n,
        (fun work => (ksm_page_worker_pairs work).map Prod.snd)
          (window_job pt_desc (n : Int) j (pt_desc.desc_entries.getD j ⟨0, 0⟩)) =
        (List.range (page_sgl_size pt_desc.entry_cnt (n : Int) j)).map
          (fun i => j * 65536 + i) := by
      intro j hj
      rw [List.mem_range] at hj
      dsimp only
      rw [ksm_page_worker_pairs_eq _ j (window_job_idx_adjust pt_desc _ j _ (by omega))
        (by omega) (hbound j hj).2, List.map_map]
      rfl
    rw [List.flatMap_congr hfun, hsplit, List.flatMap_append,
      flatMap_windows _ (n - 1) (fun k hk => hsize k (by omega)), List.flatMap_singleton,
      hlast]
    have hE2 : pt_desc.entry_cnt =
        (n - 1) * 65536 + (pt_desc.entry_cnt - (n - 1) * 65536) := by omega
    conv_rhs => rw [hE2, List.range_add]
  refine ⟨_, by rw [do_ksm_v3_jobs_eq pt_desc remote_map hcnt hva hdesc hfit, ← hn],
    ?_, ?_, ?_, ?_, hscan, ?_⟩
  · rw [List.length_map, List.length_range, hM, hn]
    rfl
  · intro work hw
    rw [List.mem_map] at hw
    obtain ⟨j, hj, rfl⟩ := hw
    rw [List.mem_range] at hj
    rw [hM]
    exact hbound j hj
  · rw [List.map_map]
    have hfun : ((fun work : worker_job => work.num_pages) ∘ fun j =>
        window_job pt_desc (n : Int) j (pt_desc.desc_entries.getD j ⟨0, 0⟩)) =
        fun j => page_sgl_size pt_desc.entry_cnt (n : Int) j := rfl
    rw [hfun, hsplit, List.map_append, List.sum_append,
      sum_windows _ (n - 1) (fun k hk => hsize k (by omega)), List.map_singleton,
      List.sum_singleton, hlast]
    omega
  · intro k work hk
    rw [List.getElem?_map] at hk
    have hkn : k < n := by
      by_contra hge
      rw [List.getElem?_eq_none (by rw [List.length_range]; omega)] at hk
      cases hk
    rw [List.getElem?_range hkn] at hk
    cases hk
    have hidx : (window_job pt_desc (n : Int) k
        (pt_desc.desc_entries.getD k ⟨0, 0⟩)).idx_adjust = k * 65536 :=
      window_job_idx_adjust pt_desc _ k _ (by omega)
    refine ⟨rfl, by rw [hM]; exact hidx, ?_, ?_, ?_⟩
    · have hkl : k < pt_desc.desc_entries.length := by omega
      refine ⟨pt_desc.desc_entries[k], List.getElem?_eq_getElem hkl, ?_, ?_⟩
      · show (pt_desc.desc_entries.getD k ⟨0, 0⟩).pages_rkey = _
        rw [List.getD_eq_getElem _ _ hkl]
      · show (pt_desc.desc_entries.getD k ⟨0, 0⟩).pages_base_addr = _
        rw [List.getD_eq_getElem _ _ hkl]
    · intro hk1
      rw [List.length_map, List.length_range] at hk1
      rw [hM]
      exact hsize k hk1
    · rw [hM]
      exact ksm_page_worker_pairs_eq _ k hidx (by omega) (hbound k hkn).2
  · intro idx hidx
    rw [hscan, List.mem_range] at hidx
    unfold va2dma_map_entry
    rw [if_pos hidx]

set_option maxRecDepth 4000 in
/-- Witness of amended C29.  A table of 70000 entries whose first page is at `va = 4096` is
read in two windows, of 65536 and of 4464 pages; the second job starts at map index 65536,
and the worker processes the map indices 0 to 69999 in order. -/
theorem C29_witness_two_windows :
    ∃ jobs, do_ksm_v3_jobs two_window_table pages_from_4096 = .ok (some jobs) ∧
      jobs.length = 2 ∧
      jobs[0]? = some ⟨1, 65536, 0, 0, 0⟩ ∧
      jobs[1]? = some ⟨1, 4464, 65536, 1, 4096⟩ ∧
      scanned_indices jobs = List.range 70000 := by
  have hfit : two_window_table.entry_cnt ≤ MAX_PAGES_DESCS * MAX_PAGES_IN_SGL := by
    unfold two_window_table MAX_PAGES_DESCS MAX_PAGES_IN_SGL
    norm_num
  have hdesc : two_window_table.desc_entries.length = MAX_PAGES_DESCS := by
    unfold two_window_table
    simp only [List.length_map, List.length_range]
    rfl
  have hcnt : 1 ≤ two_window_table.entry_cnt := by
    unfold two_window_table
    norm_num
  have hva : (pages_from_4096 0).va ≠ 0 := by
    unfold pages_from_4096
    norm_num
  obtain ⟨jobs, hrun, hlen, -, -, -, hidx, -⟩ :=
    (C29_valid_table_is_scanned_in_order two_window_table pages_from_4096 hcnt hdesc
      hfit).2 hva
  have hn : (two_window_table.entry_cnt + 65535) / 65536 = 2 := by
    unfold two_window_table
    norm_num
  have hd0 : two_window_table.desc_entries.getD 0 ⟨0, 0⟩ = ⟨0, 0⟩ := by
    unfold two_window_table
    simp
  have hd1 : two_window_table.desc_entries.getD 1 ⟨0, 0⟩ = ⟨1, 4096⟩ := by
    unfold two_window_table
    simp
  have hs0 : page_sgl_size two_window_table.entry_cnt ((2 : Nat) : Int) 0 = 65536 :=
    page_sgl_size_full _ 2 0 (by norm_num)
  have hs1 : page_sgl_size two_window_table.entry_cnt ((2 : Nat) : Int) 1 = 4464 := by
    have h := page_sgl_size_last two_window_table.entry_cnt 2 (by norm_num) (by norm_num)
      (by unfold two_window_table; norm_num) (by unfold two_window_table; norm_num)
    rw [h]
    unfold two_window_table
    norm_num
  have hjobs : jobs = [⟨1, 65536, 0, 0, 0⟩, ⟨1, 4464, 65536, 1, 4096⟩] := by
    rw [do_ksm_v3_jobs_eq two_window_table pages_from_4096 hcnt hva hdesc hfit, hn] at hrun
    cases hrun
    have hr : List.range 2 = [0, 1] := rfl
    rw [hr, List.map_cons, List.map_cons, List.map_nil]
    unfold window_job
    rw [hs0, hs1, hd0, hd1, window_idx_adjust 0 (by norm_num),
      window_idx_adjust 1 (by norm_num)]
    rfl
  refine ⟨jobs, hrun, ?_, ?_, ?_, hidx⟩
  · rw [hjobs]
    rfl
  · rw [hjobs]
    rfl
  · rw [hjobs]
    rfl

/-! ## The legacy path on a `Stable` item with unchanged pfn -/

theorem refresh_stable_item_at {md md1 : ksm_metadata} {hash : hash_pair} {item : rmap_item}
    {a : Nat} (h : refresh_stable md hash item a = .ok md1) (k : item_key) :
    item_at md1 k = item_at md k ∨ item_at md1 k = (item_at md k).map (set_old_hash hash) := by
  have hre : ∀ head, rehash_chain md head hash = .ok md1 →
      item_at md1 k = item_at md k ∨
        item_at md1 k = (item_at md k).map (set_old_hash hash) := by
    intro head hr
    unfold rehash_chain at hr
    obtain ⟨node, -, h2⟩ := bind_eq_ok hr
    obtain ⟨md2, hmd2, h3⟩ := bind_eq_ok h2
    obtain ⟨node2, -, h4⟩ := bind_eq_ok h3
    cases h4
    obtain ⟨l, -, -, hitems⟩ := update_chain_hash_items hash _ _ _ _ hmd2
    rw [item_at_set_stable_hash_table, hitems k, item_at_set_stable_hash_table]
    by_cases hc : chain_sharer
        (set_stable_hash_table (g_hash_table_remove md.stable_hash_table node.page_hash) md)
        l k = true
    · right
      simp only [hc, if_true]
    · left
      simp only [hc]
      cases item_at md k <;> rfl
  unfold refresh_stable at h
  obtain ⟨node, -, h2⟩ := bind_eq_ok h
  split_ifs at h2
  · exact hre _ h2
  · obtain ⟨head, -, h3⟩ := bind_eq_ok h2
    obtain ⟨head_node, -, h4⟩ := bind_eq_ok h3
    split_ifs at h4
    exact hre _ h4
  · cases h2
    exact Or.inl rfl

theorem cmp_and_merge_one_old_stable_same_pfn (p : ksm_params) {md : ksm_metadata}
    (log_table : ksm_log_table) (hash : hash_pair) {k : item_key} {item : rmap_item}
    {N : Nat} {n : stable_node} (hitem : item_at md k = .ok item)
    (hst : item.state = item_state.Stable) (hN : item.stable_node = some N)
    (hn : node_at md N = some n) (hpfn : n.pfn = item.pfn) :
    cmp_and_merge_one_old p md log_table hash k =
      (refresh_stable md hash item N).bind (fun md1 => .ok (md1, log_table)) := by
  unfold cmp_and_merge_one_old
  rw [hitem]
  simp only [bind, Except.bind]
  rw [hst]
  simp only []
  rw [hN]
  simp only []
  rw [deref_node_of hn]
  simp only []
  rw [if_neg (by rw [hpfn]; exact fun h => h rfl)]

/-- C30: a `Stable` item whose pfn is that of the live node its `stable_node` points to, in
any metadata, and one page hash.  `cmp_and_merge_one_old` stops or fails exactly when
`cmp_and_merge_one` does, with the same fault.  When the legacy path returns, it leaves the
`volatility_score` of the item as it was and the log unchanged, and the current path
returns the state of the legacy path with the item replaced by its calmed copy: the same
nodes (chains), stable index, unstable index and log, every other item the same, and the
item itself the same except that its `volatility_score` is one lower when it was
positive. -/
theorem C30_legacy_path_differs_by_calm (p : ksm_params) (md : ksm_metadata)
    (log_table : ksm_log_table) (hash : hash_pair) (k : item_key) (item : rmap_item)
    (N : Nat) (n : stable_node) (hitem : item_at md k = .ok item)
    (hst : item.state = item_state.Stable) (hN : item.stable_node = some N)
    (hn : node_at md N = some n) (hpfn : n.pfn = item.pfn) :
    (∀ e, cmp_and_merge_one_old p md log_table hash k = .error e →
      cmp_and_merge_one p md log_table hash k = .error e) ∧
    (∀ md1 log1, cmp_and_merge_one_old p md log_table hash k = .ok (md1, log1) →
      log1 = log_table ∧
      ∃ item1 md2, item_at md1 k = .ok item1 ∧
        item1.volatility_score = item.volatility_score ∧
        cmp_and_merge_one p md log_table hash k = .ok (md2, log1) ∧
        md2 = set_item md1 (calm_volatility item1) ∧
        md2.nodes = md1.nodes ∧ md2.stable_hash_table = md1.stable_hash_table ∧
        md2.unstable_hash_table = md1.unstable_hash_table ∧
        md2.rmap_tree.map (fun it => it.key) = md1.rmap_tree.map (fun it => it.key) ∧
        (∀ k2, k2 ≠ k → item_at md2 k2 = item_at md1 k2) ∧
        item_at md2 k =
          .ok { item1 with
            volatility_score :=
              if item1.volatility_score > 0 then item1.volatility_score - 1
              else item1.volatility_score }) := by
  have hnew := cmp_and_merge_one_stable_same_pfn p log_table hash hitem hst hN hn hpfn
  have hold := cmp_and_merge_one_old_stable_same_pfn p log_table hash hitem hst hN hn hpfn
  have hk : item.key = k := item_at_key hitem
  cases hr : refresh_stable md hash item N with
  | error e0 =>
    rw [hr] at hnew hold
    constructor
    · intro e he
      rw [hold] at he
      rw [hnew]
      exact he
    · intro md1 log1 he
      rw [hold] at he
      cases he
  | ok mdr =>
    rw [hr] at hnew hold
    have hex : ∃ item1, item_at mdr k = .ok item1 ∧
        item1.volatility_score = item.volatility_score ∧ item1.key = k := by
      rcases refresh_stable_item_at hr k with h1 | h1
      · rw [hitem] at h1
        exact ⟨item, h1, rfl, hk⟩
      · rw [hitem] at h1
        exact ⟨set_old_hash hash item, h1, rfl, hk⟩
    obtain ⟨item1, hi1, hv1, hk1⟩ := hex
    constructor
    · intro e he
      rw [hold] at he
      cases he
    · intro md1 log1 he
      rw [hold] at he
      cases he
      refine ⟨rfl, item1, set_item mdr (calm_volatility item1), hi1, hv1, ?_, rfl, rfl, rfl,
        rfl, ?_, ?_, ?_⟩
      · rw [hnew]
        simp only [Except.bind]
        rw [modify_item_ok hi1]
      · unfold set_item
        dsimp only
        rw [List.map_map]
        apply List.map_congr_left
        intro x hx
        simp only [Function.comp]
        split_ifs with c
        · rw [calm_volatility_key, hk1]
          exact ((rmap_item_compare_eq_zero_iff _ _).1 (by rw [calm_volatility_key, hk1] at c; exact c)).symm
        · rfl
      · intro k2 hk2
        exact item_at_set_item_ne _ _ _
          (by rw [calm_volatility_key, hk1]; exact fun e => hk2 e.symm)
      · rw [item_at_set_item hi1 ((calm_volatility_key item1).trans hk1)]
        unfold calm_volatility
        split_ifs <;> rfl

/-- Witness of C30.  After `volatile_then_merged` the item of the page `4096` is `Stable`
in node 0 with `volatility_score = 1`.  On the unchanged page the legacy path returns the
metadata as it is, and the current path returns it with the `volatility_score` of the item
at 0. -/
theorem C30_witness_calmed_sharer :
    cmp_and_merge_one_old no_skip_params
        (cb_after no_skip_params volatile_then_merged).metadata
        (cb_after no_skip_params volatile_then_merged).log_table hash_a (1, 4096) =
      .ok ((cb_after no_skip_params volatile_then_merged).metadata,
        (cb_after no_skip_params volatile_then_merged).log_table) ∧
    ∃ md2,
      cmp_and_merge_one no_skip_params
          (cb_after no_skip_params volatile_then_merged).metadata
          (cb_after no_skip_params volatile_then_merged).log_table hash_a (1, 4096) =
        .ok (md2, (cb_after no_skip_params volatile_then_merged).log_table) ∧
      md2.nodes = (cb_after no_skip_params volatile_then_merged).metadata.nodes ∧
      item_at md2 (1, 4096) =
        .ok ⟨1, 3, 4, 4096, 10, 10, hash_a, item_state.Stable, 0, 0, some 0⟩ := by
  have hold : cmp_and_merge_one_old no_skip_params
      (cb_after no_skip_params volatile_then_merged).metadata
      (cb_after no_skip_params volatile_then_merged).log_table hash_a (1, 4096) =
      .ok ((cb_after no_skip_params volatile_then_merged).metadata,
        (cb_after no_skip_params volatile_then_merged).log_table) := by rfl
  have hi : item_at (cb_after no_skip_params volatile_then_merged).metadata (1, 4096) =
      .ok ⟨1, 3, 4, 4096, 10, 10, hash_a, item_state.Stable, 1, 0, some 0⟩ := by rfl
  obtain ⟨-, item1, md2, hi1, -, hrun, -, hnodes, -, -, -, -, hit⟩ :=
    (C30_legacy_path_differs_by_calm no_skip_params
      (cb_after no_skip_params volatile_then_merged).metadata
      (cb_after no_skip_params volatile_then_merged).log_table hash_a (1, 4096)
      ⟨1, 3, 4, 4096, 10, 10, hash_a, item_state.Stable, 1, 0, some 0⟩ 0
      ⟨hash_a, 2, 10, [(1, 4096), (1, 8192)], ⟨node_chain_type.HEAD, none, none⟩⟩
      hi (by rfl) (by rfl) (by rfl) (by rfl)).2 _ _ hold
  rw [hi] at hi1
  cases hi1
  exact ⟨hold, md2, hrun, hnodes, hit⟩

/-! ## The hash update of a chain -/

theorem g_hash_table_lookup_replaced {α : Type} (h : hash_pair) (value : α) :
    ∀ table : GHashTable α,
      (table.find? (fun e => compare_hash_pair_equal e.1 h)).isSome = true →
      g_hash_table_lookup
        (table.map (fun e => if compare_hash_pair_equal e.1 h then (e.1, e.2.1, value) else e))
        h = some value := by
  intro table
  induction table with
  | nil =>
    intro hs
    cases hs
  | cons e es ih =>
    intro hs
    unfold g_hash_table_lookup
    rw [List.map_cons, List.find?_cons]
    rw [List.find?_cons] at hs
    cases c : compare_hash_pair_equal e.1 h with
    | true =>
      simp only [c, if_true]
      rfl
    | false =>
      rw [c] at hs
      simp only [c, Bool.false_eq_true, if_false]
      exact ih hs

theorem g_hash_table_lookup_insert_same {α : Type} (table : GHashTable α) (h : hash_pair)
    (key value : α) :
    g_hash_table_lookup (g_hash_table_insert table h key value) h = some value := by
  cases hl : g_hash_table_lookup table h with
  | none =>
    rw [g_hash_table_insert_of_none hl]
    exact g_hash_table_lookup_append_of_none hl key value
  | some v =>
    have hsome : (table.find? (fun e => compare_hash_pair_equal e.1 h)).isSome = true := by
      unfold g_hash_table_lookup at hl
      cases hf : table.find? (fun e => compare_hash_pair_equal e.1 h) with
      | none =>
        rw [hf] at hl
        cases hl
      | some e => rfl
    unfold g_hash_table_insert
    rw [if_pos hsome]
    exact g_hash_table_lookup_replaced h value table hsome

theorem g_hash_table_lookup_insert_remove_other {α : Type} (table : GHashTable α)
    (old h : hash_pair) (key value : α) (hne : old ≠ h) :
    g_hash_table_lookup (g_hash_table_insert (g_hash_table_remove table old) h key value) old =
      none := by
  rw [g_hash_table_lookup_eq_none]
  intro e he
  rcases mem_g_hash_table_insert he with ⟨he1, -⟩ | ⟨he1, -⟩
  · exact (mem_g_hash_table_remove.1 he1).2
  · rw [he1]
    exact fun e2 => hne e2.symm

theorem update_item_checksum_sharers (hash : hash_pair) :
    ∀ (l : List item_key) (md md1 : ksm_metadata), update_item_checksum md hash l = .ok md1 →
      ∀ k ∈ l, ∃ it, item_at md k = .ok it := by
  intro l
  induction l with
  | nil =>
    intro md md1 _ k hk
    cases hk
  | cons k0 ks ih =>
    intro md md1 h k hk
    unfold update_item_checksum at h
    obtain ⟨item0, hi0, h2⟩ := bind_eq_ok h
    split_ifs at h2 with hs
    rcases List.mem_cons.1 hk with e | e
    · rw [e]
      exact ⟨item0, hi0⟩
    · obtain ⟨it, hit⟩ := ih _ _ h2 k e
      have hk0 : (set_old_hash hash item0).key = k0 :=
        (set_old_hash_key hash item0).trans (item_at_key hi0)
      rw [item_at_set_item_if hi0 hk0] at hit
      by_cases c : k = k0
      · rw [c]
        exact ⟨item0, hi0⟩
      · rw [if_neg c] at hit
        exact ⟨it, hit⟩

theorem update_chain_hash_sharers (hash : hash_pair) :
    ∀ (fuel : Nat) (md md1 : ksm_metadata) (o : Option Nat),
      update_chain_hash hash fuel md o = .ok md1 →
      ∀ l, chain_from md o l → ∀ b ∈ l, ∀ m, node_at md b = some m →
        ∀ k ∈ m.sharing_item_tree, ∃ it, item_at md k = .ok it := by
  intro fuel
  induction fuel with
  | zero =>
    intro md md1 o h l hl b hb
    cases o with
    | none =>
      rw [chain_from_none hl] at hb
      cases hb
    | some a => cases h
  | succ f ih =>
    intro md md1 o h l hl b hb m hm k hk
    cases o with
    | none =>
      rw [chain_from_none hl] at hb
      cases hb
    | some a =>
      unfold update_chain_hash at h
      obtain ⟨node, hnode, h2⟩ := bind_eq_ok h
      obtain ⟨md2, hmd2, h3⟩ := bind_eq_ok h2
      have hn : node_at md a = some node := (deref_node_eq _ _ _).1 hnode
      obtain ⟨n0, l1, hl1, hn0, hrest⟩ := chain_from_some hl
      rw [hn] at hn0
      cases hn0
      rw [hl1] at hb
      obtain ⟨hnodes2, -⟩ := update_item_checksum_frame hash _ _ _ hmd2
      obtain ⟨-, hitems2⟩ := update_item_checksum_items hash _ _ _ hmd2
      rcases List.mem_cons.1 hb with e | e
      · rw [e, hn] at hm
        cases hm
        obtain ⟨it, hit⟩ := update_item_checksum_sharers hash _ _ _ hmd2 k hk
        rw [item_at_set_node] at hit
        exact ⟨it, hit⟩
      · have hnode2 : ∀ c, node_at md2 c =
            if c = a then some (set_page_hash hash node) else node_at md c := by
          intro c
          rw [node_at_congr hnodes2 c, node_at_set_node c (node_at_lt hn)]
        have hchain2 : chain_from md2 node.chain.next l1 := by
          refine chain_from_congr_on l1 _ hrest ?_
          intro c _
          rw [hnode2 c]
          by_cases hc : c = a
          · rw [if_pos hc, hc, hn]
            rfl
          · rw [if_neg hc]
        have hm2 : ∃ m2, node_at md2 b = some m2 ∧ m2.sharing_item_tree = m.sharing_item_tree := by
          rw [hnode2 b]
          by_cases hc : b = a
          · rw [if_pos hc]
            rw [hc, hn] at hm
            cases hm
            exact ⟨_, rfl, rfl⟩
          · rw [if_neg hc]
            exact ⟨m, hm, rfl⟩
        obtain ⟨m2, hm2, ht2⟩ := hm2
        obtain ⟨it, hit⟩ := ih _ _ _ h3 l1 hchain2 b e m2 hm2 k (by rw [ht2]; exact hk)
        rw [hitems2 k, item_at_set_node] at hit
        cases hi : item_at md k with
        | error err =>
          rw [hi] at hit
          cases hit
        | ok it0 => exact ⟨it0, rfl⟩

theorem rehash_chain_sharers {md md1 : ksm_metadata} {head : Nat} {hash : hash_pair}
    (h : rehash_chain md head hash = .ok md1) {l : List Nat}
    (hl : chain_from md (some head) l) {b : Nat} (hb : b ∈ l) {m : stable_node}
    (hm : node_at md b = some m) {k : item_key} (hk : k ∈ m.sharing_item_tree) :
    ∃ it, item_at md k = .ok it := by
  unfold rehash_chain at h
  obtain ⟨node, -, h2⟩ := bind_eq_ok h
  obtain ⟨md2, hmd2, h3⟩ := bind_eq_ok h2
  have hl0 : chain_from
      (set_stable_hash_table (g_hash_table_remove md.stable_hash_table node.page_hash) md)
      (some head) l :=
    chain_from_congr_on l _ hl (fun c _ => by rw [node_at_set_stable_hash_table])
  obtain ⟨it, hit⟩ := update_chain_hash_sharers hash _ _ _ _ hmd2 l hl0 b hb m
    (by rw [node_at_set_stable_hash_table]; exact hm) k hk
  rw [item_at_set_stable_hash_table] at hit
  exact ⟨it, hit⟩

theorem refresh_stable_rehash {md md1 : ksm_metadata} {hash : hash_pair} {item : rmap_item}
    {a : Nat} (h : refresh_stable md hash item a = .ok md1) (hne : item.old_hash ≠ hash) :
    ∃ head n, node_at md head = some n ∧ rehash_chain md head hash = .ok md1 := by
  have hnode : ∀ head, rehash_chain md head hash = .ok md1 →
      ∃ head n, node_at md head = some n ∧ rehash_chain md head hash = .ok md1 := by
    intro head hr
    have hr0 := hr
    unfold rehash_chain at hr
    obtain ⟨node, hnd, -⟩ := bind_eq_ok hr
    exact ⟨head, node, (deref_node_eq _ _ _).1 hnd, hr0⟩
  unfold refresh_stable at h
  obtain ⟨node, -, h2⟩ := bind_eq_ok h
  split_ifs at h2 with c1 c2 c3 c4
  · exact hnode _ h2
  · obtain ⟨head, -, h3⟩ := bind_eq_ok h2
    obtain ⟨head_node, -, h4⟩ := bind_eq_ok h3
    split_ifs at h4
    exact hnode _ h4
  · exfalso
    apply hne
    have : compare_hash_pair_equal hash item.old_hash = true := by
      cases hc : compare_hash_pair_equal hash item.old_hash with
      | true => rfl
      | false =>
        rw [hc] at c1
        exact (c1 rfl).elim
    exact ((compare_hash_pair_equal_iff _ _).1 this).symm

theorem chain_from_node {md : ksm_metadata} (hinv : chain_inv md) {a : Nat} {l : List Nat}
    (hl : chain_from md (some a) l) {b : Nat} (hb : b ∈ l) :
    ∃ m, node_at md b = some m ∧ (b ≠ a → m.chain.prev ≠ none) := by
  rcases chain_from_mem l a b hl hb with e | ⟨c, nc, -, hnc, hnext⟩
  · obtain ⟨n, l1, -, hn, -⟩ := chain_from_some hl
    rw [e]
    exact ⟨n, hn, fun hne => (hne rfl).elim⟩
  · obtain ⟨-, m, hm, hp, -⟩ := chain_inv_next hinv hnc hnext
    exact ⟨m, hm, fun _ hpn => by rw [hp] at hpn; cases hpn⟩

/-- What the hash update of `cmp_and_merge_one` leaves on the chain of the node of a
`Stable` item with unchanged pfn. -/
theorem hash_update_reaches_chain (p : ksm_params) (md : ksm_metadata)
    (log_table : ksm_log_table) (h : hash_pair) (k : item_key) (item : rmap_item)
    (N : Nat) (n : stable_node) (hinv : chain_inv md)
    (hitem : item_at md k = .ok item) (hst : item.state = item_state.Stable)
    (hN : item.stable_node = some N) (hn : node_at md N = some n)
    (hpfn : n.pfn = item.pfn) (hnew : item.old_hash ≠ h) :
    (∀ md1 log1, cmp_and_merge_one p md log_table h k = .ok (md1, log1) →
      log1 = log_table ∧ item.old_hash = n.page_hash ∧
      ∃ head hnode l,
        node_at md head = some hnode ∧ hnode.chain.type = node_chain_type.HEAD ∧
        chain_from md (some head) l ∧ head ∈ l ∧ N ∈ l ∧
        (n.chain.type = node_chain_type.HEAD → head = N) ∧
        chain_from md1 (some head) l ∧
        (∀ b ∈ l, ∃ m1, node_at md1 b = some m1 ∧ m1.page_hash = h ∧
          ∀ k2 ∈ m1.sharing_item_tree, ∃ it, item_at md1 k2 = .ok it ∧ it.old_hash = h) ∧
        g_hash_table_lookup md1.stable_hash_table h = some head ∧
        g_hash_table_lookup md1.stable_hash_table n.page_hash = none) ∧
    (item.old_hash = n.page_hash →
      (∀ a m, node_at md a = some m → ∀ k2 ∈ m.sharing_item_tree,
        ∃ it, item_at md k2 = .ok it ∧ it.state = item_state.Stable) →
      ∃ md1, cmp_and_merge_one p md log_table h k = .ok (md1, log_table)) := by
  have hrun := cmp_and_merge_one_stable_same_pfn p log_table h hitem hst hN hn hpfn
  have hk : item.key = k := item_at_key hitem
  constructor
  · intro md1 log1 hr
    rw [hrun] at hr
    cases hrs : refresh_stable md h item N with
    | error e =>
      rw [hrs] at hr
      cases hr
    | ok mdr =>
      rw [hrs] at hr
      simp only [Except.bind] at hr
      cases hmi : modify_item mdr k calm_volatility with
      | error e =>
        rw [hmi] at hr
        cases hr
      | ok md2 =>
        rw [hmi] at hr
        cases hr
        obtain ⟨itr, hitr, hit2, hother, hnodes2, -⟩ :=
          modify_item_item_at hmi calm_volatility_key
        have htable2 : md1.stable_hash_table = mdr.stable_hash_table :=
          (modify_item_frame hmi).2
        rcases refresh_stable_effect hinv hn hrs with ⟨hh, -⟩ | ⟨-, hold, head, hnode, l, hhead,
            hprev, hhash, hl, hheadl, hNl, hb, hitems, htable, -⟩
        · exact (hnew hh).elim
        · refine ⟨rfl, hold, head, hnode, l, hhead, (chain_inv_type hinv hhead).2 hprev, hl,
            hheadl, hNl, ?_, ?_, ?_, ?_, ?_⟩
          · intro ht
            have hp : n.chain.prev = none := (chain_inv_type hinv hn).1 ht
            obtain ⟨m, hm, hne⟩ := chain_from_node hinv hl hNl
            rw [hn] at hm
            cases hm
            by_contra hc
            exact hne (fun e => hc e.symm) hp
          · refine chain_from_congr_on l _ hl ?_
            intro c hc
            rw [hnodes2 c, hb c, if_pos hc]
            cases node_at md c <;> rfl
          · intro b hbl
            obtain ⟨m, hm, -⟩ := chain_from_node hinv hl hbl
            refine ⟨set_page_hash h m, ?_, rfl, ?_⟩
            · rw [hnodes2 b, hb b, if_pos hbl, hm]
              rfl
            · intro k2 hk2
              have hk2m : k2 ∈ m.sharing_item_tree := hk2
              have hcs : chain_sharer md l k2 = true := chain_sharer_of_mem hbl hm hk2m
              obtain ⟨head2, n2, hn2, hre⟩ := refresh_stable_rehash hrs hnew
              obtain ⟨l2, hl2, -, -, -, htable2b, -⟩ := rehash_chain_effect hn2 hre
              have hheads : head2 = head := by
                have e1 := g_hash_table_lookup_insert_same
                  (g_hash_table_remove md.stable_hash_table n2.page_hash) h head2 head2
                have e2 := g_hash_table_lookup_insert_same
                  (g_hash_table_remove md.stable_hash_table n.page_hash) h head head
                rw [← htable2b] at e1
                rw [← htable] at e2
                rw [e1] at e2
                exact Option.some.inj e2
              rw [hheads] at hl2 hre
              have hll : l2 = l := chain_from_unique hl2 hl
              obtain ⟨it0, hit0⟩ := rehash_chain_sharers hre hl hbl hm hk2m
              have hmr : item_at mdr k2 = .ok (set_old_hash h it0) := by
                rw [hitems k2, hit0]
                simp only [Except.map, hcs, if_true]
              by_cases hkk : k2 = k
              · rw [hkk] at hmr
                rw [hitr] at hmr
                cases hmr
                rw [hkk]
                exact ⟨_, hit2, by rw [calm_volatility_old_hash]; rfl⟩
              · rw [hother k2 hkk]
                exact ⟨_, hmr, rfl⟩
          · rw [htable2, htable]
            exact g_hash_table_lookup_insert_same _ _ _ _
          · rw [htable2, htable]
            exact g_hash_table_lookup_insert_remove_other _ _ _ _ _
              (by rw [← hold]; exact hnew)
  · intro hold hS
    obtain ⟨mdr, hrs⟩ := refresh_stable_ok hinv h hn hold hS
    rw [hrun, hrs]
    simp only [Except.bind]
    rcases refresh_stable_item_at hrs k with h1 | h1
    · rw [hitem] at h1
      rw [modify_item_ok h1]
      exact ⟨_, rfl⟩
    · rw [hitem] at h1
      have h2 : item_at mdr k = .ok (set_old_hash h item) := h1
      rw [modify_item_ok h2]
      exact ⟨_, rfl⟩

/-- C25: a `Stable` item `k` of a well-formed state whose `stable_node` points to the live
node `N`, with the pfn of `N`, and a page hash `h` other than the `old_hash` of the item.
When `cmp_and_merge_one` returns, the log is unchanged and the item held the hash of `N`;
with `head` the HEAD of the chain of `N` (`N` itself when `N` is a HEAD, found by
`chain.prev` when `N` is a CHAIN node) and `l` the nodes reached from it by `chain.next`:
the chain is as before, every node of `l` has `page_hash = h`, every key in the sharers tree
of a node of `l` is an item with `old_hash = h`, the stable index maps `h` to `head` and has
no entry for the previous hash.  In a state whose sharers are `Stable` items, as every state
of a scan is (`scan_end_items_inv`), `cmp_and_merge_one` returns when the item holds the
hash of `N`. -/
theorem C25_hash_update_reaches_chain (p : ksm_params) (md : ksm_metadata)
    (log_table : ksm_log_table) (h : hash_pair) (k : item_key) (item : rmap_item)
    (N : Nat) (n : stable_node) (hinv : chain_inv md)
    (hitem : item_at md k = .ok item) (hst : item.state = item_state.Stable)
    (hN : item.stable_node = some N) (hn : node_at md N = some n)
    (hpfn : n.pfn = item.pfn) (hnew : item.old_hash ≠ h) :
    (∀ md1 log1, cmp_and_merge_one p md log_table h k = .ok (md1, log1) →
      log1 = log_table ∧ item.old_hash = n.page_hash ∧
      ∃ head hnode l,
        node_at md head = some hnode ∧ hnode.chain.type = node_chain_type.HEAD ∧
        chain_from md (some head) l ∧ head ∈ l ∧ N ∈ l ∧
        (n.chain.type = node_chain_type.HEAD → head = N) ∧
        chain_from md1 (some head) l ∧
        (∀ b ∈ l, ∃ m1, node_at md1 b = some m1 ∧ m1.page_hash = h ∧
          ∀ k2 ∈ m1.sharing_item_tree, ∃ it, item_at md1 k2 = .ok it ∧ it.old_hash = h) ∧
        g_hash_table_lookup md1.stable_hash_table h = some head ∧
        g_hash_table_lookup md1.stable_hash_table n.page_hash = none) ∧
    (item.old_hash = n.page_hash →
      (∀ a m, node_at md a = some m → ∀ k2 ∈ m.sharing_item_tree,
        ∃ it, item_at md k2 = .ok it ∧ it.state = item_state.Stable) →
      ∃ md1, cmp_and_merge_one p md log_table h k = .ok (md1, log_table)) :=
  hash_update_reaches_chain p md log_table h k item N n hinv hitem hst hN hn hpfn hnew

/-- Witness of C25.  After `four_identical_pages` under `test_params` the page `16384` is
in the CHAIN node 1 behind the HEAD node 0, both with `hash_a`.  In the next scan the page
is read in its frame with the content of `hash_b`: `cmp_and_merge_one` returns, nodes 0 and
1 have `page_hash = hash_b`, the sharer `4096` of node 0 has `old_hash = hash_b`, and the
stable index maps `hash_b` to node 0 and has no entry for `hash_a`. -/
theorem C25_witness_update_from_chain_node :
    ∃ md1,
      cmp_and_merge_one test_params
        (lookup_rmap_item (cb_after test_params four_identical_pages) zero_item 1
          ⟨16384, 40⟩).1.metadata
        (cb_after test_params four_identical_pages).log_table hash_b (1, 16384) =
        .ok (md1, (cb_after test_params four_identical_pages).log_table) ∧
      (∃ m0 m1, node_at md1 0 = some m0 ∧ m0.page_hash = hash_b ∧
        node_at md1 1 = some m1 ∧ m1.page_hash = hash_b) ∧
      (∃ it, item_at md1 (1, 4096) = .ok it ∧ it.old_hash = hash_b) ∧
      g_hash_table_lookup md1.stable_hash_table hash_b = some 0 ∧
      g_hash_table_lookup md1.stable_hash_table hash_a = none := by
  have hrun : cmp_and_merge_one test_params
      (lookup_rmap_item (cb_after test_params four_identical_pages) zero_item 1
        ⟨16384, 40⟩).1.metadata
      (cb_after test_params four_identical_pages).log_table hash_b (1, 16384) =
      .ok ((cb_after test_params
          (four_identical_pages ++ [page_op 16384 40 hash_b])).metadata,
        (cb_after test_params four_identical_pages).log_table) := by rfl
  have h := (C25_hash_update_reaches_chain test_params
    (lookup_rmap_item (cb_after test_params four_identical_pages) zero_item 1
      ⟨16384, 40⟩).1.metadata
    (cb_after test_params four_identical_pages).log_table hash_b (1, 16384)
    ⟨1, 2, 2, 16384, 40, 40, hash_a, item_state.Stable, 0, 0, some 1⟩ 1
    ⟨hash_a, 2, 40, [(1, 12288), (1, 16384)], ⟨node_chain_type.CHAIN, none, some 0⟩⟩
    (by decide) (by rfl) (by rfl) (by rfl) (by rfl) (by rfl) (by decide)).1 _ _ hrun
  obtain ⟨-, -, head, hnode, l, -, -, -, hheadl, hNl, -, -, hall, hlk, hlk0⟩ := h
  have hhead0 : head = 0 := by
    have e : g_hash_table_lookup (cb_after test_params
        (four_identical_pages ++ [page_op 16384 40 hash_b])).metadata.stable_hash_table
        hash_b = some 0 := by rfl
    rw [e] at hlk
    exact (Option.some.inj hlk).symm
  rw [hhead0] at hheadl hlk
  obtain ⟨m0, hm0, hp0, hs0⟩ := hall 0 hheadl
  obtain ⟨m1, hm1, hp1, -⟩ := hall 1 hNl
  refine ⟨_, hrun, ⟨m0, m1, hm0, hp0, hm1, hp1⟩, ?_, hlk, hlk0⟩
  have e0 : node_at (cb_after test_params
      (four_identical_pages ++ [page_op 16384 40 hash_b])).metadata 0 =
      some ⟨hash_b, 2, 20, [(1, 4096), (1, 8192)],
        ⟨node_chain_type.HEAD, some 1, none⟩⟩ := by rfl
  rw [e0] at hm0
  cases hm0
  exact hs0 (1, 4096) (by decide)

/-! ## The fatal check of the hash update -/

/-- Counterexample to C24: a current hash that differs from both the `old_hash` of the item
and the `page_hash` of its node is not fatal.  After `four_identical_pages` under
`test_params` the item of the page `16384` is `Stable` in node 1, with the pfn of the node,
and holds `hash_a`, the `page_hash` of the node.  The page is read with the content of
`hash_b`: `cmp_and_merge_one` returns, and node 0, node 1 and the stable index carry
`hash_b` afterwards. -/
theorem C24_counterexample_changed_page_is_rehashed :
    item_at (lookup_rmap_item (cb_after test_params four_identical_pages) zero_item 1
        ⟨16384, 40⟩).1.metadata (1, 16384) =
      .ok ⟨1, 2, 2, 16384, 40, 40, hash_a, item_state.Stable, 0, 0, some 1⟩ ∧
    node_at (lookup_rmap_item (cb_after test_params four_identical_pages) zero_item 1
        ⟨16384, 40⟩).1.metadata 1 =
      some ⟨hash_a, 2, 40, [(1, 12288), (1, 16384)],
        ⟨node_chain_type.CHAIN, none, some 0⟩⟩ ∧
    hash_b ≠ hash_a ∧
    cmp_and_merge_one test_params
        (lookup_rmap_item (cb_after test_params four_identical_pages) zero_item 1
          ⟨16384, 40⟩).1.metadata
        (cb_after test_params four_identical_pages).log_table hash_b (1, 16384) =
      .ok ({ rmap_tree :=
               [⟨1, 1, 2, 4096, 20, 10, hash_b, item_state.Stable, 0, 0, some 0⟩,
                ⟨1, 1, 2, 8192, 20, 20, hash_b, item_state.Stable, 0, 0, some 0⟩,
                ⟨1, 1, 2, 12288, 40, 30, hash_b, item_state.Stable, 0, 0, some 1⟩,
                ⟨1, 2, 2, 16384, 40, 40, hash_b, item_state.Stable, 0, 0, some 1⟩],
             nodes :=
               [some ⟨hash_b, 2, 20, [(1, 4096), (1, 8192)],
                  ⟨node_chain_type.HEAD, some 1, none⟩⟩,
                some ⟨hash_b, 2, 40, [(1, 12288), (1, 16384)],
                  ⟨node_chain_type.CHAIN, none, some 0⟩⟩],
             stable_hash_table := [(hash_b, 0, 0)],
             unstable_hash_table := [] },
           (cb_after test_params four_identical_pages).log_table) := by
  refine ⟨?_, ?_, ?_, ?_⟩
  · rfl
  · rfl
  · decide
  · rfl

/-- Amended C24: a `Stable` item whose pfn is that of the live node `N` its `stable_node`
points to.  When the current hash `h` differs from the `old_hash` of the item and that
`old_hash` differs from the `page_hash` of `N`, whatever `h` is compared with `page_hash`,
`cmp_and_merge_one` stops the engine, at the first statement after the hash is computed and
before any store.  When the item holds `h` nothing but its `volatility_score` changes.
When the item holds the `page_hash` of `N` and `h` differs from it (so from both), the check
passes: in a well-formed state whose sharers are `Stable` items `cmp_and_merge_one`
returns, with the hash update applied. -/
theorem C24_diverged_old_hash_is_fatal (p : ksm_params) (md : ksm_metadata)
    (log_table : ksm_log_table) (h : hash_pair) (k : item_key) (item : rmap_item)
    (N : Nat) (n : stable_node)
    (hitem : item_at md k = .ok item) (hst : item.state = item_state.Stable)
    (hN : item.stable_node = some N) (hn : node_at md N = some n)
    (hpfn : n.pfn = item.pfn) :
    (h ≠ item.old_hash → item.old_hash ≠ n.page_hash →
      refresh_stable md h item N = .error fault.stop ∧
      cmp_and_merge_one p md log_table h k = .error fault.stop) ∧
    (h = item.old_hash →
      cmp_and_merge_one p md log_table h k =
        .ok (set_item md (calm_volatility item), log_table)) ∧
    (h ≠ item.old_hash → item.old_hash = n.page_hash → chain_inv md →
      (∀ a m, node_at md a = some m → ∀ k2 ∈ m.sharing_item_tree,
        ∃ it, item_at md k2 = .ok it ∧ it.state = item_state.Stable) →
      ∃ md1 n1, cmp_and_merge_one p md log_table h k = .ok (md1, log_table) ∧
        node_at md1 N = some n1 ∧ n1.page_hash = h) := by
  have hrun := cmp_and_merge_one_stable_same_pfn p log_table h hitem hst hN hn hpfn
  refine ⟨?_, ?_, ?_⟩
  · intro h1 h2
    have hr : refresh_stable md h item N = .error fault.stop := by
      unfold refresh_stable
      rw [deref_node_of hn]
      simp only [bind, Except.bind]
      have e1 : compare_hash_pair_equal h item.old_hash = false := by
        rw [Bool.eq_false_iff]
        intro hc
        exact h1 ((compare_hash_pair_equal_iff _ _).1 hc)
      have e2 : compare_hash_pair_equal item.old_hash n.page_hash = false := by
        rw [Bool.eq_false_iff]
        intro hc
        exact h2 ((compare_hash_pair_equal_iff _ _).1 hc)
      rw [e1, e2]
      rfl
    refine ⟨hr, ?_⟩
    rw [hrun, hr]
    rfl
  · intro h1
    exact cmp_and_merge_one_stable_same_hash p log_table hitem hst hN hn hpfn h1.symm
  · intro h1 h2 hinv hS
    obtain ⟨md1, hr1⟩ :=
      (hash_update_reaches_chain p md log_table h k item N n hinv hitem hst hN hn hpfn
        (fun e => h1 e.symm)).2 h2 hS
    obtain ⟨-, -, head, hnode, l, -, -, -, -, hNl, -, -, hall, -, -⟩ :=
      (hash_update_reaches_chain p md log_table h k item N n hinv hitem hst hN hn hpfn
        (fun e => h1 e.symm)).1 md1 log_table hr1
    obtain ⟨n1, hn1, hp1, -⟩ := hall N hNl
    exact ⟨md1, n1, hr1, hn1, hp1⟩

/-- Witness of C24.  In `diverged_sharer` the item holds `hash_a` and its node `hash_b`: on
a page with the content of `hash_b`, the hash of the node, `cmp_and_merge_one` stops the
engine. -/
theorem C24_witness_diverged_sharer_stops :
    cmp_and_merge_one server_params diverged_sharer ⟨[], 1024⟩ hash_b (1, 4096) =
      .error fault.stop :=
  ((C24_diverged_old_hash_is_fatal server_params diverged_sharer ⟨[], 1024⟩ hash_b (1, 4096)
    ⟨1, 1, 2, 4096, 20, 10, hash_a, item_state.Stable, 0, 0, some 0⟩ 0
    ⟨hash_b, 1, 20, [(1, 4096)], ⟨node_chain_type.HEAD, none, none⟩⟩
    (by rfl) (by rfl) (by rfl) (by rfl) (by rfl)).1 (by decide) (by decide)).2

/-! ## A Stable item whose frame has changed -/

/-- The pfn-mismatch branch of `case Stable` returns: the item is taken out of the node and
reset, one record is appended, and the volatility bump is the last statement. -/
theorem detach_stable_ok {md : ksm_metadata} (log_table : ksm_log_table) {k : item_key}
    {item : rmap_item} {N : Nat} {n : stable_node} (hinv : chain_inv md)
    (hitem : item_at md k = .ok item) (hn : node_at md N = some n) :
    ∃ md3 e,
      detach_stable md log_table k N =
        .ok (set_item md3 (bump_volatility (reset_item_state item)),
          appended log_table e) ∧
      item_at md3 k = .ok (reset_item_state item) ∧
      (∀ k2, k2 ≠ k → item_at md3 k2 = item_at md k2) ∧
      md3.unstable_hash_table = md.unstable_hash_table ∧
      e.from_va = k.2 ∧ e.from_mm_id = k.1 ∧ e.kpfn = n.pfn ∧
      (n.shared_cnt = 1 →
        e.type = DPU_STALE_STABLE_NODE ∧ e.shared_cnt = 0 ∧
        node_at md3 N = none ∧ (∀ x ∈ md3.stable_hash_table, x.2.2 ≠ N) ∧
        (∀ a m, node_at md3 a = some m →
          m.chain.next ≠ some N ∧ m.chain.prev ≠ some N)) ∧
      (n.shared_cnt ≠ 1 →
        e.type = DPU_ITEM_STATE_CHANGE ∧ e.shared_cnt = n.shared_cnt - 1 ∧
        md3 = set_item (set_node md N (drop_sharer k n)) (reset_item_state item)) := by
  have hk : item.key = k := item_at_key hitem
  have hNlt := node_at_lt hn
  have hi1 : item_at (set_node md N (drop_sharer k n)) k = .ok item := by
    rw [item_at_set_node]
    exact hitem
  have hkr : (reset_item_state item).key = k := hk
  have hkd : (bump_volatility (reset_item_state item)).key = k := hk
  have hi2 : item_at (set_item (set_node md N (drop_sharer k n)) (reset_item_state item)) k =
      .ok (reset_item_state item) :=
    item_at_set_item hi1 hkr
  have hn2 : node_at (set_item (set_node md N (drop_sharer k n)) (reset_item_state item)) N =
      some (drop_sharer k n) := by
    rw [node_at_set_item]
    exact node_at_set_node_same _ hNlt
  have hinv2 : chain_inv (set_item (set_node md N (drop_sharer k n))
      (reset_item_state item)) :=
    @chain_inv_congr _ (set_node md N (drop_sharer k n)) rfl rfl
      (@chain_inv_set_node md N n (drop_sharer k n) hn rfl rfl hinv)
  have hother : ∀ k2, k2 ≠ k →
      item_at (set_item (set_node md N (drop_sharer k n)) (reset_item_state item)) k2 =
        item_at md k2 := by
    intro k2 hk2
    rw [item_at_set_item_ne _ _ _ (by
      rw [hkr]
      exact Ne.symm hk2), item_at_set_node]
  have e1 : (reset_item_state item).va = k.2 := by
    show item.va = _
    exact congrArg Prod.snd hk
  have e2 : (reset_item_state item).mm_id = k.1 := by
    show item.mm_id = _
    exact congrArg Prod.fst hk
  by_cases hone : n.shared_cnt = 1
  · have hz : (drop_sharer k n).shared_cnt = 0 := by
      simp [drop_sharer, hone]
    obtain ⟨md3, hrm, hrt, hun, hfree, hidx, hlinks⟩ :=
      remove_stable_node_no_item_ok hinv2 hn2
    have hitem3 : ∀ k2, item_at md3 k2 = item_at (set_item (set_node md N
        (drop_sharer k n)) (reset_item_state item)) k2 := by
      intro k2
      unfold item_at
      rw [hrt]
    have hi3 : item_at md3 k = .ok (reset_item_state item) := by
      rw [hitem3]
      exact hi2
    refine ⟨md3, (⟨DPU_STALE_STABLE_NODE, k.2, n.pfn, k.1, 0⟩ : ksm_event_log), ?_, hi3, ?_, ?_, rfl, rfl, rfl, ?_, ?_⟩
    · unfold detach_stable remove_item_from_node
      simp only [deref_node_of hn, bind, Except.bind]
      rw [modify_item_ok hi1]
      simp only [hi2, deref_node_of hn2, if_pos hz]
      unfold remove_stale_node_and_log
      simp only [deref_node_of hn2, bind, Except.bind]
      rw [insert_ksm_log_appended _ _ (Or.inr (Or.inr (Or.inl rfl)))]
      simp only [hrm]
      rw [modify_item_ok hi3, e1, e2]
      rfl
    · intro k2 hk2
      rw [hitem3]
      exact hother k2 hk2
    · rw [hun]
      rfl
    · intro _
      exact ⟨rfl, rfl, hfree, hidx, hlinks⟩
    · intro hne
      exact absurd hone hne
  · have hz : (drop_sharer k n).shared_cnt ≠ 0 := by
      simp only [drop_sharer]
      omega
    refine ⟨_, (⟨DPU_ITEM_STATE_CHANGE, k.2, n.pfn, k.1, n.shared_cnt - 1⟩ : ksm_event_log), ?_, hi2, hother, rfl, rfl, rfl,
      rfl, ?_, ?_⟩
    · unfold detach_stable remove_item_from_node
      simp only [deref_node_of hn, bind, Except.bind]
      rw [modify_item_ok hi1]
      simp only [hi2, deref_node_of hn2, if_neg hz]
      unfold log_item_state_change
      rw [insert_ksm_log_appended _ _ (Or.inr (Or.inr (Or.inr rfl)))]
      simp only []
      rw [modify_item_ok hi2, e1, e2]
      rfl
    · intro h1
      exact absurd h1 hone
    · intro _
      exact ⟨rfl, rfl, rfl⟩

/-- The `case Volatile` entered by the `goto again` of the pfn-mismatch branch: the item has
`old_hash = null_hash` and the page a hash that is not `null_hash`, so the item is skipped
or stores the hash, and only its `age`, `skip_cnt` and `old_hash` change. -/
theorem volatile_after_detach (p : ksm_params) (md : ksm_metadata)
    (log_table : ksm_log_table) (h : hash_pair) (k : item_key) (item : rmap_item)
    (hitem : item_at md k = .ok item) (hold : item.old_hash = null_hash)
    (hh : h ≠ null_hash) :
    ∃ item1 c,
      cmp_and_merge_volatile p md log_table h k = .ok (set_item md item1, log_table) ∧
      (item1 = { advance_age item with skip_cnt := c } ∨
        item1 = set_old_hash h { advance_age item with skip_cnt := c }) := by
  obtain ⟨c, hc⟩ := should_skip_item_snd p (advance_age item)
  by_cases hskip : (should_skip_item p (advance_age item)).1 = true
  · refine ⟨(should_skip_item p (advance_age item)).2, c, ?_, Or.inl hc⟩
    unfold cmp_and_merge_volatile
    simp only [hitem, bind, Except.bind, hskip, if_true]
  · have hs : (should_skip_item p (advance_age item)).1 = false := by
      simpa using hskip
    refine ⟨set_old_hash h (should_skip_item p (advance_age item)).2, c, ?_, Or.inr ?_⟩
    · rw [volatile_stores_hash p md log_table h k item hitem hs (by
        rw [hold]
        exact Ne.symm hh), if_pos hold]
    · rw [hc]

/-- C23: a `Stable` item linked to the live node `N` whose `pfn` differs from `N.pfn`, in a
state whose chains and index are well formed, and a page whose hash pair is not `null_hash`.
`cmp_and_merge_one` returns; the item is then `Volatile` with no `stable_node`, its `pfn` is
its former `old_pfn`, its `old_hash` is `null_hash` (when the `case Volatile` entered by the
`goto again` skips it) or the hash of the page, and its `volatility_score` is one higher
(modulo `2 ^ 16`; exactly one higher below 65535, and exactly one higher whenever the state
is the one `lookup_rmap_item` hands over in a run made of cycles,
`scan_end_volatility_inv`).  The other items and the unstable index are unchanged.  When
`N.shared_cnt` was 1 the node is freed, is no value of the stable index and is linked to no
node, and the log has exactly one more record, `DPU_STALE_STABLE_NODE` with the item's key
and `N.pfn`.  Otherwise `N` stays with `shared_cnt` one lower, without the item's key in its
sharers tree and with its other sharers, `pfn`, `page_hash` and chain links as before, the
other nodes and the stable index are unchanged, and the log has exactly one more record,
`DPU_ITEM_STATE_CHANGE` with the item's key, `N.pfn` and the decreased `shared_cnt`. -/
theorem C23_changed_frame_detaches_item (p : ksm_params) (md : ksm_metadata)
    (log_table : ksm_log_table) (h : hash_pair) (k : item_key) (item : rmap_item) (N : Nat)
    (n : stable_node)
    (hinv : chain_inv md) (hitem : item_at md k = .ok item)
    (hst : item.state = item_state.Stable) (hN : item.stable_node = some N)
    (hn : node_at md N = some n) (hpfn : n.pfn ≠ item.pfn) (hh : h ≠ null_hash) :
    ∃ md1 log1 item1,
      cmp_and_merge_one p md log_table h k = .ok (md1, log1) ∧
      item_at md1 k = .ok item1 ∧
      item1.state = item_state.Volatile ∧ item1.stable_node = none ∧
      item1.volatility_score = (item.volatility_score + 1) % 65536 ∧
      (item.volatility_score < 65535 →
        item1.volatility_score = item.volatility_score + 1) ∧
      ((∃ p0 cb raw mm_id pte, ScanEnd p0 cb ∧
          (lookup_rmap_item cb raw mm_id pte).1.metadata = md) →
        item1.volatility_score = item.volatility_score + 1) ∧
      item1.pfn = item.old_pfn ∧
      (item1.old_hash = null_hash ∨ item1.old_hash = h) ∧
      (∀ k2, k2 ≠ k → item_at md1 k2 = item_at md k2) ∧
      md1.unstable_hash_table = md.unstable_hash_table ∧
      (n.shared_cnt = 1 →
        node_at md1 N = none ∧ (∀ e ∈ md1.stable_hash_table, e.2.2 ≠ N) ∧
        (∀ a m, node_at md1 a = some m →
          m.chain.next ≠ some N ∧ m.chain.prev ≠ some N) ∧
        log1.entries = log_table.entries ++
          [(⟨DPU_STALE_STABLE_NODE, k.2, n.pfn, k.1, 0⟩ : ksm_event_log)]) ∧
      (n.shared_cnt ≠ 1 →
        ∃ n1, node_at md1 N = some n1 ∧ n1.shared_cnt = n.shared_cnt - 1 ∧
          (∀ x, x ∈ n1.sharing_item_tree ↔ x ∈ n.sharing_item_tree ∧ x ≠ k) ∧
          n1.pfn = n.pfn ∧ n1.page_hash = n.page_hash ∧ n1.chain = n.chain ∧
          (∀ a, a ≠ N → node_at md1 a = node_at md a) ∧
          md1.stable_hash_table = md.stable_hash_table ∧
          log1.entries = log_table.entries ++
            [(⟨DPU_ITEM_STATE_CHANGE, k.2, n.pfn, k.1, n.shared_cnt - 1⟩ :
              ksm_event_log)]) := by
  have hk : item.key = k := item_at_key hitem
  have hkd : (bump_volatility (reset_item_state item)).key = k := hk
  obtain ⟨md3, e, hdet, hi3, hother3, hun3, eva, emm, epfn, hstale, hstay⟩ :=
    @detach_stable_ok md log_table k item N n hinv hitem hn
  have hi4 : item_at (set_item md3 (bump_volatility (reset_item_state item))) k =
      .ok (bump_volatility (reset_item_state item)) :=
    item_at_set_item hi3 hkd
  obtain ⟨item1, c, hvol, hcases⟩ :=
    volatile_after_detach p (set_item md3 (bump_volatility (reset_item_state item)))
      (appended log_table e) h k (bump_volatility (reset_item_state item)) hi4 rfl hh
  have hrun : cmp_and_merge_one p md log_table h k =
      .ok (set_item (set_item md3 (bump_volatility (reset_item_state item))) item1,
        appended log_table e) := by
    unfold cmp_and_merge_one
    simp only [hitem, bind, Except.bind, hst, hN, deref_node_of hn]
    rw [if_pos hpfn, hdet]
    exact hvol
  have hk1 : item1.key = k := by
    rcases hcases with h1 | h1 <;> rw [h1] <;> exact hk
  have hs1 : item1.state = item_state.Volatile := by
    rcases hcases with h1 | h1 <;> rw [h1] <;> rfl
  have hn1 : item1.stable_node = none := by
    rcases hcases with h1 | h1 <;> rw [h1] <;> rfl
  have hv1 : item1.volatility_score = (item.volatility_score + 1) % 65536 := by
    rcases hcases with h1 | h1 <;> rw [h1] <;> rfl
  have hp1 : item1.pfn = item.old_pfn := by
    rcases hcases with h1 | h1 <;> rw [h1] <;> rfl
  have ho1 : item1.old_hash = null_hash ∨ item1.old_hash = h := by
    rcases hcases with h1 | h1 <;> rw [h1]
    · exact Or.inl rfl
    · exact Or.inr rfl
  have hmod : item.volatility_score < 65535 →
      (item.volatility_score + 1) % 65536 = item.volatility_score + 1 :=
    fun hlt => Nat.mod_eq_of_lt (by omega)
  have hnode : ∀ a, node_at (set_item (set_item md3
      (bump_volatility (reset_item_state item))) item1) a = node_at md3 a := by
    intro a
    rw [node_at_set_item, node_at_set_item]
  have hentry : e = ⟨e.type, k.2, n.pfn, k.1, e.shared_cnt⟩ := by
    rw [← eva, ← emm, ← epfn]
  refine ⟨_, _, item1, hrun, item_at_set_item hi4 hk1, hs1, hn1, hv1,
    fun hlt => hv1.trans (hmod hlt), ?_, hp1, ho1, ?_, ?_, ?_, ?_⟩
  · rintro ⟨p0, cb, raw, mm_id, pte, hscan, hmd⟩
    have hq : volatility_inv md := by
      rw [← hmd]
      exact lookup_rmap_item_vol cb raw mm_id pte (scan_end_volatility_inv hscan)
    have hb := (hq _ item hitem).2 (by
      rw [hst]
      exact fun e0 => by cases e0)
    exact hv1.trans (hmod (by omega))
  · intro k2 hk2
    rw [item_at_set_item_ne _ _ _ (by
      rw [hk1]
      exact Ne.symm hk2), item_at_set_item_ne _ _ _ (by
      rw [hkd]
      exact Ne.symm hk2)]
    exact hother3 k2 hk2
  · exact hun3
  · intro hone
    obtain ⟨ht, hc0, hfree, hidx, hlinks⟩ := hstale hone
    refine ⟨?_, hidx, ?_, ?_⟩
    · rw [hnode]
      exact hfree
    · intro a m hm
      rw [hnode] at hm
      exact hlinks a m hm
    · rw [hentry, ht, hc0]
      rfl
  · intro hone
    obtain ⟨ht, hc0, hmd3⟩ := hstay hone
    have hNlt := node_at_lt hn
    refine ⟨drop_sharer k n, ?_, rfl, ?_, rfl, rfl, rfl, ?_, ?_, ?_⟩
    · rw [hnode, hmd3, node_at_set_item]
      exact node_at_set_node_same _ hNlt
    · intro x
      exact mem_g_tree_remove _ _ _
    · intro a ha
      rw [hnode, hmd3, node_at_set_item, node_at_set_node_ne _ _ (Ne.symm ha)]
    · rw [hmd3]
      rfl
    · rw [hentry, ht, hc0]
      rfl

/-- Witness of C23.  After `three_sharers` node 0 (frame 20) has three sharers.  The page
`12288` is then found in frame 40: the item leaves the node, which keeps `shared_cnt = 2`,
is `Volatile` with `volatility_score = 1`, and the log gets the one record
`DPU_ITEM_STATE_CHANGE`.  After the records that reject the merges of `12288` and `8192` the
node has one sharer: the page `4096` found in frame 50 frees it, and the log gets the one
record `DPU_STALE_STABLE_NODE`. -/
theorem C23_witness_sharer_in_new_frame :
    (∃ md1 log1 item1 n1,
      cmp_and_merge_one server_params
        (lookup_rmap_item (cb_after server_params three_sharers) zero_item 1
          ⟨12288, 40⟩).1.metadata
        (cb_after server_params three_sharers).log_table hash_b (1, 12288) =
        .ok (md1, log1) ∧
      item_at md1 (1, 12288) = .ok item1 ∧ item1.state = item_state.Volatile ∧
      item1.stable_node = none ∧ item1.volatility_score = 1 ∧
      node_at md1 0 = some n1 ∧ n1.shared_cnt = 2 ∧
      log1.entries = [(⟨DPU_ITEM_STATE_CHANGE, 12288, 20, 1, 2⟩ : ksm_event_log)]) ∧
    (∃ md1 log1,
      cmp_and_merge_one server_params
        (lookup_rmap_item (cb_after server_params (three_sharers ++
          [engine_op.error_entry (merge_one_failed 12288),
           engine_op.error_entry (merge_one_failed 8192)])) zero_item 1
          ⟨4096, 50⟩).1.metadata
        (cb_after server_params (three_sharers ++
          [engine_op.error_entry (merge_one_failed 12288),
           engine_op.error_entry (merge_one_failed 8192)])).log_table
        hash_b (1, 4096) = .ok (md1, log1) ∧
      node_at md1 0 = none ∧
      log1.entries = [(⟨DPU_STALE_STABLE_NODE, 4096, 20, 1, 0⟩ : ksm_event_log)]) := by
  constructor
  · obtain ⟨md1, log1, item1, hrun, hit, hs, hnone, -, -, hex, -, -, -, -, -, hstay⟩ :=
      C23_changed_frame_detaches_item server_params
        (lookup_rmap_item (cb_after server_params three_sharers) zero_item 1
          ⟨12288, 40⟩).1.metadata
        (cb_after server_params three_sharers).log_table hash_b (1, 12288)
        ⟨1, 3, 2, 12288, 40, 30, hash_a, item_state.Stable, 0, 0, some 0⟩ 0
        ⟨hash_a, 3, 20, [(1, 4096), (1, 8192), (1, 12288)],
          ⟨node_chain_type.HEAD, none, none⟩⟩
        (by decide) (by rfl) (by rfl) (by rfl) (by rfl) (by decide) (by decide)
    obtain ⟨n1, hn1, hc1, -, -, -, -, -, -, hlog⟩ := hstay (by decide)
    have hscan : ScanEnd server_params (cb_after server_params three_sharers) :=
      ⟨[([], [page_op 4096 10 hash_a, page_op 8192 20 hash_a]),
        ([], [page_op 4096 10 hash_a, page_op 8192 20 hash_a, page_op 12288 30 hash_a]),
        ([], [page_op 4096 20 hash_a, page_op 8192 20 hash_a, page_op 12288 30 hash_a])],
        [], [], by decide, by decide, by decide, by rfl⟩
    exact ⟨md1, log1, item1, n1, hrun, hit, hs, hnone,
      hex ⟨_, _, _, _, _, hscan, rfl⟩, hn1, hc1, hlog⟩
  · obtain ⟨md1, log1, item1, hrun, -, -, -, -, -, -, -, -, -, -, hfreed, -⟩ :=
      C23_changed_frame_detaches_item server_params
        (lookup_rmap_item (cb_after server_params (three_sharers ++
          [engine_op.error_entry (merge_one_failed 12288),
           engine_op.error_entry (merge_one_failed 8192)])) zero_item 1
          ⟨4096, 50⟩).1.metadata
        (cb_after server_params (three_sharers ++
          [engine_op.error_entry (merge_one_failed 12288),
           engine_op.error_entry (merge_one_failed 8192)])).log_table
        hash_b (1, 4096)
        ⟨1, 3, 2, 4096, 50, 10, hash_a, item_state.Stable, 0, 0, some 0⟩ 0
        ⟨hash_a, 1, 20, [(1, 4096)], ⟨node_chain_type.HEAD, none, none⟩⟩
        (by decide) (by rfl) (by rfl) (by rfl) (by rfl) (by decide) (by decide)
    obtain ⟨hfree, -, -, hlog⟩ := hfreed rfl
    exact ⟨md1, log1, hrun, hfree, hlog⟩

/-! ## The fields of a new item -/

/-- C26: `lookup_rmap_item` assigns `state`, `mm_id`, `va`, `old_hash`, `age`, `last_access`
and `pfn` of the item it creates and leaves `volatility_score` and `skip_cnt` as `malloc`
returned them.  From the empty metadata, the key `(1, 4096)` is absent; with the storage
`used_storage` the new item is `Volatile` with `old_hash = null_hash`, `age = 0`, `pfn = 10`
and `last_access = 0`, and has `volatility_score = 7` and `skip_cnt = 3`.  The worker step
on its page then skips the page (`skip_cnt` becomes 2 and `old_hash` stays `null_hash`),
while with zero-filled storage the step stores the hash of the page. -/
theorem C26_new_item_keeps_malloc_storage :
    g_tree_lookup initial_cb.metadata.rmap_tree (1, 4096) = none ∧
    (lookup_rmap_item initial_cb used_storage 1 ⟨4096, 10⟩).1.metadata.rmap_tree =
      [⟨1, 0, 0, 4096, 10, 0, null_hash, item_state.Volatile, 7, 3, none⟩] ∧
    (lookup_rmap_item initial_cb used_storage 1 ⟨4096, 10⟩).2 = (1, 4096) ∧
    (∃ cb1, engine_run server_params initial_cb
        [engine_op.page used_storage 1 ⟨4096, 10⟩ hash_a] = .ok cb1 ∧
      cb1.metadata.rmap_tree =
        [⟨1, 0, 1, 4096, 10, 0, null_hash, item_state.Volatile, 7, 2, none⟩]) ∧
    (∃ cb1, engine_run server_params initial_cb
        [engine_op.page zero_item 1 ⟨4096, 10⟩ hash_a] = .ok cb1 ∧
      cb1.metadata.rmap_tree =
        [⟨1, 0, 1, 4096, 10, 0, hash_a, item_state.Volatile, 0, 0, none⟩]) :=
  ⟨rfl, rfl, rfl, ⟨_, rfl, rfl⟩, ⟨_, rfl, rfl⟩⟩

/-! ## The frame of an item that leaves its node -/

/-- C27: the pfn-mismatch branch runs `reset_item_state`, which puts `old_pfn` back into
`pfn`.  After `three_sharers` the item of the page `12288` is `Stable` in node 0 (frame 20)
with `old_pfn = 30`.  The worker step on the shadow page-table entry `(12288, 40)` returns
and leaves the item `Volatile` with `pfn = 30`, the frame it had before the merge, not the
frame 40 of the entry just processed. -/
theorem C27_detached_item_has_old_frame :
    item_at (cb_after server_params three_sharers).metadata (1, 12288) =
      .ok ⟨1, 2, 2, 12288, 20, 30, hash_a, item_state.Stable, 0, 0, some 0⟩ ∧
    (lookup_rmap_item (cb_after server_params three_sharers) zero_item 1
        ⟨12288, 40⟩).1.metadata.rmap_tree.find? (fun x => decide (x.key = (1, 12288))) =
      some ⟨1, 3, 2, 12288, 40, 30, hash_a, item_state.Stable, 0, 0, some 0⟩ ∧
    ∃ cb1,
      worker_step server_params (cb_after server_params three_sharers) zero_item 1
        ⟨12288, 40⟩ hash_b = .ok cb1 ∧
      item_at cb1.metadata (1, 12288) =
        .ok ⟨1, 3, 3, 12288, 30, 0, hash_b, item_state.Volatile, 1, 4, none⟩ :=
  ⟨rfl, rfl, _, rfl, rfl⟩

/-! ## Pruning in cycle 32768 -/

theorem map_key_ne (b : rmap_item) :
    ∀ tree : List rmap_item, (∀ x ∈ tree, x.key ≠ b.key) →
      tree.map (fun x => if x.key = b.key then b else x) = tree := by
  intro tree
  induction tree with
  | nil => intro _; rfl
  | cons y ys ih =>
    intro h
    rw [List.map_cons, if_neg (h y (List.mem_cons_self _ _)),
      ih (fun x hx => h x (List.mem_cons_of_mem _ hx))]

theorem map_rmap_tree_insert (a b : rmap_item) (hk : a.key = b.key) :
    ∀ tree : List rmap_item, (∀ x ∈ tree, x.key ≠ a.key) →
      (rmap_tree_insert tree a).map (fun x => if x.key = b.key then b else x) =
        rmap_tree_insert tree b := by
  intro tree
  induction tree with
  | nil =>
    intro _
    unfold rmap_tree_insert
    rw [List.map_cons, if_pos hk]
    rfl
  | cons y ys ih =>
    intro h
    have hy : y.key ≠ b.key := by
      rw [← hk]
      exact h y (List.mem_cons_self _ _)
    have hys : ∀ x ∈ ys, x.key ≠ b.key := by
      intro x hx
      rw [← hk]
      exact h x (List.mem_cons_of_mem _ hx)
    unfold rmap_tree_insert
    rw [hk]
    by_cases c1 : rmap_item_compare b.key y.key < 0
    · rw [if_pos c1, List.map_cons, if_pos hk, List.map_cons, if_neg hy, map_key_ne b ys hys,
        if_pos c1]
    · rw [if_neg c1]
      by_cases c2 : rmap_item_compare b.key y.key = 0
      · exact (hy ((rmap_item_compare_eq_zero_iff _ _).1 c2).symm).elim
      · rw [if_neg c2, List.map_cons, if_neg hy,
          ih (fun x hx => h x (List.mem_cons_of_mem _ hx)), if_neg c1, if_neg c2]

theorem set_item_rmap_tree_insert (a b : rmap_item) (hk : a.key = b.key)
    (tree : List rmap_item) (h : ∀ x ∈ tree, x.key ≠ a.key) (nodes : List (Option stable_node))
    (s : GHashTable Nat) (u : GHashTable item_key) :
    set_item ⟨rmap_tree_insert tree a, nodes, s, u⟩ b =
      ⟨rmap_tree_insert tree b, nodes, s, u⟩ := by
  unfold set_item
  simp only [rmap_item_compare_eq_zero_iff]
  rw [map_rmap_tree_insert a b hk tree h]

theorem to_short_one : to_short (0 + 1) = 1 := by
  unfold to_short
  omega

theorem should_skip_fresh (p : ksm_params) (iteration : Int) (va pfn : Nat) :
    should_skip_item p
        (advance_age (touch_item iteration pfn (new_rmap_item zero_item 1 va))) =
      (false, fresh_item iteration va pfn null_hash) := by
  have h1 : advance_age (touch_item iteration pfn (new_rmap_item zero_item 1 va)) =
      fresh_item iteration va pfn null_hash := by
    unfold advance_age touch_item new_rmap_item zero_item fresh_item
    simp only [to_short_one, Nat.zero_mod]
  rw [h1]
  unfold should_skip_item
  by_cases hs : p.smart_scan_opt = true
  · simp only [hs, Bool.not_true, Bool.false_eq_true, if_false, fresh_item]
    rw [if_neg (by simp), if_neg (by simp)]
    have h2 : to_ushort (skip_volatile (to_short (0 : Nat)) 1) = 0 := by
      unfold skip_volatile to_short to_ushort
      simp
    rw [h2]
  · simp only [hs, Bool.not_false, if_true]

set_option maxRecDepth 2000 in
/-- A worker step on a page whose key is not in the tree, with zero-filled storage for the
item and a page hash that is not `null_hash`: the item is inserted, `Volatile`, with
`last_access` the cycle, the frame of the entry and the hash of the page. -/
theorem worker_step_fresh (p : ksm_params) (tree : List rmap_item) (iteration : Int)
    (accessed va pfn : Nat) (h : hash_pair) (habs : ∀ x ∈ tree, x.key ≠ (1, va))
    (hh : h ≠ null_hash) :
    worker_step p (scan_cb tree iteration accessed) zero_item 1 ⟨va, pfn⟩ h =
      .ok (scan_cb (rmap_tree_insert tree (fresh_item iteration va pfn h)) iteration
        ((accessed + 1) % 18446744073709551616)) := by
  have hfind0 : tree.find? (fun x => decide (x.key = (1, va))) = none := by
    rw [List.find?_eq_none]
    intro x hx
    simpa using habs x hx
  have hfind : g_tree_lookup tree (1, va) = none := by
    rw [g_tree_lookup_eq]
    exact hfind0
  have hmd : set_item
      ⟨rmap_tree_insert tree (new_rmap_item zero_item 1 va), [], [], []⟩
      (touch_item iteration pfn (new_rmap_item zero_item 1 va)) =
      ⟨rmap_tree_insert tree (touch_item iteration pfn (new_rmap_item zero_item 1 va)),
        [], [], []⟩ :=
    set_item_rmap_tree_insert (new_rmap_item zero_item 1 va)
      (touch_item iteration pfn (new_rmap_item zero_item 1 va)) rfl tree habs [] [] []
  have hitem : item_at
      ⟨rmap_tree_insert tree (touch_item iteration pfn (new_rmap_item zero_item 1 va)),
        [], [], []⟩ (1, va) =
      .ok (touch_item iteration pfn (new_rmap_item zero_item 1 va)) := by
    rw [item_at_eq, g_tree_lookup_eq]
    show (rmap_tree_insert tree _).find? _ = _
    rw [find_rmap_tree_insert (touch_item iteration pfn (new_rmap_item zero_item 1 va))
      (1, va) tree hfind0]
    exact if_pos rfl
  have hmerge := volatile_stores_hash p _ ⟨[], 1024⟩ h (1, va) _ hitem
    (by rw [should_skip_fresh]) (Ne.symm hh)
  rw [should_skip_fresh] at hmerge
  have hnull : (touch_item iteration pfn (new_rmap_item zero_item 1 va)).old_hash =
      null_hash := rfl
  rw [if_pos hnull] at hmerge
  have hfinal : set_item
      ⟨rmap_tree_insert tree (touch_item iteration pfn (new_rmap_item zero_item 1 va)),
        [], [], []⟩
      (set_old_hash h (fresh_item iteration va pfn null_hash)) =
      ⟨rmap_tree_insert tree (fresh_item iteration va pfn h), [], [], []⟩ :=
    set_item_rmap_tree_insert (touch_item iteration pfn (new_rmap_item zero_item 1 va))
      (fresh_item iteration va pfn h) rfl tree habs [] [] []
  rw [hfinal] at hmerge
  unfold worker_step lookup_rmap_item
  simp only [scan_cb, hfind]
  rw [hmd]
  have hkey : (touch_item iteration pfn (new_rmap_item zero_item 1 va)).key = (1, va) := rfl
  rw [hkey, cmp_and_merge_one_volatile _ _ hitem rfl, hmerge]
  rfl

theorem rmap_tree_insert_last (item : rmap_item) :
    ∀ tree : List rmap_item, (∀ x ∈ tree, x.mm_id = item.mm_id ∧ x.va < item.va) →
      rmap_tree_insert tree item = tree ++ [item] := by
  intro tree
  induction tree with
  | nil => intro _; rfl
  | cons y ys ih =>
    intro h
    obtain ⟨h1, h2⟩ := h y (List.mem_cons_self _ _)
    unfold rmap_tree_insert
    have c1 : ¬ rmap_item_compare item.key y.key < 0 := by
      unfold rmap_item_compare rmap_item.key
      simp only [h1]
      split_ifs <;> omega
    have c2 : ¬ rmap_item_compare item.key y.key = 0 := by
      rw [rmap_item_compare_eq_zero_iff]
      intro e
      have := congrArg Prod.snd e
      simp only [rmap_item.key] at this
      omega
    rw [if_neg c1, if_neg c2, ih (fun x hx => h x (List.mem_cons_of_mem _ hx))]
    rfl

theorem rmap_tree_insert_first (item : rmap_item) (tree : List rmap_item)
    (h : ∀ x ∈ tree, x.mm_id = item.mm_id ∧ item.va < x.va) :
    rmap_tree_insert tree item = item :: tree := by
  cases tree with
  | nil => rfl
  | cons y ys =>
    obtain ⟨h1, h2⟩ := h y (List.mem_cons_self _ _)
    unfold rmap_tree_insert
    have c1 : rmap_item_compare item.key y.key < 0 := by
      unfold rmap_item_compare rmap_item.key
      simp only [h1]
      split_ifs <;> omega
    rw [if_pos c1]

theorem mem_burst_tree {iteration : Int} {n : Nat} {x : rmap_item}
    (hx : x ∈ burst_tree iteration n) :
    ∃ i, i < n ∧ x = fresh_item iteration (8192 + 4096 * i) (100 + i) hash_a := by
  unfold burst_tree at hx
  rw [List.mem_map] at hx
  obtain ⟨i, hi, he⟩ := hx
  exact ⟨i, List.mem_range.1 hi, he.symm⟩

theorem burst_tree_succ (iteration : Int) (n : Nat) :
    burst_tree iteration (n + 1) =
      burst_tree iteration n ++ [fresh_item iteration (8192 + 4096 * n) (100 + n) hash_a] := by
  unfold burst_tree
  rw [List.range_succ, List.map_append]
  rfl

theorem burst_pages_succ (n : Nat) :
    burst_pages (n + 1) =
      burst_pages n ++ [page_op (8192 + 4096 * n) (100 + n) hash_a] := by
  unfold burst_pages
  rw [List.range_succ, List.map_append]
  rfl

set_option maxRecDepth 2000 in
theorem succ_mod_ulong (n : Nat) (h : n ≤ 1001) :
    (n + 1) % 18446744073709551616 = n + 1 :=
  Nat.mod_eq_of_lt (by omega)

/-- The scan of the pages of `burst_pages n`, none of which has an item: the tree is then
`burst_tree iteration n` and `n` accesses are counted. -/
theorem burst_run (p : ksm_params) (iteration : Int) :
    ∀ n : Nat, n ≤ 1001 →
      engine_run p (scan_cb [] iteration 0) (burst_pages n) =
        .ok (scan_cb (burst_tree iteration n) iteration n) := by
  intro n
  induction n with
  | zero => intro _; rfl
  | succ n ih =>
    intro hn
    have hkeys : ∀ x ∈ burst_tree iteration n,
        x.mm_id = (fresh_item iteration (8192 + 4096 * n) (100 + n) hash_a).mm_id ∧
        x.va < (fresh_item iteration (8192 + 4096 * n) (100 + n) hash_a).va := by
      intro x hx
      obtain ⟨i, hi, he⟩ := mem_burst_tree hx
      rw [he]
      refine ⟨rfl, ?_⟩
      show 8192 + 4096 * i < 8192 + 4096 * n
      omega
    have habs : ∀ x ∈ burst_tree iteration n, x.key ≠ (1, 8192 + 4096 * n) := by
      intro x hx e
      have h2 := (hkeys x hx).2
      have h3 : x.va = 8192 + 4096 * n := congrArg Prod.snd e
      rw [h3] at h2
      exact Nat.lt_irrefl _ h2
    rw [burst_pages_succ, engine_run_append, ih (by omega)]
    show engine_run p (scan_cb (burst_tree iteration n) iteration n)
      [page_op (8192 + 4096 * n) (100 + n) hash_a] = _
    have hstep : engine_step p (scan_cb (burst_tree iteration n) iteration n)
        (page_op (8192 + 4096 * n) (100 + n) hash_a) =
        .ok (scan_cb (burst_tree iteration (n + 1)) iteration (n + 1)) := by
      show worker_step p _ zero_item 1 ⟨8192 + 4096 * n, 100 + n⟩ hash_a = _
      rw [worker_step_fresh p _ iteration n _ _ hash_a habs (by decide),
        rmap_tree_insert_last _ _ hkeys, succ_mod_ulong n (by omega), burst_tree_succ]
    unfold engine_run
    rw [hstep]
    rfl

theorem prune_metadata_quiet (tree : List rmap_item) (iteration : Int) (accessed : Nat)
    (h : tree.length = accessed) :
    prune_metadata (scan_cb tree iteration accessed) = .ok (scan_cb tree iteration accessed) := by
  have h0 : to_ulong ((tree.length : Int) - (accessed : Int)) = 0 := by
    rw [h, Int.sub_self]
    rfl
  unfold prune_metadata clean_up_unstable_tree
  simp only [scan_cb, update_item_state, bind, Except.bind, set_unstable_hash_table, h0]
  rfl

/-- A cycle in which no page is scanned, on an empty tree: only `iteration` changes. -/
theorem idle_run (p : ksm_params) :
    ∀ (n : Nat) (iteration : Int),
      engine_run p (scan_cb [] iteration 0) (idle_cycles n) =
        .ok (scan_cb [] (iteration + n) 0) := by
  intro n
  induction n with
  | zero =>
    intro iteration
    show Except.ok (scan_cb [] iteration 0) = _
    rw [Nat.cast_zero, Int.add_zero]
  | succ n ih =>
    intro iteration
    have h1 : engine_step p (scan_cb [] iteration 0) engine_op.prune =
        .ok (scan_cb [] iteration 0) := by
      show (prune_metadata (scan_cb [] iteration 0)).bind _ = _
      rw [prune_metadata_quiet [] iteration 0 rfl]
      rfl
    have h2 : engine_step p (scan_cb [] iteration 0) engine_op.next_cycle =
        .ok (scan_cb [] (iteration + 1) 0) := rfl
    show engine_run p _ (engine_op.prune :: engine_op.next_cycle :: idle_cycles n) = _
    unfold engine_run
    rw [h1]
    show engine_run p (scan_cb [] iteration 0) (engine_op.next_cycle :: idle_cycles n) = _
    unfold engine_run
    rw [h2]
    show engine_run p (scan_cb [] (iteration + 1) 0) (idle_cycles n) = _
    rw [ih (iteration + 1)]
    congr 2
    push_cast
    ring

theorem collect_keys_to_remove_none (iteration : Int) :
    ∀ (tree : List rmap_item) (keys : List item_key),
      (∀ x ∈ tree, ¬ x.last_access < iteration - 1) →
      collect_keys_to_remove iteration tree keys = .ok keys := by
  intro tree
  induction tree with
  | nil => intro keys _; rfl
  | cons y ys ih =>
    intro keys h
    unfold collect_keys_to_remove
    rw [if_neg (h y (List.mem_cons_self _ _))]
    exact ih keys (fun x hx => h x (List.mem_cons_of_mem _ hx))

set_option maxRecDepth 2000 in
theorem to_short_32768 : to_short 32768 = -32768 ∧ to_short 32767 = 32767 := by
  unfold to_short
  constructor <;> omega

theorem burst_tree_length (iteration : Int) (n : Nat) :
    (burst_tree iteration n).length = n := by
  unfold burst_tree
  rw [List.length_map, List.length_range]

theorem engine_run_cons_ok {p : ksm_params} {cb cb1 : rdma_cb} {op : engine_op}
    (ops : List engine_op) (h : engine_step p cb op = .ok cb1) :
    engine_run p cb (op :: ops) = engine_run p cb1 ops := by
  have e : engine_run p cb (op :: ops) =
      (engine_step p cb op).bind (fun cb2 => engine_run p cb2 ops) := rfl
  rw [e, h]
  rfl

theorem engine_run_after_ok (p : ksm_params) {cb cb1 : rdma_cb} {l1 : List engine_op}
    (l2 : List engine_op) (h : engine_run p cb l1 = .ok cb1) :
    engine_run p cb (l1 ++ l2) = engine_run p cb1 l2 := by
  rw [engine_run_append, h]
  rfl

theorem engine_step_prune_quiet (p : ksm_params) (tree : List rmap_item) (iteration : Int)
    (accessed : Nat) (h : tree.length = accessed) :
    engine_step p (scan_cb tree iteration accessed) engine_op.prune =
      .ok (scan_cb tree iteration 0) := by
  unfold engine_step
  simp only [bind, Except.bind, prune_metadata_quiet tree iteration accessed h]
  rfl

theorem engine_step_next_cycle (p : ksm_params) (tree : List rmap_item) (iteration : Int)
    (accessed : Nat) :
    engine_step p (scan_cb tree iteration accessed) engine_op.next_cycle =
      .ok (scan_cb tree (iteration + 1) accessed) := rfl

/-- The run `run_to_cycle_32768` returns: the engine is in cycle 32768, no access is counted
yet, and the tree holds the 1001 items that were accessed in cycle 32767. -/
theorem run_to_cycle_32768_ok (p : ksm_params) :
    engine_run p initial_cb run_to_cycle_32768 =
      .ok (scan_cb (burst_tree 32767 1001) 32768 0) := by
  have h0 : initial_cb = scan_cb [] 0 0 := rfl
  have h1 : (0 : Int) + ((32767 : Nat) : Int) = 32767 := by norm_num
  have h2 : (32767 : Int) + 1 = 32768 := by norm_num
  have hidle := idle_run p 32767 0
  rw [h1] at hidle
  unfold run_to_cycle_32768
  rw [h0, engine_run_after_ok p _ hidle,
    engine_run_after_ok p _ (burst_run p 32767 1001 (Nat.le_refl _)),
    engine_run_cons_ok _ (engine_step_prune_quiet p _ 32767 1001 (burst_tree_length _ _)),
    engine_run_cons_ok _ (engine_step_next_cycle p _ 32767 0), h2]
  rfl

/-- The worker step of cycle 32768 on the page `4096`, seen for the first time: its item is
put in front of the tree with `last_access = -32768`, the value of `iteration` in a
`short`. -/
theorem worker_step_cycle_32768 (p : ksm_params) :
    worker_step p (scan_cb (burst_tree 32767 1001) 32768 0) zero_item 1 ⟨4096, 10⟩ hash_a =
      .ok (scan_cb (fresh_item 32768 4096 10 hash_a :: burst_tree 32767 1001) 32768 1) := by
  have hkeys : ∀ x ∈ burst_tree 32767 1001,
      x.mm_id = (fresh_item 32768 4096 10 hash_a).mm_id ∧
      (fresh_item 32768 4096 10 hash_a).va < x.va := by
    intro x hx
    obtain ⟨i, hi, he⟩ := mem_burst_tree hx
    rw [he]
    refine ⟨rfl, ?_⟩
    show 4096 < 8192 + 4096 * i
    omega
  have habs : ∀ x ∈ burst_tree 32767 1001, x.key ≠ (1, 4096) := by
    intro x hx e
    have h2 := (hkeys x hx).2
    have h3 : x.va = 4096 := congrArg Prod.snd e
    rw [h3] at h2
    exact Nat.lt_irrefl _ h2
  rw [worker_step_fresh p _ 32768 0 4096 10 hash_a habs (by decide),
    rmap_tree_insert_first _ _ hkeys, succ_mod_ulong 0 (by omega)]

set_option maxRecDepth 2000 in
theorem to_ulong_1001 : to_ulong (((1002 : Nat) : Int) - ((1 : Nat) : Int)) = 1001 := by
  unfold to_ulong
  norm_num
  rfl

/-- The pruning pass at the end of cycle 32768: the item of the page `4096`, accessed in
this cycle, is destroyed, and the items accessed in cycle 32767 stay. -/
theorem prune_metadata_cycle_32768 :
    prune_metadata
        (scan_cb (fresh_item 32768 4096 10 hash_a :: burst_tree 32767 1001) 32768 1) =
      .ok (scan_cb (burst_tree 32767 1001) 32768 1) := by
  have hlen : (fresh_item 32768 4096 10 hash_a :: burst_tree 32767 1001).length = 1002 := by
    rw [List.length_cons, burst_tree_length]
  have hold : (fresh_item 32768 4096 10 hash_a).last_access < (32768 : Int) - 1 := by
    show to_short 32768 < (32768 : Int) - 1
    rw [to_short_32768.1]
    omega
  have hrest : ∀ x ∈ burst_tree 32767 1001, ¬ x.last_access < (32768 : Int) - 1 := by
    intro x hx
    obtain ⟨i, hi, he⟩ := mem_burst_tree hx
    rw [he]
    show ¬ to_short 32767 < (32768 : Int) - 1
    rw [to_short_32768.2]
    omega
  have hcollect : collect_keys_to_remove 32768
      (fresh_item 32768 4096 10 hash_a :: burst_tree 32767 1001) [] = .ok [(1, 4096)] := by
    unfold collect_keys_to_remove
    rw [if_pos hold]
    exact collect_keys_to_remove_none 32768 _ _ hrest
  have hfilter : (fresh_item 32768 4096 10 hash_a :: burst_tree 32767 1001).filter
      (fun x => rmap_item_compare x.key (1, 4096) ≠ 0) = burst_tree 32767 1001 := by
    rw [List.filter_cons, if_neg (by
      have : rmap_item_compare (fresh_item 32768 4096 10 hash_a).key (1, 4096) = 0 :=
        (rmap_item_compare_eq_zero_iff _ _).2 rfl
      simp [this])]
    rw [List.filter_eq_self]
    intro x hx
    obtain ⟨i, hi, he⟩ := mem_burst_tree hx
    have hne : rmap_item_compare x.key (1, 4096) ≠ 0 := by
      rw [Ne, rmap_item_compare_eq_zero_iff, he]
      intro e
      have h3 : 8192 + 4096 * i = 4096 := congrArg Prod.snd e
      omega
    simp [hne]
  have hitem : item_at
      ⟨fresh_item 32768 4096 10 hash_a :: burst_tree 32767 1001, [], [], []⟩ (1, 4096) =
      .ok (fresh_item 32768 4096 10 hash_a) := by
    rw [item_at_eq, g_tree_lookup_eq]
    show List.find? _ (_ :: _) = _
    rw [List.find?_cons]
    have : decide ((fresh_item 32768 4096 10 hash_a).key = (1, 4096)) = true :=
      decide_eq_true rfl
    rw [this]
  unfold prune_metadata clean_up_unstable_tree
  simp only [scan_cb, update_item_state, bind, Except.bind, set_unstable_hash_table, hlen,
    to_ulong_1001]
  rw [if_pos (by decide)]
  unfold prune_rmap_tree
  simp only [hcollect, bind, Except.bind]
  unfold prune_rmap_items
  simp only [hitem, bind, Except.bind]
  have hnone : (fresh_item 32768 4096 10 hash_a).stable_node = none := rfl
  simp only [hnone, hfilter]
  rfl

/-- C28: `last_access` is a `short` and `iteration` an `int`, and `collect_keys_to_remove`
compares them as `int`.  The run `run_to_cycle_32768` returns with the engine in cycle 32768
and 1001 items in the tree, all accessed in cycle 32767.  The worker step of cycle 32768 on
the page `4096`, which has no item yet, returns and creates its item with
`last_access = -32768`; one access is counted and the tree has 1002 items, so 1001 items
were not accessed in the cycle.  `prune_metadata` then returns and destroys the item of the
page `4096`, accessed in the current cycle, while the 1001 items accessed in cycle 32767
stay; no record is logged. -/
theorem C28_item_of_current_cycle_is_pruned :
    ∃ cbp cb0 cb1,
      engine_run server_params initial_cb run_to_cycle_32768 = .ok cbp ∧
      cbp.iteration = 32768 ∧ cbp.total_accessed_cnt = 0 ∧
      item_at cbp.metadata (1, 4096) = .error fault.bad_pointer ∧
      worker_step server_params cbp zero_item 1 ⟨4096, 10⟩ hash_a = .ok cb0 ∧
      cb0.iteration = 32768 ∧ cb0.total_accessed_cnt = 1 ∧
      cb0.metadata.rmap_tree.length = 1002 ∧
      item_at cb0.metadata (1, 4096) =
        .ok ⟨1, -32768, 1, 4096, 10, 0, hash_a, item_state.Volatile, 0, 0, none⟩ ∧
      prune_metadata cb0 = .ok cb1 ∧
      item_at cb1.metadata (1, 4096) = .error fault.bad_pointer ∧
      cb1.metadata.rmap_tree.length = 1001 ∧
      (∀ x ∈ cb1.metadata.rmap_tree, x ∈ cbp.metadata.rmap_tree ∧ x.last_access = 32767) ∧
      cb1.log_table = cb0.log_table := by
  have habs : item_at (scan_cb (burst_tree 32767 1001) 32768 0).metadata (1, 4096) =
      .error fault.bad_pointer := by
    have hfind : g_tree_lookup (burst_tree 32767 1001) (1, 4096) = none := by
      rw [g_tree_lookup_eq, List.find?_eq_none]
      intro x hx
      obtain ⟨i, hi, he⟩ := mem_burst_tree hx
      rw [he]
      have hne : (fresh_item 32767 (8192 + 4096 * i) (100 + i) hash_a).key ≠ (1, 4096) := by
        intro e
        have h3 : 8192 + 4096 * i = 4096 := congrArg Prod.snd e
        omega
      simpa using hne
    unfold item_at
    show (match g_tree_lookup (burst_tree 32767 1001) (1, 4096) with
      | some item => Except.ok item
      | none => Except.error fault.bad_pointer) = _
    rw [hfind]
  have hitem : item_at
      (scan_cb (fresh_item 32768 4096 10 hash_a :: burst_tree 32767 1001) 32768 1).metadata
      (1, 4096) =
      .ok ⟨1, -32768, 1, 4096, 10, 0, hash_a, item_state.Volatile, 0, 0, none⟩ := by
    rw [item_at_eq, g_tree_lookup_eq]
    show List.find? _ (_ :: _) = _
    rw [List.find?_cons]
    have hd : decide ((fresh_item 32768 4096 10 hash_a).key = (1, 4096)) = true :=
      decide_eq_true rfl
    rw [hd]
    unfold fresh_item
    rw [to_short_32768.1]
  refine ⟨_, _, _, run_to_cycle_32768_ok server_params, rfl, rfl, habs,
    worker_step_cycle_32768 server_params, rfl, rfl, ?_, hitem,
    prune_metadata_cycle_32768, habs, burst_tree_length _ _, ?_, rfl⟩
  · show (fresh_item 32768 4096 10 hash_a :: burst_tree 32767 1001).length = 1002
    rw [List.length_cons, burst_tree_length]
  · intro x hx
    refine ⟨hx, ?_⟩
    obtain ⟨i, hi, he⟩ := mem_burst_tree hx
    rw [he]
    exact to_short_32768.2

end Bask
